import Mathlib

/-!
# Belief manager of the POMDP belief-state abstraction

A shallow embedding of `storm-pomdp/storage/BeliefManager.h`
(class `storm::storage::BeliefManager`), instantiated with exact rational
numbers as value type, together with the properties of canonical belief
storage, Freudenthal triangulation and successor-belief generation.

Conventions of the embedding:

* `StateType`, `BeliefId` and observations are natural numbers;
* `BeliefType` (a `boost::container::flat_map`) is the list of its entries in
  iteration order, i.e. ascending by state index;
* the `std::unordered_map` reverse index is an association list that is only
  accessed by key (lookup and `emplace`);
* member functions that modify the manager return the new manager next to
  their result;
* `STORM_LOG_ASSERT` checks are not part of the computation (they are
  compiled out under `NDEBUG`); the checked conditions `assertBelief` and
  `assertTriangulation` are embedded as Boolean functions of their own.
-/

namespace Storm

/-- State indices of the POMDP (`uint64_t`). -/
abbrev StateType := Nat

/-- Handles of stored beliefs (`uint64_t`). -/
abbrev BeliefId := Nat

/-- Belief contents: the entries `(state, weight)` of a flat map, in iteration order. -/
abbrev BeliefType := List (StateType × ℚ)

/-- Modelled from the spec: the numeric comparator utility
`storm::utility::ConstantsComparator` (its header is not part of the sources at
hand; the manager constructs it as `cc(precision, false)`). It offers the
tolerance-based `isZero`, `isOne`, `isEqual`, `isLess`, parameterized by a
configurable precision. -/
structure ConstantsComparator where
  /-- The configured precision. -/
  precision : ℚ

namespace ConstantsComparator

/-- Modelled from the spec: tolerance-based `isZero` of the comparator, the value is
within the precision of zero. -/
def isZero (cc : ConstantsComparator) (value : ℚ) : Bool :=
  decide (|value| ≤ cc.precision)

/-- Modelled from the spec: tolerance-based `isOne` of the comparator, the value is
within the precision of one. -/
def isOne (cc : ConstantsComparator) (value : ℚ) : Bool :=
  decide (|value - 1| ≤ cc.precision)

/-- Modelled from the spec: tolerance-based `isEqual` of the comparator, the two
values are within the precision of each other. -/
def isEqual (cc : ConstantsComparator) (value1 value2 : ℚ) : Bool :=
  decide (|value1 - value2| ≤ cc.precision)

/-- Modelled from the spec: tolerance-based `isLess` of the comparator, the first
value is smaller than the second by more than the precision. -/
def isLess (cc : ConstantsComparator) (value1 value2 : ℚ) : Bool :=
  decide (value1 < value2 - cc.precision)

end ConstantsComparator

/-- The value `storm::utility::floor(x)` as a rational number. -/
def floorValue (x : ℚ) : ℚ := ((⌊x⌋ : ℤ) : ℚ)

namespace FlatMap

/-- Lookup `m.at(key)` where absent keys read as weight zero (`b(s)` for a belief `b`). -/
def weight : BeliefType → StateType → ℚ
  | [], _ => 0
  | (k, v) :: rest, key => if key = k then v else weight rest key

/-- Assignment `m[key] = value` of a flat map: the entry is overwritten when the
key is present and inserted at its sorted position otherwise. -/
def assign : BeliefType → StateType → ℚ → BeliefType
  | [], key, value => [(key, value)]
  | (k, v) :: rest, key, value =>
    if key < k then (key, value) :: (k, v) :: rest
    else if key = k then (k, value) :: rest
    else (k, v) :: assign rest key value

/-- Construction of a flat map by inserting the given entries one after the other
(`emplace` keeps the first entry of a key). -/
def emplace : BeliefType → StateType → ℚ → BeliefType
  | [], key, value => [(key, value)]
  | (k, v) :: rest, key, value =>
    if key < k then (key, value) :: (k, v) :: rest
    else if key = k then (k, v) :: rest
    else (k, v) :: emplace rest key value

/-- Representation invariant of a flat map: the keys are strictly ascending. -/
def Ordered (m : BeliefType) : Prop := m.Pairwise (fun x y => x.1 < y.1)

/-- The flat map obtained by emplacing a sequence of entries into an empty map. -/
def ofEntries (entries : List (StateType × ℚ)) : BeliefType :=
  entries.foldl (fun m e => emplace m e.1 e.2) []

end FlatMap

/-- Function `addToDistribution`: `distr.emplace(state, value)` and, when the key was
already present, `+= value` on the existing entry. -/
def addToDistribution : BeliefType → StateType → ℚ → BeliefType
  | [], state, value => [(state, value)]
  | (k, v) :: rest, state, value =>
    if state < k then (state, value) :: (k, v) :: rest
    else if state = k then (k, v + value) :: rest
    else (k, v) :: addToDistribution rest state value

/-- The parts of the POMDP the manager reads: the sparse transition matrix (row
group boundaries and rows of `(column, value)` entries), the observation of
every state and the initial states. -/
structure Pomdp where
  /-- Row group boundaries of the transition matrix: the rows of state `s` are
  `rowGroupIndices[s] .. rowGroupIndices[s+1] - 1`. -/
  rowGroupIndices : List Nat
  /-- Rows of the transition matrix. -/
  rows : List (List (StateType × ℚ))
  /-- Observation of every state. -/
  observations : List Nat
  /-- Indices of the set bits of the initial-states bit vector, ascending. -/
  initialStates : List StateType

namespace Pomdp

/-- Row `getTransitionMatrix().getRow(state, actionIndex)`, that is row
`rowGroupIndices[state] + actionIndex` of the matrix. -/
def getRow (pomdp : Pomdp) (state : StateType) (actionIndex : Nat) : List (StateType × ℚ) :=
  pomdp.rows.getD (pomdp.rowGroupIndices.getD state 0 + actionIndex) []

/-- Observation `getObservation(state)`. -/
def getObservation (pomdp : Pomdp) (state : StateType) : Nat :=
  pomdp.observations.getD state 0

/-- Number of states, the number of row groups of the transition matrix. -/
def getNumberOfStates (pomdp : Pomdp) : Nat :=
  pomdp.rowGroupIndices.length - 1

end Pomdp

/-- A POMDP with two states of different observations: state `0` moves to either
state with probability `1/2`, state `1` loops. -/
def twoObservations : Pomdp :=
  ⟨[0, 1, 2], [[(0, 1 / 2), (1, 1 / 2)], [(1, 1)]], [0, 1], [0]⟩

/-- A POMDP with three states of one observation, each with a single self-loop choice. -/
def threeStates : Pomdp :=
  ⟨[0, 1, 2, 3], [[(0, 1)], [(1, 1)], [(2, 1)]], [0, 0, 0], [0]⟩

/-- Result of a triangulation: grid points and their weights (two parallel vectors). -/
structure Triangulation where
  /-- Ids of the grid points. -/
  gridPoints : List BeliefId
  /-- Weights of the grid points. -/
  weights : List ℚ

/-- Number of entries `size()` of a triangulation. -/
def Triangulation.size (t : Triangulation) : Nat := t.weights.length

/-- The data members of the belief manager. -/
structure BeliefManager where
  /-- The POMDP. -/
  pomdp : Pomdp
  /-- The flat action-reward vector installed by `setRewardModel`. -/
  pomdpActionRewardVector : List ℚ
  /-- The table of beliefs, indexed by id. -/
  beliefs : List BeliefType
  /-- The reverse index from belief contents to ids. -/
  beliefToIdMap : List (BeliefType × BeliefId)
  /-- The id of the initial belief. -/
  initialBeliefId : BeliefId
  /-- The comparator. -/
  cc : ConstantsComparator

/-- Lookup `find(belief)` in the reverse index; keys are compared with `operator==`
of the flat map, that is exactly. -/
def findBeliefId : List (BeliefType × BeliefId) → BeliefType → Option BeliefId
  | [], _ => none
  | (key, id) :: rest, belief => if belief = key then some id else findBeliefId rest belief

/-- Entry of the sorted set of the triangulation: a local dimension and its diff. -/
structure FreudenthalDiff where
  /-- The local index `i`. -/
  dimension : StateType
  /-- The value `d[i]`. -/
  diff : ℚ

/-- Order `operator>` of `FreudenthalDiff`: larger diff first, ties broken by the
smaller dimension. -/
def FreudenthalDiff.gt (a other : FreudenthalDiff) : Bool :=
  if a.diff ≠ other.diff then decide (a.diff > other.diff)
  else decide (a.dimension < other.dimension)

/-- Insertion `emplace` into the `std::set` ordered by `std::greater`: the element is
placed before the first element it precedes, and not inserted when an equivalent
element is present. -/
def sortedDiffsEmplace : List FreudenthalDiff → FreudenthalDiff → List FreudenthalDiff
  | [], d => [d]
  | c :: rest, d =>
    if d.gt c then d :: c :: rest
    else if c.gt d then c :: sortedDiffsEmplace rest d
    else c :: rest

/-- Update `qsRow[index] += 1`. -/
def incrementAt : List ℚ → Nat → List ℚ
  | [], _ => []
  | q :: rest, 0 => (q + 1) :: rest
  | q :: rest, index + 1 => q :: incrementAt rest index

/-- Local variables of the first loop of `triangulateBelief`. -/
structure TriangulationInit where
  /-- The set `sorted_diffs`, in iteration order. -/
  sorted_diffs : List FreudenthalDiff
  /-- The vector `qsRow`. -/
  qsRow : List ℚ
  /-- The vector `toOriginalIndicesMap`. -/
  toOriginalIndicesMap : List StateType
  /-- The running remainder `x`. -/
  x : ℚ

/-- Body of the first loop of `triangulateBelief` for one belief entry. -/
def triangulationInitStep (convResolution : ℚ) (st : TriangulationInit)
    (entry : StateType × ℚ) : TriangulationInit :=
  { qsRow := st.qsRow ++ [floorValue st.x]
    sorted_diffs :=
      sortedDiffsEmplace st.sorted_diffs ⟨st.toOriginalIndicesMap.length, st.x - floorValue st.x⟩
    toOriginalIndicesMap := st.toOriginalIndicesMap ++ [entry.1]
    x := st.x - entry.2 * convResolution }

/-- Inner loop of `triangulateBelief` computing one grid point from the current
`qsRow`: for `j = 0 .. numEntries - 1` the entry `qsRow[j] - qsRow[j + 1]` is stored,
divided by the resolution, under the original state index unless it is zero. -/
def computeGridPoint (cc : ConstantsComparator) (convResolution : ℚ) (qsRow : List ℚ)
    (toOriginalIndicesMap : List StateType) (numEntries : Nat) : BeliefType :=
  (List.range numEntries).foldl
    (fun gridPoint j =>
      let gridPointEntry := qsRow.getD j 0 - qsRow.getD (j + 1) 0
      if cc.isZero gridPointEntry then gridPoint
      else FlatMap.assign gridPoint (toOriginalIndicesMap.getD j 0) (gridPointEntry / convResolution))
    []

namespace BeliefManager

/-- Number of stored beliefs `getNumberOfBeliefIds()`. -/
def getNumberOfBeliefIds (m : BeliefManager) : Nat := m.beliefs.length

/-- Table access `getBelief(id)`. -/
def getBelief (m : BeliefManager) (id : BeliefId) : BeliefType := m.beliefs.getD id []

/-- Function `getOrAddBeliefId`: `beliefToIdMap.emplace(belief, beliefs.size())`; when
the key was inserted the belief is appended to the table; the id stored under the
key is returned. -/
def getOrAddBeliefId (m : BeliefManager) (belief : BeliefType) : BeliefManager × BeliefId :=
  match findBeliefId m.beliefToIdMap belief with
  | some id => (m, id)
  | none =>
    ({ m with
        beliefs := m.beliefs ++ [belief]
        beliefToIdMap := m.beliefToIdMap ++ [(belief, m.beliefs.length)] },
      m.beliefs.length)

/-- Pairwise walk of `isEqual` over the entries of two beliefs of equal size. -/
def isEqualEntries (cc : ConstantsComparator) : BeliefType → BeliefType → Bool
  | [], _ => true
  | _ :: _, [] => true
  | firstEntry :: first, secondEntry :: second =>
    if firstEntry.1 ≠ secondEntry.1 then false
    else if !cc.isEqual firstEntry.2 secondEntry.2 then false
    else isEqualEntries cc first second

/-- Function `isEqual` on belief contents: equal sizes, and entry by entry the same
state and weights that the comparator accepts as equal. -/
def isEqual (m : BeliefManager) (first second : BeliefType) : Bool :=
  if first.length ≠ second.length then false
  else isEqualEntries m.cc first second

/-- State of the loop of `assertBelief`: the sum so far and the observation seen. -/
def assertBeliefEntries (m : BeliefManager) :
    BeliefType → ℚ → Option Nat → Option ℚ
  | [], sum, _ => some sum
  | entry :: rest, sum, observation =>
    if entry.1 ≥ m.pomdp.getNumberOfStates then none
    else
      let entryObservation := m.pomdp.getObservation entry.1
      if observation.isSome && observation != some entryObservation then none
      else if entry.2 = 0 then none
      else if entry.2 < 0 then none
      else if m.cc.isLess 1 entry.2 then none
      else assertBeliefEntries m rest (sum + entry.2) (some entryObservation)

/-- Function `assertBelief`: existing states with one common observation, no zero,
negative or greater-than-one weight, and weights summing to one. -/
def assertBelief (m : BeliefManager) (belief : BeliefType) : Bool :=
  match assertBeliefEntries m belief 0 none with
  | none => false
  | some sum => m.cc.isOne sum

/-- Statement `triangulatedBelief.emplace(state, zero).first->second += value` of
`assertTriangulation`. -/
def accumulateTriangulated : BeliefType → StateType → ℚ → BeliefType
  | [], state, value => [(state, 0 + value)]
  | (k, v) :: rest, state, value =>
    if state < k then (state, 0 + value) :: (k, v) :: rest
    else if state = k then (k, v + value) :: rest
    else (k, v) :: accumulateTriangulated rest state value

/-- Loop of `assertTriangulation` over the grid points: `none` when a weight is
rejected, otherwise the triangulated belief and the sum of the weights. -/
def assertTriangulationLoop (m : BeliefManager) :
    List (BeliefId × ℚ) → BeliefType → ℚ → Option (BeliefType × ℚ)
  | [], triangulatedBelief, weightSum => some (triangulatedBelief, weightSum)
  | (gridPointId, weight) :: rest, triangulatedBelief, weightSum =>
    if m.cc.isZero weight then none
    else if m.cc.isLess weight 0 then none
    else
      assertTriangulationLoop m rest
        ((m.getBelief gridPointId).foldl
          (fun tb pointEntry => accumulateTriangulated tb pointEntry.1 (weight * pointEntry.2))
          triangulatedBelief)
        (weightSum + weight)

/-- Function `assertTriangulation`: as many weights as grid points, at least one, no
zero or negative weight, weights summing to one, and the convex combination of the
grid points equal to the belief. -/
def assertTriangulation (m : BeliefManager) (belief : BeliefType) (t : Triangulation) : Bool :=
  if t.weights.length ≠ t.gridPoints.length then false
  else if t.size = 0 then false
  else
    match assertTriangulationLoop m (t.gridPoints.zip t.weights) [] 0 with
    | none => false
    | some (triangulatedBelief, weightSum) =>
      if !m.cc.isOne weightSum then false
      else if !m.isEqual belief triangulatedBelief then false
      else true

/-- Loop `for i < numEntries` of `triangulateBelief`, walking the sorted diffs with
the iterators `currentSortedDiff` and `previousSortedDiff`. The first argument
tells whether `i == 0`, the list holds the elements from `currentSortedDiff` on. -/
def triangulateLoop (convResolution : ℚ) (toOriginalIndicesMap : List StateType)
    (numEntries : Nat) :
    Bool → FreudenthalDiff → List FreudenthalDiff → List ℚ → BeliefManager →
      BeliefManager × Triangulation
  | _, _, [], _, m => (m, ⟨[], []⟩)
  | first, previous, current :: rest, qsRow, m =>
    let weight :=
      if first then previous.diff - current.diff + 1 else previous.diff - current.diff
    let qsRow1 := if first then qsRow else incrementAt qsRow previous.dimension
    if m.cc.isZero weight then
      triangulateLoop convResolution toOriginalIndicesMap numEntries false current rest qsRow1 m
    else
      let gridPoint := computeGridPoint m.cc convResolution qsRow1 toOriginalIndicesMap numEntries
      let r := m.getOrAddBeliefId gridPoint
      let t := triangulateLoop convResolution toOriginalIndicesMap numEntries
        false current rest qsRow1 r.1
      (t.1, ⟨r.2 :: t.2.gridPoints, weight :: t.2.weights⟩)

/-- Function `triangulateBelief(belief, resolution)`. The set `sorted_diffs` holds one
element per belief entry (their dimensions differ), so the loop over
`i < numEntries` visits exactly its elements. -/
def triangulateBelief (m : BeliefManager) (belief : BeliefType) (resolution : Nat) :
    BeliefManager × Triangulation :=
  let numEntries := belief.length
  if numEntries = 1 then
    let r := m.getOrAddBeliefId belief
    (r.1, ⟨[r.2], [1]⟩)
  else
    let convResolution : ℚ := (resolution : ℚ)
    let st := belief.foldl (triangulationInitStep convResolution) ⟨[], [], [], convResolution⟩
    let qsRow := st.qsRow ++ [0]
    match st.sorted_diffs.getLast? with
    | none => (m, ⟨[], []⟩)
    | some previousSortedDiff =>
      triangulateLoop convResolution st.toOriginalIndicesMap numEntries
        true previousSortedDiff st.sorted_diffs qsRow m

/-- Function `triangulateBelief(beliefId, resolution)`. -/
def triangulateBeliefId (m : BeliefManager) (beliefId : BeliefId) (resolution : Nat) :
    BeliefManager × Triangulation :=
  m.triangulateBelief (m.getBelief beliefId) resolution

/-- First loop of `expandInternal`: the probability of going to each observation. -/
def successorObservations (pomdp : Pomdp) (belief : BeliefType) (actionIndex : Nat) :
    BeliefType :=
  belief.foldl
    (fun successorObs pointEntry =>
      (pomdp.getRow pointEntry.1 actionIndex).foldl
        (fun successorObs pomdpTransition =>
          if pomdpTransition.2 ≠ 0 then
            addToDistribution successorObs (pomdp.getObservation pomdpTransition.1)
              (pointEntry.2 * pomdpTransition.2)
          else successorObs)
        successorObs)
    []

/-- Inner loops of the second loop of `expandInternal`: the successor belief for one
successor observation and its probability. -/
def successorBelief (pomdp : Pomdp) (belief : BeliefType) (actionIndex : Nat)
    (successor : Nat × ℚ) : BeliefType :=
  belief.foldl
    (fun successorBelief pointEntry =>
      (pomdp.getRow pointEntry.1 actionIndex).foldl
        (fun successorBelief pomdpTransition =>
          if pomdp.getObservation pomdpTransition.1 = successor.1 then
            addToDistribution successorBelief pomdpTransition.1
              (pointEntry.2 * pomdpTransition.2 / successor.2)
          else successorBelief)
        successorBelief)
    []

/-- Second loop of `expandInternal` over the successor observations. -/
def expandLoop (belief : BeliefType) (actionIndex : Nat)
    (observationTriangulationResolutions : Option (List Nat)) :
    List (Nat × ℚ) → BeliefManager → BeliefManager × List (BeliefId × ℚ)
  | [], m => (m, [])
  | successor :: rest, m =>
    let successorBelief := successorBelief m.pomdp belief actionIndex successor
    match observationTriangulationResolutions with
    | some resolutions =>
      let t := m.triangulateBelief successorBelief (resolutions.getD successor.1 0)
      let r := expandLoop belief actionIndex observationTriangulationResolutions rest t.1
      (r.1, (t.2.gridPoints.zip t.2.weights).map (fun gw => (gw.1, gw.2 * successor.2)) ++ r.2)
    | none =>
      let g := m.getOrAddBeliefId successorBelief
      let r := expandLoop belief actionIndex observationTriangulationResolutions rest g.1
      (r.1, (g.2, successor.2) :: r.2)

/-- Function `expandInternal`. -/
def expandInternal (m : BeliefManager) (beliefId : BeliefId) (actionIndex : Nat)
    (observationTriangulationResolutions : Option (List Nat)) :
    BeliefManager × List (BeliefId × ℚ) :=
  let belief := m.getBelief beliefId
  expandLoop belief actionIndex observationTriangulationResolutions
    (successorObservations m.pomdp belief actionIndex) m

/-- Function `expand`. -/
def expand (m : BeliefManager) (beliefId : BeliefId) (actionIndex : Nat) :
    BeliefManager × List (BeliefId × ℚ) :=
  m.expandInternal beliefId actionIndex none

/-- Function `expandAndTriangulate`. -/
def expandAndTriangulate (m : BeliefManager) (beliefId : BeliefId) (actionIndex : Nat)
    (observationResolutions : List Nat) : BeliefManager × List (BeliefId × ℚ) :=
  m.expandInternal beliefId actionIndex (some observationResolutions)

/-- Consistency of the two containers of the manager: the reverse index maps a
content to an id exactly when the table stores that content under that id, and
it has one entry per stored belief. -/
def WF (m : BeliefManager) : Prop :=
  (∀ (b : List (Nat × ℚ)) (id : Nat),
      findBeliefId m.beliefToIdMap b = some id ↔ m.beliefs[id]? = some b) ∧
    m.beliefToIdMap.length = m.beliefs.length

/-- A manager before anything is stored (the members as the constructor finds them). -/
def fresh (pomdp : Pomdp) (precision : ℚ) : BeliefManager :=
  ⟨pomdp, [], [], [], 0, ⟨precision⟩⟩

/-- A manager over three states of one observation, with comparator precision `1/10`. -/
def toleranceExample : BeliefManager :=
  fresh threeStates (1 / 10)

/-- A manager over `twoObservations` that stores the Dirac belief on state `0` under
id `0`. -/
def expandExample : BeliefManager :=
  ((fresh twoObservations 0).getOrAddBeliefId [(0, 1)]).1

end BeliefManager

/-- The (weight, grid point content) pairs that the loop of `triangulateBelief` emits,
without the registration of the grid points in the manager. -/
def triangulationPoints (cc : ConstantsComparator) (convResolution : ℚ)
    (toOriginalIndicesMap : List StateType) (numEntries : Nat) :
    Bool → FreudenthalDiff → List FreudenthalDiff → List ℚ → List (ℚ × BeliefType)
  | _, _, [], _ => []
  | first, previous, current :: rest, qsRow =>
    let weight :=
      if first then previous.diff - current.diff + 1 else previous.diff - current.diff
    let qsRow1 := if first then qsRow else incrementAt qsRow previous.dimension
    if cc.isZero weight then
      triangulationPoints cc convResolution toOriginalIndicesMap numEntries false current rest qsRow1
    else
      (weight, computeGridPoint cc convResolution qsRow1 toOriginalIndicesMap numEntries) ::
        triangulationPoints cc convResolution toOriginalIndicesMap numEntries
          false current rest qsRow1

/-- The last element of a non-empty sequence of diffs, given as head and tail. -/
def lastOf : FreudenthalDiff → List FreudenthalDiff → FreudenthalDiff
  | previous, [] => previous
  | _, current :: rest => lastOf current rest

/-- The values of the running remainder `x` at the entries of a belief. -/
def xsFrom (convResolution : ℚ) : ℚ → BeliefType → List ℚ
  | _, [] => []
  | x, entry :: rest => x :: xsFrom convResolution (x - entry.2 * convResolution) rest

/-- The diffs that the first loop of `triangulateBelief` emplaces, in belief order. -/
def diffsFrom (convResolution : ℚ) : Nat → ℚ → BeliefType → List FreudenthalDiff
  | _, _, [] => []
  | j, x, entry :: rest =>
    ⟨j, x - floorValue x⟩ :: diffsFrom convResolution (j + 1) (x - entry.2 * convResolution) rest

/-- The weight computed in one iteration of the loop of `triangulateBelief`. -/
def loopWeight (first : Bool) (previous current : FreudenthalDiff) : ℚ :=
  if first then previous.diff - current.diff + 1 else previous.diff - current.diff

/-- The row `qsRow` after the update of one iteration of the loop of `triangulateBelief`. -/
def loopRow (first : Bool) (previous : FreudenthalDiff) (qsRow : List ℚ) : List ℚ :=
  if first then qsRow else incrementAt qsRow previous.dimension

/-- Iteration order of the set of diffs: no later element has a larger diff. -/
def DiffSorted (l : List FreudenthalDiff) : Prop := l.Pairwise (fun a b => b.diff ≤ a.diff)

/-- The value that the grid point computed from a row assigns to a state, as a sum
over the local indices mapped to that state; the row is given as a function of
the index. -/
def coordSum (toOriginalIndicesMap : List StateType) (s : StateType) (convResolution : ℚ)
    (numEntries : Nat) (f : Nat → ℚ) : ℚ :=
  Finset.sum (Finset.range numEntries)
    (fun j => if toOriginalIndicesMap.getD j 0 = s then (f j - f (j + 1)) / convResolution else 0)

/-- The unit row of a dimension. -/
def unitRow (d : Nat) (j : Nat) : ℚ := if j = d then 1 else 0

/-- The value at a state of the convex combination of a list of (weight, grid point
content) pairs. -/
def pointsValue (s : StateType) (pts : List (ℚ × BeliefType)) : ℚ :=
  (pts.map (fun p => p.1 * FlatMap.weight p.2 s)).sum

/-- The row whose entry at a dimension is the diff of that dimension. -/
def diffRow (l : List FreudenthalDiff) (j : Nat) : ℚ :=
  (l.map (fun t => t.diff * unitRow t.dimension j)).sum

/-- The probability mass `m(o)` that a belief sends to an observation under an action:
the sum over the belief entries `(s, w)` and the row entries `(s', p)` of `s` with
observation `o` of `w * p`. -/
def observationMass (pomdp : Pomdp) (belief : BeliefType) (actionIndex : Nat) (o : Nat) : ℚ :=
  (belief.map (fun e =>
    ((pomdp.getRow e.1 actionIndex).map
      (fun tr => if pomdp.getObservation tr.1 = o then e.2 * tr.2 else 0)).sum)).sum

/-- The probability mass that a belief sends to a state under an action: the sum
over the belief entries `(s, w)` and the row entries `(s', p)` of `s` with
`s' = target` of `w * p`. -/
def successorMass (pomdp : Pomdp) (belief : BeliefType) (actionIndex : Nat)
    (target : StateType) : ℚ :=
  (belief.map (fun e =>
    ((pomdp.getRow e.1 actionIndex).map
      (fun tr => if tr.1 = target then e.2 * tr.2 else 0)).sum)).sum

/-! ## The sub-POMDP builder (`storm-synthesis/pomdp/SubPomdpBuilder.cpp`)

Values of the model (`double` in the source) are only copied by the builder; they
are embedded as rational numbers. -/

/-- Modelled from the spec: the bit vector `storm::storage::BitVector` (its source is
not at hand): a fixed number of bits; iterating over it yields the indices of the
set bits in ascending order. -/
abbrev BitVector := List Bool

namespace BitVector

/-- Modelled from the spec: a bit vector of the given size with no bit set,
`BitVector(size, false)`. -/
def zeros (size : Nat) : BitVector := List.replicate size false

/-- Modelled from the spec: read access `bv[index]`. -/
def get (bv : BitVector) (index : Nat) : Bool := bv.getD index false

/-- Modelled from the spec: `bv.set(index, true)`. -/
def setBit (bv : BitVector) (index : Nat) : BitVector := List.set bv index true

/-- Modelled from the spec: `bv.clear()` removes all set bits. -/
def clear (bv : BitVector) : BitVector := List.replicate bv.length false

/-- Modelled from the spec: the indices of the set bits in ascending order, the
sequence that `for (auto i : bv)` visits. -/
def setBits (bv : BitVector) : List Nat :=
  (List.range bv.length).filter (fun i => bv.getD i false)

/-- Modelled from the spec: `bv.getNumberOfSetBits()`. -/
def getNumberOfSetBits (bv : BitVector) : Nat := (setBits bv).length

end BitVector

/-- Insertion into a `std::set<uint64_t>`: ascending, without duplicates. -/
def setInsert : List Nat → Nat → List Nat
  | [], x => [x]
  | y :: rest, x =>
    if x < y then x :: y :: rest
    else if x = y then y :: rest
    else y :: setInsert rest x

/-- Lookup `m.find(key)` in a `std::map<uint64_t, double>`, given by its entries. -/
def mapFind : List (Nat × ℚ) → Nat → Option ℚ
  | [], _ => none
  | (k, v) :: rest, key => if key = k then some v else mapFind rest key

/-- Expression `m.find(key)->second`: the mapped value when the key is present. When
the key is absent the iterator is `end()`; dereferencing it is undefined behaviour and
the expression has no value (`none`). -/
def findSecond (m : List (Nat × ℚ)) (key : Nat) : Option ℚ :=
  match mapFind m key with
  | some v => some v
  | none => none

namespace Pomdp

/-- Size `getTransitionMatrix().getRowGroupSize(state)` of the row group of a state. -/
def getRowGroupSize (pomdp : Pomdp) (state : StateType) : Nat :=
  pomdp.rowGroupIndices.getD (state + 1) 0 - pomdp.rowGroupIndices.getD state 0

/-- The indices `row_groups[state] .. row_groups[state + 1] - 1` of the rows of a state. -/
def rowsOf (pomdp : Pomdp) (state : StateType) : List Nat :=
  List.range' (pomdp.rowGroupIndices.getD state 0)
    (pomdp.rowGroupIndices.getD (state + 1) 0 - pomdp.rowGroupIndices.getD state 0)

/-- Row `getTransitionMatrix().getRow(row)` by its global index. -/
def getMatrixRow (pomdp : Pomdp) (row : Nat) : List (StateType × ℚ) :=
  pomdp.rows.getD row []

/-- The entries of `getTransitionMatrix().getRowGroup(state)`: those of all rows of
the state, row by row. -/
def getRowGroup (pomdp : Pomdp) (state : StateType) : List (StateType × ℚ) :=
  ((pomdp.rowsOf state).map pomdp.getMatrixRow).flatten

end Pomdp

/-- Modelled from the spec: the result of `SparseMatrixBuilder::build()`, a row-major
sparse matrix with row groups (the matrix classes are not part of the sources at
hand): the rows as lists of `(column, value)` entries, the row group boundaries
and the number of columns. -/
structure SparseMatrix where
  /-- The rows. -/
  rows : List (List (Nat × ℚ))
  /-- Start row of every row group, followed by the number of rows. -/
  rowGroupIndices : List Nat
  /-- The number of columns. -/
  columnCount : Nat

/-- Modelled from the spec: the state of a `SparseMatrixBuilder` constructed with
forced dimensions and custom row grouping: the declared numbers of rows and
columns, the row group starts announced so far and the entries added so far. -/
structure SparseMatrixBuilder where
  /-- The declared number of rows. -/
  rowCount : Nat
  /-- The declared number of columns. -/
  columnCount : Nat
  /-- The row group starts announced so far. -/
  rowGroupIndices : List Nat
  /-- The rows that received entries so far (and the empty rows before them). -/
  rowEntries : List (List (Nat × ℚ))

/-- The rows of a matrix under construction, filled up with empty rows to a given
number of rows. -/
def padRows (n : Nat) (rows : List (List (Nat × ℚ))) : List (List (Nat × ℚ)) :=
  rows ++ List.replicate (n - rows.length) []

/-- Addition of one entry to the row with the given index of a list of rows; rows
that do not exist yet are created. -/
def addEntry : List (List (Nat × ℚ)) → Nat → Nat × ℚ → List (List (Nat × ℚ))
  | [], 0, e => [[e]]
  | [], row + 1, e => [] :: addEntry [] row e
  | r :: rest, 0, e => (r ++ [e]) :: rest
  | r :: rest, row + 1, e => r :: addEntry rest row e

namespace SparseMatrixBuilder

/-- Modelled from the spec: `builder.newRowGroup(startingRow)`. -/
def newRowGroup (builder : SparseMatrixBuilder) (startingRow : Nat) : SparseMatrixBuilder :=
  { builder with rowGroupIndices := builder.rowGroupIndices ++ [startingRow] }

/-- Modelled from the spec: `builder.addNextValue(row, column, value)` appends the entry
to the row. -/
def addNextValue (builder : SparseMatrixBuilder) (row column : Nat) (value : ℚ) :
    SparseMatrixBuilder :=
  { builder with rowEntries := addEntry builder.rowEntries row (column, value) }

/-- Modelled from the spec: `builder.build()` yields the matrix of the declared
dimensions with the entries added and the row groups announced. -/
def build (builder : SparseMatrixBuilder) : SparseMatrix :=
  { rows := padRows builder.rowCount builder.rowEntries
    rowGroupIndices := builder.rowGroupIndices ++ [builder.rowCount]
    columnCount := builder.columnCount }

end SparseMatrixBuilder

/-- The data members of the sub-POMDP builder, with the parts of the original POMDP
that it reads besides the transition matrix and the observations: the states
carrying the target label and the state-action rewards of the investigated
reward model. -/
structure SubPomdpBuilder where
  /-- The original POMDP. -/
  pomdp : Pomdp
  /-- The states `pomdp.getStateLabeling().getStates(target_label)`. -/
  targetStates : BitVector
  /-- The vector read by `pomdp.getRewardModel(reward_name).getStateActionReward(row)`. -/
  stateActionRewards : List ℚ
  /-- For each state, its immediate successors excluding the state itself. -/
  reachable_successors : List (List StateType)
  /-- The states relevant for the current restriction. -/
  relevant_states : BitVector
  /-- The frontier states reachable from the relevant ones. -/
  frontier_states : BitVector
  /-- For each state of the POMDP its index in the sub-POMDP. -/
  state_full_to_sub : List Nat

/-- Loop `for (auto state : states) state_full_to_sub[state] = state_index++` of
`setRelevantStates`, on the pair of the map and the running index. -/
def assignIndices (st : List Nat × Nat) (states : List Nat) : List Nat × Nat :=
  states.foldl (fun st state => (List.set st.1 state st.2, st.2 + 1)) st

/-- The components of the sub-POMDP that `restrictPomdp` assembles (the choice
labeling, which only copies label names, is left out). -/
structure ModelComponents where
  /-- The transition matrix. -/
  transitionMatrix : SparseMatrix
  /-- The states labeled `init`. -/
  initLabel : BitVector
  /-- The states carrying the target label. -/
  targetLabel : BitVector
  /-- The observation of every state. -/
  observabilityClasses : List Nat
  /-- The state rewards of the reward model, if any. -/
  stateRewards : Option (List ℚ)
  /-- The action rewards of the reward model, one per row; `none` when
  `constructRewardModel` has no defined result, because it reads a frontier value
  through the `end()` iterator. -/
  actionRewards : Option (List ℚ)

namespace SubPomdpBuilder

/-- Constants `initial_state` and `sink_state` of the builder. -/
def initial_state : Nat := 0

/-- Constant `sink_state` of the builder. -/
def sink_state : Nat := 1

/-- Body of the constructor loop for one state: the set of the columns of the row
group of the state that differ from the state. -/
def successorsOf (pomdp : Pomdp) (state : StateType) : List StateType :=
  (pomdp.getRowGroup state).foldl
    (fun set entry => if entry.1 ≠ state then setInsert set entry.1 else set) []

/-- Constructor `SubPomdpBuilder(pomdp, reward_name, target_label)`. -/
def construct (pomdp : Pomdp) (targetStates : BitVector) (stateActionRewards : List ℚ) :
    SubPomdpBuilder :=
  { pomdp := pomdp
    targetStates := targetStates
    stateActionRewards := stateActionRewards
    reachable_successors := (List.range pomdp.getNumberOfStates).map (successorsOf pomdp)
    relevant_states := []
    frontier_states := BitVector.zeros pomdp.getNumberOfStates
    state_full_to_sub := [] }

/-- First loop of `setRelevantStates`: the frontier states. -/
def computeFrontier (b : SubPomdpBuilder) (relevant_states : BitVector) : BitVector :=
  (BitVector.setBits relevant_states).foldl
    (fun frontier state =>
      (b.reachable_successors.getD state []).foldl
        (fun frontier successor =>
          if !(BitVector.get relevant_states successor) then BitVector.setBit frontier successor
          else frontier)
        frontier)
    (BitVector.clear b.frontier_states)

/-- Function `setRelevantStates`. -/
def setRelevantStates (b : SubPomdpBuilder) (relevant_states : BitVector) : SubPomdpBuilder :=
  { b with
    relevant_states := relevant_states
    frontier_states := computeFrontier b relevant_states
    state_full_to_sub :=
      (assignIndices
        (assignIndices (List.replicate b.pomdp.getNumberOfStates 0, 2)
          (BitVector.setBits relevant_states))
        (BitVector.setBits (computeFrontier b relevant_states))).1 }

/-- Function `getFrontierStates`. -/
def getFrontierStates (b : SubPomdpBuilder) : BitVector := b.frontier_states

/-- Modelled from the spec: `num_states()`, the total number of states of the
sub-POMDP (its definition is not part of the sources at hand): two synthetic
states, the relevant states and the frontier states. -/
def num_states (b : SubPomdpBuilder) : Nat :=
  2 + BitVector.getNumberOfSetBits b.relevant_states +
    BitVector.getNumberOfSetBits b.frontier_states

/-- One row of the matrix under construction: `addNextValue(current_row, dst, value)`
for every given entry, its column translated by `state_full_to_sub`; then
`current_row++`. -/
def addTranslatedRow (b : SubPomdpBuilder) (st : SparseMatrixBuilder × Nat)
    (entries : List (Nat × ℚ)) : SparseMatrixBuilder × Nat :=
  (entries.foldl
      (fun builder entry =>
        builder.addNextValue st.2 (b.state_full_to_sub.getD entry.1 0) entry.2)
      st.1,
    st.2 + 1)

/-- Loop over the relevant states in `constructTransitionMatrix`: a new row group
and one translated row per row of the state. -/
def addRelevantStates (b : SubPomdpBuilder) (st : SparseMatrixBuilder × Nat) :
    SparseMatrixBuilder × Nat :=
  (BitVector.setBits b.relevant_states).foldl
    (fun st state =>
      (b.pomdp.rowsOf state).foldl
        (fun st row => addTranslatedRow b st (b.pomdp.getMatrixRow row))
        (st.1.newRowGroup st.2, st.2))
    st

/-- Loop over the frontier states in `constructTransitionMatrix`: a row group with
one row that leads to the sink state with probability one. -/
def addFrontierStates (b : SubPomdpBuilder) (st : SparseMatrixBuilder × Nat) :
    SparseMatrixBuilder × Nat :=
  (BitVector.setBits b.frontier_states).foldl
    (fun st _ => (((st.1.newRowGroup st.2).addNextValue st.2 sink_state 1), st.2 + 1))
    st

/-- Number `num_rows` computed at the start of `constructTransitionMatrix`. -/
def numRows (b : SubPomdpBuilder) : Nat :=
  (BitVector.setBits b.relevant_states).foldl
    (fun num_rows state => num_rows + b.pomdp.getRowGroupSize state)
    (1 + 1 + BitVector.getNumberOfSetBits b.frontier_states)

/-- Function `constructTransitionMatrix`. -/
def constructTransitionMatrix (b : SubPomdpBuilder) (initial_belief : List (Nat × ℚ)) :
    SparseMatrix :=
  let builder : SparseMatrixBuilder := ⟨numRows b, num_states b, [], []⟩
  let st0 := addTranslatedRow b (builder.newRowGroup 0, 0) initial_belief
  let st1 := (((st0.1.newRowGroup st0.2).addNextValue st0.2 st0.2 1), st0.2 + 1)
  let st2 := addRelevantStates b st1
  let st3 := addFrontierStates b st2
  st3.1.build

/-- Function `constructStateLabeling`, the bit vector of the target label. -/
def constructTargetLabel (b : SubPomdpBuilder) : BitVector :=
  BitVector.setBit
    ((BitVector.setBits b.targetStates).foldl
      (fun label_target state =>
        BitVector.setBit label_target (b.state_full_to_sub.getD state 0))
      (BitVector.zeros (num_states b)))
    sink_state

/-- Function `constructStateLabeling`, the bit vector of the label `init`. -/
def constructInitLabel (b : SubPomdpBuilder) : BitVector :=
  BitVector.setBit (BitVector.zeros (num_states b)) initial_state

/-- Function `constructObservabilityClasses`; the fresh observation is given. -/
def constructObservabilityClasses (b : SubPomdpBuilder) (fresh_observation : Nat) : List Nat :=
  (BitVector.setBits b.frontier_states).foldl
    (fun classes state => List.set classes (b.state_full_to_sub.getD state 0) fresh_observation)
    ((BitVector.setBits b.relevant_states).foldl
      (fun classes state =>
        List.set classes (b.state_full_to_sub.getD state 0) (b.pomdp.getObservation state))
      (List.set (List.set (List.replicate (num_states b) 0) initial_state fresh_observation)
        sink_state fresh_observation))

/-- Read access `reward_model.getStateActionReward(row)`. -/
def getStateActionReward (b : SubPomdpBuilder) (row : Nat) : ℚ :=
  b.stateActionRewards.getD row 0

/-- Loop over the relevant states in `constructRewardModel`, on the pair of the
reward vector and `current_row`. -/
def rewardRelevantStates (b : SubPomdpBuilder) (st : List ℚ × Nat) : List ℚ × Nat :=
  (BitVector.setBits b.relevant_states).foldl
    (fun st state =>
      (b.pomdp.rowsOf state).foldl
        (fun st row => (List.set st.1 st.2 (getStateActionReward b row), st.2 + 1))
        st)
    st

/-- Body of the loop over the frontier states in `constructRewardModel`, the statements
`action_rewards[current_row] = frontier_values.find(state)->second; current_row++`,
on the pair of the reward vector and `current_row`. The state is `none` once a lookup
had no value. -/
def rewardFrontierStep (frontier_values : List (Nat × ℚ)) (st : Option (List ℚ × Nat))
    (state : Nat) : Option (List ℚ × Nat) :=
  match st, findSecond frontier_values state with
  | some st, some value => some (List.set st.1 st.2 value, st.2 + 1)
  | _, _ => none

/-- Loop over the frontier states in `constructRewardModel`. -/
def rewardFrontierStates (b : SubPomdpBuilder) (frontier_values : List (Nat × ℚ))
    (st : List ℚ × Nat) : Option (List ℚ × Nat) :=
  (BitVector.setBits b.frontier_states).foldl (rewardFrontierStep frontier_values) (some st)

/-- Function `constructRewardModel`, the vector of action rewards (the state rewards
stay unset). The result is `none` when the map holds no value for some frontier
state: the source then dereferences the `end()` iterator. -/
def constructRewardModel (b : SubPomdpBuilder) (num_rows : Nat)
    (frontier_values : List (Nat × ℚ)) : Option (List ℚ) :=
  (rewardFrontierStates b frontier_values
    (rewardRelevantStates b (List.replicate num_rows 0, 2))).map Prod.fst

/-- Function `restrictPomdp`. The components are assembled in the order of the source;
the reward model, which is computed last, is the only one that depends on the map of
frontier values. -/
def restrictPomdp (b : SubPomdpBuilder) (initial_belief frontier_values : List (Nat × ℚ))
    (fresh_observation : Nat) : ModelComponents :=
  let transitionMatrix := constructTransitionMatrix b initial_belief
  let num_rows := transitionMatrix.rows.length
  { transitionMatrix := transitionMatrix
    initLabel := constructInitLabel b
    targetLabel := constructTargetLabel b
    observabilityClasses := constructObservabilityClasses b fresh_observation
    stateRewards := none
    actionRewards := constructRewardModel b num_rows frontier_values }

end SubPomdpBuilder

namespace SubPomdpBuilder

/-- Invariant that the constructor establishes and `setRelevantStates` keeps: the
successor sets are those of the POMDP and the frontier bit vector has one bit per
state. -/
def Constructed (b : SubPomdpBuilder) : Prop :=
  b.reachable_successors = (List.range b.pomdp.getNumberOfStates).map (successorsOf b.pomdp) ∧
    b.frontier_states.length = b.pomdp.getNumberOfStates

/-- A POMDP with four states: state `0` has two choices (to states `1` and `2` with
probability `1/2` each, and back to itself), state `1` moves to state `3`, states `2`
and `3` loop. -/
def fourStates : Pomdp :=
  ⟨[0, 2, 3, 4, 5], [[(1, 1 / 2), (2, 1 / 2)], [(0, 1)], [(3, 1)], [(2, 1)], [(3, 1)]],
    [0, 1, 1, 2], [0]⟩

/-- The builder over `fourStates` with target state `3`, rewards `10, 20, 30, 40, 50`
and relevant state `0` (so that states `1` and `2` are the frontier). -/
def fourStatesExample : SubPomdpBuilder :=
  (construct fourStates [false, false, false, true] [10, 20, 30, 40, 50]).setRelevantStates
    [true, false, false, false]

end SubPomdpBuilder

/-- The start rows of consecutive row groups of the given sizes, the first one
starting at `start`. -/
def groupStarts : Nat → List Nat → List Nat
  | _, [] => []
  | start, size :: rest => start :: groupStarts (start + size) rest

/-- The state of the construction of the transition matrix after some complete rows:
`current_row` is their number, the builder holds them (up to trailing empty rows)
and has announced the given row groups. -/
def Built (st : SparseMatrixBuilder × Nat) (rows : List (List (Nat × ℚ)))
    (groups : List Nat) : Prop :=
  st.2 = rows.length ∧ st.1.rowEntries.length ≤ st.2 ∧
    padRows st.2 st.1.rowEntries = rows ∧ st.1.rowGroupIndices = groups

namespace SubPomdpBuilder

/-- An entry of the original matrix (or of the initial belief) with its column
replaced by the index of the state in the sub-POMDP. -/
def translateEntry (b : SubPomdpBuilder) (entry : Nat × ℚ) : Nat × ℚ :=
  (b.state_full_to_sub.getD entry.1 0, entry.2)

end SubPomdpBuilder

namespace SparseMatrix

/-- Modelled from the spec: `getRowCount()` of the matrix class, the number of rows. -/
def getRowCount (matrix : SparseMatrix) : Nat :=
  matrix.rows.length

/-- Modelled from the spec: `getRowGroupCount()` of the matrix class; the row group
indices hold the start of every group and, last, the number of rows. -/
def getRowGroupCount (matrix : SparseMatrix) : Nat :=
  matrix.rowGroupIndices.length - 1

/-- Modelled from the spec: `getColumnCount()` of the matrix class. -/
def getColumnCount (matrix : SparseMatrix) : Nat :=
  matrix.columnCount

end SparseMatrix

namespace BeliefManager

/-- Function `computeInitialBelief`: the Dirac belief on the first initial state of the
POMDP is registered (the assertions on the initial states are checked in debug builds
only). -/
def computeInitialBelief (m : BeliefManager) : BeliefManager × BeliefId :=
  m.getOrAddBeliefId (FlatMap.assign [] (m.pomdp.initialStates.headD 0) 1)

/-- The constructor `BeliefManager(pomdp, precision)`: the containers start empty and
`initialBeliefId = computeInitialBelief()`. -/
def construct (pomdp : Pomdp) (precision : ℚ) : BeliefManager :=
  { (fresh pomdp precision).computeInitialBelief.1 with
    initialBeliefId := (fresh pomdp precision).computeInitialBelief.2 }

/-- Function `getBeliefObservation(belief)`: the observation of the first support state
(the validity of the belief is asserted in debug builds only). -/
def getBeliefObservation (m : BeliefManager) (belief : BeliefType) : Nat :=
  m.pomdp.getObservation (belief.headD (0, 0)).1

/-- The manager states reachable from construction by calls of `getOrAddBeliefId`,
`triangulateBelief`, `expand` and `expandAndTriangulate` with any arguments. -/
inductive Reachable : BeliefManager → Prop
  | init (pomdp : Pomdp) (precision : ℚ) : Reachable (BeliefManager.construct pomdp precision)
  | add {m : BeliefManager} (belief : BeliefType) :
      Reachable m → Reachable (m.getOrAddBeliefId belief).1
  | triangulate {m : BeliefManager} (belief : BeliefType) (resolution : Nat) :
      Reachable m → Reachable (m.triangulateBelief belief resolution).1
  | expandNone {m : BeliefManager} (beliefId : BeliefId) (actionIndex : Nat) :
      Reachable m → Reachable (m.expand beliefId actionIndex).1
  | expandSome {m : BeliefManager} (beliefId : BeliefId) (actionIndex : Nat)
      (observationResolutions : List Nat) :
      Reachable m → Reachable (m.expandAndTriangulate beliefId actionIndex
        observationResolutions).1

end BeliefManager

/-- The (weight, grid point content) pairs of `triangulateBelief(belief, resolution)`:
the belief itself with weight one when it has a single entry, otherwise the pairs
that the loop over the sorted diffs emits. -/
def triangulationContents (cc : ConstantsComparator) (belief : BeliefType) (resolution : Nat) :
    List (ℚ × BeliefType) :=
  if belief.length = 1 then [(1, belief)]
  else
    match ((diffsFrom (resolution : ℚ) 0 (resolution : ℚ) belief).foldl
        sortedDiffsEmplace []).getLast? with
    | none => []
    | some previousSortedDiff =>
      triangulationPoints cc (resolution : ℚ) (belief.map Prod.fst) belief.length true
        previousSortedDiff
        ((diffsFrom (resolution : ℚ) 0 (resolution : ℚ) belief).foldl sortedDiffsEmplace [])
        ((xsFrom (resolution : ℚ) (resolution : ℚ) belief).map floorValue ++ [0])

/-- A POMDP with four states: state `0` (observation `0`) moves to the states `1`, `2`
and `3` (observation `1`) with probabilities `4/5`, `1/10` and `1/10`; these loop. -/
def fanOut : Pomdp :=
  ⟨[0, 1, 2, 3, 4], [[(1, 4 / 5), (2, 1 / 10), (3, 1 / 10)], [(1, 1)], [(2, 1)], [(3, 1)]],
    [0, 1, 1, 1], [0]⟩

/-- The manager constructed over `fanOut` with comparator precision `1/10`. -/
def BeliefManager.fanOutExample : BeliefManager :=
  BeliefManager.construct fanOut (1 / 10)

namespace Pomdp

/-- A POMDP as the manager expects it: every state has an observation, there is one
initial state and it exists, every transition row is a probability distribution, and
every stored entry has an existing column and a value in `(0, 1]`. -/
def WellFormed (pomdp : Pomdp) : Prop :=
  pomdp.observations.length = pomdp.getNumberOfStates ∧
    (∃ s, pomdp.initialStates = [s] ∧ s < pomdp.getNumberOfStates) ∧
    (∀ row ∈ pomdp.rows, (row.map Prod.snd).sum = 1) ∧
    ∀ row ∈ pomdp.rows, ∀ e ∈ row, e.1 < pomdp.getNumberOfStates ∧ 0 < e.2 ∧ e.2 ≤ 1

end Pomdp

namespace BeliefManager

/-- Validity of a belief content: a non-empty support in ascending order (the flat map)
of existing states with one common observation, strictly positive weights, and
weights that sum to one. -/
def Valid (pomdp : Pomdp) (belief : BeliefType) : Prop :=
  belief ≠ [] ∧ FlatMap.Ordered belief ∧
    (∀ e ∈ belief, e.1 < pomdp.getNumberOfStates ∧ 0 < e.2) ∧
    (∀ e ∈ belief, ∀ e' ∈ belief, pomdp.getObservation e.1 = pomdp.getObservation e'.1) ∧
    (belief.map Prod.snd).sum = 1

/-- The action index is one of the choices of every support state of the belief. -/
def ActionEnabled (m : BeliefManager) (beliefId : BeliefId) (actionIndex : Nat) : Prop :=
  ∀ e ∈ m.getBelief beliefId, actionIndex < m.pomdp.getRowGroupSize e.1

/-- The manager states reachable from construction over a well-formed POMDP (with a
non-negative comparator precision) by calls of `triangulateBelief`, `expand` and
`expandAndTriangulate` on registered beliefs, with enabled actions and resolutions
that are at least one for every observation. -/
inductive ReachableByExpansion : BeliefManager → Prop
  | init (pomdp : Pomdp) (precision : ℚ) :
      pomdp.WellFormed → 0 ≤ precision →
      ReachableByExpansion (BeliefManager.construct pomdp precision)
  | triangulate {m : BeliefManager} (beliefId : BeliefId) (resolution : Nat) :
      beliefId < m.getNumberOfBeliefIds → 1 ≤ resolution →
      ReachableByExpansion m → ReachableByExpansion (m.triangulateBeliefId beliefId resolution).1
  | expandNone {m : BeliefManager} (beliefId : BeliefId) (actionIndex : Nat) :
      beliefId < m.getNumberOfBeliefIds → m.ActionEnabled beliefId actionIndex →
      ReachableByExpansion m → ReachableByExpansion (m.expand beliefId actionIndex).1
  | expandSome {m : BeliefManager} (beliefId : BeliefId) (actionIndex : Nat)
      (observationResolutions : List Nat) :
      beliefId < m.getNumberOfBeliefIds → m.ActionEnabled beliefId actionIndex →
      (∀ s, s < m.pomdp.getNumberOfStates →
        1 ≤ observationResolutions.getD (m.pomdp.getObservation s) 0) →
      ReachableByExpansion m →
      ReachableByExpansion (m.expandAndTriangulate beliefId actionIndex
        observationResolutions).1

end BeliefManager

/-- The rows from which the loop of `triangulateBelief` computes the grid points of
nonzero weight: entry `j < n` is the floor of the running remainder `X j`, plus one
where the fractional part of `X j` reaches a threshold in `(0, 1]`; entry `n` is `0`. -/
def ThresholdRow (n : Nat) (X : Nat → ℚ) (q : List ℚ) : Prop :=
  ∃ t : ℚ, 0 < t ∧ t ≤ 1 ∧
    (∀ j, j < n →
      q.getD j 0 = floorValue (X j) + (if t ≤ X j - floorValue (X j) then 1 else 0)) ∧
    q.getD n 0 = 0

namespace BeliefManager

/-- Function `getInitialBelief`. -/
def getInitialBelief (m : BeliefManager) : BeliefId := m.initialBeliefId

/-- Function `computeInitialBelief` together with its three `STORM_LOG_ASSERT`s. The
macro checks its condition only when `NDEBUG` is not set (`assertionsChecked`) and
expands to nothing otherwise; a failed assertion aborts the computation (`none`). -/
def computeInitialBeliefAsserting (assertionsChecked : Bool) (m : BeliefManager) :
    Option (BeliefManager × BeliefId) :=
  if assertionsChecked = true ∧ ¬ m.pomdp.initialStates.length < 2 then none
  else if assertionsChecked = true ∧ ¬ m.pomdp.initialStates.length = 1 then none
  else if assertionsChecked = true ∧
      ¬ m.assertBelief (FlatMap.assign [] (m.pomdp.initialStates.headD 0) 1) = true then none
  else some m.computeInitialBelief

/-- Function `setRewardModel`: the vector `getTotalRewardVector(...)` of the chosen
reward model (the reward model class is not part of the sources at hand; its vector
is given) becomes the action-reward vector of the manager. -/
def setRewardModel (m : BeliefManager) (totalRewardVector : List ℚ) : BeliefManager :=
  { m with pomdpActionRewardVector := totalRewardVector }

/-- Function `getBeliefActionReward`. -/
def getBeliefActionReward (m : BeliefManager) (beliefId : BeliefId) (localActionIndex : Nat) :
    ℚ :=
  (m.getBelief beliefId).foldl
    (fun result entry =>
      result + entry.2 *
        m.pomdpActionRewardVector.getD
          (m.pomdp.rowGroupIndices.getD entry.1 0 + localActionIndex) 0)
    0

end BeliefManager

/-- A POMDP with two initial states. -/
def twoInitialStates : Pomdp :=
  ⟨[0, 1, 2], [[(0, 1)], [(1, 1)]], [0, 0], [0, 1]⟩

/-- A POMDP whose only row of state `0` stores an explicit zero entry: state `0`
(observation `0`) moves to state `1` with probability `1` and to state `2` with
probability `0`; the states `1` and `2` (observation `1`) loop. -/
def explicitZero : Pomdp :=
  ⟨[0, 1, 2, 3], [[(1, 1), (2, 0)], [(1, 1)], [(2, 1)]], [0, 1, 1], [0]⟩

/-- The manager constructed over `explicitZero` with comparator precision `0`. -/
def BeliefManager.explicitZeroExample : BeliefManager :=
  BeliefManager.construct explicitZero 0

/-- A row of the loop of `triangulateBelief` with a given threshold: entry `j < n` is the
floor of the running remainder `X j`, plus one where the fractional part of `X j`
reaches the threshold; entry `n` is `0`. -/
def ThresholdRowAt (n : Nat) (X : Nat → ℚ) (t : ℚ) (q : List ℚ) : Prop :=
  (∀ j, j < n →
      q.getD j 0 = floorValue (X j) + (if t ≤ X j - floorValue (X j) then 1 else 0)) ∧
    q.getD n 0 = 0

/-- The facts about the sorted diffs `D` of a belief with `n` entries and running
remainders `X` that the loop of `triangulateBelief` relies on: every diff is the
fractional part of the remainder of its dimension, every dimension below `n` occurs
exactly once, and the diffs are in iteration order. -/
def DiffsOf (n : Nat) (X : Nat → ℚ) (D : List FreudenthalDiff) : Prop :=
  X n = 0 ∧
    (∀ d ∈ D, d.dimension < n ∧ d.diff = X d.dimension - floorValue (X d.dimension)) ∧
    (D.map FreudenthalDiff.dimension).Nodup ∧
    (∀ j, j < n → j ∈ D.map FreudenthalDiff.dimension) ∧
    DiffSorted D

/-- State of the loop of `triangulateBelief` before the iteration of `current`, the head
of the remaining diffs: `pre` are the diffs before `previous`, and `qsRow` holds the
floors of the remainders, incremented at the dimensions of `pre`. -/
def LoopInv (n : Nat) (X : Nat → ℚ) (D pre : List FreudenthalDiff) (previous : FreudenthalDiff)
    (rest : List FreudenthalDiff) (q : List ℚ) : Prop :=
  D = pre ++ previous :: rest ∧ q.length = n + 1 ∧
    ∀ j, q.getD j 0 =
      floorValue (X j) + (if j ∈ pre.map FreudenthalDiff.dimension then 1 else 0)

/-- Two grid points of one triangulation, the first emitted before the second: they are
computed from rows with thresholds `t > t'`, and some dimension has `t'` as the
fractional part of its remainder. -/
def EmittedBefore (cc : ConstantsComparator) (convResolution : ℚ) (toOrig : List StateType)
    (n : Nat) (X : Nat → ℚ) (pt pt' : ℚ × BeliefType) : Prop :=
  ∃ t q1 t' q2, 0 < t' ∧ t' < t ∧ t ≤ 1 ∧
    (∃ j, j < n ∧ X j - floorValue (X j) = t') ∧
    ThresholdRowAt n X t q1 ∧ pt.2 = computeGridPoint cc convResolution q1 toOrig n ∧
    ThresholdRowAt n X t' q2 ∧ pt'.2 = computeGridPoint cc convResolution q2 toOrig n

/-! ## Flat maps -/

namespace FlatMap

theorem mem_emplace {m : BeliefType} {k : StateType} {v : ℚ} {e : StateType × ℚ}
    (h : e ∈ emplace m k v) : e = (k, v) ∨ e ∈ m := by
  induction m with
  | nil => simpa [emplace] using h
  | cons f t ih =>
    obtain ⟨k2, v2⟩ := f
    simp only [emplace] at h
    split_ifs at h with h1 h2
    · simpa using h
    · exact Or.inr h
    · rcases List.mem_cons.1 h with h | h
      · exact Or.inr (h ▸ List.mem_cons_self _ _)
      · rcases ih h with h | h
        · exact Or.inl h
        · exact Or.inr (List.mem_cons_of_mem _ h)

theorem emplace_ordered {m : BeliefType} (hm : Ordered m) (k : StateType) (v : ℚ) :
    Ordered (emplace m k v) := by
  induction m with
  | nil => simp [emplace, Ordered]
  | cons f t ih =>
    obtain ⟨k2, v2⟩ := f
    have hm2 := List.pairwise_cons.1 hm
    simp only [emplace]
    split_ifs with h1 h2
    · refine List.pairwise_cons.2 ⟨?_, hm⟩
      intro e he
      rcases List.mem_cons.1 he with he | he
      · subst he; exact h1
      · exact lt_trans h1 (hm2.1 e he)
    · exact hm
    · refine List.pairwise_cons.2 ⟨?_, ih hm2.2⟩
      intro e he
      rcases mem_emplace he with he | he
      · subst he
        exact lt_of_le_of_ne (not_lt.1 h1) (Ne.symm h2)
      · exact hm2.1 e he

theorem emplace_perm {m : BeliefType} {k : StateType} (v : ℚ) (hk : k ∉ m.map Prod.fst) :
    (emplace m k v).Perm ((k, v) :: m) := by
  induction m with
  | nil => simp [emplace]
  | cons f t ih =>
    obtain ⟨k2, v2⟩ := f
    simp only [List.map_cons, List.mem_cons, not_or] at hk
    simp only [emplace]
    split_ifs with h1 h2
    · exact List.Perm.refl _
    · exact absurd h2 hk.1
    · exact ((ih hk.2).cons _).trans (List.Perm.swap _ _ _)

theorem foldl_emplace_spec (l : List (StateType × ℚ)) :
    ∀ acc : BeliefType, Ordered acc → (acc.map Prod.fst ++ l.map Prod.fst).Nodup →
      Ordered (l.foldl (fun m e => emplace m e.1 e.2) acc) ∧
        (l.foldl (fun m e => emplace m e.1 e.2) acc).Perm (acc ++ l) := by
  induction l with
  | nil => intro acc hacc _; simpa using hacc
  | cons e t ih =>
    intro acc hacc hnd
    simp only [List.foldl_cons]
    have hk : e.1 ∉ acc.map Prod.fst := by
      intro hmem
      have := (List.nodup_append.1 hnd).2.2
      exact this hmem (by simp)
    have hperm := emplace_perm e.2 hk
    have hnd2 : ((emplace acc e.1 e.2).map Prod.fst ++ t.map Prod.fst).Nodup := by
      have h1 : ((emplace acc e.1 e.2).map Prod.fst ++ t.map Prod.fst).Perm
          (acc.map Prod.fst ++ (e :: t).map Prod.fst) := by
        have := (hperm.map Prod.fst).append_right (t.map Prod.fst)
        refine this.trans ?_
        simp only [List.map_cons, List.cons_append]
        exact (List.perm_middle).symm
      exact h1.nodup_iff.2 hnd
    obtain ⟨ho, hp⟩ := ih _ (emplace_ordered hacc _ _) hnd2
    refine ⟨ho, hp.trans ?_⟩
    refine (hperm.append_right t).trans ?_
    simp only [List.cons_append]
    exact (List.perm_middle).symm

theorem eq_of_perm_of_ordered {a b : BeliefType} (hperm : a.Perm b) (ha : Ordered a)
    (hb : Ordered b) : a = b := by
  have : IsAntisymm (StateType × ℚ) (fun x y => x.1 < y.1) :=
    ⟨fun x y h1 h2 => absurd h1 (Nat.lt_asymm h2)⟩
  exact List.eq_of_perm_of_sorted hperm ha hb

theorem ofEntries_perm {ea eb : List (StateType × ℚ)} (hnd : (ea.map Prod.fst).Nodup)
    (hperm : ea.Perm eb) : ofEntries ea = ofEntries eb := by
  have ha := foldl_emplace_spec ea [] List.Pairwise.nil (by simpa using hnd)
  have hb := foldl_emplace_spec eb [] List.Pairwise.nil
    (by simpa using (hperm.map Prod.fst).nodup_iff.1 hnd)
  refine eq_of_perm_of_ordered ?_ ha.1 hb.1
  exact (ha.2.trans (by simpa using hperm)).trans hb.2.symm

end FlatMap

/-! ## The sorted set of diffs -/

theorem mem_sortedDiffsEmplace {l : List FreudenthalDiff} {d e : FreudenthalDiff}
    (h : e ∈ sortedDiffsEmplace l d) : e = d ∨ e ∈ l := by
  induction l with
  | nil => simpa [sortedDiffsEmplace] using h
  | cons c t ih =>
    simp only [sortedDiffsEmplace] at h
    split_ifs at h with h1 h2
    · simpa using h
    · rcases List.mem_cons.1 h with h | h
      · exact Or.inr (h ▸ List.mem_cons_self _ _)
      · rcases ih h with h | h
        · exact Or.inl h
        · exact Or.inr (List.mem_cons_of_mem _ h)
    · exact Or.inr h

theorem FreudenthalDiff.diff_le_of_gt {a b : FreudenthalDiff} (h : a.gt b = true) :
    b.diff ≤ a.diff := by
  unfold FreudenthalDiff.gt at h
  split_ifs at h with h1
  · exact le_of_lt (by simpa using h)
  · exact le_of_eq (not_not.1 h1).symm

theorem FreudenthalDiff.diff_le_of_not_gt {a b : FreudenthalDiff} (h : ¬ a.gt b = true) :
    a.diff ≤ b.diff := by
  unfold FreudenthalDiff.gt at h
  split_ifs at h with h1
  · exact not_lt.1 (by simpa using h)
  · exact le_of_eq (not_not.1 h1)

theorem sortedDiffsEmplace_sorted {l : List FreudenthalDiff} (hl : DiffSorted l)
    (d : FreudenthalDiff) : DiffSorted (sortedDiffsEmplace l d) := by
  induction l with
  | nil => simp [sortedDiffsEmplace, DiffSorted]
  | cons c t ih =>
    have hl2 := List.pairwise_cons.1 hl
    simp only [sortedDiffsEmplace]
    split_ifs with h1 h2
    · refine List.pairwise_cons.2 ⟨?_, hl⟩
      intro e he
      rcases List.mem_cons.1 he with he | he
      · subst he; exact FreudenthalDiff.diff_le_of_gt h1
      · exact le_trans (hl2.1 e he) (FreudenthalDiff.diff_le_of_gt h1)
    · refine List.pairwise_cons.2 ⟨?_, ih hl2.2⟩
      intro e he
      rcases mem_sortedDiffsEmplace he with he | he
      · subst he; exact FreudenthalDiff.diff_le_of_gt h2
      · exact hl2.1 e he
    · exact hl

theorem sortedDiffsEmplace_perm {l : List FreudenthalDiff} {d : FreudenthalDiff}
    (hd : ∀ c ∈ l, c.dimension ≠ d.dimension) : (sortedDiffsEmplace l d).Perm (d :: l) := by
  induction l with
  | nil => simp [sortedDiffsEmplace]
  | cons c t ih =>
    simp only [sortedDiffsEmplace]
    split_ifs with h1 h2
    · exact List.Perm.refl _
    · exact ((ih (fun e he => hd e (List.mem_cons_of_mem _ he))).cons _).trans
        (List.Perm.swap _ _ _)
    · exfalso
      have hne := hd c (List.mem_cons_self _ _)
      unfold FreudenthalDiff.gt at h1 h2
      by_cases hdiff : d.diff = c.diff
      · have hdiff2 : c.diff = d.diff := hdiff.symm
        simp only [hdiff, ne_eq, not_true_eq_false, if_false, decide_eq_true_eq] at h1
        simp only [hdiff2, ne_eq, not_true_eq_false, if_false, decide_eq_true_eq] at h2
        exact hne (le_antisymm (not_lt.1 h1) (not_lt.1 h2))
      · have hdiff2 : ¬ c.diff = d.diff := fun h => hdiff h.symm
        simp only [hdiff, hdiff2, ne_eq, not_false_eq_true, if_true, decide_eq_true_eq] at h1 h2
        rcases lt_or_gt_of_ne hdiff with h | h
        · exact h2 h
        · exact h1 h

theorem foldl_sortedDiffsEmplace_spec (ds : List FreudenthalDiff) :
    ∀ l : List FreudenthalDiff, DiffSorted l →
      ((l ++ ds).map FreudenthalDiff.dimension).Nodup →
      DiffSorted (ds.foldl sortedDiffsEmplace l) ∧ (ds.foldl sortedDiffsEmplace l).Perm (l ++ ds) := by
  induction ds with
  | nil => intro l hl _; simpa using hl
  | cons d t ih =>
    intro l hl hnd
    simp only [List.foldl_cons]
    have hd : ∀ c ∈ l, c.dimension ≠ d.dimension := by
      intro c hc heq
      rw [List.map_append, List.nodup_append] at hnd
      exact hnd.2.2 (List.mem_map_of_mem _ hc) (heq ▸ by simp)
    have hperm := sortedDiffsEmplace_perm hd
    have hperm2 : (sortedDiffsEmplace l d ++ t).Perm (l ++ d :: t) :=
      (hperm.append_right t).trans (by simpa using (List.perm_middle).symm)
    obtain ⟨h1, h2⟩ := ih _ (sortedDiffsEmplace_sorted hl d)
      ((hperm2.map _).nodup_iff.2 hnd)
    exact ⟨h1, h2.trans hperm2⟩

theorem diffsFrom_dimensions (convResolution : ℚ) (b : BeliefType) :
    ∀ (j : Nat) (x : ℚ),
      (diffsFrom convResolution j x b).map FreudenthalDiff.dimension = List.range' j b.length := by
  induction b with
  | nil => intro j x; rfl
  | cons e t ih =>
    intro j x
    simp only [diffsFrom, List.map_cons, List.length_cons, List.range'_succ, ih]

theorem diffsFrom_length (convResolution : ℚ) (b : BeliefType) (j : Nat) (x : ℚ) :
    (diffsFrom convResolution j x b).length = b.length := by
  have := congrArg List.length (diffsFrom_dimensions convResolution b j x)
  simpa using this

theorem diffsFrom_bounds (convResolution : ℚ) (b : BeliefType) :
    ∀ (j : Nat) (x : ℚ), ∀ d ∈ diffsFrom convResolution j x b, 0 ≤ d.diff ∧ d.diff < 1 := by
  induction b with
  | nil => intro j x d hd; simp [diffsFrom] at hd
  | cons e t ih =>
    intro j x d hd
    simp only [diffsFrom, List.mem_cons] at hd
    rcases hd with hd | hd
    · subst hd
      simp only [floorValue]
      exact ⟨sub_nonneg.2 (Int.floor_le x), by linarith [Int.lt_floor_add_one x]⟩
    · exact ih _ _ d hd

theorem triangulationInit_spec (convResolution : ℚ) (b : BeliefType) :
    ∀ st : TriangulationInit,
      (b.foldl (triangulationInitStep convResolution) st).qsRow =
          st.qsRow ++ (xsFrom convResolution st.x b).map floorValue ∧
        (b.foldl (triangulationInitStep convResolution) st).toOriginalIndicesMap =
          st.toOriginalIndicesMap ++ b.map Prod.fst ∧
        (b.foldl (triangulationInitStep convResolution) st).sorted_diffs =
          (diffsFrom convResolution st.toOriginalIndicesMap.length st.x b).foldl
            sortedDiffsEmplace st.sorted_diffs := by
  induction b with
  | nil => intro st; simp [xsFrom, diffsFrom]
  | cons e t ih =>
    intro st
    simp only [List.foldl_cons]
    obtain ⟨h1, h2, h3⟩ := ih (triangulationInitStep convResolution st e)
    refine ⟨?_, ?_, ?_⟩
    · rw [h1]; simp [triangulationInitStep, xsFrom]
    · rw [h2]; simp [triangulationInitStep]
    · rw [h3]; simp [triangulationInitStep, diffsFrom]

/-! ## Canonical storage: `getOrAddBeliefId` -/

theorem findBeliefId_append_of_eq_none (l₁ l₂ : List (BeliefType × BeliefId)) (k : BeliefType)
    (h : findBeliefId l₁ k = none) : findBeliefId (l₁ ++ l₂) k = findBeliefId l₂ k := by
  induction l₁ with
  | nil => rfl
  | cons e t ih =>
    obtain ⟨a, b⟩ := e
    simp only [List.cons_append, findBeliefId] at h ⊢
    split_ifs at h ⊢ with hka
    exact ih h

theorem findBeliefId_append_of_eq_some (l₁ l₂ : List (BeliefType × BeliefId)) (k : BeliefType)
    (v : BeliefId) (h : findBeliefId l₁ k = some v) : findBeliefId (l₁ ++ l₂) k = some v := by
  induction l₁ with
  | nil => simp [findBeliefId] at h
  | cons e t ih =>
    obtain ⟨a, b⟩ := e
    simp only [List.cons_append, findBeliefId] at h ⊢
    split_ifs at h ⊢ with hka
    · exact h
    · exact ih h

namespace BeliefManager

theorem getOrAddBeliefId_of_lookup_some (m : BeliefManager) (belief : BeliefType) (id : BeliefId)
    (h : findBeliefId m.beliefToIdMap belief = some id) : m.getOrAddBeliefId belief = (m, id) := by
  simp [getOrAddBeliefId, h]

theorem getOrAddBeliefId_of_lookup_none (m : BeliefManager) (belief : BeliefType)
    (h : findBeliefId m.beliefToIdMap belief = none) :
    m.getOrAddBeliefId belief =
      ({ m with
          beliefs := m.beliefs ++ [belief]
          beliefToIdMap := m.beliefToIdMap ++ [(belief, m.beliefs.length)] },
        m.beliefs.length) := by
  simp [getOrAddBeliefId, h]

theorem getOrAddBeliefId_pomdp (m : BeliefManager) (belief : BeliefType) :
    (m.getOrAddBeliefId belief).1.pomdp = m.pomdp := by
  unfold getOrAddBeliefId; split <;> rfl

theorem getOrAddBeliefId_cc (m : BeliefManager) (belief : BeliefType) :
    (m.getOrAddBeliefId belief).1.cc = m.cc := by
  unfold getOrAddBeliefId; split <;> rfl

theorem WF.lookup_none_iff {m : BeliefManager} (hwf : m.WF) (belief : BeliefType) :
    findBeliefId m.beliefToIdMap belief = none ↔ belief ∉ m.beliefs := by
  constructor
  · intro h hmem
    obtain ⟨i, hi, hb⟩ := List.getElem_of_mem hmem
    have : m.beliefs[i]? = some belief := by simp [List.getElem?_eq_getElem hi, hb]
    rw [← hwf.1, h] at this
    cases this
  · intro h
    cases hl : findBeliefId m.beliefToIdMap belief with
    | none => rfl
    | some id =>
      exfalso
      apply h
      have := (hwf.1 belief id).1 hl
      exact List.getElem?_mem this

theorem WF.getOrAddBeliefId {m : BeliefManager} (hwf : m.WF) (belief : BeliefType) :
    (m.getOrAddBeliefId belief).1.WF := by
  cases hl : findBeliefId m.beliefToIdMap belief with
  | some id => rw [getOrAddBeliefId_of_lookup_some m belief id hl]; exact hwf
  | none =>
    rw [getOrAddBeliefId_of_lookup_none m belief hl]
    have hnot := (hwf.lookup_none_iff belief).1 hl
    refine ⟨?_, ?_⟩
    · intro b id
      show findBeliefId (m.beliefToIdMap ++ [(belief, m.beliefs.length)]) b = some id ↔
        (m.beliefs ++ [belief])[id]? = some b
      cases hb : findBeliefId m.beliefToIdMap b with
      | some j =>
        rw [findBeliefId_append_of_eq_some _ _ _ _ hb]
        have hj := (hwf.1 b j).1 hb
        have hjlt : j < m.beliefs.length := by
          by_contra hge
          rw [List.getElem?_eq_none (Nat.le_of_not_lt hge)] at hj
          cases hj
        constructor
        · intro h
          cases h
          rw [List.getElem?_append_left hjlt]; exact hj
        · intro h
          have hbne : b ≠ belief := by
            rintro rfl; exact hnot (List.getElem?_mem hj)
          by_cases hid : id < m.beliefs.length
          · rw [List.getElem?_append_left hid] at h
            have := (hwf.1 b id).2 h
            rw [hb] at this; exact this
          · exfalso
            rcases Nat.lt_or_ge m.beliefs.length id with hgt | hle
            · rw [List.getElem?_eq_none (by simp; omega)] at h; cases h
            · have : id = m.beliefs.length := by omega
              subst this
              simp at h
              exact hbne h.symm
      | none =>
        rw [findBeliefId_append_of_eq_none _ _ _ hb]
        have hbnot := (hwf.lookup_none_iff b).1 hb
        simp only [findBeliefId]
        by_cases hbe : b = belief
        · subst hbe
          simp only [if_true]
          constructor
          · intro h; cases h; simp
          · intro h
            by_cases hid : id < m.beliefs.length
            · rw [List.getElem?_append_left hid] at h
              exact absurd (List.getElem?_mem h) hbnot
            · rcases Nat.lt_or_ge m.beliefs.length id with hgt | hle
              · rw [List.getElem?_eq_none (by simp; omega)] at h; cases h
              · have : id = m.beliefs.length := by omega
                rw [this]
        · simp only [if_neg hbe]
          constructor
          · intro h; cases h
          · intro h
            exfalso
            by_cases hid : id < m.beliefs.length
            · rw [List.getElem?_append_left hid] at h
              exact hbnot (List.getElem?_mem h)
            · rcases Nat.lt_or_ge m.beliefs.length id with hgt | hle
              · rw [List.getElem?_eq_none (by simp; omega)] at h; cases h
              · have : id = m.beliefs.length := by omega
                subst this
                simp at h
                exact hbe h.symm
    · show (m.beliefToIdMap ++ [(belief, m.beliefs.length)]).length = (m.beliefs ++ [belief]).length
      simp [hwf.2]

theorem getOrAddBeliefId_stored {m : BeliefManager} (hwf : m.WF) (belief : BeliefType) :
    (m.getOrAddBeliefId belief).1.beliefs[(m.getOrAddBeliefId belief).2]? = some belief := by
  cases hl : findBeliefId m.beliefToIdMap belief with
  | some id =>
    rw [getOrAddBeliefId_of_lookup_some m belief id hl]
    exact (hwf.1 belief id).1 hl
  | none =>
    rw [getOrAddBeliefId_of_lookup_none m belief hl]
    show (m.beliefs ++ [belief])[m.beliefs.length]? = some belief
    simp

theorem getOrAddBeliefId_beliefs (m : BeliefManager) (belief : BeliefType) :
    ∃ t, (m.getOrAddBeliefId belief).1.beliefs = m.beliefs ++ t := by
  cases hl : findBeliefId m.beliefToIdMap belief with
  | some id =>
    rw [getOrAddBeliefId_of_lookup_some m belief id hl]
    exact ⟨[], by simp⟩
  | none =>
    rw [getOrAddBeliefId_of_lookup_none m belief hl]
    exact ⟨[belief], rfl⟩

theorem getOrAddBeliefId_of_stored {m : BeliefManager} (hwf : m.WF) (id : Nat)
    (belief : BeliefType) (h : m.beliefs[id]? = some belief) :
    m.getOrAddBeliefId belief = (m, id) :=
  getOrAddBeliefId_of_lookup_some m belief id ((hwf.1 belief id).2 h)

theorem isEqualEntries_refl (cc : ConstantsComparator) (hp : 0 ≤ cc.precision)
    (a : BeliefType) : isEqualEntries cc a a = true := by
  induction a with
  | nil => rfl
  | cons e t ih => simp [isEqualEntries, ConstantsComparator.isEqual, hp, ih]

theorem isEqual_refl (m : BeliefManager) (hp : 0 ≤ m.cc.precision) (a : BeliefType) :
    m.isEqual a a = true := by
  simp [isEqual, isEqualEntries_refl m.cc hp a]

theorem eq_of_isEqualEntries (cc : ConstantsComparator) (hp : cc.precision = 0) :
    ∀ (a b : BeliefType), a.length = b.length → isEqualEntries cc a b = true → a = b := by
  intro a
  induction a with
  | nil =>
    intro b hlen _
    cases b with
    | nil => rfl
    | cons _ _ => simp at hlen
  | cons e t ih =>
    intro b hlen h
    cases b with
    | nil => simp at hlen
    | cons f u =>
      obtain ⟨k, v⟩ := e
      obtain ⟨k2, v2⟩ := f
      simp only [isEqualEntries, ConstantsComparator.isEqual, hp] at h
      by_cases hk : k = k2
      · subst hk
        by_cases hv : |v - v2| ≤ 0
        · have hvv : v = v2 := by
            have := abs_nonpos_iff.1 hv
            linarith
          subst hvv
          simp at h
          rw [ih u (by simpa using hlen) h]
        · simp [hv] at h
      · simp [hk] at h

theorem eq_of_isEqual (m : BeliefManager) (hp : m.cc.precision = 0) (a b : BeliefType)
    (h : m.isEqual a b = true) : a = b := by
  unfold isEqual at h
  by_cases hlen : a.length = b.length
  · simp only [hlen, ne_eq, not_true_eq_false, if_false] at h
    exact eq_of_isEqualEntries m.cc hp a b hlen h
  · simp [hlen] at h

theorem getOrAddBeliefId_twice (m : BeliefManager) (a : BeliefType) :
    ((m.getOrAddBeliefId a).1.getOrAddBeliefId a).2 = (m.getOrAddBeliefId a).2 := by
  cases hl : findBeliefId m.beliefToIdMap a with
  | some id =>
    rw [getOrAddBeliefId_of_lookup_some m a id hl]
    show (m.getOrAddBeliefId a).2 = id
    rw [getOrAddBeliefId_of_lookup_some m a id hl]
  | none =>
    rw [getOrAddBeliefId_of_lookup_none m a hl]
    apply congrArg Prod.snd (getOrAddBeliefId_of_lookup_some _ a m.beliefs.length _)
    show findBeliefId (m.beliefToIdMap ++ [(a, m.beliefs.length)]) a = some m.beliefs.length
    rw [findBeliefId_append_of_eq_none _ _ _ hl]
    exact if_pos rfl

/-- Claim C3 fails as stated: with comparator precision `1/10` the beliefs
`{s0: 1/2, s1: 1/2}` and `{s0: 11/20, s1: 9/20}` are content-equal under `isEqual`,
but `getOrAddBeliefId` gives them the ids `0` and `1`: the reverse index compares
keys exactly. -/
theorem getOrAddBeliefId_tolerance_counterexample :
    toleranceExample.isEqual [(0, 1 / 2), (1, 1 / 2)] [(0, 11 / 20), (1, 9 / 20)] = true ∧
      ((toleranceExample.getOrAddBeliefId [(0, 1 / 2), (1, 1 / 2)]).1.getOrAddBeliefId
          [(0, 11 / 20), (1, 9 / 20)]).2 ≠
        (toleranceExample.getOrAddBeliefId [(0, 1 / 2), (1, 1 / 2)]).2 := by
  constructor
  · simp only [isEqual, isEqualEntries, ConstantsComparator.isEqual, toleranceExample, fresh]
    norm_num [abs_le]
  · have h2 : findBeliefId
        (toleranceExample.getOrAddBeliefId [(0, 1 / 2), (1, 1 / 2)]).1.beliefToIdMap
        [(0, 11 / 20), (1, 9 / 20)] = none := by
      rw [getOrAddBeliefId_of_lookup_none toleranceExample _ rfl]
      show findBeliefId [([(0, 1 / 2), (1, 1 / 2)], 0)] [(0, 11 / 20), (1, 9 / 20)] = none
      norm_num [findBeliefId]
    rw [getOrAddBeliefId_of_lookup_none _ _ h2,
      getOrAddBeliefId_of_lookup_none toleranceExample _ rfl]
    simp [toleranceExample, fresh]

/-- Claim C3, amended to exact content equality: when `isEqual(a, b)` holds at
comparator precision zero (same support states, exactly equal weights),
`getOrAddBeliefId(a)` followed by `getOrAddBeliefId(b)` returns the same id, in every
manager state; and the contents, hence the ids, do not depend on the order in
which the entries were inserted into the flat maps. -/
theorem getOrAddBeliefId_same_id_of_isEqual (m : BeliefManager) (hp : m.cc.precision = 0) :
    (∀ a b : BeliefType, m.isEqual a b = true →
        ((m.getOrAddBeliefId a).1.getOrAddBeliefId b).2 = (m.getOrAddBeliefId a).2) ∧
      (∀ ea eb : List (StateType × ℚ), (ea.map Prod.fst).Nodup → ea.Perm eb →
        m.isEqual (FlatMap.ofEntries ea) (FlatMap.ofEntries eb) = true ∧
        ((m.getOrAddBeliefId (FlatMap.ofEntries ea)).1.getOrAddBeliefId
            (FlatMap.ofEntries eb)).2 = (m.getOrAddBeliefId (FlatMap.ofEntries ea)).2) := by
  have h1 : ∀ a b : BeliefType, m.isEqual a b = true →
      ((m.getOrAddBeliefId a).1.getOrAddBeliefId b).2 = (m.getOrAddBeliefId a).2 := by
    intro a b h
    rw [← eq_of_isEqual m hp a b h]
    exact getOrAddBeliefId_twice m a
  refine ⟨h1, ?_⟩
  intro ea eb hnd hperm
  have heq : m.isEqual (FlatMap.ofEntries ea) (FlatMap.ofEntries eb) = true := by
    rw [← FlatMap.ofEntries_perm hnd hperm]
    exact isEqual_refl m (by rw [hp]) _
  exact ⟨heq, h1 _ _ heq⟩

/-- Witness for `getOrAddBeliefId_same_id_of_isEqual`: a manager with precision zero. -/
theorem getOrAddBeliefId_same_id_of_isEqual_witness :
    (fresh ⟨[0, 1], [[(0, 1)]], [0], [0]⟩ 0).cc.precision = 0 ∧
    ((∀ a b : BeliefType, (fresh ⟨[0, 1], [[(0, 1)]], [0], [0]⟩ 0).isEqual a b = true →
        (((fresh ⟨[0, 1], [[(0, 1)]], [0], [0]⟩ 0).getOrAddBeliefId a).1.getOrAddBeliefId b).2 =
          ((fresh ⟨[0, 1], [[(0, 1)]], [0], [0]⟩ 0).getOrAddBeliefId a).2) ∧
      (∀ ea eb : List (StateType × ℚ), (ea.map Prod.fst).Nodup → ea.Perm eb →
        (fresh ⟨[0, 1], [[(0, 1)]], [0], [0]⟩ 0).isEqual (FlatMap.ofEntries ea)
            (FlatMap.ofEntries eb) = true ∧
        (((fresh ⟨[0, 1], [[(0, 1)]], [0], [0]⟩ 0).getOrAddBeliefId
            (FlatMap.ofEntries ea)).1.getOrAddBeliefId (FlatMap.ofEntries eb)).2 =
          ((fresh ⟨[0, 1], [[(0, 1)]], [0], [0]⟩ 0).getOrAddBeliefId (FlatMap.ofEntries ea)).2)) :=
  ⟨rfl, getOrAddBeliefId_same_id_of_isEqual _ rfl⟩

theorem fresh_WF (pomdp : Pomdp) (precision : ℚ) : (fresh pomdp precision).WF := by
  refine ⟨?_, rfl⟩
  intro b id
  simp [fresh, findBeliefId]

theorem getOrAddBeliefId_stored_later {m : BeliefManager} (belief : BeliefType) (id : Nat)
    (b : BeliefType) (h : m.beliefs[id]? = some b) :
    (m.getOrAddBeliefId belief).1.beliefs[id]? = some b := by
  obtain ⟨t, ht⟩ := getOrAddBeliefId_beliefs m belief
  have hid : id < m.beliefs.length := by
    by_contra hge
    rw [List.getElem?_eq_none (Nat.le_of_not_lt hge)] at h
    cases h
  rw [ht, List.getElem?_append_left hid]
  exact h

/-- Claim C9: contents that are not content-equal under `isEqual` (a different
support, or a weight that differs by more than the comparator precision) get
different ids from `getOrAddBeliefId`, in every consistent manager state. -/
theorem getOrAddBeliefId_ne_of_not_isEqual (m : BeliefManager) (hwf : m.WF)
    (hp : 0 ≤ m.cc.precision) (a b : BeliefType) (h : m.isEqual a b = false) :
    ((m.getOrAddBeliefId a).1.getOrAddBeliefId b).2 ≠ (m.getOrAddBeliefId a).2 := by
  have hab : a ≠ b := by
    rintro rfl
    rw [isEqual_refl m hp a] at h
    cases h
  intro heq
  have ha := getOrAddBeliefId_stored hwf a
  have hb := getOrAddBeliefId_stored (hwf.getOrAddBeliefId a) b
  have ha2 := getOrAddBeliefId_stored_later (m := (m.getOrAddBeliefId a).1) b _ a ha
  rw [heq, ha2] at hb
  exact hab (Option.some.inj hb)

/-- Witness for `getOrAddBeliefId_ne_of_not_isEqual`: two Dirac beliefs on different
states in an empty manager. -/
theorem getOrAddBeliefId_ne_of_not_isEqual_witness :
    (fresh ⟨[0, 1, 2], [[(0, 1)], [(1, 1)]], [0, 0], [0]⟩ 0).WF ∧
    0 ≤ (fresh ⟨[0, 1, 2], [[(0, 1)], [(1, 1)]], [0, 0], [0]⟩ 0).cc.precision ∧
    (fresh ⟨[0, 1, 2], [[(0, 1)], [(1, 1)]], [0, 0], [0]⟩ 0).isEqual [(0, 1)] [(1, 1)] = false ∧
    (((fresh ⟨[0, 1, 2], [[(0, 1)], [(1, 1)]], [0, 0], [0]⟩ 0).getOrAddBeliefId
        [(0, 1)]).1.getOrAddBeliefId [(1, 1)]).2 ≠
      ((fresh ⟨[0, 1, 2], [[(0, 1)], [(1, 1)]], [0, 0], [0]⟩ 0).getOrAddBeliefId [(0, 1)]).2 :=
  ⟨fresh_WF _ _, le_refl _, by simp [isEqual, isEqualEntries],
    getOrAddBeliefId_ne_of_not_isEqual _ (fresh_WF _ _) (le_refl _) _ _
      (by simp [isEqual, isEqualEntries])⟩

/-- Claim C10: `getOrAddBeliefId` performs no insertion for stored content (it
returns the id under which the content is stored and leaves the manager, hence
the table and the reverse index, unchanged) and exactly one insertion otherwise
(the content is appended to the table, the returned id is the number of beliefs
before the call, the reverse index gains the one entry for it, and every
previously stored belief keeps its id). -/
theorem getOrAddBeliefId_frame (m : BeliefManager) (hwf : m.WF) (belief : BeliefType) :
    (belief ∈ m.beliefs →
        (m.getOrAddBeliefId belief).1 = m ∧
          m.beliefs[(m.getOrAddBeliefId belief).2]? = some belief) ∧
      (belief ∉ m.beliefs →
        (m.getOrAddBeliefId belief).2 = m.beliefs.length ∧
          (m.getOrAddBeliefId belief).1.beliefs = m.beliefs ++ [belief] ∧
          (m.getOrAddBeliefId belief).1.beliefToIdMap =
            m.beliefToIdMap ++ [(belief, m.beliefs.length)] ∧
          ∀ (id : Nat) (b : BeliefType), m.beliefs[id]? = some b →
            (m.getOrAddBeliefId belief).1.beliefs[id]? = some b) := by
  constructor
  · intro hmem
    obtain ⟨id, hid⟩ := List.mem_iff_getElem?.1 hmem
    rw [getOrAddBeliefId_of_stored hwf id belief hid]
    exact ⟨rfl, hid⟩
  · intro hnot
    have hl := (hwf.lookup_none_iff belief).2 hnot
    refine ⟨?_, ?_, ?_, ?_⟩
    · rw [getOrAddBeliefId_of_lookup_none m belief hl]
    · rw [getOrAddBeliefId_of_lookup_none m belief hl]
    · rw [getOrAddBeliefId_of_lookup_none m belief hl]
    · intro id b hb
      exact getOrAddBeliefId_stored_later belief id b hb

/-- Witness for `getOrAddBeliefId_frame`: a Dirac belief and an empty manager. -/
theorem getOrAddBeliefId_frame_witness :
    (fresh ⟨[0, 1], [[(0, 1)]], [0], [0]⟩ 0).WF ∧
    (([(0, 1)] ∈ (fresh ⟨[0, 1], [[(0, 1)]], [0], [0]⟩ 0).beliefs →
        ((fresh ⟨[0, 1], [[(0, 1)]], [0], [0]⟩ 0).getOrAddBeliefId [(0, 1)]).1 =
            fresh ⟨[0, 1], [[(0, 1)]], [0], [0]⟩ 0 ∧
          (fresh ⟨[0, 1], [[(0, 1)]], [0], [0]⟩ 0).beliefs[
              ((fresh ⟨[0, 1], [[(0, 1)]], [0], [0]⟩ 0).getOrAddBeliefId [(0, 1)]).2]? =
            some [(0, 1)]) ∧
      ([(0, 1)] ∉ (fresh ⟨[0, 1], [[(0, 1)]], [0], [0]⟩ 0).beliefs →
        ((fresh ⟨[0, 1], [[(0, 1)]], [0], [0]⟩ 0).getOrAddBeliefId [(0, 1)]).2 =
            (fresh ⟨[0, 1], [[(0, 1)]], [0], [0]⟩ 0).beliefs.length ∧
          ((fresh ⟨[0, 1], [[(0, 1)]], [0], [0]⟩ 0).getOrAddBeliefId [(0, 1)]).1.beliefs =
            (fresh ⟨[0, 1], [[(0, 1)]], [0], [0]⟩ 0).beliefs ++ [[(0, 1)]] ∧
          ((fresh ⟨[0, 1], [[(0, 1)]], [0], [0]⟩ 0).getOrAddBeliefId [(0, 1)]).1.beliefToIdMap =
            (fresh ⟨[0, 1], [[(0, 1)]], [0], [0]⟩ 0).beliefToIdMap ++
              [([(0, 1)], (fresh ⟨[0, 1], [[(0, 1)]], [0], [0]⟩ 0).beliefs.length)] ∧
          ∀ (id : Nat) (b : BeliefType),
            (fresh ⟨[0, 1], [[(0, 1)]], [0], [0]⟩ 0).beliefs[id]? = some b →
            ((fresh ⟨[0, 1], [[(0, 1)]], [0], [0]⟩ 0).getOrAddBeliefId [(0, 1)]).1.beliefs[id]? =
              some b)) :=
  ⟨fresh_WF _ _, getOrAddBeliefId_frame _ (fresh_WF _ _) _⟩

/-- Claim C7: for a registered belief with exactly one support state and every
resolution, `triangulateBelief(beliefId, resolution)` returns exactly one pair, whose
grid point is the id of that same belief and whose weight is one (and it leaves
the manager unchanged). -/
theorem triangulateBeliefId_dirac (m : BeliefManager) (hwf : m.WF) (beliefId : Nat)
    (hid : beliefId < m.getNumberOfBeliefIds) (h1 : (m.getBelief beliefId).length = 1)
    (resolution : Nat) :
    m.triangulateBeliefId beliefId resolution = (m, ⟨[beliefId], [1]⟩) := by
  have hstored : m.beliefs[beliefId]? = some (m.getBelief beliefId) := by
    unfold getBelief
    rw [List.getD_eq_getElem?_getD, List.getElem?_eq_getElem hid]
    rfl
  unfold triangulateBeliefId triangulateBelief
  simp only [h1, if_true]
  rw [getOrAddBeliefId_of_stored hwf beliefId _ hstored]

/-- Witness for `triangulateBeliefId_dirac`: the Dirac belief on state `0`, stored
under id `0`, at resolution `4`. -/
theorem triangulateBeliefId_dirac_witness :
    ((fresh ⟨[0, 1], [[(0, 1)]], [0], [0]⟩ 0).getOrAddBeliefId [(0, 1)]).1.WF ∧
    0 < ((fresh ⟨[0, 1], [[(0, 1)]], [0], [0]⟩ 0).getOrAddBeliefId
      [(0, 1)]).1.getNumberOfBeliefIds ∧
    ((((fresh ⟨[0, 1], [[(0, 1)]], [0], [0]⟩ 0).getOrAddBeliefId [(0, 1)]).1.getBelief
      0).length = 1) ∧
    ((fresh ⟨[0, 1], [[(0, 1)]], [0], [0]⟩ 0).getOrAddBeliefId [(0, 1)]).1.triangulateBeliefId 0 4 =
      (((fresh ⟨[0, 1], [[(0, 1)]], [0], [0]⟩ 0).getOrAddBeliefId [(0, 1)]).1, ⟨[0], [1]⟩) :=
  ⟨(fresh_WF _ _).getOrAddBeliefId _, by decide, by decide,
    triangulateBeliefId_dirac _ ((fresh_WF _ _).getOrAddBeliefId _) 0 (by decide) (by decide) 4⟩

theorem floorValue_natCast (n : Nat) : floorValue (n : ℚ) = n := by
  simp [floorValue]

theorem triangulateBelief_half_half_eval (m : BeliefManager) (hp0 : 0 ≤ m.cc.precision)
    (hp1 : m.cc.precision < 1) :
    m.triangulateBelief [(0, 1 / 2), (1, 1 / 2)] 2 =
      ((m.getOrAddBeliefId [(0, 1 / 2), (1, 1 / 2)]).1,
        ⟨[(m.getOrAddBeliefId [(0, 1 / 2), (1, 1 / 2)]).2], [1]⟩) := by
  have hz1 : m.cc.isZero 1 = false := by
    simp [ConstantsComparator.isZero, hp1]
  have hz0 : m.cc.isZero 0 = true := by
    simp [ConstantsComparator.isZero, hp0]
  have hfl2 : floorValue 2 = 2 := by simpa using floorValue_natCast 2
  have hfl1 : floorValue 1 = 1 := by simpa using floorValue_natCast 1
  have hx : (2 : ℚ) - 1 / 2 * 2 = 1 := by norm_num
  simp only [triangulateBelief, List.length_cons, List.length_nil, List.foldl_cons,
    List.foldl_nil, triangulationInitStep, Nat.cast_ofNat, hx, hfl2, hfl1, sub_self,
    List.nil_append, List.cons_append, sortedDiffsEmplace, FreudenthalDiff.gt]
  norm_num [triangulateLoop, hz1, hz0, computeGridPoint, List.range_succ, incrementAt,
    FlatMap.assign, getOrAddBeliefId_cc]

/-! ## The triangulation loop and the manager -/

theorem getBelief_of_stored {m : BeliefManager} {id : Nat} {b : BeliefType}
    (h : m.beliefs[id]? = some b) : m.getBelief id = b := by
  unfold getBelief
  rw [List.getD_eq_getElem?_getD, h]
  rfl

theorem stored_of_append {l t : List BeliefType} {id : Nat} {b : BeliefType}
    (h : l[id]? = some b) : (l ++ t)[id]? = some b := by
  have hid : id < l.length := by
    by_contra hge
    rw [List.getElem?_eq_none (Nat.le_of_not_lt hge)] at h
    cases h
  rw [List.getElem?_append_left hid]
  exact h

theorem triangulateLoop_cons (convResolution : ℚ) (toOrig : List StateType) (numEntries : Nat)
    (first : Bool) (previous current : FreudenthalDiff) (rest : List FreudenthalDiff)
    (qsRow : List ℚ) (m : BeliefManager) :
    triangulateLoop convResolution toOrig numEntries first previous (current :: rest) qsRow m =
      if m.cc.isZero (loopWeight first previous current) then
        triangulateLoop convResolution toOrig numEntries false current rest
          (loopRow first previous qsRow) m
      else
        ((triangulateLoop convResolution toOrig numEntries false current rest
            (loopRow first previous qsRow)
            (m.getOrAddBeliefId (computeGridPoint m.cc convResolution
              (loopRow first previous qsRow) toOrig numEntries)).1).1,
          ⟨(m.getOrAddBeliefId (computeGridPoint m.cc convResolution
              (loopRow first previous qsRow) toOrig numEntries)).2 ::
            (triangulateLoop convResolution toOrig numEntries false current rest
              (loopRow first previous qsRow)
              (m.getOrAddBeliefId (computeGridPoint m.cc convResolution
                (loopRow first previous qsRow) toOrig numEntries)).1).2.gridPoints,
           loopWeight first previous current ::
            (triangulateLoop convResolution toOrig numEntries false current rest
              (loopRow first previous qsRow)
              (m.getOrAddBeliefId (computeGridPoint m.cc convResolution
                (loopRow first previous qsRow) toOrig numEntries)).1).2.weights⟩) := rfl

theorem triangulationPoints_cons (cc : ConstantsComparator) (convResolution : ℚ)
    (toOrig : List StateType) (numEntries : Nat)
    (first : Bool) (previous current : FreudenthalDiff) (rest : List FreudenthalDiff)
    (qsRow : List ℚ) :
    triangulationPoints cc convResolution toOrig numEntries first previous (current :: rest)
        qsRow =
      if cc.isZero (loopWeight first previous current) then
        triangulationPoints cc convResolution toOrig numEntries false current rest
          (loopRow first previous qsRow)
      else
        (loopWeight first previous current,
            computeGridPoint cc convResolution (loopRow first previous qsRow) toOrig numEntries) ::
          triangulationPoints cc convResolution toOrig numEntries false current rest
            (loopRow first previous qsRow) := rfl

theorem triangulateLoop_spec (convResolution : ℚ) (toOrig : List StateType) (numEntries : Nat)
    (ds : List FreudenthalDiff) :
    ∀ (first : Bool) (previous : FreudenthalDiff) (qsRow : List ℚ) (m : BeliefManager),
      m.WF →
      (triangulateLoop convResolution toOrig numEntries first previous ds qsRow m).1.WF ∧
      (triangulateLoop convResolution toOrig numEntries first previous ds qsRow m).1.cc = m.cc ∧
      (triangulateLoop convResolution toOrig numEntries first previous ds qsRow m).1.pomdp =
        m.pomdp ∧
      (∃ t, (triangulateLoop convResolution toOrig numEntries first previous ds qsRow m).1.beliefs =
        m.beliefs ++ t) ∧
      (triangulateLoop convResolution toOrig numEntries first previous ds qsRow m).2.weights =
        (triangulationPoints m.cc convResolution toOrig numEntries first previous ds qsRow).map
          Prod.fst ∧
      List.Forall₂
        (fun (g : Nat) (p : ℚ × BeliefType) =>
          (triangulateLoop convResolution toOrig numEntries first previous ds qsRow
            m).1.beliefs[g]? = some p.2)
        (triangulateLoop convResolution toOrig numEntries first previous ds qsRow m).2.gridPoints
        (triangulationPoints m.cc convResolution toOrig numEntries first previous ds qsRow) := by
  induction ds with
  | nil =>
    intro first previous qsRow m hwf
    exact ⟨hwf, rfl, rfl, ⟨[], by simp [triangulateLoop]⟩, rfl, List.Forall₂.nil⟩
  | cons current rest ih =>
    intro first previous qsRow m hwf
    rw [triangulateLoop_cons, triangulationPoints_cons]
    by_cases hz : m.cc.isZero (loopWeight first previous current) = true
    · simp only [hz, if_true]
      exact ih false current _ m hwf
    · simp only [hz, if_false]
      have hwf1 := hwf.getOrAddBeliefId
        (computeGridPoint m.cc convResolution (loopRow first previous qsRow) toOrig numEntries)
      have hcc1 := getOrAddBeliefId_cc m
        (computeGridPoint m.cc convResolution (loopRow first previous qsRow) toOrig numEntries)
      have hp1 := getOrAddBeliefId_pomdp m
        (computeGridPoint m.cc convResolution (loopRow first previous qsRow) toOrig numEntries)
      obtain ⟨t1, ht1⟩ := getOrAddBeliefId_beliefs m
        (computeGridPoint m.cc convResolution (loopRow first previous qsRow) toOrig numEntries)
      have hst := getOrAddBeliefId_stored hwf
        (computeGridPoint m.cc convResolution (loopRow first previous qsRow) toOrig numEntries)
      obtain ⟨h1, h2, h3, ⟨t2, ht2⟩, h5, h6⟩ := ih false current
        (loopRow first previous qsRow) _ hwf1
      refine ⟨h1, h2.trans hcc1, h3.trans hp1, ⟨t1 ++ t2, ?_⟩, ?_, ?_⟩
      · exact ht2.trans (by rw [ht1, List.append_assoc])
      · show _ :: _ = _ :: _
        rw [h5, hcc1]
      · refine List.Forall₂.cons ?_ ?_
        · exact ht2 ▸ stored_of_append hst
        · rw [hcc1] at h6
          exact h6

theorem triangulateLoop_weights (convResolution : ℚ) (toOrig : List StateType)
    (numEntries : Nat) (ds : List FreudenthalDiff) :
    ∀ (first : Bool) (previous : FreudenthalDiff) (qsRow : List ℚ) (m : BeliefManager),
      (triangulateLoop convResolution toOrig numEntries first previous ds qsRow m).1.cc = m.cc ∧
      (triangulateLoop convResolution toOrig numEntries first previous ds qsRow m).2.weights =
        (triangulationPoints m.cc convResolution toOrig numEntries first previous ds qsRow).map
          Prod.fst ∧
      (triangulateLoop convResolution toOrig numEntries first previous ds qsRow
          m).2.gridPoints.length =
        (triangulateLoop convResolution toOrig numEntries first previous ds qsRow
          m).2.weights.length := by
  induction ds with
  | nil =>
    intro first previous qsRow m
    exact ⟨rfl, rfl, rfl⟩
  | cons current rest ih =>
    intro first previous qsRow m
    rw [triangulateLoop_cons, triangulationPoints_cons]
    by_cases hz : m.cc.isZero (loopWeight first previous current) = true
    · simp only [hz, if_true]
      exact ih false current _ m
    · simp only [hz, if_false]
      have hcc1 := getOrAddBeliefId_cc m
        (computeGridPoint m.cc convResolution (loopRow first previous qsRow) toOrig numEntries)
      obtain ⟨h1, h2, h3⟩ := ih false current (loopRow first previous qsRow)
        (m.getOrAddBeliefId
          (computeGridPoint m.cc convResolution (loopRow first previous qsRow) toOrig
            numEntries)).1
      refine ⟨h1.trans hcc1, ?_, ?_⟩
      · show _ :: _ = _ :: _
        rw [h2, hcc1]
      · show (_ :: _).length = (_ :: _).length
        rw [List.length_cons, List.length_cons, h3]

theorem triangulateBelief_eq_loop (m : BeliefManager) (belief : BeliefType) (resolution : Nat)
    (hn : belief.length ≠ 1) :
    m.triangulateBelief belief resolution =
      match ((diffsFrom (resolution : ℚ) 0 (resolution : ℚ) belief).foldl
          sortedDiffsEmplace []).getLast? with
      | none => (m, ⟨[], []⟩)
      | some previousSortedDiff =>
        triangulateLoop (resolution : ℚ) (belief.map Prod.fst) belief.length true
          previousSortedDiff
          ((diffsFrom (resolution : ℚ) 0 (resolution : ℚ) belief).foldl sortedDiffsEmplace [])
          ((xsFrom (resolution : ℚ) (resolution : ℚ) belief).map floorValue ++ [0]) m := by
  obtain ⟨h1, h2, h3⟩ :=
    triangulationInit_spec (resolution : ℚ) belief ⟨[], [], [], (resolution : ℚ)⟩
  unfold triangulateBelief
  simp only [hn, if_false]
  rw [h1, h2, h3]
  rfl

theorem getLast?_cons_eq_lastOf (previous : FreudenthalDiff) (ds : List FreudenthalDiff) :
    (previous :: ds).getLast? = some (lastOf previous ds) := by
  induction ds generalizing previous with
  | nil => rfl
  | cons c t ih =>
    rw [List.getLast?_cons_cons, ih]
    rfl

theorem lastOf_mem (previous : FreudenthalDiff) (ds : List FreudenthalDiff) :
    lastOf previous ds ∈ previous :: ds := by
  induction ds generalizing previous with
  | nil => simp [lastOf]
  | cons c t ih =>
    exact List.mem_cons_of_mem _ (ih c)

theorem lastOf_diff_le (previous : FreudenthalDiff) (ds : List FreudenthalDiff)
    (hs : DiffSorted (previous :: ds)) :
    ∀ e ∈ previous :: ds, (lastOf previous ds).diff ≤ e.diff := by
  induction ds generalizing previous with
  | nil =>
    intro e he
    simp only [List.mem_singleton] at he
    subst he
    exact le_refl _
  | cons c t ih =>
    intro e he
    have hs2 := List.pairwise_cons.1 hs
    rcases List.mem_cons.1 he with he | he
    · subst he
      exact hs2.1 _ (lastOf_mem c t)
    · exact ih c hs2.2 e he

theorem isZero_iff_of_precision_zero (cc : ConstantsComparator) (hp : cc.precision = 0)
    (w : ℚ) : cc.isZero w = true ↔ w = 0 := by
  simp [ConstantsComparator.isZero, hp]

theorem triangulationPoints_weights_rest (cc : ConstantsComparator) (hp : cc.precision = 0)
    (convResolution : ℚ) (toOrig : List StateType) (numEntries : Nat)
    (ds : List FreudenthalDiff) :
    ∀ (previous : FreudenthalDiff) (qsRow : List ℚ), DiffSorted (previous :: ds) →
      (∀ w ∈ (triangulationPoints cc convResolution toOrig numEntries false previous ds
          qsRow).map Prod.fst, 0 < w) ∧
      ((triangulationPoints cc convResolution toOrig numEntries false previous ds
          qsRow).map Prod.fst).sum = previous.diff - (lastOf previous ds).diff ∧
      (triangulationPoints cc convResolution toOrig numEntries false previous ds qsRow).length ≤
        ds.length := by
  induction ds with
  | nil =>
    intro previous qsRow _
    simp [triangulationPoints, lastOf]
  | cons current rest ih =>
    intro previous qsRow hs
    have hs2 := List.pairwise_cons.1 hs
    obtain ⟨h1, h2, h3⟩ := ih current (loopRow false previous qsRow) hs2.2
    have hle : current.diff ≤ previous.diff := hs2.1 _ (List.mem_cons_self _ _)
    rw [triangulationPoints_cons]
    have hw : loopWeight false previous current = previous.diff - current.diff := rfl
    by_cases hz : cc.isZero (loopWeight false previous current) = true
    · rw [if_pos hz]
      have h0 := (isZero_iff_of_precision_zero cc hp _).1 hz
      rw [hw] at h0
      refine ⟨h1, ?_, Nat.le_succ_of_le h3⟩
      rw [h2]
      show _ = previous.diff - (lastOf current rest).diff
      linarith
    · rw [if_neg hz]
      have h0 : loopWeight false previous current ≠ 0 :=
        fun h => hz ((isZero_iff_of_precision_zero cc hp _).2 h)
      rw [hw] at h0
      refine ⟨?_, ?_, ?_⟩
      · intro w hwmem
        simp only [List.map_cons, List.mem_cons] at hwmem
        rcases hwmem with hwmem | hwmem
        · rw [hwmem, hw]
          exact lt_of_le_of_ne (sub_nonneg.2 hle) (Ne.symm h0)
        · exact h1 w hwmem
      · simp only [List.map_cons, List.sum_cons]
        rw [h2, hw]
        show _ = previous.diff - (lastOf current rest).diff
        ring
      · simp only [List.length_cons]
        exact Nat.succ_le_succ h3

theorem sortedDiffs_spec (convResolution : ℚ) (belief : BeliefType) (x : ℚ) :
    DiffSorted ((diffsFrom convResolution 0 x belief).foldl sortedDiffsEmplace []) ∧
      ((diffsFrom convResolution 0 x belief).foldl sortedDiffsEmplace []).Perm
        (diffsFrom convResolution 0 x belief) := by
  have h := foldl_sortedDiffsEmplace_spec (diffsFrom convResolution 0 x belief) []
    List.Pairwise.nil
    (by
      rw [List.nil_append, diffsFrom_dimensions]
      exact List.nodup_range' 0 belief.length)
  simpa using h

theorem triangulationPoints_weights_first (cc : ConstantsComparator) (hp : cc.precision = 0)
    (convResolution : ℚ) (toOrig : List StateType) (numEntries : Nat)
    (s0 : FreudenthalDiff) (ds : List FreudenthalDiff) (qsRow : List ℚ)
    (hs : DiffSorted (s0 :: ds)) (hb : ∀ e ∈ s0 :: ds, 0 ≤ e.diff ∧ e.diff < 1) :
    (∀ w ∈ (triangulationPoints cc convResolution toOrig numEntries true (lastOf s0 ds)
        (s0 :: ds) qsRow).map Prod.fst, 0 < w) ∧
    ((triangulationPoints cc convResolution toOrig numEntries true (lastOf s0 ds)
        (s0 :: ds) qsRow).map Prod.fst).sum = 1 ∧
    1 ≤ (triangulationPoints cc convResolution toOrig numEntries true (lastOf s0 ds)
        (s0 :: ds) qsRow).length ∧
    (triangulationPoints cc convResolution toOrig numEntries true (lastOf s0 ds)
        (s0 :: ds) qsRow).length ≤ (s0 :: ds).length := by
  obtain ⟨h1, h2, h3⟩ := triangulationPoints_weights_rest cc hp convResolution toOrig
    numEntries ds s0 (loopRow true (lastOf s0 ds) qsRow) hs
  have hw : loopWeight true (lastOf s0 ds) s0 = (lastOf s0 ds).diff - s0.diff + 1 := rfl
  have hpos : 0 < loopWeight true (lastOf s0 ds) s0 := by
    rw [hw]
    have := (hb _ (lastOf_mem s0 ds)).1
    have := (hb s0 (List.mem_cons_self _ _)).2
    linarith
  have hz : ¬ cc.isZero (loopWeight true (lastOf s0 ds) s0) = true :=
    fun h => (ne_of_gt hpos) ((isZero_iff_of_precision_zero cc hp _).1 h)
  rw [triangulationPoints_cons, if_neg hz]
  refine ⟨?_, ?_, ?_, ?_⟩
  · intro w hwmem
    simp only [List.map_cons, List.mem_cons] at hwmem
    rcases hwmem with hwmem | hwmem
    · rw [hwmem]; exact hpos
    · exact h1 w hwmem
  · simp only [List.map_cons, List.sum_cons]
    rw [h2, hw]
    ring
  · simp
  · simp only [List.length_cons]
    exact Nat.succ_le_succ h3

/-- Claim C8: at comparator precision zero, `triangulateBelief(b, R)` for a belief with
`n ≥ 1` support states returns at least one and at most `n` (grid point, weight)
pairs, every returned weight is strictly positive, and the weights sum to
exactly one. -/
theorem triangulateBelief_weights (m : BeliefManager) (hp : m.cc.precision = 0)
    (belief : BeliefType) (hne : belief ≠ []) (resolution : Nat) :
    1 ≤ (m.triangulateBelief belief resolution).2.size ∧
      (m.triangulateBelief belief resolution).2.size ≤ belief.length ∧
      (m.triangulateBelief belief resolution).2.gridPoints.length =
        (m.triangulateBelief belief resolution).2.weights.length ∧
      (∀ w ∈ (m.triangulateBelief belief resolution).2.weights, 0 < w) ∧
      (m.triangulateBelief belief resolution).2.weights.sum = 1 := by
  by_cases hn : belief.length = 1
  · have : m.triangulateBelief belief resolution =
        ((m.getOrAddBeliefId belief).1, ⟨[(m.getOrAddBeliefId belief).2], [1]⟩) := by
      unfold triangulateBelief
      simp only [hn, if_true]
    rw [this]
    simp [Triangulation.size, hn]
  · obtain ⟨hsorted, hperm⟩ :=
      sortedDiffs_spec (resolution : ℚ) belief (resolution : ℚ)
    rw [triangulateBelief_eq_loop m belief resolution hn]
    have hlen := hperm.length_eq
    rw [diffsFrom_length] at hlen
    cases hds : (diffsFrom (resolution : ℚ) 0 (resolution : ℚ) belief).foldl
        sortedDiffsEmplace [] with
    | nil =>
      rw [hds] at hlen
      exact absurd (List.length_eq_zero.1 hlen.symm) hne
    | cons s0 ds =>
      rw [hds] at hsorted hperm hlen
      rw [getLast?_cons_eq_lastOf]
      have hb : ∀ e ∈ s0 :: ds, 0 ≤ e.diff ∧ e.diff < 1 := fun e he =>
        diffsFrom_bounds _ belief 0 _ e (hperm.mem_iff.1 he)
      obtain ⟨hcc, hw, hg⟩ := triangulateLoop_weights (resolution : ℚ) (belief.map Prod.fst)
        belief.length (s0 :: ds) true (lastOf s0 ds)
        ((xsFrom (resolution : ℚ) (resolution : ℚ) belief).map floorValue ++ [0]) m
      obtain ⟨h1, h2, h3, h4⟩ := triangulationPoints_weights_first m.cc hp (resolution : ℚ)
        (belief.map Prod.fst) belief.length s0 ds
        ((xsFrom (resolution : ℚ) (resolution : ℚ) belief).map floorValue ++ [0]) hsorted hb
      simp only [Triangulation.size]
      rw [hg, hw, List.length_map]
      exact ⟨h3, hlen ▸ h4, rfl, h1, h2⟩

/-! ## Reconstruction of the belief from its triangulation -/

theorem weight_assign (m : BeliefType) (k s : StateType) (v : ℚ) :
    FlatMap.weight (FlatMap.assign m k v) s = if s = k then v else FlatMap.weight m s := by
  induction m with
  | nil => simp [FlatMap.assign, FlatMap.weight]
  | cons e t ih =>
    obtain ⟨k2, v2⟩ := e
    simp only [FlatMap.assign]
    by_cases h1 : k < k2
    · rw [if_pos h1]
      simp only [FlatMap.weight]
    · rw [if_neg h1]
      by_cases h2 : k = k2
      · rw [if_pos h2]
        subst h2
        simp only [FlatMap.weight]
        by_cases hs : s = k
        · rw [if_pos hs, if_pos hs]
        · rw [if_neg hs, if_neg hs, if_neg hs]
      · rw [if_neg h2]
        simp only [FlatMap.weight, ih]
        by_cases hs2 : s = k2
        · have hsk : ¬ s = k := fun h => h2 (h.symm.trans hs2)
          rw [if_pos hs2, if_neg hsk, if_pos hs2]
        · rw [if_neg hs2, if_neg hs2]

theorem weight_computeGridPoint_aux (cc : ConstantsComparator) (hp : cc.precision = 0)
    (convResolution : ℚ) (qsRow : List ℚ) (toOrig : List StateType) (s : StateType) :
    ∀ n : Nat, (∀ i j : Nat, i < n → j < n → toOrig.getD i 0 = toOrig.getD j 0 → i = j) →
      FlatMap.weight (computeGridPoint cc convResolution qsRow toOrig n) s =
        coordSum toOrig s convResolution n (fun j => qsRow.getD j 0) := by
  intro n
  induction n with
  | zero => intro _; simp [computeGridPoint, coordSum, FlatMap.weight]
  | succ n ih =>
    intro hinj
    have ih2 := ih (fun i j hi hj h => hinj i j (Nat.lt_succ_of_lt hi) (Nat.lt_succ_of_lt hj) h)
    have hstep : computeGridPoint cc convResolution qsRow toOrig (n + 1) =
        if cc.isZero (qsRow.getD n 0 - qsRow.getD (n + 1) 0) then
          computeGridPoint cc convResolution qsRow toOrig n
        else FlatMap.assign (computeGridPoint cc convResolution qsRow toOrig n)
          (toOrig.getD n 0) ((qsRow.getD n 0 - qsRow.getD (n + 1) 0) / convResolution) := by
      simp only [computeGridPoint, List.range_succ, List.foldl_append, List.foldl_cons,
        List.foldl_nil]
    rw [hstep]
    unfold coordSum at ih2 ⊢
    rw [Finset.sum_range_succ, ← ih2]
    by_cases hs : toOrig.getD n 0 = s
    · have hzero : FlatMap.weight (computeGridPoint cc convResolution qsRow toOrig n) s = 0 := by
        rw [ih2]
        apply Finset.sum_eq_zero
        intro j hj
        have hjn : j < n := Finset.mem_range.1 hj
        have hne : toOrig.getD j 0 ≠ s := by
          intro h
          have := hinj j n (Nat.lt_succ_of_lt hjn) (Nat.lt_succ_self n) (h.trans hs.symm)
          exact absurd this (Nat.ne_of_lt hjn)
        rw [if_neg hne]
      rw [if_pos hs, hzero, zero_add]
      by_cases hz : cc.isZero (qsRow.getD n 0 - qsRow.getD (n + 1) 0) = true
      · rw [if_pos hz, hzero]
        rw [(isZero_iff_of_precision_zero cc hp _).1 hz]
        simp
      · rw [if_neg hz, weight_assign, if_pos hs.symm]
    · rw [if_neg hs, add_zero]
      by_cases hz : cc.isZero (qsRow.getD n 0 - qsRow.getD (n + 1) 0) = true
      · rw [if_pos hz]
      · rw [if_neg hz, weight_assign, if_neg (fun h => hs h.symm)]

theorem getD_incrementAt (q : List ℚ) :
    ∀ (d j : Nat), d < q.length → (incrementAt q d).getD j 0 = q.getD j 0 + unitRow d j := by
  induction q with
  | nil => intro d j hd; simp at hd
  | cons a t ih =>
    intro d j hd
    cases d with
    | zero =>
      cases j with
      | zero => simp [incrementAt, unitRow]
      | succ j => simp [incrementAt, unitRow]
    | succ d =>
      cases j with
      | zero => simp [incrementAt, unitRow]
      | succ j =>
        have := ih d j (by simpa using hd)
        simpa [incrementAt, unitRow] using this

theorem length_incrementAt (q : List ℚ) : ∀ d : Nat, (incrementAt q d).length = q.length := by
  induction q with
  | nil => intro d; rfl
  | cons a t ih =>
    intro d
    cases d with
    | zero => rfl
    | succ d => simp [incrementAt, ih d]

theorem coordSum_add (toOrig : List StateType) (s : StateType) (convResolution : ℚ) (n : Nat)
    (f g : Nat → ℚ) :
    coordSum toOrig s convResolution n (fun j => f j + g j) =
      coordSum toOrig s convResolution n f + coordSum toOrig s convResolution n g := by
  unfold coordSum
  rw [← Finset.sum_add_distrib]
  apply Finset.sum_congr rfl
  intro j _
  split_ifs
  · ring
  · ring

theorem coordSum_mul (toOrig : List StateType) (s : StateType) (convResolution : ℚ) (n : Nat)
    (c : ℚ) (f : Nat → ℚ) :
    coordSum toOrig s convResolution n (fun j => c * f j) =
      c * coordSum toOrig s convResolution n f := by
  unfold coordSum
  rw [Finset.mul_sum]
  apply Finset.sum_congr rfl
  intro j _
  split_ifs
  · ring
  · ring

theorem coordSum_loopRow (toOrig : List StateType) (s : StateType) (convResolution : ℚ)
    (n : Nat) (previous : FreudenthalDiff) (q : List ℚ) (hd : previous.dimension < q.length) :
    coordSum toOrig s convResolution n (fun j => (loopRow false previous q).getD j 0) =
      coordSum toOrig s convResolution n (fun j => q.getD j 0) +
        coordSum toOrig s convResolution n (unitRow previous.dimension) := by
  rw [← coordSum_add]
  congr 1
  funext j
  exact getD_incrementAt q previous.dimension j hd

theorem triangulationPoints_value_rest (cc : ConstantsComparator) (hp : cc.precision = 0)
    (convResolution : ℚ) (toOrig : List StateType) (n : Nat) (s : StateType)
    (hinj : ∀ i j : Nat, i < n → j < n → toOrig.getD i 0 = toOrig.getD j 0 → i = j)
    (ds : List FreudenthalDiff) :
    ∀ (previous : FreudenthalDiff) (q : List ℚ), q.length = n + 1 →
      (∀ e ∈ previous :: ds, e.dimension < n) →
      pointsValue s (triangulationPoints cc convResolution toOrig n false previous ds q) =
        (previous.diff - (lastOf previous ds).diff) *
            coordSum toOrig s convResolution n (fun j => q.getD j 0) +
          ((previous :: ds).map (fun t => (t.diff - (lastOf previous ds).diff) *
            coordSum toOrig s convResolution n (unitRow t.dimension))).sum := by
  induction ds with
  | nil =>
    intro previous q _ _
    simp [triangulationPoints, pointsValue, lastOf]
  | cons current rest ih =>
    intro previous q hq hdim
    have hdprev : previous.dimension < q.length := by
      rw [hq]
      exact Nat.lt_succ_of_lt (hdim previous (List.mem_cons_self _ _))
    have hq1 : (loopRow false previous q).length = n + 1 := by
      show (incrementAt q previous.dimension).length = n + 1
      rw [length_incrementAt, hq]
    have hrec := ih current (loopRow false previous q) hq1
      (fun e he => hdim e (List.mem_cons_of_mem _ he))
    have hrow := coordSum_loopRow toOrig s convResolution n previous q hdprev
    have hw : loopWeight false previous current = previous.diff - current.diff := rfl
    have hlast : lastOf previous (current :: rest) = lastOf current rest := rfl
    rw [triangulationPoints_cons, hlast]
    rw [hrow] at hrec
    by_cases hz : cc.isZero (loopWeight false previous current) = true
    · rw [if_pos hz, hrec]
      have h0 := (isZero_iff_of_precision_zero cc hp _).1 hz
      rw [hw] at h0
      have hpc : previous.diff = current.diff := by linarith
      simp only [List.map_cons, List.sum_cons]
      rw [hpc]
      ring
    · rw [if_neg hz]
      have hgp := weight_computeGridPoint_aux cc hp convResolution (loopRow false previous q)
        toOrig s n hinj
      simp only [pointsValue, List.map_cons, List.sum_cons] at hrec ⊢
      rw [hrec, hgp, hrow, hw]
      ring

theorem triangulationPoints_value_first (cc : ConstantsComparator) (hp : cc.precision = 0)
    (convResolution : ℚ) (toOrig : List StateType) (n : Nat) (s : StateType)
    (hinj : ∀ i j : Nat, i < n → j < n → toOrig.getD i 0 = toOrig.getD j 0 → i = j)
    (s0 : FreudenthalDiff) (ds : List FreudenthalDiff) (q : List ℚ) (hq : q.length = n + 1)
    (hdim : ∀ e ∈ s0 :: ds, e.dimension < n) :
    pointsValue s
        (triangulationPoints cc convResolution toOrig n true (lastOf s0 ds) (s0 :: ds) q) =
      coordSum toOrig s convResolution n (fun j => q.getD j 0) +
        ((s0 :: ds).map (fun t => (t.diff - (lastOf s0 ds).diff) *
          coordSum toOrig s convResolution n (unitRow t.dimension))).sum := by
  have hrec := triangulationPoints_value_rest cc hp convResolution toOrig n s hinj ds s0 q hq hdim
  have hw : loopWeight true (lastOf s0 ds) s0 = (lastOf s0 ds).diff - s0.diff + 1 := rfl
  have hrow : loopRow true (lastOf s0 ds) q = q := rfl
  rw [triangulationPoints_cons, hrow]
  by_cases hz : cc.isZero (loopWeight true (lastOf s0 ds) s0) = true
  · rw [if_pos hz, hrec]
    have h0 := (isZero_iff_of_precision_zero cc hp _).1 hz
    rw [hw] at h0
    have h1 : s0.diff - (lastOf s0 ds).diff = 1 := by linarith
    rw [h1, one_mul]
  · rw [if_neg hz]
    have hgp := weight_computeGridPoint_aux cc hp convResolution q toOrig s n hinj
    simp only [pointsValue, List.map_cons, List.sum_cons] at hrec ⊢
    rw [hrec, hgp, hw]
    ring

theorem sum_mul_coordSum_unitRow (toOrig : List StateType) (s : StateType) (convResolution : ℚ)
    (n : Nat) (l : List FreudenthalDiff) :
    (l.map (fun t => t.diff * coordSum toOrig s convResolution n (unitRow t.dimension))).sum =
      coordSum toOrig s convResolution n (diffRow l) := by
  induction l with
  | nil =>
    simp [coordSum, diffRow]
  | cons d t ih =>
    have hrow : diffRow (d :: t) = fun j => d.diff * unitRow d.dimension j + diffRow t j := by
      funext j
      simp [diffRow]
    rw [hrow, coordSum_add, coordSum_mul, List.map_cons, List.sum_cons, ih]

theorem getD_floor_row (xs : List ℚ) :
    ∀ j : Nat, (xs.map floorValue ++ [0]).getD j 0 = floorValue (xs.getD j 0) := by
  induction xs with
  | nil =>
    intro j
    cases j with
    | zero => simp [floorValue]
    | succ j => simp [floorValue]
  | cons x t ih =>
    intro j
    cases j with
    | zero => simp
    | succ j => simpa using ih j

theorem diffRow_diffsFrom (convResolution : ℚ) (b : BeliefType) :
    ∀ (j0 : Nat) (x : ℚ) (j : Nat),
      diffRow (diffsFrom convResolution j0 x b) j =
        if j0 ≤ j then
          (xsFrom convResolution x b).getD (j - j0) 0 -
            floorValue ((xsFrom convResolution x b).getD (j - j0) 0)
        else 0 := by
  induction b with
  | nil =>
    intro j0 x j
    simp [diffRow, diffsFrom, xsFrom, floorValue]
  | cons e t ih =>
    intro j0 x j
    have hstep : diffRow (diffsFrom convResolution j0 x (e :: t)) j =
        (x - floorValue x) * unitRow j0 j +
          diffRow (diffsFrom convResolution (j0 + 1) (x - e.2 * convResolution) t) j := by
      simp [diffRow, diffsFrom]
    rw [hstep, ih]
    rcases Nat.lt_trichotomy j j0 with hlt | heq | hgt
    · have h1 : ¬ j0 ≤ j := Nat.not_le.2 hlt
      have h2 : ¬ j0 + 1 ≤ j := fun h => h1 (Nat.le_of_succ_le h)
      have h3 : ¬ j = j0 := Nat.ne_of_lt hlt
      simp [unitRow, h1, h2, h3]
    · subst heq
      have h2 : ¬ j + 1 ≤ j := Nat.not_succ_le_self j
      simp [unitRow, h2, xsFrom]
    · have h1 : j0 ≤ j := Nat.le_of_lt hgt
      have h2 : j0 + 1 ≤ j := hgt
      have h3 : ¬ j = j0 := Nat.ne_of_gt hgt
      have h4 : j - j0 = (j - (j0 + 1)) + 1 := by omega
      rw [if_pos h1, if_pos h2, h4]
      simp [unitRow, h3, xsFrom]

theorem getD_xsFrom (convResolution : ℚ) (b : BeliefType) :
    ∀ (x : ℚ), x = convResolution * (b.map Prod.snd).sum → ∀ j : Nat,
      (xsFrom convResolution x b).getD j 0 = convResolution * ((b.drop j).map Prod.snd).sum := by
  induction b with
  | nil => intro x _ j; simp [xsFrom]
  | cons e t ih =>
    intro x hx j
    cases j with
    | zero => simpa [xsFrom] using hx
    | succ j =>
      have hx2 : x - e.2 * convResolution = convResolution * (t.map Prod.snd).sum := by
        rw [hx]
        simp only [List.map_cons, List.sum_cons]
        ring
      simpa [xsFrom] using ih _ hx2 j

theorem weight_eq_zero_of_not_mem (b : BeliefType) (s : StateType)
    (h : s ∉ b.map Prod.fst) : FlatMap.weight b s = 0 := by
  induction b with
  | nil => rfl
  | cons e t ih =>
    simp only [List.map_cons, List.mem_cons, not_or] at h
    simp only [FlatMap.weight]
    rw [if_neg h.1]
    exact ih h.2

theorem coordSum_eq_zero_of_not_mem (toOrig : List StateType) (s : StateType)
    (convResolution : ℚ) (f : Nat → ℚ) (h : s ∉ toOrig) :
    coordSum toOrig s convResolution toOrig.length f = 0 := by
  unfold coordSum
  apply Finset.sum_eq_zero
  intro j hj
  have hjn : j < toOrig.length := Finset.mem_range.1 hj
  have hne : toOrig.getD j 0 ≠ s := by
    intro heq
    apply h
    rw [← heq, List.getD_eq_getElem _ _ hjn]
    exact List.getElem_mem _
  rw [if_neg hne]

theorem coordSum_drop (convResolution : ℚ) (hR : convResolution ≠ 0) (s : StateType)
    (b : BeliefType) (hb : FlatMap.Ordered b) :
    coordSum (b.map Prod.fst) s convResolution b.length
        (fun j => convResolution * ((b.drop j).map Prod.snd).sum) =
      FlatMap.weight b s := by
  induction b with
  | nil => simp [coordSum, FlatMap.weight]
  | cons e t ih =>
    have hb2 := List.pairwise_cons.1 hb
    have ih2 := ih hb2.2
    have hstep : coordSum ((e :: t).map Prod.fst) s convResolution (e :: t).length
          (fun j => convResolution * (((e :: t).drop j).map Prod.snd).sum) =
        coordSum (t.map Prod.fst) s convResolution t.length
            (fun j => convResolution * ((t.drop j).map Prod.snd).sum) +
          (if e.1 = s then e.2 else 0) := by
      unfold coordSum
      rw [List.length_cons, Finset.sum_range_succ']
      congr 1
      simp only [List.map_cons, List.getD_cons_zero, List.drop_zero, List.drop_succ_cons,
        List.sum_cons, Nat.zero_add]
      split_ifs
      · field_simp
        ring
      · rfl
    rw [hstep, ih2]
    simp only [FlatMap.weight]
    by_cases hs : e.1 = s
    · have hnot : s ∉ t.map Prod.fst := by
        intro hmem
        obtain ⟨f, hf, hfs⟩ := List.mem_map.1 hmem
        have := hb2.1 f hf
        rw [hfs, ← hs] at this
        exact absurd this (lt_irrefl _)
      rw [if_pos hs, if_pos hs.symm, weight_eq_zero_of_not_mem t s hnot, zero_add]
    · rw [if_neg hs, if_neg (fun h => hs h.symm), add_zero]

theorem keys_injective_of_ordered (b : BeliefType) (hb : FlatMap.Ordered b) :
    ∀ i j : Nat, i < b.length → j < b.length →
      (b.map Prod.fst).getD i 0 = (b.map Prod.fst).getD j 0 → i = j := by
  have hpw : (b.map Prod.fst).Pairwise (fun x y => x < y) :=
    List.pairwise_map.2 hb
  have hlt : ∀ i j : Nat, i < j → j < b.length →
      (b.map Prod.fst).getD i 0 < (b.map Prod.fst).getD j 0 := by
    intro i j hij hj
    have hj2 : j < (b.map Prod.fst).length := by simpa using hj
    have hi2 : i < (b.map Prod.fst).length := lt_trans hij hj2
    rw [List.getD_eq_getElem _ _ hi2, List.getD_eq_getElem _ _ hj2]
    exact List.pairwise_iff_getElem.1 hpw i j hi2 hj2 hij
  intro i j hi hj heq
  rcases Nat.lt_trichotomy i j with h | h | h
  · exact absurd heq (ne_of_lt (hlt i j h hj))
  · exact h
  · exact absurd heq.symm (ne_of_lt (hlt j i h hi))

theorem xsFrom_length (convResolution : ℚ) (b : BeliefType) :
    ∀ x : ℚ, (xsFrom convResolution x b).length = b.length := by
  induction b with
  | nil => intro x; rfl
  | cons e t ih => intro x; simp [xsFrom, ih]

theorem zip_value_eq_pointsValue (m : BeliefManager) (s : StateType) :
    ∀ (gs : List Nat) (pts : List (ℚ × BeliefType)),
      List.Forall₂ (fun (g : Nat) (p : ℚ × BeliefType) => m.beliefs[g]? = some p.2) gs pts →
      ((gs.zip (pts.map Prod.fst)).map
          (fun gw => gw.2 * FlatMap.weight (m.getBelief gw.1) s)).sum = pointsValue s pts := by
  intro gs pts h
  induction h with
  | nil => rfl
  | cons hgp _ ih =>
    simp only [List.map_cons, List.zip_cons_cons, List.sum_cons, pointsValue] at ih ⊢
    rw [ih, getBelief_of_stored hgp]

theorem pointsValue_sorted (cc : ConstantsComparator) (hp : cc.precision = 0)
    (belief : BeliefType) (hord : FlatMap.Ordered belief)
    (hsum : (belief.map Prod.snd).sum = 1) (resolution : Nat) (hR : 1 ≤ resolution)
    (s : StateType) (s0 : FreudenthalDiff) (ds : List FreudenthalDiff)
    (hds : (diffsFrom (resolution : ℚ) 0 (resolution : ℚ) belief).foldl sortedDiffsEmplace [] =
      s0 :: ds) :
    pointsValue s
        (triangulationPoints cc (resolution : ℚ) (belief.map Prod.fst) belief.length true
          (lastOf s0 ds) (s0 :: ds)
          ((xsFrom (resolution : ℚ) (resolution : ℚ) belief).map floorValue ++ [0])) =
      FlatMap.weight belief s := by
  obtain ⟨hsorted, hperm⟩ := sortedDiffs_spec (resolution : ℚ) belief (resolution : ℚ)
  rw [hds] at hsorted hperm
  have hRne : (resolution : ℚ) ≠ 0 := by
    have : (0 : ℚ) < (resolution : ℚ) := by exact_mod_cast hR
    exact ne_of_gt this
  have hinj : ∀ i j : Nat, i < belief.length → j < belief.length →
      (belief.map Prod.fst).getD i 0 = (belief.map Prod.fst).getD j 0 → i = j :=
    keys_injective_of_ordered belief hord
  have hq : ((xsFrom (resolution : ℚ) (resolution : ℚ) belief).map floorValue ++ [0]).length =
      belief.length + 1 := by
    simp [xsFrom_length]
  have hdim : ∀ e ∈ s0 :: ds, e.dimension < belief.length := by
    intro e he
    have hmem : e.dimension ∈ (diffsFrom (resolution : ℚ) 0 (resolution : ℚ) belief).map
        FreudenthalDiff.dimension := List.mem_map_of_mem _ (hperm.mem_iff.1 he)
    rw [diffsFrom_dimensions] at hmem
    have := (List.mem_range'_1.1 hmem).2
    simpa using this
  have hlast : (lastOf s0 ds).diff = 0 := by
    have hge : 0 ≤ (lastOf s0 ds).diff :=
      (diffsFrom_bounds _ belief 0 _ _ (hperm.mem_iff.1 (lastOf_mem s0 ds))).1
    have hzero : (⟨0, 0⟩ : FreudenthalDiff) ∈ s0 :: ds := by
      apply hperm.mem_iff.2
      cases belief with
      | nil => simp at hsum
      | cons e t =>
        simp only [diffsFrom, List.mem_cons]
        left
        rw [floorValue_natCast, sub_self]
    have hle := lastOf_diff_le s0 ds hsorted _ hzero
    exact le_antisymm hle hge
  rw [triangulationPoints_value_first cc hp (resolution : ℚ) (belief.map Prod.fst) belief.length s
    hinj s0 ds _ hq hdim]
  have hsum2 : ((s0 :: ds).map (fun t => (t.diff - (lastOf s0 ds).diff) *
        coordSum (belief.map Prod.fst) s (resolution : ℚ) belief.length
          (unitRow t.dimension))).sum =
      coordSum (belief.map Prod.fst) s (resolution : ℚ) belief.length
        (diffRow (diffsFrom (resolution : ℚ) 0 (resolution : ℚ) belief)) := by
    rw [← sum_mul_coordSum_unitRow]
    rw [hlast]
    simp only [sub_zero]
    exact (hperm.map _).sum_eq
  rw [hsum2, ← coordSum_add]
  have hfun : (fun j =>
        ((xsFrom (resolution : ℚ) (resolution : ℚ) belief).map floorValue ++ [0]).getD j 0 +
          diffRow (diffsFrom (resolution : ℚ) 0 (resolution : ℚ) belief) j) =
      fun j => (resolution : ℚ) * ((belief.drop j).map Prod.snd).sum := by
    funext j
    rw [getD_floor_row, diffRow_diffsFrom, if_pos (Nat.zero_le j), Nat.sub_zero,
      getD_xsFrom (resolution : ℚ) belief (resolution : ℚ) (by rw [hsum, mul_one]) j]
    ring
  rw [hfun]
  exact coordSum_drop (resolution : ℚ) hRne s belief hord

/-- Claim C1: at comparator precision zero, for every belief (a flat map, keys
ascending) whose weights sum to exactly one and every resolution `R ≥ 1`,
the grid points `g_i` and weights `w_i` returned by `triangulateBelief(b, R)`
satisfy `Σ_i w_i * g_i(s) = b(s)` for every state `s`, where `g_i` is the belief
stored under the returned id and absent states count as weight zero. -/
theorem triangulateBelief_reconstructs (m : BeliefManager) (hwf : m.WF)
    (hp : m.cc.precision = 0) (belief : BeliefType) (hord : FlatMap.Ordered belief)
    (hsum : (belief.map Prod.snd).sum = 1) (resolution : Nat) (hR : 1 ≤ resolution)
    (s : StateType) :
    (((m.triangulateBelief belief resolution).2.gridPoints.zip
        (m.triangulateBelief belief resolution).2.weights).map
      (fun gw => gw.2 *
        FlatMap.weight ((m.triangulateBelief belief resolution).1.getBelief gw.1) s)).sum =
      FlatMap.weight belief s := by
  by_cases hn : belief.length = 1
  · have heq : m.triangulateBelief belief resolution =
        ((m.getOrAddBeliefId belief).1, ⟨[(m.getOrAddBeliefId belief).2], [1]⟩) := by
      unfold triangulateBelief
      simp only [hn, if_true]
    rw [heq]
    simp only [List.zip_cons_cons, List.zip_nil_right, List.map_cons, List.map_nil,
      List.sum_cons, List.sum_nil, add_zero, one_mul]
    rw [getBelief_of_stored (getOrAddBeliefId_stored hwf belief)]
  · rw [triangulateBelief_eq_loop m belief resolution hn]
    cases hds : (diffsFrom (resolution : ℚ) 0 (resolution : ℚ) belief).foldl
        sortedDiffsEmplace [] with
    | nil =>
      exfalso
      have hlen := (sortedDiffs_spec (resolution : ℚ) belief (resolution : ℚ)).2.length_eq
      rw [hds, diffsFrom_length] at hlen
      have : belief = [] := List.length_eq_zero.1 hlen.symm
      rw [this] at hsum
      simp at hsum
    | cons s0 ds =>
      rw [getLast?_cons_eq_lastOf]
      obtain ⟨_, _, _, _, hw, hf⟩ := triangulateLoop_spec (resolution : ℚ)
        (belief.map Prod.fst) belief.length (s0 :: ds) true (lastOf s0 ds)
        ((xsFrom (resolution : ℚ) (resolution : ℚ) belief).map floorValue ++ [0]) m hwf
      simp only []
      rw [hw, zip_value_eq_pointsValue _ s _ _ hf]
      exact pointsValue_sorted m.cc hp belief hord hsum resolution hR s s0 ds hds

/-- Witness for `triangulateBelief_reconstructs`: the uniform belief over three states
at resolution `3`, read at state `1`. -/
theorem triangulateBelief_reconstructs_witness :
    (fresh threeStates 0).WF ∧ (fresh threeStates 0).cc.precision = 0 ∧
    FlatMap.Ordered [(0, 1 / 3), (1, 1 / 3), (2, 1 / 3)] ∧
    (([(0, 1 / 3), (1, 1 / 3), (2, 1 / 3)] : BeliefType).map Prod.snd).sum = 1 ∧
    1 ≤ 3 ∧
    ((((fresh threeStates 0).triangulateBelief
          [(0, 1 / 3), (1, 1 / 3), (2, 1 / 3)] 3).2.gridPoints.zip
        ((fresh threeStates 0).triangulateBelief
          [(0, 1 / 3), (1, 1 / 3), (2, 1 / 3)] 3).2.weights).map
      (fun gw => gw.2 *
        FlatMap.weight (((fresh threeStates 0).triangulateBelief
          [(0, 1 / 3), (1, 1 / 3), (2, 1 / 3)] 3).1.getBelief gw.1) 1)).sum =
      FlatMap.weight [(0, 1 / 3), (1, 1 / 3), (2, 1 / 3)] 1 :=
  ⟨fresh_WF _ _, rfl, by simp [FlatMap.Ordered], by norm_num, by decide,
    triangulateBelief_reconstructs _ (fresh_WF _ _) rfl _ (by simp [FlatMap.Ordered])
      (by norm_num) 3 (by decide) 1⟩

/-- Witness for `triangulateBelief_weights`: the uniform belief over three states at
resolution `2`. -/
theorem triangulateBelief_weights_witness :
    (fresh threeStates 0).cc.precision = 0 ∧
    ([(0, 1 / 3), (1, 1 / 3), (2, 1 / 3)] : BeliefType) ≠ [] ∧
    (1 ≤ ((fresh threeStates 0).triangulateBelief
        [(0, 1 / 3), (1, 1 / 3), (2, 1 / 3)] 2).2.size ∧
      ((fresh threeStates 0).triangulateBelief [(0, 1 / 3), (1, 1 / 3), (2, 1 / 3)] 2).2.size ≤
        ([(0, 1 / 3), (1, 1 / 3), (2, 1 / 3)] : BeliefType).length ∧
      ((fresh threeStates 0).triangulateBelief
          [(0, 1 / 3), (1, 1 / 3), (2, 1 / 3)] 2).2.gridPoints.length =
        ((fresh threeStates 0).triangulateBelief
          [(0, 1 / 3), (1, 1 / 3), (2, 1 / 3)] 2).2.weights.length ∧
      (∀ w ∈ ((fresh threeStates 0).triangulateBelief
          [(0, 1 / 3), (1, 1 / 3), (2, 1 / 3)] 2).2.weights, 0 < w) ∧
      ((fresh threeStates 0).triangulateBelief
          [(0, 1 / 3), (1, 1 / 3), (2, 1 / 3)] 2).2.weights.sum = 1) :=
  ⟨rfl, by simp, triangulateBelief_weights _ rfl _ (by simp) 2⟩

/-- Claim C6 fails as stated: at comparator precision zero, triangulating
`{s0: 1/2, s1: 1/2}` at resolution `2` in an empty manager yields one grid point,
the belief `{s0: 1/2, s1: 1/2}` itself with weight `1`, and not two grid points. -/
theorem triangulateBelief_half_half_counterexample :
    ((fresh threeStates 0).triangulateBelief [(0, 1 / 2), (1, 1 / 2)] 2).2.weights = [1] ∧
      ((fresh threeStates 0).triangulateBelief [(0, 1 / 2), (1, 1 / 2)] 2).2.gridPoints.map
          ((fresh threeStates 0).triangulateBelief [(0, 1 / 2), (1, 1 / 2)] 2).1.getBelief =
        [[(0, 1 / 2), (1, 1 / 2)]] ∧
      ((fresh threeStates 0).triangulateBelief [(0, 1 / 2), (1, 1 / 2)] 2).2.size ≠ 2 := by
  have hp0 : 0 ≤ (fresh threeStates 0).cc.precision := le_refl _
  have hp1 : (fresh threeStates 0).cc.precision < 1 := zero_lt_one
  rw [triangulateBelief_half_half_eval _ hp0 hp1]
  refine ⟨rfl, ?_, by simp [Triangulation.size]⟩
  simp only [List.map_cons, List.map_nil]
  rw [getBelief_of_stored (getOrAddBeliefId_stored (fresh_WF _ _) _)]

/-- Claim C6, amended: in every consistent manager with a comparator precision
`0 ≤ p < 1`, triangulating `{s0: 1/2, s1: 1/2}` at resolution `2` yields exactly one
grid point, the belief `{s0: 1/2, s1: 1/2}` itself, with weight `1`. -/
theorem triangulateBelief_half_half (m : BeliefManager) (hwf : m.WF)
    (hp0 : 0 ≤ m.cc.precision) (hp1 : m.cc.precision < 1) :
    (m.triangulateBelief [(0, 1 / 2), (1, 1 / 2)] 2).2.weights = [1] ∧
      (m.triangulateBelief [(0, 1 / 2), (1, 1 / 2)] 2).2.gridPoints.map
          (m.triangulateBelief [(0, 1 / 2), (1, 1 / 2)] 2).1.getBelief =
        [[(0, 1 / 2), (1, 1 / 2)]] := by
  rw [triangulateBelief_half_half_eval _ hp0 hp1]
  refine ⟨rfl, ?_⟩
  simp only [List.map_cons, List.map_nil]
  rw [getBelief_of_stored (getOrAddBeliefId_stored hwf _)]

/-- Witness for `triangulateBelief_half_half`: an empty manager with precision zero. -/
theorem triangulateBelief_half_half_witness :
    (fresh threeStates 0).WF ∧ 0 ≤ (fresh threeStates 0).cc.precision ∧
    (fresh threeStates 0).cc.precision < 1 ∧
    (((fresh threeStates 0).triangulateBelief [(0, 1 / 2), (1, 1 / 2)] 2).2.weights = [1] ∧
      ((fresh threeStates 0).triangulateBelief [(0, 1 / 2), (1, 1 / 2)] 2).2.gridPoints.map
          ((fresh threeStates 0).triangulateBelief [(0, 1 / 2), (1, 1 / 2)] 2).1.getBelief =
        [[(0, 1 / 2), (1, 1 / 2)]]) :=
  ⟨fresh_WF _ _, le_refl _, zero_lt_one,
    triangulateBelief_half_half _ (fresh_WF _ _) (le_refl _) zero_lt_one⟩

theorem triangulateBelief_tolerance_eval :
    toleranceExample.triangulateBelief [(0, 49 / 50), (1, 1 / 100), (2, 1 / 100)] 1 =
      ((toleranceExample.getOrAddBeliefId [(0, 1)]).1,
        ⟨[(toleranceExample.getOrAddBeliefId [(0, 1)]).2], [49 / 50]⟩) := by
  have hcc : toleranceExample.cc.precision = 1 / 10 := rfl
  have hfl1 : floorValue 1 = 1 := by simpa using floorValue_natCast 1
  have hfl2 : floorValue (1 / 50) = 0 := by norm_num [floorValue]
  have hfl3 : floorValue (1 / 100) = 0 := by norm_num [floorValue]
  have hx1 : (1 : ℚ) - 49 / 50 * 1 = 1 / 50 := by norm_num
  have hx2 : (1 : ℚ) / 50 - 1 / 100 * 1 = 1 / 100 := by norm_num
  simp only [triangulateBelief, List.length_cons, List.length_nil, List.foldl_cons,
    List.foldl_nil, triangulationInitStep, Nat.cast_one, hx1, hx2, hfl1, hfl2, hfl3, sub_self,
    sub_zero, List.nil_append, List.cons_append, sortedDiffsEmplace, FreudenthalDiff.gt]
  norm_num [triangulateLoop, ConstantsComparator.isZero, hcc, computeGridPoint,
    List.range_succ, incrementAt, FlatMap.assign, getOrAddBeliefId_cc, abs_le,
    sortedDiffsEmplace, FreudenthalDiff.gt]

/-- Claim C2, evaluation at the failing input: with comparator precision `1/10` the
belief `{s0: 49/50, s1: 1/100, s2: 1/100}` passes `assertBelief`, and the result of
`triangulateBelief` at resolution `1` is rejected by `assertTriangulation`. -/
theorem triangulateBelief_tolerance_assertion_fails :
    toleranceExample.assertBelief [(0, 49 / 50), (1, 1 / 100), (2, 1 / 100)] = true ∧
      (toleranceExample.triangulateBelief
          [(0, 49 / 50), (1, 1 / 100), (2, 1 / 100)] 1).1.assertTriangulation
        [(0, 49 / 50), (1, 1 / 100), (2, 1 / 100)]
        (toleranceExample.triangulateBelief
          [(0, 49 / 50), (1, 1 / 100), (2, 1 / 100)] 1).2 = false := by
  constructor
  · have ho0 : toleranceExample.pomdp.getObservation 0 = 0 := rfl
    have ho1 : toleranceExample.pomdp.getObservation 1 = 0 := rfl
    have ho2 : toleranceExample.pomdp.getObservation 2 = 0 := rfl
    have hn : toleranceExample.pomdp.getNumberOfStates = 3 := rfl
    have hcc : toleranceExample.cc.precision = 1 / 10 := rfl
    norm_num [assertBelief, assertBeliefEntries, ho0, ho1, ho2, hn, hcc,
      ConstantsComparator.isLess, ConstantsComparator.isOne, abs_le]
  · rw [triangulateBelief_tolerance_eval,
      getOrAddBeliefId_of_lookup_none toleranceExample [(0, 1)] rfl]
    norm_num [assertTriangulation, assertTriangulationLoop, Triangulation.size, getBelief,
      toleranceExample, fresh, ConstantsComparator.isZero, ConstantsComparator.isLess,
      ConstantsComparator.isOne, accumulateTriangulated, isEqual, abs_le]

/-! ## Successor beliefs: `expand` -/

theorem mem_addToDistribution {d : BeliefType} {k : StateType} {v : ℚ} {e : StateType × ℚ}
    (h : e ∈ addToDistribution d k v) : e.1 = k ∨ e ∈ d := by
  induction d with
  | nil =>
    simp only [addToDistribution, List.mem_singleton] at h
    exact Or.inl (by rw [h])
  | cons f t ih =>
    obtain ⟨k2, v2⟩ := f
    simp only [addToDistribution] at h
    split_ifs at h with h1 h2
    · rcases List.mem_cons.1 h with h | h
      · exact Or.inl (by rw [h])
      · exact Or.inr h
    · rcases List.mem_cons.1 h with h | h
      · exact Or.inl (by rw [h, h2])
      · exact Or.inr (List.mem_cons_of_mem _ h)
    · rcases List.mem_cons.1 h with h | h
      · exact Or.inr (h ▸ List.mem_cons_self _ _)
      · rcases ih h with h | h
        · exact Or.inl h
        · exact Or.inr (List.mem_cons_of_mem _ h)

theorem addToDistribution_ordered {d : BeliefType} (hd : FlatMap.Ordered d) (k : StateType)
    (v : ℚ) : FlatMap.Ordered (addToDistribution d k v) := by
  induction d with
  | nil => simp [addToDistribution, FlatMap.Ordered]
  | cons f t ih =>
    obtain ⟨k2, v2⟩ := f
    have hd2 := List.pairwise_cons.1 hd
    simp only [addToDistribution]
    split_ifs with h1 h2
    · refine List.pairwise_cons.2 ⟨?_, hd⟩
      intro e he
      rcases List.mem_cons.1 he with he | he
      · subst he; exact h1
      · exact lt_trans h1 (hd2.1 e he)
    · exact List.pairwise_cons.2 ⟨hd2.1, hd2.2⟩
    · refine List.pairwise_cons.2 ⟨?_, ih hd2.2⟩
      intro e he
      rcases mem_addToDistribution he with he | he
      · show k2 < e.1
        rw [he]
        exact lt_of_le_of_ne (not_lt.1 h1) (Ne.symm h2)
      · exact hd2.1 e he

theorem keys_addToDistribution (d : BeliefType) (k s : StateType) (v : ℚ) :
    s ∈ (addToDistribution d k v).map Prod.fst ↔ s = k ∨ s ∈ d.map Prod.fst := by
  induction d with
  | nil => simp [addToDistribution]
  | cons f t ih =>
    obtain ⟨k2, v2⟩ := f
    simp only [addToDistribution]
    split_ifs with h1 h2
    · simp
    · subst h2; simp
    · simp only [List.map_cons, List.mem_cons, ih]
      tauto

theorem sum_addToDistribution (d : BeliefType) (k : StateType) (v : ℚ) :
    ((addToDistribution d k v).map Prod.snd).sum = (d.map Prod.snd).sum + v := by
  induction d with
  | nil => simp [addToDistribution]
  | cons f t ih =>
    obtain ⟨k2, v2⟩ := f
    simp only [addToDistribution]
    split_ifs with h1 h2
    · simp only [List.map_cons, List.sum_cons]; ring
    · simp only [List.map_cons, List.sum_cons]; ring
    · simp only [List.map_cons, List.sum_cons, ih]; ring

theorem weight_addToDistribution (d : BeliefType) (hd : FlatMap.Ordered d) (k s : StateType)
    (v : ℚ) :
    FlatMap.weight (addToDistribution d k v) s =
      FlatMap.weight d s + (if k = s then v else 0) := by
  induction d with
  | nil =>
    simp only [addToDistribution, FlatMap.weight, zero_add]
    by_cases hs : s = k
    · rw [if_pos hs, if_pos hs.symm]
    · rw [if_neg hs, if_neg (show ¬ k = s from fun h => hs h.symm)]
  | cons f t ih =>
    obtain ⟨k2, v2⟩ := f
    have hd2 := List.pairwise_cons.1 hd
    simp only [addToDistribution]
    by_cases h1 : k < k2
    · rw [if_pos h1]
      simp only [FlatMap.weight]
      by_cases hs : s = k
      · have hs2 : ¬ s = k2 := fun h => absurd (hs ▸ h ▸ h1) (lt_irrefl _)
        have hnot : s ∉ t.map Prod.fst := by
          intro hmem
          obtain ⟨g, hg, hgs⟩ := List.mem_map.1 hmem
          have := hd2.1 g hg
          rw [hgs, hs] at this
          exact absurd (lt_trans h1 this) (lt_irrefl _)
        rw [if_pos hs, if_neg hs2, weight_eq_zero_of_not_mem t s hnot, if_pos hs.symm, zero_add]
      · rw [if_neg hs, if_neg (show ¬ k = s from fun h => hs h.symm), add_zero]
    · rw [if_neg h1]
      by_cases h2 : k = k2
      · rw [if_pos h2]
        subst h2
        simp only [FlatMap.weight]
        by_cases hs : s = k
        · rw [if_pos hs, if_pos hs, if_pos hs.symm]
        · rw [if_neg hs, if_neg hs, if_neg (show ¬ k = s from fun h => hs h.symm), add_zero]
      · rw [if_neg h2]
        simp only [FlatMap.weight, ih hd2.2]
        by_cases hs2 : s = k2
        · have hks : ¬ k = s := fun h => h2 (h.trans hs2)
          rw [if_pos hs2, if_pos hs2, if_neg hks, add_zero]
        · rw [if_neg hs2, if_neg hs2]

theorem foldl_addToDistribution_spec {γ : Type} (c : γ → Prop) [DecidablePred c]
    (k : γ → StateType) (v : γ → ℚ) (xs : List γ) :
    ∀ acc : BeliefType, FlatMap.Ordered acc →
      FlatMap.Ordered
          (xs.foldl (fun acc x => if c x then addToDistribution acc (k x) (v x) else acc) acc) ∧
        (∀ s, FlatMap.weight
            (xs.foldl (fun acc x => if c x then addToDistribution acc (k x) (v x) else acc) acc)
            s =
          FlatMap.weight acc s + (xs.map (fun x => if c x ∧ k x = s then v x else 0)).sum) ∧
        (∀ s, s ∈ (xs.foldl (fun acc x => if c x then addToDistribution acc (k x) (v x)
            else acc) acc).map Prod.fst ↔
          s ∈ acc.map Prod.fst ∨ ∃ x ∈ xs, c x ∧ k x = s) ∧
        ((xs.foldl (fun acc x => if c x then addToDistribution acc (k x) (v x) else acc)
            acc).map Prod.snd).sum =
          (acc.map Prod.snd).sum + (xs.map (fun x => if c x then v x else 0)).sum := by
  induction xs with
  | nil => intro acc hacc; simp [hacc]
  | cons x t ih =>
    intro acc hacc
    simp only [List.foldl_cons]
    by_cases hc : c x
    · simp only [if_pos hc]
      obtain ⟨h1, h2, h3, h4⟩ := ih _ (addToDistribution_ordered hacc (k x) (v x))
      refine ⟨h1, ?_, ?_, ?_⟩
      · intro s
        rw [h2 s, weight_addToDistribution acc hacc]
        simp only [List.map_cons, List.sum_cons, hc, true_and]
        ring
      · intro s
        rw [h3 s, keys_addToDistribution]
        simp only [List.mem_cons, exists_eq_or_imp, hc, true_and]
        constructor
        · rintro ((h | h) | h)
          · exact Or.inr (Or.inl h.symm)
          · exact Or.inl h
          · exact Or.inr (Or.inr h)
        · rintro (h | h | h)
          · exact Or.inl (Or.inr h)
          · exact Or.inl (Or.inl h.symm)
          · exact Or.inr h
      · rw [h4, sum_addToDistribution]
        simp only [List.map_cons, List.sum_cons, if_pos hc]
        ring
    · simp only [if_neg hc]
      obtain ⟨h1, h2, h3, h4⟩ := ih _ hacc
      refine ⟨h1, ?_, ?_, ?_⟩
      · intro s
        rw [h2 s]
        simp only [List.map_cons, List.sum_cons, hc, false_and, if_false, zero_add]
      · intro s
        rw [h3 s]
        simp only [List.mem_cons, exists_eq_or_imp, hc, false_and, false_or]
      · rw [h4]
        simp only [List.map_cons, List.sum_cons, if_neg hc, zero_add]

theorem nestedFold_spec {α β : Type} (rowOf : α → List β) (c : α → β → Prop)
    [∀ a b, Decidable (c a b)] (k : α → β → StateType) (v : α → β → ℚ) (l : List α) :
    ∀ acc : BeliefType, FlatMap.Ordered acc →
      FlatMap.Ordered
          (l.foldl (fun acc e => (rowOf e).foldl
            (fun acc tr => if c e tr then addToDistribution acc (k e tr) (v e tr) else acc)
            acc) acc) ∧
        (∀ s, FlatMap.weight
            (l.foldl (fun acc e => (rowOf e).foldl
              (fun acc tr => if c e tr then addToDistribution acc (k e tr) (v e tr) else acc)
              acc) acc) s =
          FlatMap.weight acc s +
            (l.map (fun e => ((rowOf e).map
              (fun tr => if c e tr ∧ k e tr = s then v e tr else 0)).sum)).sum) ∧
        (∀ s, s ∈ (l.foldl (fun acc e => (rowOf e).foldl
              (fun acc tr => if c e tr then addToDistribution acc (k e tr) (v e tr) else acc)
              acc) acc).map Prod.fst ↔
          s ∈ acc.map Prod.fst ∨ ∃ e ∈ l, ∃ tr ∈ rowOf e, c e tr ∧ k e tr = s) ∧
        ((l.foldl (fun acc e => (rowOf e).foldl
              (fun acc tr => if c e tr then addToDistribution acc (k e tr) (v e tr) else acc)
              acc) acc).map Prod.snd).sum =
          (acc.map Prod.snd).sum +
            (l.map (fun e => ((rowOf e).map (fun tr => if c e tr then v e tr else 0)).sum)).sum := by
  induction l with
  | nil => intro acc hacc; simp [hacc]
  | cons e t ih =>
    intro acc hacc
    simp only [List.foldl_cons]
    obtain ⟨g1, g2, g3, g4⟩ :=
      foldl_addToDistribution_spec (c e) (k e) (v e) (rowOf e) acc hacc
    obtain ⟨h1, h2, h3, h4⟩ := ih _ g1
    refine ⟨h1, ?_, ?_, ?_⟩
    · intro s
      rw [h2 s, g2 s]
      simp only [List.map_cons, List.sum_cons]
      ring
    · intro s
      rw [h3 s, g3 s]
      simp only [List.mem_cons, exists_eq_or_imp]
      constructor
      · rintro ((h | h) | h)
        · exact Or.inl h
        · exact Or.inr (Or.inl h)
        · exact Or.inr (Or.inr h)
      · rintro (h | h | h)
        · exact Or.inl (Or.inl h)
        · exact Or.inl (Or.inr h)
        · exact Or.inr h
    · rw [h4, g4]
      simp only [List.map_cons, List.sum_cons]
      ring

theorem expandLoop_none_cons (belief : BeliefType) (actionIndex : Nat) (successor : Nat × ℚ)
    (rest : List (Nat × ℚ)) (m : BeliefManager) :
    expandLoop belief actionIndex none (successor :: rest) m =
      ((expandLoop belief actionIndex none rest
          (m.getOrAddBeliefId (successorBelief m.pomdp belief actionIndex successor)).1).1,
        ((m.getOrAddBeliefId (successorBelief m.pomdp belief actionIndex successor)).2,
            successor.2) ::
          (expandLoop belief actionIndex none rest
            (m.getOrAddBeliefId (successorBelief m.pomdp belief actionIndex successor)).1).2) :=
  rfl

theorem expandLoop_none_probabilities (belief : BeliefType) (actionIndex : Nat)
    (l : List (Nat × ℚ)) :
    ∀ m : BeliefManager,
      (expandLoop belief actionIndex none l m).2.map Prod.snd = l.map Prod.snd := by
  induction l with
  | nil => intro m; rfl
  | cons successor rest ih =>
    intro m
    rw [expandLoop_none_cons]
    show _ :: _ = _ :: _
    rw [ih]

theorem sum_row_mul (w : ℚ) (row : List (StateType × ℚ)) :
    (row.map (fun tr => if tr.2 ≠ 0 then w * tr.2 else 0)).sum = w * (row.map Prod.snd).sum := by
  induction row with
  | nil => simp
  | cons tr t ih =>
    simp only [List.map_cons, List.sum_cons, ih]
    by_cases h : tr.2 = 0
    · simp [h]
    · simp only [ne_eq, h, not_false_eq_true, if_true]
      ring

/-- Claim C4: if the transition row of every support state of the belief under the
action sums to one and the belief sums to exactly one, then the probabilities of
the pairs returned by `expand(b, a)` sum to exactly one. -/
theorem expand_probabilities_sum (m : BeliefManager) (beliefId : Nat) (actionIndex : Nat)
    (hrow : ∀ e ∈ m.getBelief beliefId,
      ((m.pomdp.getRow e.1 actionIndex).map Prod.snd).sum = 1)
    (hsum : ((m.getBelief beliefId).map Prod.snd).sum = 1) :
    ((m.expand beliefId actionIndex).2.map Prod.snd).sum = 1 := by
  unfold expand expandInternal
  rw [expandLoop_none_probabilities]
  obtain ⟨_, _, _, h4⟩ := nestedFold_spec
    (fun e : StateType × ℚ => m.pomdp.getRow e.1 actionIndex)
    (fun _ tr => tr.2 ≠ 0) (fun _ tr => m.pomdp.getObservation tr.1)
    (fun e tr => e.2 * tr.2) (m.getBelief beliefId) [] List.Pairwise.nil
  unfold successorObservations
  rw [h4]
  simp only [List.map_nil, List.sum_nil, zero_add]
  rw [← hsum]
  congr 1
  apply List.map_congr_left
  intro e he
  rw [sum_row_mul, hrow e he, mul_one]

theorem successorObservations_spec (pomdp : Pomdp) (belief : BeliefType) (actionIndex : Nat) :
    FlatMap.Ordered (successorObservations pomdp belief actionIndex) ∧
      (∀ o, FlatMap.weight (successorObservations pomdp belief actionIndex) o =
        observationMass pomdp belief actionIndex o) ∧
      (∀ o, o ∈ (successorObservations pomdp belief actionIndex).map Prod.fst ↔
        ∃ e ∈ belief, ∃ tr ∈ pomdp.getRow e.1 actionIndex,
          tr.2 ≠ 0 ∧ pomdp.getObservation tr.1 = o) := by
  obtain ⟨h1, h2, h3, _⟩ := nestedFold_spec
    (fun e : StateType × ℚ => pomdp.getRow e.1 actionIndex)
    (fun _ tr => tr.2 ≠ 0) (fun _ tr => pomdp.getObservation tr.1)
    (fun e tr => e.2 * tr.2) belief [] List.Pairwise.nil
  refine ⟨h1, ?_, ?_⟩
  · intro o
    unfold successorObservations observationMass
    rw [h2 o]
    simp only [FlatMap.weight, zero_add]
    congr 1
    apply List.map_congr_left
    intro e _
    congr 1
    apply List.map_congr_left
    intro tr _
    by_cases hz : tr.2 = 0
    · simp [hz]
    · simp [hz]
  · intro o
    unfold successorObservations
    rw [h3 o]
    simp

theorem sum_map_div (l : List ℚ) (p : ℚ) : (l.map (fun x => x / p)).sum = l.sum / p := by
  induction l with
  | nil => simp
  | cons x t ih => simp only [List.map_cons, List.sum_cons, ih]; ring

theorem successorBelief_spec (pomdp : Pomdp) (belief : BeliefType) (actionIndex : Nat)
    (successor : Nat × ℚ) :
    (∀ target, FlatMap.weight (successorBelief pomdp belief actionIndex successor) target =
        if pomdp.getObservation target = successor.1 then
          successorMass pomdp belief actionIndex target / successor.2
        else 0) ∧
      (∀ target, target ∈ (successorBelief pomdp belief actionIndex successor).map Prod.fst ↔
        pomdp.getObservation target = successor.1 ∧
          ∃ e ∈ belief, ∃ tr ∈ pomdp.getRow e.1 actionIndex, tr.1 = target) := by
  obtain ⟨_, h2, h3, _⟩ := nestedFold_spec
    (fun e : StateType × ℚ => pomdp.getRow e.1 actionIndex)
    (fun _ tr => pomdp.getObservation tr.1 = successor.1) (fun _ tr => tr.1)
    (fun e tr => e.2 * tr.2 / successor.2) belief [] List.Pairwise.nil
  constructor
  · intro target
    unfold successorBelief
    rw [h2 target]
    simp only [FlatMap.weight, zero_add]
    by_cases hobs : pomdp.getObservation target = successor.1
    · rw [if_pos hobs]
      unfold successorMass
      rw [← sum_map_div, List.map_map]
      congr 1
      apply List.map_congr_left
      intro e _
      simp only [Function.comp]
      rw [← sum_map_div, List.map_map]
      congr 1
      apply List.map_congr_left
      intro tr _
      simp only [Function.comp]
      by_cases ht : tr.1 = target
      · rw [if_pos ⟨ht ▸ hobs, ht⟩, if_pos ht]
      · rw [if_neg (fun h => ht h.2), if_neg ht, zero_div]
    · rw [if_neg hobs]
      apply List.sum_eq_zero
      intro x hx
      obtain ⟨e, _, rfl⟩ := List.mem_map.1 hx
      apply List.sum_eq_zero
      intro y hy
      obtain ⟨tr, _, rfl⟩ := List.mem_map.1 hy
      rw [if_neg]
      rintro ⟨h1, h2⟩
      exact hobs (h2 ▸ h1)
  · intro target
    unfold successorBelief
    rw [h3 target]
    simp only [List.map_nil, List.not_mem_nil, false_or]
    constructor
    · rintro ⟨e, he, tr, htr, hobs, ht⟩
      exact ⟨ht ▸ hobs, e, he, tr, htr, ht⟩
    · rintro ⟨hobs, e, he, tr, htr, ht⟩
      exact ⟨e, he, tr, htr, ht ▸ hobs, ht⟩

theorem weight_of_mem_ordered (d : BeliefType) (hd : FlatMap.Ordered d) (k : StateType) (v : ℚ)
    (h : (k, v) ∈ d) : FlatMap.weight d k = v := by
  induction d with
  | nil => simp at h
  | cons f t ih =>
    obtain ⟨k2, v2⟩ := f
    have hd2 := List.pairwise_cons.1 hd
    simp only [FlatMap.weight]
    rcases List.mem_cons.1 h with h | h
    · cases h
      rw [if_pos rfl]
    · have hlt := hd2.1 _ h
      have hne : ¬ k = k2 := fun heq => absurd (heq ▸ hlt) (lt_irrefl _)
      rw [if_neg hne]
      exact ih hd2.2 h

theorem list_sum_pos_of_mem (l : List ℚ) (hnn : ∀ x ∈ l, 0 ≤ x) (x : ℚ) (hx : x ∈ l)
    (hpos : 0 < x) : 0 < l.sum := by
  induction l with
  | nil => simp at hx
  | cons y t ih =>
    rw [List.sum_cons]
    have hy : 0 ≤ y := hnn y (List.mem_cons_self _ _)
    have ht : 0 ≤ t.sum := List.sum_nonneg (fun z hz => hnn z (List.mem_cons_of_mem _ hz))
    rcases List.mem_cons.1 hx with h | h
    · rw [← h]; linarith
    · have := ih (fun z hz => hnn z (List.mem_cons_of_mem _ hz)) h
      linarith

theorem observationMass_pos (pomdp : Pomdp) (belief : BeliefType) (actionIndex : Nat) (o : Nat)
    (hpos : ∀ e ∈ belief, 0 < e.2)
    (hprob : ∀ e ∈ belief, ∀ tr ∈ pomdp.getRow e.1 actionIndex, 0 < tr.2)
    (ho : ∃ e ∈ belief, ∃ tr ∈ pomdp.getRow e.1 actionIndex, pomdp.getObservation tr.1 = o) :
    0 < observationMass pomdp belief actionIndex o := by
  obtain ⟨e, he, tr, htr, hobs⟩ := ho
  unfold observationMass
  have hterm : ∀ e2 ∈ belief, ∀ tr2 ∈ pomdp.getRow e2.1 actionIndex,
      0 ≤ (if pomdp.getObservation tr2.1 = o then e2.2 * tr2.2 else 0) := by
    intro e2 he2 tr2 htr2
    split_ifs
    · exact le_of_lt (mul_pos (hpos e2 he2) (hprob e2 he2 tr2 htr2))
    · exact le_refl _
  have hinner : ∀ e2 ∈ belief, 0 ≤ ((pomdp.getRow e2.1 actionIndex).map
      (fun tr => if pomdp.getObservation tr.1 = o then e2.2 * tr.2 else 0)).sum := by
    intro e2 he2
    apply List.sum_nonneg
    intro x hx
    obtain ⟨tr2, htr2, rfl⟩ := List.mem_map.1 hx
    exact hterm e2 he2 tr2 htr2
  have hrowpos : 0 < ((pomdp.getRow e.1 actionIndex).map
      (fun tr => if pomdp.getObservation tr.1 = o then e.2 * tr.2 else 0)).sum := by
    refine list_sum_pos_of_mem _ ?_ (e.2 * tr.2) ?_ (mul_pos (hpos e he) (hprob e he tr htr))
    · intro x hx
      obtain ⟨tr2, htr2, rfl⟩ := List.mem_map.1 hx
      exact hterm e he tr2 htr2
    · refine List.mem_map.2 ⟨tr, htr, ?_⟩
      rw [if_pos hobs]
  refine list_sum_pos_of_mem _ ?_ _ (List.mem_map.2 ⟨e, he, rfl⟩) hrowpos
  intro x hx
  obtain ⟨e2, he2, rfl⟩ := List.mem_map.1 hx
  exact hinner e2 he2

theorem expandLoop_none_spec (belief : BeliefType) (actionIndex : Nat) (l : List (Nat × ℚ)) :
    ∀ m : BeliefManager, m.WF →
      (expandLoop belief actionIndex none l m).1.WF ∧
      (expandLoop belief actionIndex none l m).1.pomdp = m.pomdp ∧
      (∃ t, (expandLoop belief actionIndex none l m).1.beliefs = m.beliefs ++ t) ∧
      List.Forall₂
        (fun (d : BeliefId × ℚ) (successor : Nat × ℚ) =>
          successor ∈ l ∧ d.2 = successor.2 ∧
            (expandLoop belief actionIndex none l m).1.beliefs[d.1]? =
              some (successorBelief m.pomdp belief actionIndex successor))
        (expandLoop belief actionIndex none l m).2 l := by
  induction l with
  | nil =>
    intro m hwf
    exact ⟨hwf, rfl, ⟨[], by simp [expandLoop]⟩, List.Forall₂.nil⟩
  | cons successor rest ih =>
    intro m hwf
    rw [expandLoop_none_cons]
    have hwf1 := hwf.getOrAddBeliefId (successorBelief m.pomdp belief actionIndex successor)
    have hp1 := getOrAddBeliefId_pomdp m (successorBelief m.pomdp belief actionIndex successor)
    obtain ⟨t1, ht1⟩ := getOrAddBeliefId_beliefs m
      (successorBelief m.pomdp belief actionIndex successor)
    have hst := getOrAddBeliefId_stored hwf
      (successorBelief m.pomdp belief actionIndex successor)
    obtain ⟨h1, h2, ⟨t2, ht2⟩, h4⟩ := ih _ hwf1
    refine ⟨h1, h2.trans hp1, ⟨t1 ++ t2, ?_⟩, ?_⟩
    · exact ht2.trans (by rw [ht1, List.append_assoc])
    · refine List.Forall₂.cons ⟨List.mem_cons_self _ _, rfl, ?_⟩ ?_
      · exact ht2 ▸ stored_of_append hst
      · refine h4.imp ?_
        intro d succ hd
        refine ⟨List.mem_cons_of_mem _ hd.1, hd.2.1, ?_⟩
        have hs := hd.2.2
        rw [hp1] at hs
        exact hs

/-- Claim C5: for a belief with positive weights and an action whose transition
entries from the support are positive, `expand(b, a)` returns exactly one pair per
observation `o` that some support state reaches, in ascending order of `o` and no
other pair; the probability of the pair is `m(o)`, which is positive, and the belief
stored under its id has as support exactly the successors with observation `o`
and assigns each state `s'` with observation `o` the weight
`(Σ_s b(s) * P(s, a, s')) / m(o)`. -/
theorem expand_spec (m : BeliefManager) (hwf : m.WF) (beliefId : Nat) (actionIndex : Nat)
    (hpos : ∀ e ∈ m.getBelief beliefId, 0 < e.2)
    (hprob : ∀ e ∈ m.getBelief beliefId, ∀ tr ∈ m.pomdp.getRow e.1 actionIndex, 0 < tr.2) :
    ∃ obs : List Nat, obs.Pairwise (fun a b => a < b) ∧
      (∀ o, o ∈ obs ↔ ∃ e ∈ m.getBelief beliefId, ∃ tr ∈ m.pomdp.getRow e.1 actionIndex,
        m.pomdp.getObservation tr.1 = o) ∧
      List.Forall₂
        (fun (d : BeliefId × ℚ) (o : Nat) =>
          d.2 = observationMass m.pomdp (m.getBelief beliefId) actionIndex o ∧
          0 < observationMass m.pomdp (m.getBelief beliefId) actionIndex o ∧
          (∀ target, FlatMap.weight ((m.expand beliefId actionIndex).1.getBelief d.1) target =
            if m.pomdp.getObservation target = o then
              successorMass m.pomdp (m.getBelief beliefId) actionIndex target /
                observationMass m.pomdp (m.getBelief beliefId) actionIndex o
            else 0) ∧
          (∀ target, target ∈ ((m.expand beliefId actionIndex).1.getBelief d.1).map Prod.fst ↔
            m.pomdp.getObservation target = o ∧
              ∃ e ∈ m.getBelief beliefId, ∃ tr ∈ m.pomdp.getRow e.1 actionIndex,
                tr.1 = target))
        (m.expand beliefId actionIndex).2 obs := by
  obtain ⟨hord, hweight, hkeys⟩ :=
    successorObservations_spec m.pomdp (m.getBelief beliefId) actionIndex
  have hkeys2 : ∀ o, o ∈ (successorObservations m.pomdp (m.getBelief beliefId)
      actionIndex).map Prod.fst ↔
      ∃ e ∈ m.getBelief beliefId, ∃ tr ∈ m.pomdp.getRow e.1 actionIndex,
        m.pomdp.getObservation tr.1 = o := by
    intro o
    rw [hkeys o]
    constructor
    · rintro ⟨e, he, tr, htr, _, hobs⟩
      exact ⟨e, he, tr, htr, hobs⟩
    · rintro ⟨e, he, tr, htr, hobs⟩
      exact ⟨e, he, tr, htr, ne_of_gt (hprob e he tr htr), hobs⟩
  refine ⟨(successorObservations m.pomdp (m.getBelief beliefId) actionIndex).map Prod.fst,
    List.pairwise_map.2 hord, hkeys2, ?_⟩
  obtain ⟨_, _, _, hf⟩ := expandLoop_none_spec (m.getBelief beliefId) actionIndex
    (successorObservations m.pomdp (m.getBelief beliefId) actionIndex) m hwf
  rw [List.forall₂_map_right_iff]
  refine List.Forall₂.imp ?_ hf
  intro d successor hd
  obtain ⟨hmem, hd2, hstored⟩ := hd
  have hval : successor.2 =
      observationMass m.pomdp (m.getBelief beliefId) actionIndex successor.1 := by
    rw [← hweight successor.1]
    exact (weight_of_mem_ordered _ hord successor.1 successor.2 hmem).symm
  have hgb : (m.expand beliefId actionIndex).1.getBelief d.1 =
      successorBelief m.pomdp (m.getBelief beliefId) actionIndex successor :=
    getBelief_of_stored hstored
  obtain ⟨hw, hk⟩ := successorBelief_spec m.pomdp (m.getBelief beliefId) actionIndex successor
  refine ⟨hd2.trans hval, ?_, ?_, ?_⟩
  · exact observationMass_pos _ _ _ _ hpos hprob
      ((hkeys2 successor.1).1 (List.mem_map_of_mem _ hmem))
  · intro target
    rw [hgb, hw target, ← hval]
  · intro target
    rw [hgb, hk target]

/-- Witness for `expand_probabilities_sum`: the Dirac belief on state `0` of
`twoObservations` and its only action. -/
theorem expand_probabilities_sum_witness :
    (∀ e ∈ expandExample.getBelief 0,
      ((expandExample.pomdp.getRow e.1 0).map Prod.snd).sum = 1) ∧
    ((expandExample.getBelief 0).map Prod.snd).sum = 1 ∧
    ((expandExample.expand 0 0).2.map Prod.snd).sum = 1 :=
  ⟨by
      intro e he
      have he2 : e = (0, 1) := by simpa [expandExample, getBelief, getOrAddBeliefId, fresh,
        findBeliefId] using he
      subst he2
      norm_num [expandExample, getOrAddBeliefId_pomdp, fresh, twoObservations, Pomdp.getRow],
    by simp [expandExample, getBelief, getOrAddBeliefId, fresh, findBeliefId],
    expand_probabilities_sum expandExample 0 0
      (by
        intro e he
        have he2 : e = (0, 1) := by simpa [expandExample, getBelief, getOrAddBeliefId, fresh,
          findBeliefId] using he
        subst he2
        norm_num [expandExample, getOrAddBeliefId_pomdp, fresh, twoObservations, Pomdp.getRow])
      (by simp [expandExample, getBelief, getOrAddBeliefId, fresh, findBeliefId])⟩

/-- Witness for `expand_spec`: the Dirac belief on state `0` of `twoObservations` and
its only action. -/
theorem expand_spec_witness :
    expandExample.WF ∧
    (∀ e ∈ expandExample.getBelief 0, 0 < e.2) ∧
    (∀ e ∈ expandExample.getBelief 0, ∀ tr ∈ expandExample.pomdp.getRow e.1 0, 0 < tr.2) ∧
    ∃ obs : List Nat, obs.Pairwise (fun a b => a < b) ∧
      (∀ o, o ∈ obs ↔ ∃ e ∈ expandExample.getBelief 0,
        ∃ tr ∈ expandExample.pomdp.getRow e.1 0, expandExample.pomdp.getObservation tr.1 = o) ∧
      List.Forall₂
        (fun (d : BeliefId × ℚ) (o : Nat) =>
          d.2 = observationMass expandExample.pomdp (expandExample.getBelief 0) 0 o ∧
          0 < observationMass expandExample.pomdp (expandExample.getBelief 0) 0 o ∧
          (∀ target, FlatMap.weight ((expandExample.expand 0 0).1.getBelief d.1) target =
            if expandExample.pomdp.getObservation target = o then
              successorMass expandExample.pomdp (expandExample.getBelief 0) 0 target /
                observationMass expandExample.pomdp (expandExample.getBelief 0) 0 o
            else 0) ∧
          (∀ target, target ∈ ((expandExample.expand 0 0).1.getBelief d.1).map Prod.fst ↔
            expandExample.pomdp.getObservation target = o ∧
              ∃ e ∈ expandExample.getBelief 0, ∃ tr ∈ expandExample.pomdp.getRow e.1 0,
                tr.1 = target))
        (expandExample.expand 0 0).2 obs :=
  ⟨(fresh_WF _ _).getOrAddBeliefId _,
    by
      intro e he
      have he2 : e = (0, 1) := by simpa [expandExample, getBelief, getOrAddBeliefId, fresh,
        findBeliefId] using he
      subst he2
      exact zero_lt_one,
    by
      intro e he tr htr
      have he2 : e = (0, 1) := by simpa [expandExample, getBelief, getOrAddBeliefId, fresh,
        findBeliefId] using he
      subst he2
      have htr2 : tr = (0, 1 / 2) ∨ tr = (1, 1 / 2) := by
        simpa [expandExample, getOrAddBeliefId_pomdp, fresh, twoObservations, Pomdp.getRow]
          using htr
      rcases htr2 with h | h <;> subst h <;> norm_num,
    expand_spec expandExample ((fresh_WF _ _).getOrAddBeliefId _) 0 0
      (by
        intro e he
        have he2 : e = (0, 1) := by simpa [expandExample, getBelief, getOrAddBeliefId, fresh,
          findBeliefId] using he
        subst he2
        exact zero_lt_one)
      (by
        intro e he tr htr
        have he2 : e = (0, 1) := by simpa [expandExample, getBelief, getOrAddBeliefId, fresh,
          findBeliefId] using he
        subst he2
        have htr2 : tr = (0, 1 / 2) ∨ tr = (1, 1 / 2) := by
          simpa [expandExample, getOrAddBeliefId_pomdp, fresh, twoObservations, Pomdp.getRow]
            using htr
        rcases htr2 with h | h <;> subst h <;> norm_num)⟩

end BeliefManager

/-! ## Bit vectors -/

namespace BitVector

theorem mem_setBits (bv : BitVector) (i : Nat) : i ∈ setBits bv ↔ get bv i = true := by
  unfold setBits get
  rw [List.mem_filter, List.mem_range]
  constructor
  · rintro ⟨_, h⟩
    exact h
  · intro h
    refine ⟨?_, h⟩
    by_contra hlt
    rw [List.getD_eq_getElem?_getD, List.getElem?_eq_none (Nat.le_of_not_lt hlt)] at h
    cases h

theorem setBits_sorted (bv : BitVector) : (setBits bv).Pairwise (fun a b => a < b) :=
  (List.pairwise_lt_range bv.length).filter _

theorem setBits_nodup (bv : BitVector) : (setBits bv).Nodup :=
  (setBits_sorted bv).imp (fun h => Nat.ne_of_lt h)

theorem lt_length_of_get {bv : BitVector} {i : Nat} (h : get bv i = true) : i < bv.length := by
  by_contra hlt
  unfold get at h
  rw [List.getD_eq_getElem?_getD, List.getElem?_eq_none (Nat.le_of_not_lt hlt)] at h
  cases h

theorem length_setBit (bv : BitVector) (i : Nat) : (setBit bv i).length = bv.length := by
  simp [setBit]

theorem get_setBit (bv : BitVector) (i j : Nat) :
    get (setBit bv i) j = true ↔ get bv j = true ∨ (j = i ∧ i < bv.length) := by
  unfold get setBit
  rw [List.getD_eq_getElem?_getD, List.getD_eq_getElem?_getD, List.getElem?_set]
  by_cases hij : i = j
  · subst hij
    by_cases hlt : i < bv.length
    · simp [hlt]
    · simp [hlt, List.getElem?_eq_none (Nat.le_of_not_lt hlt)]
  · rw [if_neg hij]
    constructor
    · intro h; exact Or.inl h
    · rintro (h | ⟨h, _⟩)
      · exact h
      · exact absurd h.symm hij

theorem get_zeros (n i : Nat) : get (zeros n) i = false := by
  unfold get zeros
  rw [List.getD_eq_getElem?_getD, List.getElem?_replicate]
  split_ifs <;> rfl

theorem get_clear (bv : BitVector) (i : Nat) : get (clear bv) i = false :=
  get_zeros bv.length i

theorem length_clear (bv : BitVector) : (clear bv).length = bv.length := by
  simp [clear]

theorem foldl_setBit_spec (c : Nat → Bool) (xs : List Nat) :
    ∀ init : BitVector,
      (xs.foldl (fun f x => if c x then setBit f x else f) init).length = init.length ∧
      ∀ t, get (xs.foldl (fun f x => if c x then setBit f x else f) init) t = true ↔
        get init t = true ∨ (t < init.length ∧ t ∈ xs ∧ c t = true) := by
  induction xs with
  | nil =>
    intro init
    refine ⟨rfl, fun t => ?_⟩
    simp
  | cons x rest ih =>
    intro init
    simp only [List.foldl_cons]
    by_cases hc : c x = true
    · rw [if_pos hc]
      obtain ⟨h1, h2⟩ := ih (setBit init x)
      refine ⟨h1.trans (length_setBit init x), fun t => ?_⟩
      rw [h2 t, get_setBit, length_setBit]
      constructor
      · rintro ((h | ⟨h, hlt⟩) | ⟨hlt, hmem, hct⟩)
        · exact Or.inl h
        · exact Or.inr ⟨h ▸ hlt, h ▸ List.mem_cons_self _ _, h ▸ hc⟩
        · exact Or.inr ⟨hlt, List.mem_cons_of_mem _ hmem, hct⟩
      · rintro (h | ⟨hlt, hmem, hct⟩)
        · exact Or.inl (Or.inl h)
        · rcases List.mem_cons.1 hmem with h | h
          · exact Or.inl (Or.inr ⟨h, h ▸ hlt⟩)
          · exact Or.inr ⟨hlt, h, hct⟩
    · rw [if_neg hc]
      obtain ⟨h1, h2⟩ := ih init
      refine ⟨h1, fun t => ?_⟩
      rw [h2 t]
      constructor
      · rintro (h | ⟨hlt, hmem, hct⟩)
        · exact Or.inl h
        · exact Or.inr ⟨hlt, List.mem_cons_of_mem _ hmem, hct⟩
      · rintro (h | ⟨hlt, hmem, hct⟩)
        · exact Or.inl h
        · rcases List.mem_cons.1 hmem with h | h
          · exact absurd (h ▸ hct) hc
          · exact Or.inr ⟨hlt, h, hct⟩

theorem foldl_foldl_setBit_spec (c : Nat → Bool) (succs : Nat → List Nat) (states : List Nat) :
    ∀ init : BitVector,
      (states.foldl (fun f state => (succs state).foldl
        (fun f x => if c x then setBit f x else f) f) init).length = init.length ∧
      ∀ t, get (states.foldl (fun f state => (succs state).foldl
          (fun f x => if c x then setBit f x else f) f) init) t = true ↔
        get init t = true ∨
          (t < init.length ∧ (∃ state ∈ states, t ∈ succs state) ∧ c t = true) := by
  induction states with
  | nil =>
    intro init
    refine ⟨rfl, fun t => ?_⟩
    simp
  | cons s rest ih =>
    intro init
    simp only [List.foldl_cons]
    obtain ⟨g1, g2⟩ := foldl_setBit_spec c (succs s) init
    obtain ⟨h1, h2⟩ := ih ((succs s).foldl (fun f x => if c x then setBit f x else f) init)
    refine ⟨h1.trans g1, fun t => ?_⟩
    rw [h2 t, g2 t, g1]
    constructor
    · rintro ((h | ⟨hlt, hmem, hct⟩) | ⟨hlt, ⟨st, hst, hmem⟩, hct⟩)
      · exact Or.inl h
      · exact Or.inr ⟨hlt, ⟨s, List.mem_cons_self _ _, hmem⟩, hct⟩
      · exact Or.inr ⟨hlt, ⟨st, List.mem_cons_of_mem _ hst, hmem⟩, hct⟩
    · rintro (h | ⟨hlt, ⟨st, hst, hmem⟩, hct⟩)
      · exact Or.inl (Or.inl h)
      · rcases List.mem_cons.1 hst with h | h
        · exact Or.inl (Or.inr ⟨hlt, h ▸ hmem, hct⟩)
        · exact Or.inr ⟨hlt, ⟨st, h, hmem⟩, hct⟩

end BitVector

/-! ## The sub-POMDP builder: frontier and index map -/

theorem mem_setInsert (l : List Nat) (x t : Nat) : t ∈ setInsert l x ↔ t = x ∨ t ∈ l := by
  induction l with
  | nil => simp [setInsert]
  | cons y rest ih =>
    simp only [setInsert]
    split_ifs with h1 h2
    · simp
    · subst h2; simp
    · simp only [List.mem_cons, ih]
      constructor
      · rintro (h | h | h)
        · exact Or.inr (Or.inl h)
        · exact Or.inl h
        · exact Or.inr (Or.inr h)
      · rintro (h | h | h)
        · exact Or.inr (Or.inl h)
        · exact Or.inl h
        · exact Or.inr (Or.inr h)

namespace SubPomdpBuilder

theorem mem_foldl_setInsert (state : Nat) (entries : List (StateType × ℚ)) :
    ∀ (init : List Nat) (t : Nat),
      t ∈ entries.foldl
          (fun set entry => if entry.1 ≠ state then setInsert set entry.1 else set) init ↔
        t ∈ init ∨ (t ≠ state ∧ ∃ e ∈ entries, e.1 = t) := by
  induction entries with
  | nil => intro init t; simp
  | cons e rest ih =>
    intro init t
    simp only [List.foldl_cons]
    rw [ih]
    by_cases he : e.1 = state
    · have hne : ¬ e.1 ≠ state := fun h => h he
      rw [if_neg hne]
      constructor
      · rintro (h | ⟨hts, f, hf, hft⟩)
        · exact Or.inl h
        · exact Or.inr ⟨hts, f, List.mem_cons_of_mem _ hf, hft⟩
      · rintro (h | ⟨hts, f, hf, hft⟩)
        · exact Or.inl h
        · rcases List.mem_cons.1 hf with h | h
          · exact absurd (hft.symm.trans (h ▸ he)) hts
          · exact Or.inr ⟨hts, f, h, hft⟩
    · rw [if_pos he, mem_setInsert]
      constructor
      · rintro ((h | h) | ⟨hts, f, hf, hft⟩)
        · exact Or.inr ⟨h ▸ he, e, List.mem_cons_self _ _, h.symm⟩
        · exact Or.inl h
        · exact Or.inr ⟨hts, f, List.mem_cons_of_mem _ hf, hft⟩
      · rintro (h | ⟨hts, f, hf, hft⟩)
        · exact Or.inl (Or.inr h)
        · rcases List.mem_cons.1 hf with h | h
          · exact Or.inl (Or.inl (hft.symm.trans (h ▸ rfl)))
          · exact Or.inr ⟨hts, f, h, hft⟩

theorem mem_successorsOf (pomdp : Pomdp) (state t : Nat) :
    t ∈ successorsOf pomdp state ↔
      t ≠ state ∧ ∃ row ∈ pomdp.rowsOf state, ∃ e ∈ pomdp.getMatrixRow row, e.1 = t := by
  unfold successorsOf
  rw [mem_foldl_setInsert]
  simp only [List.not_mem_nil, false_or, Pomdp.getRowGroup, List.mem_flatten, List.mem_map]
  constructor
  · rintro ⟨hts, e, ⟨l, ⟨row, hrow, rfl⟩, hel⟩, het⟩
    exact ⟨hts, row, hrow, e, hel, het⟩
  · rintro ⟨hts, row, hrow, e, hel, het⟩
    exact ⟨hts, e, ⟨_, ⟨row, hrow, rfl⟩, hel⟩, het⟩

theorem rowsOf_eq_nil_of_le (pomdp : Pomdp) (state : Nat)
    (h : pomdp.getNumberOfStates ≤ state) : pomdp.rowsOf state = [] := by
  unfold Pomdp.rowsOf
  have h1 : pomdp.rowGroupIndices.length ≤ state + 1 := by
    unfold Pomdp.getNumberOfStates at h
    omega
  rw [List.getD_eq_getElem?_getD (n := state + 1), List.getElem?_eq_none h1]
  simp

theorem Constructed.getD_successors {b : SubPomdpBuilder} (hb : b.Constructed) (state : Nat) :
    ∀ t, t ∈ b.reachable_successors.getD state [] ↔ t ∈ successorsOf b.pomdp state := by
  intro t
  rw [hb.1, List.getD_eq_getElem?_getD, List.getElem?_map]
  by_cases hlt : state < b.pomdp.getNumberOfStates
  · rw [List.getElem?_range hlt]
    rfl
  · rw [List.getElem?_eq_none (by simpa using Nat.le_of_not_lt hlt)]
    simp only [Option.map_none', Option.getD_none, List.not_mem_nil, false_iff]
    rw [mem_successorsOf, rowsOf_eq_nil_of_le _ _ (Nat.le_of_not_lt hlt)]
    simp

theorem construct_constructed (pomdp : Pomdp) (targetStates : BitVector)
    (stateActionRewards : List ℚ) : (construct pomdp targetStates stateActionRewards).Constructed :=
  ⟨rfl, by simp [construct, BitVector.zeros]⟩

theorem computeFrontier_spec (b : SubPomdpBuilder) (relevant_states : BitVector) :
    (computeFrontier b relevant_states).length = b.frontier_states.length ∧
      ∀ t, BitVector.get (computeFrontier b relevant_states) t = true ↔
        t < b.frontier_states.length ∧
          (∃ state, BitVector.get relevant_states state = true ∧
            t ∈ b.reachable_successors.getD state []) ∧
          BitVector.get relevant_states t = false := by
  obtain ⟨h1, h2⟩ := BitVector.foldl_foldl_setBit_spec
    (fun x => !(BitVector.get relevant_states x))
    (fun state => b.reachable_successors.getD state [])
    (BitVector.setBits relevant_states) (BitVector.clear b.frontier_states)
  rw [BitVector.length_clear] at h1
  refine ⟨h1, fun t => ?_⟩
  unfold computeFrontier
  rw [h2 t, BitVector.get_clear, BitVector.length_clear]
  simp only [Bool.false_eq_true, false_or, Bool.not_eq_true', BitVector.mem_setBits]

theorem Constructed.setRelevantStates {b : SubPomdpBuilder} (hb : b.Constructed)
    (relevant_states : BitVector) : (b.setRelevantStates relevant_states).Constructed :=
  ⟨hb.1, (computeFrontier_spec b relevant_states).1.trans hb.2⟩

/-- Claim C15: after `setRelevantStates(S)`, a state `t` is a frontier state if and only
if `t` is not in `S` and some state of `S` has, in a row of one of its choices, a
transition entry to `t`; in particular no state is both relevant and frontier. -/
theorem frontier_states_iff (b : SubPomdpBuilder) (hb : b.Constructed)
    (relevant_states : BitVector)
    (hcols : ∀ row ∈ b.pomdp.rows, ∀ e ∈ row, e.1 < b.pomdp.getNumberOfStates) :
    (∀ t, BitVector.get (b.setRelevantStates relevant_states).frontier_states t = true ↔
        BitVector.get relevant_states t = false ∧
          ∃ s, BitVector.get relevant_states s = true ∧
            ∃ row ∈ b.pomdp.rowsOf s, ∃ e ∈ b.pomdp.getMatrixRow row, e.1 = t) ∧
      ∀ t, ¬ (BitVector.get (b.setRelevantStates relevant_states).frontier_states t = true ∧
        BitVector.get (b.setRelevantStates relevant_states).relevant_states t = true) := by
  have hiff : ∀ t, BitVector.get (b.setRelevantStates relevant_states).frontier_states t = true ↔
      BitVector.get relevant_states t = false ∧
        ∃ s, BitVector.get relevant_states s = true ∧
          ∃ row ∈ b.pomdp.rowsOf s, ∃ e ∈ b.pomdp.getMatrixRow row, e.1 = t := by
    intro t
    show BitVector.get (computeFrontier b relevant_states) t = true ↔ _
    rw [(computeFrontier_spec b relevant_states).2 t, hb.2]
    constructor
    · rintro ⟨_, ⟨s, hs, hmem⟩, hnot⟩
      have := ((hb.getD_successors s t).1 hmem)
      rw [mem_successorsOf] at this
      exact ⟨hnot, s, hs, this.2⟩
    · rintro ⟨hnot, s, hs, row, hrow, e, he, het⟩
      have hts : t ≠ s := by
        rintro rfl
        rw [hs] at hnot
        cases hnot
      have hrowmem : b.pomdp.getMatrixRow row ∈ b.pomdp.rows := by
        unfold Pomdp.getMatrixRow at he ⊢
        rw [List.getD_eq_getElem?_getD] at he ⊢
        cases hr : b.pomdp.rows[row]? with
        | none => rw [hr] at he; simp at he
        | some r => exact List.getElem?_mem hr
      refine ⟨het ▸ hcols _ hrowmem e he, ⟨s, hs, ?_⟩, hnot⟩
      rw [hb.getD_successors s t, mem_successorsOf]
      exact ⟨hts, row, hrow, e, he, het⟩
  refine ⟨hiff, ?_⟩
  rintro t ⟨hf, hr⟩
  have := ((hiff t).1 hf).1
  have hr2 : BitVector.get relevant_states t = true := hr
  rw [this] at hr2
  cases hr2

end SubPomdpBuilder

namespace SubPomdpBuilder

theorem assignIndices_spec (states : List Nat) :
    ∀ (m : List Nat) (i : Nat), states.Nodup → (∀ s ∈ states, s < m.length) →
      (assignIndices (m, i) states).2 = i + states.length ∧
      (assignIndices (m, i) states).1.length = m.length ∧
      (∀ j, j < states.length →
        (assignIndices (m, i) states).1.getD (states.getD j 0) 0 = i + j) ∧
      (∀ t, t ∉ states → (assignIndices (m, i) states).1.getD t 0 = m.getD t 0) := by
  induction states with
  | nil =>
    intro m i _ _
    refine ⟨rfl, rfl, ?_, fun t _ => rfl⟩
    intro j hj
    simp at hj
  | cons x rest ih =>
    intro m i hnd hlt
    have hnd2 := List.nodup_cons.1 hnd
    have hstep : assignIndices (m, i) (x :: rest) = assignIndices (List.set m x i, i + 1) rest :=
      rfl
    rw [hstep]
    obtain ⟨h1, h2, h3, h4⟩ := ih (List.set m x i) (i + 1) hnd2.2
      (fun s hs => by rw [List.length_set]; exact hlt s (List.mem_cons_of_mem _ hs))
    have hx : x < m.length := hlt x (List.mem_cons_self _ _)
    refine ⟨?_, ?_, ?_, ?_⟩
    · rw [h1, List.length_cons]; omega
    · rw [h2, List.length_set]
    · intro j hj
      cases j with
      | zero =>
        rw [List.getD_cons_zero, h4 x hnd2.1, List.getD_eq_getElem?_getD, List.getElem?_set]
        simp [hx]
      | succ j =>
        rw [List.getD_cons_succ, h3 j (by simpa using hj)]
        omega
    · intro t ht
      simp only [List.mem_cons, not_or] at ht
      rw [h4 t ht.2, List.getD_eq_getElem?_getD, List.getD_eq_getElem?_getD,
        List.getElem?_set_ne (fun h => ht.1 h.symm)]

theorem getD_of_mem_sorted (l : List Nat) (t : Nat) (h : t ∈ l) :
    ∃ j, j < l.length ∧ l.getD j 0 = t := by
  obtain ⟨j, hj, hjt⟩ := List.getElem_of_mem h
  exact ⟨j, hj, by rw [List.getD_eq_getElem _ _ hj]; exact hjt⟩

theorem getD_mem_of_lt (l : List Nat) (j : Nat) (h : j < l.length) : l.getD j 0 ∈ l := by
  rw [List.getD_eq_getElem _ _ h]
  exact List.getElem_mem _

theorem state_full_to_sub_aux (b : SubPomdpBuilder) (hb : b.Constructed)
    (relevant_states : BitVector)
    (hS : relevant_states.length = b.pomdp.getNumberOfStates) :
    (∀ i, i < (BitVector.setBits relevant_states).length →
        (b.setRelevantStates relevant_states).state_full_to_sub.getD
          ((BitVector.setBits relevant_states).getD i 0) 0 = 2 + i) ∧
      (∀ j, j < (BitVector.setBits (computeFrontier b relevant_states)).length →
        (b.setRelevantStates relevant_states).state_full_to_sub.getD
          ((BitVector.setBits (computeFrontier b relevant_states)).getD j 0) 0 =
          2 + (BitVector.setBits relevant_states).length + j) ∧
      (∀ t, t ∉ BitVector.setBits relevant_states →
        t ∉ BitVector.setBits (computeFrontier b relevant_states) →
        (b.setRelevantStates relevant_states).state_full_to_sub.getD t 0 = 0) := by
  have hR : ∀ s ∈ BitVector.setBits relevant_states,
      s < (List.replicate b.pomdp.getNumberOfStates 0).length := by
    intro s hs
    rw [List.length_replicate, ← hS]
    exact BitVector.lt_length_of_get ((BitVector.mem_setBits _ s).1 hs)
  obtain ⟨r1, r2, r3, r4⟩ := assignIndices_spec (BitVector.setBits relevant_states)
    (List.replicate b.pomdp.getNumberOfStates 0) 2 (BitVector.setBits_nodup _) hR
  have hF : ∀ s ∈ BitVector.setBits (computeFrontier b relevant_states),
      s < (assignIndices (List.replicate b.pomdp.getNumberOfStates 0, 2)
        (BitVector.setBits relevant_states)).1.length := by
    intro s hs
    rw [r2, List.length_replicate, ← hb.2, ← (computeFrontier_spec b relevant_states).1]
    exact BitVector.lt_length_of_get ((BitVector.mem_setBits _ s).1 hs)
  have hdisj : ∀ s, s ∈ BitVector.setBits (computeFrontier b relevant_states) →
      s ∉ BitVector.setBits relevant_states := by
    intro s hs hr
    have h1 := ((computeFrontier_spec b relevant_states).2 s).1
      ((BitVector.mem_setBits _ s).1 hs)
    have h2 := (BitVector.mem_setBits _ s).1 hr
    rw [h1.2.2] at h2
    cases h2
  obtain ⟨f1, f2, f3, f4⟩ := assignIndices_spec
    (BitVector.setBits (computeFrontier b relevant_states))
    (assignIndices (List.replicate b.pomdp.getNumberOfStates 0, 2)
      (BitVector.setBits relevant_states)).1
    (assignIndices (List.replicate b.pomdp.getNumberOfStates 0, 2)
      (BitVector.setBits relevant_states)).2
    (BitVector.setBits_nodup _) hF
  refine ⟨?_, ?_, ?_⟩
  · intro i hi
    show (assignIndices _ _).1.getD _ 0 = 2 + i
    have hmem := getD_mem_of_lt _ i hi
    rw [f4 _ (fun h => hdisj _ h hmem), r3 i hi]
  · intro j hj
    show (assignIndices _ _).1.getD _ 0 = _
    rw [f3 j hj, r1]
  · intro t ht1 ht2
    show (assignIndices _ _).1.getD _ 0 = 0
    rw [f4 t ht2, r4 t ht1, List.getD_eq_getElem?_getD, List.getElem?_replicate]
    split_ifs <;> rfl

/-- Claim C16: after `setRelevantStates(S)` with `k` relevant and `f` frontier states, the
index map sends the `i`-th smallest relevant state to `2 + i`, the `j`-th smallest
frontier state to `2 + k + j` and every other state to `0`; hence it is injective on
the relevant and frontier states, maps them onto `{2, ..., k + f + 1}`, and gives every
relevant state a smaller index than every frontier state. -/
theorem state_full_to_sub_spec (b : SubPomdpBuilder) (hb : b.Constructed)
    (relevant_states : BitVector)
    (hS : relevant_states.length = b.pomdp.getNumberOfStates) :
    (BitVector.setBits (b.setRelevantStates relevant_states).relevant_states).Pairwise
        (fun x y => x < y) ∧
      (BitVector.setBits (b.setRelevantStates relevant_states).frontier_states).Pairwise
        (fun x y => x < y) ∧
      (∀ i, i < (BitVector.setBits (b.setRelevantStates relevant_states).relevant_states).length →
        (b.setRelevantStates relevant_states).state_full_to_sub.getD
          ((BitVector.setBits (b.setRelevantStates relevant_states).relevant_states).getD i 0) 0 =
          2 + i) ∧
      (∀ j, j < (BitVector.setBits (b.setRelevantStates relevant_states).frontier_states).length →
        (b.setRelevantStates relevant_states).state_full_to_sub.getD
          ((BitVector.setBits (b.setRelevantStates relevant_states).frontier_states).getD j 0) 0 =
          2 + (BitVector.setBits (b.setRelevantStates relevant_states).relevant_states).length +
            j) ∧
      (∀ t, t ∉ BitVector.setBits (b.setRelevantStates relevant_states).relevant_states →
        t ∉ BitVector.setBits (b.setRelevantStates relevant_states).frontier_states →
        (b.setRelevantStates relevant_states).state_full_to_sub.getD t 0 = 0) ∧
      (∀ s t,
        (s ∈ BitVector.setBits (b.setRelevantStates relevant_states).relevant_states ∨
          s ∈ BitVector.setBits (b.setRelevantStates relevant_states).frontier_states) →
        (t ∈ BitVector.setBits (b.setRelevantStates relevant_states).relevant_states ∨
          t ∈ BitVector.setBits (b.setRelevantStates relevant_states).frontier_states) →
        (b.setRelevantStates relevant_states).state_full_to_sub.getD s 0 =
          (b.setRelevantStates relevant_states).state_full_to_sub.getD t 0 → s = t) ∧
      (∀ idx, (2 ≤ idx ∧ idx < 2 +
          (BitVector.setBits (b.setRelevantStates relevant_states).relevant_states).length +
          (BitVector.setBits (b.setRelevantStates relevant_states).frontier_states).length) ↔
        ∃ t, (t ∈ BitVector.setBits (b.setRelevantStates relevant_states).relevant_states ∨
            t ∈ BitVector.setBits (b.setRelevantStates relevant_states).frontier_states) ∧
          (b.setRelevantStates relevant_states).state_full_to_sub.getD t 0 = idx) ∧
      (∀ r ∈ BitVector.setBits (b.setRelevantStates relevant_states).relevant_states,
        ∀ t ∈ BitVector.setBits (b.setRelevantStates relevant_states).frontier_states,
        (b.setRelevantStates relevant_states).state_full_to_sub.getD r 0 <
          (b.setRelevantStates relevant_states).state_full_to_sub.getD t 0) := by
  obtain ⟨a1, a2, a3⟩ := state_full_to_sub_aux b hb relevant_states hS
  have hRel : (b.setRelevantStates relevant_states).relevant_states = relevant_states := rfl
  have hFro : (b.setRelevantStates relevant_states).frontier_states =
      computeFrontier b relevant_states := rfl
  rw [hRel, hFro]
  have hrel : ∀ s ∈ BitVector.setBits relevant_states, ∃ i,
      i < (BitVector.setBits relevant_states).length ∧
      (b.setRelevantStates relevant_states).state_full_to_sub.getD s 0 = 2 + i ∧
      (BitVector.setBits relevant_states).getD i 0 = s := by
    intro s hs
    obtain ⟨i, hi, his⟩ := getD_of_mem_sorted _ s hs
    exact ⟨i, hi, his ▸ a1 i hi, his⟩
  have hfro : ∀ s ∈ BitVector.setBits (computeFrontier b relevant_states), ∃ j,
      j < (BitVector.setBits (computeFrontier b relevant_states)).length ∧
      (b.setRelevantStates relevant_states).state_full_to_sub.getD s 0 =
        2 + (BitVector.setBits relevant_states).length + j ∧
      (BitVector.setBits (computeFrontier b relevant_states)).getD j 0 = s := by
    intro s hs
    obtain ⟨j, hj, hjs⟩ := getD_of_mem_sorted _ s hs
    exact ⟨j, hj, hjs ▸ a2 j hj, hjs⟩
  refine ⟨BitVector.setBits_sorted _, BitVector.setBits_sorted _, a1, a2, a3, ?_, ?_, ?_⟩
  · intro s t hs ht heq
    rcases hs with hs | hs <;> rcases ht with ht | ht
    · obtain ⟨i, _, hi, his⟩ := hrel s hs
      obtain ⟨j, _, hj, hjt⟩ := hrel t ht
      rw [hi, hj] at heq
      have : i = j := by omega
      rw [← his, ← hjt, this]
    · obtain ⟨i, hil, hi, _⟩ := hrel s hs
      obtain ⟨j, _, hj, _⟩ := hfro t ht
      rw [hi, hj] at heq
      omega
    · obtain ⟨i, _, hi, _⟩ := hfro s hs
      obtain ⟨j, hjl, hj, _⟩ := hrel t ht
      rw [hi, hj] at heq
      omega
    · obtain ⟨i, _, hi, his⟩ := hfro s hs
      obtain ⟨j, _, hj, hjt⟩ := hfro t ht
      rw [hi, hj] at heq
      have : i = j := by omega
      rw [← his, ← hjt, this]
  · intro idx
    constructor
    · rintro ⟨h2, hlt⟩
      by_cases hk : idx < 2 + (BitVector.setBits relevant_states).length
      · refine ⟨(BitVector.setBits relevant_states).getD (idx - 2) 0,
          Or.inl (getD_mem_of_lt _ _ (by omega)), ?_⟩
        rw [a1 (idx - 2) (by omega)]
        omega
      · refine ⟨(BitVector.setBits (computeFrontier b relevant_states)).getD
            (idx - 2 - (BitVector.setBits relevant_states).length) 0,
          Or.inr (getD_mem_of_lt _ _ (by omega)), ?_⟩
        rw [a2 _ (by omega)]
        omega
    · rintro ⟨t, ht | ht, hidx⟩
      · obtain ⟨i, hil, hi, _⟩ := hrel t ht
        rw [hi] at hidx
        omega
      · obtain ⟨j, hjl, hj, _⟩ := hfro t ht
        rw [hj] at hidx
        omega
  · intro r hr t ht
    obtain ⟨i, hil, hi, _⟩ := hrel r hr
    obtain ⟨j, _, hj, _⟩ := hfro t ht
    rw [hi, hj]
    omega

end SubPomdpBuilder

/-! ## The sub-POMDP builder: the transition matrix -/

theorem addEntry_of_length_le (rows : List (List (Nat × ℚ))) :
    ∀ (row : Nat) (e : Nat × ℚ), rows.length ≤ row →
      addEntry rows row e = padRows row rows ++ [[e]] := by
  induction rows with
  | nil =>
    intro row e _
    induction row with
    | zero => simp [addEntry, padRows]
    | succ row ih =>
      rw [addEntry, ih (Nat.zero_le _)]
      simp [padRows, List.replicate_succ]
  | cons r rest ih =>
    intro row e hle
    cases row with
    | zero => simp at hle
    | succ row =>
      simp only [addEntry]
      rw [ih row e (by simpa using hle)]
      simp [padRows]

theorem addEntry_last (pre : List (List (Nat × ℚ))) (cur : List (Nat × ℚ)) (e : Nat × ℚ) :
    addEntry (pre ++ [cur]) pre.length e = pre ++ [cur ++ [e]] := by
  induction pre with
  | nil => simp [addEntry]
  | cons r rest ih => simp [addEntry, ih]

theorem foldl_addEntry_last (entries : List (Nat × ℚ)) (pre : List (List (Nat × ℚ))) :
    ∀ cur : List (Nat × ℚ),
      entries.foldl (fun rs e => addEntry rs pre.length e) (pre ++ [cur]) =
        pre ++ [cur ++ entries] := by
  induction entries with
  | nil => intro cur; simp
  | cons e rest ih =>
    intro cur
    rw [List.foldl_cons, addEntry_last, ih]
    simp

theorem length_padRows (n : Nat) (rows : List (List (Nat × ℚ))) (h : rows.length ≤ n) :
    (padRows n rows).length = n := by
  simp [padRows]
  omega

theorem padRows_of_length_eq (n : Nat) (rows : List (List (Nat × ℚ))) (h : rows.length = n) :
    padRows n rows = rows := by
  simp [padRows, h]

theorem foldl_addEntry_row (entries : List (Nat × ℚ)) (rows : List (List (Nat × ℚ)))
    (row : Nat) (hle : rows.length ≤ row) :
    (entries.foldl (fun rs e => addEntry rs row e) rows).length ≤ row + 1 ∧
      padRows (row + 1) (entries.foldl (fun rs e => addEntry rs row e) rows) =
        padRows row rows ++ [entries] := by
  cases entries with
  | nil =>
    refine ⟨Nat.le_succ_of_le hle, ?_⟩
    simp only [List.foldl_nil, padRows]
    have : row + 1 - rows.length = (row - rows.length) + 1 := by omega
    rw [this, List.replicate_succ', List.append_assoc]
  | cons e rest =>
    have hlen : (padRows row rows).length = row := length_padRows row rows hle
    have h := foldl_addEntry_last rest (padRows row rows) [e]
    rw [hlen] at h
    rw [List.foldl_cons, addEntry_of_length_le rows row e hle, h]
    refine ⟨by simp [hlen], ?_⟩
    exact padRows_of_length_eq _ _ (by simp [hlen])

namespace SubPomdpBuilder

theorem foldl_addNextValue (b : SubPomdpBuilder) (row : Nat) (entries : List (Nat × ℚ)) :
    ∀ builder : SparseMatrixBuilder,
      entries.foldl
          (fun builder entry =>
            builder.addNextValue row (b.state_full_to_sub.getD entry.1 0) entry.2)
          builder =
        { builder with
          rowEntries := (entries.map (translateEntry b)).foldl
            (fun rs e => addEntry rs row e) builder.rowEntries } := by
  induction entries with
  | nil => intro builder; rfl
  | cons e rest ih =>
    intro builder
    rw [List.foldl_cons, ih]
    rfl

theorem built_addTranslatedRow (b : SubPomdpBuilder) {st : SparseMatrixBuilder × Nat}
    {rows : List (List (Nat × ℚ))} {groups : List Nat} (h : Built st rows groups)
    (entries : List (Nat × ℚ)) :
    Built (addTranslatedRow b st entries) (rows ++ [entries.map (translateEntry b)]) groups ∧
      (addTranslatedRow b st entries).1.rowCount = st.1.rowCount ∧
      (addTranslatedRow b st entries).1.columnCount = st.1.columnCount := by
  obtain ⟨h1, h2, h3, h4⟩ := h
  unfold SubPomdpBuilder.addTranslatedRow
  rw [foldl_addNextValue]
  obtain ⟨g1, g2⟩ := foldl_addEntry_row (entries.map (translateEntry b)) st.1.rowEntries st.2 h2
  refine ⟨⟨?_, g1, ?_, h4⟩, rfl, rfl⟩
  · show st.2 + 1 = _
    rw [h1]
    simp
  · show padRows (st.2 + 1) _ = _
    rw [g2, h3]

theorem built_newRowGroup {st : SparseMatrixBuilder × Nat}
    {rows : List (List (Nat × ℚ))} {groups : List Nat} (h : Built st rows groups) :
    Built (st.1.newRowGroup st.2, st.2) rows (groups ++ [rows.length]) := by
  obtain ⟨h1, h2, h3, h4⟩ := h
  refine ⟨h1, h2, h3, ?_⟩
  show st.1.rowGroupIndices ++ [st.2] = _
  rw [h4, h1]

theorem built_addRows (b : SubPomdpBuilder) (rowIndices : List Nat) :
    ∀ {st : SparseMatrixBuilder × Nat} {rows : List (List (Nat × ℚ))} {groups : List Nat},
      Built st rows groups →
      Built (rowIndices.foldl
          (fun st row => SubPomdpBuilder.addTranslatedRow b st (b.pomdp.getMatrixRow row)) st)
        (rows ++ rowIndices.map (fun row => (b.pomdp.getMatrixRow row).map (translateEntry b)))
        groups ∧
      (rowIndices.foldl
          (fun st row => SubPomdpBuilder.addTranslatedRow b st (b.pomdp.getMatrixRow row))
          st).1.rowCount = st.1.rowCount ∧
      (rowIndices.foldl
          (fun st row => SubPomdpBuilder.addTranslatedRow b st (b.pomdp.getMatrixRow row))
          st).1.columnCount = st.1.columnCount := by
  induction rowIndices with
  | nil =>
    intro st rows groups h
    simpa using h
  | cons row rest ih =>
    intro st rows groups h
    obtain ⟨g1, g2, g3⟩ := built_addTranslatedRow b h (b.pomdp.getMatrixRow row)
    obtain ⟨h1, h2, h3⟩ := ih g1
    rw [List.foldl_cons]
    refine ⟨?_, h2.trans g2, h3.trans g3⟩
    simpa using h1

theorem length_rowsOf (pomdp : Pomdp) (state : Nat) :
    (pomdp.rowsOf state).length = pomdp.getRowGroupSize state := by
  simp [Pomdp.rowsOf, Pomdp.getRowGroupSize]

theorem built_addStates (b : SubPomdpBuilder) (states : List Nat) :
    ∀ {st : SparseMatrixBuilder × Nat} {rows : List (List (Nat × ℚ))} {groups : List Nat},
      Built st rows groups →
      Built (states.foldl
          (fun st state =>
            (b.pomdp.rowsOf state).foldl
              (fun st row => SubPomdpBuilder.addTranslatedRow b st (b.pomdp.getMatrixRow row))
              (st.1.newRowGroup st.2, st.2))
          st)
        (rows ++ (states.map (fun state => (b.pomdp.rowsOf state).map
          (fun row => (b.pomdp.getMatrixRow row).map (translateEntry b)))).flatten)
        (groups ++ groupStarts rows.length (states.map b.pomdp.getRowGroupSize)) ∧
      (states.foldl
          (fun st state =>
            (b.pomdp.rowsOf state).foldl
              (fun st row => SubPomdpBuilder.addTranslatedRow b st (b.pomdp.getMatrixRow row))
              (st.1.newRowGroup st.2, st.2))
          st).1.rowCount = st.1.rowCount ∧
      (states.foldl
          (fun st state =>
            (b.pomdp.rowsOf state).foldl
              (fun st row => SubPomdpBuilder.addTranslatedRow b st (b.pomdp.getMatrixRow row))
              (st.1.newRowGroup st.2, st.2))
          st).1.columnCount = st.1.columnCount := by
  induction states with
  | nil =>
    intro st rows groups h
    simpa [groupStarts] using h
  | cons state rest ih =>
    intro st rows groups h
    obtain ⟨g1, g2, g3⟩ := built_addRows b (b.pomdp.rowsOf state) (built_newRowGroup h)
    obtain ⟨h1, h2, h3⟩ := ih g1
    rw [List.foldl_cons]
    refine ⟨?_, h2.trans g2, h3.trans g3⟩
    simp only [List.map_cons, List.flatten_cons, groupStarts]
    rw [List.length_append, List.length_map, length_rowsOf, List.append_assoc,
      List.append_assoc] at h1
    exact h1

theorem built_selfLoop {st : SparseMatrixBuilder × Nat}
    {rows : List (List (Nat × ℚ))} {groups : List Nat} (h : Built st rows groups) (c : Nat) :
    Built (((st.1.newRowGroup st.2).addNextValue st.2 c 1), st.2 + 1)
        (rows ++ [[(c, 1)]]) (groups ++ [rows.length]) := by
  obtain ⟨h1, h2, h3, h4⟩ := h
  refine ⟨?_, ?_, ?_, ?_⟩
  · show st.2 + 1 = _
    rw [h1]; simp
  · show (addEntry st.1.rowEntries st.2 (c, 1)).length ≤ st.2 + 1
    rw [addEntry_of_length_le _ _ _ h2]
    simp [length_padRows _ _ h2]
  · show padRows (st.2 + 1) (addEntry st.1.rowEntries st.2 (c, 1)) = _
    rw [addEntry_of_length_le _ _ _ h2, h3]
    exact padRows_of_length_eq _ _ (by simp [h1])
  · show st.1.rowGroupIndices ++ [st.2] = _
    rw [h4, h1]

theorem built_addFrontier (states : List Nat) :
    ∀ {st : SparseMatrixBuilder × Nat} {rows : List (List (Nat × ℚ))} {groups : List Nat},
      Built st rows groups →
      Built (states.foldl
          (fun st _ => (((st.1.newRowGroup st.2).addNextValue st.2 sink_state 1), st.2 + 1)) st)
        (rows ++ states.map (fun _ => [(1, 1)]))
        (groups ++ groupStarts rows.length (states.map (fun _ => 1))) ∧
      (states.foldl
          (fun st _ => (((st.1.newRowGroup st.2).addNextValue st.2 sink_state 1), st.2 + 1))
          st).1.rowCount = st.1.rowCount ∧
      (states.foldl
          (fun st _ => (((st.1.newRowGroup st.2).addNextValue st.2 sink_state 1), st.2 + 1))
          st).1.columnCount = st.1.columnCount := by
  induction states with
  | nil =>
    intro st rows groups h
    simpa [groupStarts] using h
  | cons state rest ih =>
    intro st rows groups h
    obtain ⟨g1, g2, g3⟩ := ih (built_selfLoop h sink_state)
    rw [List.foldl_cons]
    refine ⟨?_, g2, g3⟩
    simp only [List.map_cons, groupStarts]
    rw [List.length_append, List.append_assoc, List.append_assoc] at g1
    exact g1

theorem built_build {st : SparseMatrixBuilder × Nat}
    {rows : List (List (Nat × ℚ))} {groups : List Nat} (h : Built st rows groups)
    (hrc : st.1.rowCount = rows.length) :
    st.1.build = ⟨rows, groups ++ [rows.length], st.1.columnCount⟩ := by
  obtain ⟨h1, h2, h3, h4⟩ := h
  show (⟨padRows st.1.rowCount st.1.rowEntries, st.1.rowGroupIndices ++ [st.1.rowCount],
    st.1.columnCount⟩ : SparseMatrix) = _
  rw [hrc, ← h1, h3, h4]

theorem numRows_eq (b : SubPomdpBuilder) :
    numRows b = 2 + ((BitVector.setBits b.relevant_states).map b.pomdp.getRowGroupSize).sum +
      BitVector.getNumberOfSetBits b.frontier_states := by
  unfold numRows
  have h : ∀ (l : List Nat) (init : Nat),
      l.foldl (fun num_rows state => num_rows + b.pomdp.getRowGroupSize state) init =
        init + (l.map b.pomdp.getRowGroupSize).sum := by
    intro l
    induction l with
    | nil => intro init; simp
    | cons s rest ih =>
      intro init
      rw [List.foldl_cons, ih]
      simp only [List.map_cons, List.sum_cons]
      omega
  rw [h]
  omega

theorem length_groupStarts (sizes : List Nat) :
    ∀ start : Nat, (groupStarts start sizes).length = sizes.length := by
  induction sizes with
  | nil => intro start; rfl
  | cons s rest ih => intro start; simp [groupStarts, ih]

theorem length_matrixRows (b : SubPomdpBuilder) (states : List Nat) :
    ((states.map (fun state => (b.pomdp.rowsOf state).map
      (fun row => (b.pomdp.getMatrixRow row).map (translateEntry b)))).flatten).length =
      (states.map b.pomdp.getRowGroupSize).sum := by
  induction states with
  | nil => rfl
  | cons s rest ih => simp [length_rowsOf, ih]

theorem constructTransitionMatrix_built (b : SubPomdpBuilder) (initial_belief : List (Nat × ℚ)) :
    constructTransitionMatrix b initial_belief =
      ⟨[initial_belief.map (translateEntry b)] ++ [[(1, 1)]] ++
          ((BitVector.setBits b.relevant_states).map (fun state => (b.pomdp.rowsOf state).map
            (fun row => (b.pomdp.getMatrixRow row).map (translateEntry b)))).flatten ++
          (BitVector.setBits b.frontier_states).map (fun _ => [(1, 1)]),
        [0, 1] ++
          groupStarts 2 ((BitVector.setBits b.relevant_states).map b.pomdp.getRowGroupSize) ++
          groupStarts
            (2 + ((BitVector.setBits b.relevant_states).map b.pomdp.getRowGroupSize).sum)
            ((BitVector.setBits b.frontier_states).map (fun _ => 1)) ++
          [numRows b],
        num_states b⟩ := by
  have h0 : Built ((⟨numRows b, num_states b, [], []⟩ : SparseMatrixBuilder).newRowGroup 0, 0)
      [] [0] := ⟨rfl, Nat.le_refl _, rfl, rfl⟩
  obtain ⟨h1, r1, c1⟩ := built_addTranslatedRow b h0 initial_belief
  have h2 := built_selfLoop h1 1
  obtain ⟨h3, r3, c3⟩ := built_addStates b (BitVector.setBits b.relevant_states) h2
  obtain ⟨h4, r4, c4⟩ := built_addFrontier (BitVector.setBits b.frontier_states) h3
  have hlen : ([] ++ [initial_belief.map (translateEntry b)] ++ [[((1 : Nat), (1 : ℚ))]] ++
      ((BitVector.setBits b.relevant_states).map (fun state => (b.pomdp.rowsOf state).map
        (fun row => (b.pomdp.getMatrixRow row).map (translateEntry b)))).flatten ++
      (BitVector.setBits b.frontier_states).map (fun _ => [((1 : Nat), (1 : ℚ))])).length =
      numRows b := by
    rw [numRows_eq, List.length_append, List.length_append, length_matrixRows]
    simp [BitVector.getNumberOfSetBits]
  have key := built_build h4 ((r4.trans (r3.trans r1)).trans hlen.symm)
  rw [c4.trans (c3.trans c1), hlen] at key
  refine Eq.trans key ?_
  have e := length_matrixRows b (BitVector.setBits b.relevant_states)
  simp only [SparseMatrix.mk.injEq, List.length_append, e, List.nil_append, List.length_cons,
    List.length_nil, and_true]
  refine ⟨trivial, ?_⟩
  have h2 : 0 + 1 + (0 + 1) = 2 := rfl
  rw [h2]
  exact ⟨rfl, rfl⟩

end SubPomdpBuilder

namespace SubPomdpBuilder

/-- Claim C17: the transition matrix built by `restrictPomdp` consists, in this order, of
the row of the initial belief with every state replaced by its index, the row of the
sink with the single entry `(1, 1)`, for each relevant state in ascending order the
rows of its choices in their order with every column replaced by its index and the
value unchanged, and for each frontier state one row with the single entry `(1, 1)`;
the row groups start at rows `0` and `1`, at the first row of each relevant state and
at the row of each frontier state. -/
theorem restrictPomdp_transitionMatrix (b : SubPomdpBuilder)
    (initial_belief frontier_values : List (Nat × ℚ)) (fresh_observation : Nat) :
    (b.restrictPomdp initial_belief frontier_values
        fresh_observation).transitionMatrix.rows =
        [initial_belief.map (fun entry => (b.state_full_to_sub.getD entry.1 0, entry.2))] ++
          [[(1, 1)]] ++
          ((BitVector.setBits b.relevant_states).map (fun state => (b.pomdp.rowsOf state).map
            (fun row => (b.pomdp.getMatrixRow row).map
              (fun entry => (b.state_full_to_sub.getD entry.1 0, entry.2))))).flatten ++
          (BitVector.setBits b.frontier_states).map (fun _ => [(1, 1)]) ∧
      (b.restrictPomdp initial_belief frontier_values
        fresh_observation).transitionMatrix.rowGroupIndices =
        [0, 1] ++
          groupStarts 2 ((BitVector.setBits b.relevant_states).map b.pomdp.getRowGroupSize) ++
          groupStarts
            (2 + ((BitVector.setBits b.relevant_states).map b.pomdp.getRowGroupSize).sum)
            ((BitVector.setBits b.frontier_states).map (fun _ => 1)) ++
          [(b.restrictPomdp initial_belief frontier_values
            fresh_observation).transitionMatrix.getRowCount] := by
  have h := constructTransitionMatrix_built b initial_belief
  have hrows : (constructTransitionMatrix b initial_belief).rows.length = numRows b := by
    rw [h, numRows_eq, List.length_append, List.length_append, length_matrixRows]
    simp [BitVector.getNumberOfSetBits]
  refine ⟨?_, ?_⟩
  · show (constructTransitionMatrix b initial_belief).rows = _
    rw [h]
    rfl
  · show (constructTransitionMatrix b initial_belief).rowGroupIndices =
      _ ++ [(constructTransitionMatrix b initial_belief).rows.length]
    rw [hrows, h]

/-- Claim C14: with `k` relevant states that have `c_1, ..., c_k` choices and `f` frontier
states, the transition matrix built by `restrictPomdp` has `2 + (c_1 + ... + c_k) + f`
rows, `2 + k + f` row groups and `2 + k + f` columns. -/
theorem restrictPomdp_dimensions (b : SubPomdpBuilder)
    (initial_belief frontier_values : List (Nat × ℚ)) (fresh_observation : Nat) :
    (b.restrictPomdp initial_belief frontier_values
        fresh_observation).transitionMatrix.getRowCount =
        2 + ((BitVector.setBits b.relevant_states).map b.pomdp.getRowGroupSize).sum +
          BitVector.getNumberOfSetBits b.frontier_states ∧
      (b.restrictPomdp initial_belief frontier_values
        fresh_observation).transitionMatrix.getRowGroupCount =
        2 + BitVector.getNumberOfSetBits b.relevant_states +
          BitVector.getNumberOfSetBits b.frontier_states ∧
      (b.restrictPomdp initial_belief frontier_values
        fresh_observation).transitionMatrix.getColumnCount =
        2 + BitVector.getNumberOfSetBits b.relevant_states +
          BitVector.getNumberOfSetBits b.frontier_states := by
  have h := constructTransitionMatrix_built b initial_belief
  refine ⟨?_, ?_, ?_⟩
  · show (constructTransitionMatrix b initial_belief).rows.length = _
    rw [h, List.length_append, List.length_append, length_matrixRows]
    simp [BitVector.getNumberOfSetBits]
  · show (constructTransitionMatrix b initial_belief).rowGroupIndices.length - 1 = _
    rw [h]
    simp only [List.length_append, length_groupStarts, List.length_map, List.length_cons,
      List.length_nil, BitVector.getNumberOfSetBits]
    omega
  · show (constructTransitionMatrix b initial_belief).columnCount = _
    rw [h]
    rfl

/-- Witness of claim C15 on the POMDP `fourStates` with relevant state `0`. -/
theorem frontier_states_iff_witness :
    (construct fourStates [false, false, false, true] [10, 20, 30, 40, 50]).Constructed ∧
      (∀ row ∈ fourStates.rows, ∀ e ∈ row, e.1 < fourStates.getNumberOfStates) ∧
      ∀ t, ¬ (BitVector.get fourStatesExample.frontier_states t = true ∧
        BitVector.get fourStatesExample.relevant_states t = true) :=
  ⟨construct_constructed _ _ _, by decide,
    (frontier_states_iff (construct fourStates [false, false, false, true] [10, 20, 30, 40, 50])
      (construct_constructed _ _ _) [true, false, false, false] (by decide)).2⟩

/-- Witness of claim C16 on the POMDP `fourStates` with relevant state `0`. -/
theorem state_full_to_sub_spec_witness :
    (construct fourStates [false, false, false, true] [10, 20, 30, 40, 50]).Constructed ∧
      ([true, false, false, false] : BitVector).length = fourStates.getNumberOfStates ∧
      ∀ t, t ∉ BitVector.setBits fourStatesExample.relevant_states →
        t ∉ BitVector.setBits fourStatesExample.frontier_states →
        fourStatesExample.state_full_to_sub.getD t 0 = 0 :=
  ⟨construct_constructed _ _ _, by decide,
    (state_full_to_sub_spec
      (construct fourStates [false, false, false, true] [10, 20, 30, 40, 50])
      (construct_constructed _ _ _) [true, false, false, false] (by decide)).2.2.2.2.1⟩

/-- Claim C18 (failing input): on `fourStates` with target state `3` and relevant state
`0`, no target state is relevant or frontier, yet the target label of the sub-model
built by `restrictPomdp` holds at index `0`, the synthetic initial state. -/
theorem constructTargetLabel_labels_initial_state :
    (∀ s, BitVector.get fourStatesExample.targetStates s = true →
        BitVector.get fourStatesExample.relevant_states s = false ∧
          BitVector.get fourStatesExample.frontier_states s = false) ∧
      (fourStatesExample.restrictPomdp [(0, 1)] [(1, 7), (2, 9)] 3).targetLabel =
        [true, true, false, false, false] ∧
      BitVector.get (fourStatesExample.restrictPomdp [(0, 1)] [(1, 7), (2, 9)] 3).targetLabel
        initial_state = true ∧
      initial_state ≠ sink_state := by
  refine ⟨?_, by decide, by decide, by decide⟩
  intro s hs
  have h3 : s = 3 := by
    rcases s with _ | _ | _ | _ | s
    · exact absurd hs (by decide)
    · exact absurd hs (by decide)
    · exact absurd hs (by decide)
    · rfl
    · exfalso
      revert hs
      simp [fourStatesExample, setRelevantStates, construct, BitVector.get]
  subst h3
  decide

end SubPomdpBuilder

/-! ## The sub-POMDP builder: the reward model -/

theorem foldl_set_consecutive {α : Type} (f : α → ℚ) (xs : List α) :
    ∀ (done : List ℚ) (m : Nat), xs.length ≤ m →
      xs.foldl (fun st x => (List.set st.1 st.2 (f x), st.2 + 1))
          (done ++ List.replicate m 0, done.length) =
        (done ++ xs.map f ++ List.replicate (m - xs.length) 0, done.length + xs.length) := by
  induction xs with
  | nil => intro done m _; simp
  | cons x rest ih =>
    intro done m hm
    obtain ⟨m, rfl⟩ : ∃ k, m = k + 1 := ⟨m - 1, by simp at hm; omega⟩
    have hset : List.set (done ++ List.replicate (m + 1) (0 : ℚ)) done.length (f x) =
        (done ++ [f x]) ++ List.replicate m 0 := by
      rw [List.replicate_succ, List.set_append_right _ _ (Nat.le_refl _)]
      simp
    have hlen : done.length + 1 = (done ++ [f x]).length := by simp
    rw [List.foldl_cons]
    show rest.foldl _ (List.set (done ++ List.replicate (m + 1) (0 : ℚ)) done.length (f x),
      done.length + 1) = _
    rw [hset, hlen, ih (done ++ [f x]) m (by simpa using hm)]
    simp only [List.length_append, List.length_cons, List.length_nil, List.map_cons,
      List.append_assoc, List.singleton_append, Nat.add_sub_add_right]
    congr 1
    omega

namespace SubPomdpBuilder

theorem rewardRelevantStates_eq (b : SubPomdpBuilder) (st : List ℚ × Nat) :
    rewardRelevantStates b st =
      ((BitVector.setBits b.relevant_states).map b.pomdp.rowsOf).flatten.foldl
        (fun st row => (List.set st.1 st.2 (getStateActionReward b row), st.2 + 1)) st := by
  unfold rewardRelevantStates
  rw [List.foldl_flatten, List.foldl_map]

theorem map_flatten_rowsOf (b : SubPomdpBuilder) (states : List Nat) :
    ((states.map b.pomdp.rowsOf).flatten).map (getStateActionReward b) =
      (states.map (fun state =>
        (b.pomdp.rowsOf state).map (getStateActionReward b))).flatten := by
  induction states with
  | nil => rfl
  | cons s rest ih => simp [ih]

theorem length_flatten_rowsOf (b : SubPomdpBuilder) (states : List Nat) :
    ((states.map b.pomdp.rowsOf).flatten).length = (states.map b.pomdp.getRowGroupSize).sum := by
  induction states with
  | nil => rfl
  | cons s rest ih => simp [length_rowsOf, ih]

theorem rewardFrontierStep_none (frontier_values : List (Nat × ℚ)) (state : Nat) :
    rewardFrontierStep frontier_values none state = none := by
  unfold rewardFrontierStep
  cases findSecond frontier_values state <;> rfl

theorem foldl_rewardFrontierStep_none (frontier_values : List (Nat × ℚ)) (states : List Nat) :
    states.foldl (rewardFrontierStep frontier_values) none = none := by
  induction states with
  | nil => rfl
  | cons s rest ih => rw [List.foldl_cons, rewardFrontierStep_none, ih]

theorem findSecond_of_mapFind (m : List (Nat × ℚ)) (key : Nat) (value : ℚ)
    (h : mapFind m key = some value) : findSecond m key = some value := by
  unfold findSecond
  rw [h]

theorem findSecond_of_mapFind_none (m : List (Nat × ℚ)) (key : Nat)
    (h : mapFind m key = none) : findSecond m key = none := by
  unfold findSecond
  rw [h]

theorem foldl_rewardFrontierStep_some (frontier_values : List (Nat × ℚ))
    (frontierValues : Nat → ℚ) (states : List Nat) :
    (∀ state ∈ states, mapFind frontier_values state = some (frontierValues state)) →
      ∀ st : List ℚ × Nat,
        states.foldl (rewardFrontierStep frontier_values) (some st) =
          some (states.foldl
            (fun st state => (List.set st.1 st.2 (frontierValues state), st.2 + 1)) st) := by
  induction states with
  | nil => intro _ st; rfl
  | cons s rest ih =>
    intro h st
    have hs : rewardFrontierStep frontier_values (some st) s =
        some (List.set st.1 st.2 (frontierValues s), st.2 + 1) := by
      unfold rewardFrontierStep
      rw [findSecond_of_mapFind _ _ _ (h s (List.mem_cons_self _ _))]
    rw [List.foldl_cons, hs, ih (fun state hstate => h state (List.mem_cons_of_mem _ hstate))]
    rfl

theorem foldl_rewardFrontierStep_missing (frontier_values : List (Nat × ℚ)) (state : Nat)
    (hmissing : mapFind frontier_values state = none) (states : List Nat) :
    state ∈ states → ∀ st : Option (List ℚ × Nat),
      states.foldl (rewardFrontierStep frontier_values) st = none := by
  induction states with
  | nil => intro h; cases h
  | cons s rest ih =>
    intro h st
    rw [List.foldl_cons]
    by_cases hs : state = s
    · have hstep : rewardFrontierStep frontier_values st s = none := by
        unfold rewardFrontierStep
        rw [← hs, findSecond_of_mapFind_none _ _ hmissing]
        cases st <;> rfl
      rw [hstep, foldl_rewardFrontierStep_none]
    · rcases List.mem_cons.1 h with h1 | h1
      · exact absurd h1 hs
      · exact ih h1 _

theorem constructRewardModel_eq (b : SubPomdpBuilder) (frontier_values : List (Nat × ℚ))
    (frontierValues : Nat → ℚ)
    (hsupplied : ∀ state ∈ BitVector.setBits b.frontier_states,
      mapFind frontier_values state = some (frontierValues state))
    (num_rows : Nat)
    (hrows : num_rows =
      2 + ((BitVector.setBits b.relevant_states).map b.pomdp.getRowGroupSize).sum +
        BitVector.getNumberOfSetBits b.frontier_states) :
    constructRewardModel b num_rows frontier_values =
      some ([0] ++ [0] ++
        ((BitVector.setBits b.relevant_states).map (fun state =>
          (b.pomdp.rowsOf state).map (getStateActionReward b))).flatten ++
        (BitVector.setBits b.frontier_states).map frontierValues) := by
  unfold constructRewardModel rewardFrontierStates
  rw [foldl_rewardFrontierStep_some frontier_values frontierValues _ hsupplied,
    rewardRelevantStates_eq, Option.map_some']
  rw [BitVector.getNumberOfSetBits] at hrows
  have hinit : ((List.replicate num_rows (0 : ℚ)), 2) =
      (([0, 0] : List ℚ) ++ List.replicate
        (((BitVector.setBits b.relevant_states).map b.pomdp.getRowGroupSize).sum +
          (BitVector.setBits b.frontier_states).length) 0, ([0, 0] : List ℚ).length) := by
    rw [hrows, Nat.add_assoc, Nat.add_comm 2]
    rfl
  rw [hinit, foldl_set_consecutive _ _ _ _
    (by rw [length_flatten_rowsOf]; exact Nat.le_add_right _ _)]
  have hlen : ([0, 0] : List ℚ).length + ((List.map b.pomdp.rowsOf
      (BitVector.setBits b.relevant_states)).flatten).length =
      (([0, 0] : List ℚ) ++ ((List.map b.pomdp.rowsOf
        (BitVector.setBits b.relevant_states)).flatten).map (getStateActionReward b)).length := by
    rw [List.length_append, List.length_map]
  rw [hlen, length_flatten_rowsOf, Nat.add_sub_cancel_left, foldl_set_consecutive _ _ _ _
    (Nat.le_refl _)]
  rw [map_flatten_rowsOf]
  simp

theorem constructRewardModel_missing (b : SubPomdpBuilder) (frontier_values : List (Nat × ℚ))
    (num_rows : Nat) (state : Nat) (hstate : state ∈ BitVector.setBits b.frontier_states)
    (hmissing : mapFind frontier_values state = none) :
    constructRewardModel b num_rows frontier_values = none := by
  unfold constructRewardModel rewardFrontierStates
  rw [foldl_rewardFrontierStep_missing frontier_values state hmissing _ hstate]
  rfl

theorem numRows_matrix (b : SubPomdpBuilder) (initial_belief : List (Nat × ℚ)) :
    (constructTransitionMatrix b initial_belief).rows.length =
      2 + ((BitVector.setBits b.relevant_states).map b.pomdp.getRowGroupSize).sum +
        BitVector.getNumberOfSetBits b.frontier_states := by
  rw [constructTransitionMatrix_built, List.length_append, List.length_append,
    length_matrixRows]
  simp [BitVector.getNumberOfSetBits]

/-- Claim C19: when the map of frontier values holds a value for every frontier state, the
action rewards of the sub-model built by `restrictPomdp` are, in the order of the rows
of the transition matrix, `0` for the row of the initial state, `0` for the row of the
sink, the state-action reward of the original row for every row of a relevant state,
and the supplied value for the row of each frontier state; there is one reward per
matrix row and no state rewards are set. -/
theorem restrictPomdp_actionRewards (b : SubPomdpBuilder)
    (initial_belief frontier_values : List (Nat × ℚ)) (fresh_observation : Nat)
    (frontierValues : Nat → ℚ)
    (hsupplied : ∀ state ∈ BitVector.setBits b.frontier_states,
      mapFind frontier_values state = some (frontierValues state)) :
    (b.restrictPomdp initial_belief frontier_values fresh_observation).actionRewards =
        some ([0] ++ [0] ++
          ((BitVector.setBits b.relevant_states).map (fun state =>
            (b.pomdp.rowsOf state).map (fun row => b.stateActionRewards.getD row 0))).flatten ++
          (BitVector.setBits b.frontier_states).map frontierValues) ∧
      (b.restrictPomdp initial_belief frontier_values fresh_observation).actionRewards.map
          List.length =
        some (b.restrictPomdp initial_belief frontier_values
          fresh_observation).transitionMatrix.getRowCount ∧
      (b.restrictPomdp initial_belief frontier_values fresh_observation).stateRewards = none := by
  have h := constructRewardModel_eq b frontier_values frontierValues hsupplied _
    (numRows_matrix b initial_belief)
  have hA : (b.restrictPomdp initial_belief frontier_values fresh_observation).actionRewards =
      constructRewardModel b (constructTransitionMatrix b initial_belief).rows.length
        frontier_values := rfl
  have hR : (b.restrictPomdp initial_belief frontier_values
      fresh_observation).transitionMatrix.getRowCount =
      (constructTransitionMatrix b initial_belief).rows.length := rfl
  refine ⟨hA.trans h, ?_, rfl⟩
  rw [hA, h, hR, numRows_matrix, Option.map_some']
  congr 1
  simp only [List.length_append, List.length_cons, List.length_nil, List.length_map,
    BitVector.getNumberOfSetBits]
  have := length_flatten_rowsOf b (BitVector.setBits b.relevant_states)
  rw [← map_flatten_rowsOf, List.length_map, this]

/-- Witness of claim C19 on `fourStatesExample` with the frontier values `7` and `9`. -/
theorem restrictPomdp_actionRewards_witness :
    (∀ state ∈ BitVector.setBits fourStatesExample.frontier_states,
        mapFind [(1, 7), (2, 9)] state = some ((fun s => if s = 1 then 7 else 9) state)) ∧
      (fourStatesExample.restrictPomdp [(0, 1)] [(1, 7), (2, 9)] 3).stateRewards = none :=
  ⟨by decide,
    (restrictPomdp_actionRewards fourStatesExample [(0, 1)] [(1, 7), (2, 9)] 3
      (fun s => if s = 1 then 7 else 9) (by decide)).2.2⟩

/-- Claim C20 (failing input): on `fourStatesExample` state `2` is a frontier state and
the map of frontier values `\x7b1 ↦ 7\x7d` has no entry for it. The source makes no check
and raises no error: `constructRewardModel` evaluates `frontier_values.find(2)->second`
on the `end()` iterator, which has no value, so that the reward vector of the model is
not defined. -/
theorem restrictPomdp_missing_frontier_value :
    2 ∈ BitVector.setBits fourStatesExample.frontier_states ∧
      mapFind [(1, 7)] 2 = none ∧
      findSecond [(1, 7)] 2 = none ∧
      (fourStatesExample.restrictPomdp [(0, 1)] [(1, 7)] 3).actionRewards = none :=
  ⟨by decide, by decide, by decide,
    constructRewardModel_missing fourStatesExample [(1, 7)]
      (constructTransitionMatrix fourStatesExample [(0, 1)]).rows.length 2 (by decide)
      (by decide)⟩

end SubPomdpBuilder

/-! ## Reachable manager states -/

namespace BeliefManager

theorem triangulateBelief_spec (m : BeliefManager) (hwf : m.WF) (belief : BeliefType)
    (resolution : Nat) :
    (m.triangulateBelief belief resolution).1.WF ∧
      (m.triangulateBelief belief resolution).1.cc = m.cc ∧
      (m.triangulateBelief belief resolution).1.pomdp = m.pomdp ∧
      (∃ t, (m.triangulateBelief belief resolution).1.beliefs = m.beliefs ++ t) ∧
      (m.triangulateBelief belief resolution).2.weights =
        (triangulationContents m.cc belief resolution).map Prod.fst ∧
      List.Forall₂
        (fun (g : Nat) (p : ℚ × BeliefType) =>
          (m.triangulateBelief belief resolution).1.beliefs[g]? = some p.2)
        (m.triangulateBelief belief resolution).2.gridPoints
        (triangulationContents m.cc belief resolution) := by
  by_cases hn : belief.length = 1
  · have h1 : m.triangulateBelief belief resolution =
        ((m.getOrAddBeliefId belief).1, ⟨[(m.getOrAddBeliefId belief).2], [1]⟩) := by
      unfold triangulateBelief
      simp only [hn, if_true]
    have h2 : triangulationContents m.cc belief resolution = [(1, belief)] := by
      unfold triangulationContents
      simp only [hn, if_true]
    rw [h1, h2]
    exact ⟨hwf.getOrAddBeliefId belief, getOrAddBeliefId_cc m belief,
      getOrAddBeliefId_pomdp m belief, getOrAddBeliefId_beliefs m belief, rfl,
      List.Forall₂.cons (getOrAddBeliefId_stored hwf belief) List.Forall₂.nil⟩
  · have h2 : triangulationContents m.cc belief resolution =
        match ((diffsFrom (resolution : ℚ) 0 (resolution : ℚ) belief).foldl
            sortedDiffsEmplace []).getLast? with
        | none => []
        | some previousSortedDiff =>
          triangulationPoints m.cc (resolution : ℚ) (belief.map Prod.fst) belief.length true
            previousSortedDiff
            ((diffsFrom (resolution : ℚ) 0 (resolution : ℚ) belief).foldl sortedDiffsEmplace [])
            ((xsFrom (resolution : ℚ) (resolution : ℚ) belief).map floorValue ++ [0]) := by
      unfold triangulationContents
      simp only [hn, if_false]
    rw [triangulateBelief_eq_loop m belief resolution hn, h2]
    cases hl : ((diffsFrom (resolution : ℚ) 0 (resolution : ℚ) belief).foldl
        sortedDiffsEmplace []).getLast? with
    | none => exact ⟨hwf, rfl, rfl, ⟨[], by simp⟩, rfl, List.Forall₂.nil⟩
    | some previous =>
      exact triangulateLoop_spec (resolution : ℚ) (belief.map Prod.fst) belief.length _ true
        previous _ m hwf

theorem expandLoop_some_cons (belief : BeliefType) (actionIndex : Nat) (resolutions : List Nat)
    (successor : Nat × ℚ) (rest : List (Nat × ℚ)) (m : BeliefManager) :
    expandLoop belief actionIndex (some resolutions) (successor :: rest) m =
      ((expandLoop belief actionIndex (some resolutions) rest
          (m.triangulateBelief (successorBelief m.pomdp belief actionIndex successor)
            (resolutions.getD successor.1 0)).1).1,
        ((m.triangulateBelief (successorBelief m.pomdp belief actionIndex successor)
            (resolutions.getD successor.1 0)).2.gridPoints.zip
          (m.triangulateBelief (successorBelief m.pomdp belief actionIndex successor)
            (resolutions.getD successor.1 0)).2.weights).map
            (fun gw => (gw.1, gw.2 * successor.2)) ++
          (expandLoop belief actionIndex (some resolutions) rest
            (m.triangulateBelief (successorBelief m.pomdp belief actionIndex successor)
              (resolutions.getD successor.1 0)).1).2) :=
  rfl

theorem forall₂_zip_weights {beliefs : List BeliefType} {gridPoints : List Nat}
    {weights : List ℚ} {contents : List (ℚ × BeliefType)} (q : ℚ)
    (hw : weights = contents.map Prod.fst)
    (hg : List.Forall₂ (fun (g : Nat) (p : ℚ × BeliefType) => beliefs[g]? = some p.2)
      gridPoints contents) :
    List.Forall₂
      (fun (d : BeliefId × ℚ) (p : ℚ × BeliefType) => d.2 = p.1 ∧ beliefs[d.1]? = some p.2)
      ((gridPoints.zip weights).map (fun gw => (gw.1, gw.2 * q)))
      (contents.map (fun p => (p.1 * q, p.2))) := by
  subst hw
  induction hg with
  | nil => exact List.Forall₂.nil
  | cons h _ ih => exact List.Forall₂.cons ⟨rfl, h⟩ ih

theorem expandLoop_some_spec (belief : BeliefType) (actionIndex : Nat) (resolutions : List Nat)
    (l : List (Nat × ℚ)) :
    ∀ m : BeliefManager, m.WF →
      (expandLoop belief actionIndex (some resolutions) l m).1.WF ∧
      (expandLoop belief actionIndex (some resolutions) l m).1.cc = m.cc ∧
      (expandLoop belief actionIndex (some resolutions) l m).1.pomdp = m.pomdp ∧
      (∃ t, (expandLoop belief actionIndex (some resolutions) l m).1.beliefs = m.beliefs ++ t) ∧
      List.Forall₂
        (fun (d : BeliefId × ℚ) (p : ℚ × BeliefType) =>
          d.2 = p.1 ∧
            (expandLoop belief actionIndex (some resolutions) l m).1.beliefs[d.1]? = some p.2)
        (expandLoop belief actionIndex (some resolutions) l m).2
        (l.map (fun successor =>
          (triangulationContents m.cc (successorBelief m.pomdp belief actionIndex successor)
            (resolutions.getD successor.1 0)).map (fun p => (p.1 * successor.2, p.2)))).flatten := by
  induction l with
  | nil =>
    intro m hwf
    exact ⟨hwf, rfl, rfl, ⟨[], by simp [expandLoop]⟩, List.Forall₂.nil⟩
  | cons successor rest ih =>
    intro m hwf
    rw [expandLoop_some_cons]
    obtain ⟨g1, g2, g3, ⟨t1, ht1⟩, g5, g6⟩ := triangulateBelief_spec m hwf
      (successorBelief m.pomdp belief actionIndex successor) (resolutions.getD successor.1 0)
    obtain ⟨h1, h2, h3, ⟨t2, ht2⟩, h5⟩ := ih _ g1
    refine ⟨h1, h2.trans g2, h3.trans g3, ⟨t1 ++ t2, ?_⟩, ?_⟩
    · exact ht2.trans (by rw [ht1, List.append_assoc])
    · rw [List.map_cons, List.flatten_cons]
      refine List.rel_append ?_ ?_
      · have h := forall₂_zip_weights successor.2 g5 g6
        refine h.imp ?_
        intro d p hd
        exact ⟨hd.1, ht2 ▸ stored_of_append hd.2⟩
      · rw [g2, g3] at h5
        exact h5

theorem lt_of_stored {l : List BeliefType} {id : Nat} {b : BeliefType} (h : l[id]? = some b) :
    id < l.length := by
  by_contra hge
  rw [List.getElem?_eq_none (Nat.le_of_not_lt hge)] at h
  cases h

theorem forall₂_left {α β : Type} {r : α → β → Prop} {p : α → Prop}
    (himp : ∀ a b, r a b → p a) {l₁ : List α} {l₂ : List β} (h : List.Forall₂ r l₁ l₂) :
    ∀ a ∈ l₁, p a := by
  induction h with
  | nil => intro a ha; cases ha
  | cons hab _ ih =>
    intro a ha
    rcases List.mem_cons.1 ha with rfl | ha
    · exact himp _ _ hab
    · exact ih a ha

theorem construct_WF (pomdp : Pomdp) (precision : ℚ) : (construct pomdp precision).WF :=
  (fresh_WF pomdp precision).getOrAddBeliefId _

theorem Reachable.wf {m : BeliefManager} (h : m.Reachable) : m.WF := by
  induction h with
  | init pomdp precision => exact construct_WF pomdp precision
  | add belief _ ih => exact ih.getOrAddBeliefId belief
  | triangulate belief resolution _ ih => exact (triangulateBelief_spec _ ih belief resolution).1
  | expandNone beliefId actionIndex _ ih =>
    exact (expandLoop_none_spec _ actionIndex _ _ ih).1
  | expandSome beliefId actionIndex observationResolutions _ ih =>
    exact (expandLoop_some_spec _ actionIndex observationResolutions _ _ ih).1

theorem distinct_of_WF {m : BeliefManager} (hwf : m.WF) (i j : Nat) (b : BeliefType)
    (hi : m.beliefs[i]? = some b) (hj : m.beliefs[j]? = some b) : i = j := by
  have h1 := (hwf.1 b i).2 hi
  have h2 := (hwf.1 b j).2 hj
  rw [h1] at h2
  exact Option.some.inj h2

/-- Claim C11: in every manager state reachable from construction by calls of
`getOrAddBeliefId`, `triangulateBelief`, `expand` and `expandAndTriangulate`, with
`n = getNumberOfBeliefIds()`: the ids that hold a belief are exactly those below `n`,
distinct ids hold distinct contents, the reverse index has `n` entries and maps the
content stored at an id back to that id, and every id that one of the operations
returns is below the number of ids after the call. -/
theorem reachable_ids_dense_canonical (m : BeliefManager) (h : m.Reachable) :
    (∀ id : Nat, id < m.getNumberOfBeliefIds ↔ ∃ b, m.beliefs[id]? = some b) ∧
      (∀ (i j : Nat) (b : BeliefType),
        m.beliefs[i]? = some b → m.beliefs[j]? = some b → i = j) ∧
      m.beliefToIdMap.length = m.getNumberOfBeliefIds ∧
      (∀ (i : Nat) (b : BeliefType),
        m.beliefs[i]? = some b → findBeliefId m.beliefToIdMap b = some i) ∧
      (∀ belief : BeliefType,
        (m.getOrAddBeliefId belief).2 < (m.getOrAddBeliefId belief).1.getNumberOfBeliefIds) ∧
      (∀ (belief : BeliefType) (resolution : Nat),
        ∀ g ∈ (m.triangulateBelief belief resolution).2.gridPoints,
          g < (m.triangulateBelief belief resolution).1.getNumberOfBeliefIds) ∧
      (∀ (beliefId : Nat) (actionIndex : Nat),
        ∀ d ∈ (m.expand beliefId actionIndex).2,
          d.1 < (m.expand beliefId actionIndex).1.getNumberOfBeliefIds) ∧
      (∀ (beliefId : Nat) (actionIndex : Nat) (observationResolutions : List Nat),
        ∀ d ∈ (m.expandAndTriangulate beliefId actionIndex observationResolutions).2,
          d.1 < (m.expandAndTriangulate beliefId actionIndex
            observationResolutions).1.getNumberOfBeliefIds) := by
  have hwf := h.wf
  refine ⟨?_, distinct_of_WF hwf, hwf.2, fun i b hi => (hwf.1 b i).2 hi, ?_, ?_, ?_, ?_⟩
  · intro id
    constructor
    · intro hid
      exact ⟨m.beliefs[id], List.getElem?_eq_getElem hid⟩
    · rintro ⟨b, hb⟩
      exact lt_of_stored hb
  · intro belief
    exact lt_of_stored (getOrAddBeliefId_stored hwf belief)
  · intro belief resolution
    exact forall₂_left (fun _ _ hg => lt_of_stored hg)
      (triangulateBelief_spec m hwf belief resolution).2.2.2.2.2
  · intro beliefId actionIndex
    exact forall₂_left (fun _ _ hd => lt_of_stored hd.2.2)
      (expandLoop_none_spec (m.getBelief beliefId) actionIndex _ m hwf).2.2.2
  · intro beliefId actionIndex observationResolutions
    exact forall₂_left (fun _ _ hd => lt_of_stored hd.2)
      (expandLoop_some_spec (m.getBelief beliefId) actionIndex observationResolutions _ m
        hwf).2.2.2.2

/-- Witness of claim C11: the manager constructed over `twoObservations`. -/
theorem reachable_ids_dense_canonical_witness :
    (construct twoObservations 0).Reachable ∧
      (construct twoObservations 0).beliefToIdMap.length =
        (construct twoObservations 0).getNumberOfBeliefIds :=
  ⟨Reachable.init twoObservations 0,
    (reachable_ids_dense_canonical _ (Reachable.init twoObservations 0)).2.2.1⟩

end BeliefManager

/-! ## `expandAndTriangulate` against `expand` followed by triangulation -/

theorem map_eq_of_forall₂ {α β γ : Type} {r : α → β → Prop} {f : α → γ} {g : β → γ}
    (himp : ∀ a b, r a b → f a = g b) {l₁ : List α} {l₂ : List β}
    (h : List.Forall₂ r l₁ l₂) : l₁.map f = l₂.map g := by
  induction h with
  | nil => rfl
  | cons hab _ ih => rw [List.map_cons, List.map_cons, himp _ _ hab, ih]

namespace BeliefManager

theorem expandLoop_none_cc (belief : BeliefType) (actionIndex : Nat) (l : List (Nat × ℚ)) :
    ∀ m : BeliefManager, (expandLoop belief actionIndex none l m).1.cc = m.cc := by
  induction l with
  | nil => intro m; rfl
  | cons successor rest ih =>
    intro m
    rw [expandLoop_none_cons]
    exact (ih _).trans (getOrAddBeliefId_cc m _)

theorem successorBelief_observation (pomdp : Pomdp) (belief : BeliefType) (actionIndex : Nat)
    (successor : Nat × ℚ)
    (hmem : successor.1 ∈ (successorObservations pomdp belief actionIndex).map Prod.fst) :
    successorBelief pomdp belief actionIndex successor ≠ [] ∧
      pomdp.getObservation
        ((successorBelief pomdp belief actionIndex successor).headD (0, 0)).1 = successor.1 := by
  obtain ⟨e, he, tr, htr, _, hobs⟩ :=
    ((successorObservations_spec pomdp belief actionIndex).2.2 successor.1).1 hmem
  have hk := (successorBelief_spec pomdp belief actionIndex successor).2
  have hin : tr.1 ∈ (successorBelief pomdp belief actionIndex successor).map Prod.fst :=
    (hk tr.1).2 ⟨hobs, e, he, tr, htr, rfl⟩
  cases hsb : successorBelief pomdp belief actionIndex successor with
  | nil => rw [hsb] at hin; cases hin
  | cons hd tl =>
    refine ⟨List.cons_ne_nil _ _, ?_⟩
    have : hd.1 ∈ (successorBelief pomdp belief actionIndex successor).map Prod.fst := by
      rw [hsb]; simp
    exact ((hk hd.1).1 this).1

theorem triangulateBelief_contents (m : BeliefManager) (hwf : m.WF) (belief : BeliefType)
    (resolution : Nat) (q : ℚ) :
    ((m.triangulateBelief belief resolution).2.gridPoints.zip
        (m.triangulateBelief belief resolution).2.weights).map
        (fun gw => ((m.triangulateBelief belief resolution).1.getBelief gw.1, gw.2 * q)) =
      (triangulationContents m.cc belief resolution).map (fun p => (p.2, p.1 * q)) := by
  obtain ⟨_, _, _, _, h5, h6⟩ := triangulateBelief_spec m hwf belief resolution
  have h := forall₂_zip_weights q h5 h6
  have h2 := map_eq_of_forall₂
    (f := fun d : BeliefId × ℚ => ((m.triangulateBelief belief resolution).1.getBelief d.1, d.2))
    (g := fun p : ℚ × BeliefType => (p.2, p.1))
    (fun d p hd => congrArg₂ Prod.mk (getBelief_of_stored hd.2) hd.1) h
  rw [List.map_map, List.map_map] at h2
  exact h2

theorem expandAndTriangulate_eq_expand_triangulate (m : BeliefManager) (hwf : m.WF)
    (beliefId : Nat) (actionIndex : Nat) (observationResolutions : List Nat) :
    (m.expandAndTriangulate beliefId actionIndex observationResolutions).2.map
        (fun d => ((m.expandAndTriangulate beliefId actionIndex
          observationResolutions).1.getBelief d.1, d.2)) =
      ((m.expand beliefId actionIndex).2.map (fun successor =>
        (((m.expand beliefId actionIndex).1.triangulateBelief
            ((m.expand beliefId actionIndex).1.getBelief successor.1)
            (observationResolutions.getD
              ((m.expand beliefId actionIndex).1.getBeliefObservation
                ((m.expand beliefId actionIndex).1.getBelief successor.1)) 0)).2.gridPoints.zip
          ((m.expand beliefId actionIndex).1.triangulateBelief
            ((m.expand beliefId actionIndex).1.getBelief successor.1)
            (observationResolutions.getD
              ((m.expand beliefId actionIndex).1.getBeliefObservation
                ((m.expand beliefId actionIndex).1.getBelief successor.1)) 0)).2.weights).map
          (fun gw =>
            (((m.expand beliefId actionIndex).1.triangulateBelief
              ((m.expand beliefId actionIndex).1.getBelief successor.1)
              (observationResolutions.getD
                ((m.expand beliefId actionIndex).1.getBeliefObservation
                  ((m.expand beliefId actionIndex).1.getBelief successor.1)) 0)).1.getBelief gw.1,
              gw.2 * successor.2)))).flatten := by
  obtain ⟨_, _, _, _, hX⟩ := expandLoop_some_spec (m.getBelief beliefId) actionIndex
    observationResolutions (successorObservations m.pomdp (m.getBelief beliefId) actionIndex)
    m hwf
  obtain ⟨hEwf, hEp, _, hE⟩ := expandLoop_none_spec (m.getBelief beliefId) actionIndex
    (successorObservations m.pomdp (m.getBelief beliefId) actionIndex) m hwf
  have hEcc := expandLoop_none_cc (m.getBelief beliefId) actionIndex
    (successorObservations m.pomdp (m.getBelief beliefId) actionIndex) m
  have hleft := map_eq_of_forall₂
    (f := fun d : BeliefId × ℚ => ((m.expandAndTriangulate beliefId actionIndex
      observationResolutions).1.getBelief d.1, d.2))
    (g := fun p : ℚ × BeliefType => (p.2, p.1))
    (fun d p hd => congrArg₂ Prod.mk (getBelief_of_stored hd.2) hd.1) hX
  have hright := map_eq_of_forall₂
    (f := fun successor : BeliefId × ℚ =>
      (((m.expand beliefId actionIndex).1.triangulateBelief
            ((m.expand beliefId actionIndex).1.getBelief successor.1)
            (observationResolutions.getD
              ((m.expand beliefId actionIndex).1.getBeliefObservation
                ((m.expand beliefId actionIndex).1.getBelief successor.1)) 0)).2.gridPoints.zip
          ((m.expand beliefId actionIndex).1.triangulateBelief
            ((m.expand beliefId actionIndex).1.getBelief successor.1)
            (observationResolutions.getD
              ((m.expand beliefId actionIndex).1.getBeliefObservation
                ((m.expand beliefId actionIndex).1.getBelief successor.1)) 0)).2.weights).map
          (fun gw =>
            (((m.expand beliefId actionIndex).1.triangulateBelief
              ((m.expand beliefId actionIndex).1.getBelief successor.1)
              (observationResolutions.getD
                ((m.expand beliefId actionIndex).1.getBeliefObservation
                  ((m.expand beliefId actionIndex).1.getBelief successor.1)) 0)).1.getBelief gw.1,
              gw.2 * successor.2)))
    (g := fun successor : Nat × ℚ =>
      (triangulationContents m.cc
        (successorBelief m.pomdp (m.getBelief beliefId) actionIndex successor)
        (observationResolutions.getD successor.1 0)).map (fun p => (p.2, p.1 * successor.2)))
    (fun d successor hd => by
      obtain ⟨hmem, hd2, hst⟩ := hd
      have hgb : (m.expand beliefId actionIndex).1.getBelief d.1 =
          successorBelief m.pomdp (m.getBelief beliefId) actionIndex successor :=
        getBelief_of_stored hst
      have hobs : (m.expand beliefId actionIndex).1.getBeliefObservation
          (successorBelief m.pomdp (m.getBelief beliefId) actionIndex successor) =
          successor.1 := by
        unfold getBeliefObservation
        have hp : (m.expand beliefId actionIndex).1.pomdp = m.pomdp := hEp
        rw [hp]
        exact (successorBelief_observation m.pomdp (m.getBelief beliefId) actionIndex successor
          (List.mem_map_of_mem _ hmem)).2
      have hcc : (m.expand beliefId actionIndex).1.cc = m.cc := hEcc
      show List.map _ _ = _
      rw [hgb, hobs, hd2,
        triangulateBelief_contents (m.expand beliefId actionIndex).1 hEwf _ _ successor.2, hcc])
    hE
  refine (hleft.trans ?_).trans (congrArg List.flatten hright).symm
  rw [List.map_flatten, List.map_map]
  congr 1
  apply List.map_congr_left
  intro successor _
  simp [Function.comp]

end BeliefManager

namespace BeliefManager

theorem fanOutExample_getBelief : fanOutExample.getBelief 0 = [(0, 1)] := by
  simp [fanOutExample, construct, computeInitialBelief, fresh, getOrAddBeliefId, findBeliefId,
    getBelief, FlatMap.assign, fanOut]

theorem fanOutExample_WF : fanOutExample.WF := construct_WF _ _

theorem fanOut_getRow : fanOut.getRow 0 0 = [(1, 4 / 5), (2, 1 / 10), (3, 1 / 10)] := rfl

theorem fanOut_successorObservations : successorObservations fanOut [(0, 1)] 0 = [(1, 1)] := by
  have ho1 : fanOut.getObservation 1 = 1 := rfl
  have ho2 : fanOut.getObservation 2 = 1 := rfl
  have ho3 : fanOut.getObservation 3 = 1 := rfl
  simp only [successorObservations, List.foldl_cons, List.foldl_nil, fanOut_getRow, ho1, ho2,
    ho3]
  norm_num [addToDistribution]

theorem fanOut_successorBelief :
    successorBelief fanOut [(0, 1)] 0 (1, 1) = [(1, 4 / 5), (2, 1 / 10), (3, 1 / 10)] := by
  have ho1 : fanOut.getObservation 1 = 1 := rfl
  have ho2 : fanOut.getObservation 2 = 1 := rfl
  have ho3 : fanOut.getObservation 3 = 1 := rfl
  simp only [successorBelief, List.foldl_cons, List.foldl_nil, fanOut_getRow, ho1, ho2, ho3]
  norm_num [addToDistribution]

theorem fanOut_triangulationContents :
    triangulationContents ⟨1 / 10⟩ [(1, 4 / 5), (2, 1 / 10), (3, 1 / 10)] 1 =
      [(4 / 5, [(1, 1)])] := by
  have hfl1 : floorValue 1 = 1 := by simpa using floorValue_natCast 1
  have hfl2 : floorValue (1 / 5) = 0 := by norm_num [floorValue]
  have hfl3 : floorValue (1 / 10) = 0 := by norm_num [floorValue]
  have hx1 : (1 : ℚ) - 4 / 5 * 1 = 1 / 5 := by norm_num
  have hx2 : (1 : ℚ) / 5 - 1 / 10 * 1 = 1 / 10 := by norm_num
  simp only [triangulationContents, List.length_cons, List.length_nil, diffsFrom, xsFrom,
    List.foldl_cons, List.foldl_nil, Nat.cast_one, hx1, hx2, hfl1, hfl2, hfl3, sub_self,
    sub_zero, List.map_cons, List.map_nil, List.cons_append, List.nil_append,
    sortedDiffsEmplace, FreudenthalDiff.gt]
  norm_num [triangulationPoints, ConstantsComparator.isZero, computeGridPoint,
    List.range_succ, incrementAt, FlatMap.assign, abs_le, sortedDiffsEmplace,
    FreudenthalDiff.gt, hfl1, hfl2, hfl3]

end BeliefManager

namespace BeliefManager

/-- Claim C13 (failing input): on the manager over `fanOut` with comparator precision
`1/10`, the initial belief (id `0`) is valid, `expand(0, 0)` yields one successor with
probability `1`, and `expandAndTriangulate(0, 0, [1, 1])` yields one pair with combined
probability `4/5`: the probabilities do not sum to one, not even within the tolerance
of the comparator. -/
theorem expandAndTriangulate_tolerance_sum :
    fanOutExample.assertBelief (fanOutExample.getBelief 0) = true ∧
      (fanOutExample.expand 0 0).2.map Prod.snd = [1] ∧
      (fanOutExample.expandAndTriangulate 0 0 [1, 1]).2.map Prod.snd = [4 / 5] ∧
      fanOutExample.cc.isOne
        ((fanOutExample.expandAndTriangulate 0 0 [1, 1]).2.map Prod.snd).sum = false := by
  have hpomdp : fanOutExample.pomdp = fanOut := getOrAddBeliefId_pomdp _ _
  have hcc : fanOutExample.cc = ⟨1 / 10⟩ := getOrAddBeliefId_cc _ _
  have hX : (fanOutExample.expandAndTriangulate 0 0 [1, 1]).2.map Prod.snd = [4 / 5] := by
    obtain ⟨_, _, _, _, h⟩ := expandLoop_some_spec (fanOutExample.getBelief 0) 0 [1, 1]
      (successorObservations fanOutExample.pomdp (fanOutExample.getBelief 0) 0)
      fanOutExample fanOutExample_WF
    have h2 := map_eq_of_forall₂ (f := fun d : BeliefId × ℚ => d.2)
      (g := fun p : ℚ × BeliefType => p.1) (fun d p hd => hd.1) h
    refine Eq.trans h2 ?_
    rw [hpomdp, hcc, fanOutExample_getBelief, fanOut_successorObservations]
    simp only [List.map_cons, List.map_nil, List.flatten_cons, List.flatten_nil,
      List.append_nil, fanOut_successorBelief]
    have hres : ([1, 1] : List Nat).getD 1 0 = 1 := rfl
    rw [hres, fanOut_triangulationContents]
    norm_num
  refine ⟨?_, ?_, hX, ?_⟩
  · rw [fanOutExample_getBelief]
    have ho0 : fanOutExample.pomdp.getObservation 0 = 0 := by rw [hpomdp]; rfl
    have hn : fanOutExample.pomdp.getNumberOfStates = 4 := by rw [hpomdp]; rfl
    norm_num [assertBelief, assertBeliefEntries, ho0, hn, hcc, ConstantsComparator.isLess,
      ConstantsComparator.isOne, abs_le]
  · show (expandLoop _ 0 none _ fanOutExample).2.map Prod.snd = _
    rw [expandLoop_none_probabilities, hpomdp, fanOutExample_getBelief,
      fanOut_successorObservations]
    rfl
  · rw [hX, hcc]
    norm_num [ConstantsComparator.isOne, abs_le]

end BeliefManager

/-! ## Validity of the stored beliefs -/

namespace BeliefManager

theorem getOrAddBeliefId_mem (m : BeliefManager) (belief b : BeliefType)
    (h : b ∈ (m.getOrAddBeliefId belief).1.beliefs) : b ∈ m.beliefs ∨ b = belief := by
  cases hl : findBeliefId m.beliefToIdMap belief with
  | some id =>
    rw [getOrAddBeliefId_of_lookup_some m belief id hl] at h
    exact Or.inl h
  | none =>
    rw [getOrAddBeliefId_of_lookup_none m belief hl] at h
    have h2 : b ∈ m.beliefs ++ [belief] := h
    rcases List.mem_append.1 h2 with h3 | h3
    · exact Or.inl h3
    · exact Or.inr (List.mem_singleton.1 h3)

theorem triangulateLoop_mem (convResolution : ℚ) (toOrig : List StateType) (numEntries : Nat)
    (ds : List FreudenthalDiff) (b : BeliefType) :
    ∀ (first : Bool) (previous : FreudenthalDiff) (qsRow : List ℚ) (m : BeliefManager),
      b ∈ (triangulateLoop convResolution toOrig numEntries first previous ds qsRow m).1.beliefs →
      b ∈ m.beliefs ∨
        b ∈ (triangulationPoints m.cc convResolution toOrig numEntries first previous ds
          qsRow).map Prod.snd := by
  induction ds with
  | nil =>
    intro first previous qsRow m h
    exact Or.inl h
  | cons current rest ih =>
    intro first previous qsRow m h
    rw [triangulateLoop_cons] at h
    rw [triangulationPoints_cons]
    by_cases hz : m.cc.isZero (loopWeight first previous current) = true
    · rw [if_pos hz] at h ⊢
      exact ih false current _ m h
    · rw [if_neg hz] at h ⊢
      have hcc1 := getOrAddBeliefId_cc m
        (computeGridPoint m.cc convResolution (loopRow first previous qsRow) toOrig numEntries)
      rcases ih false current _ _ h with h1 | h1
      · rcases getOrAddBeliefId_mem m _ b h1 with h2 | h2
        · exact Or.inl h2
        · exact Or.inr (by rw [List.map_cons]; exact List.mem_cons.2 (Or.inl h2))
      · rw [hcc1] at h1
        exact Or.inr (by rw [List.map_cons]; exact List.mem_cons_of_mem _ h1)

theorem triangulateBelief_mem (m : BeliefManager) (belief : BeliefType) (resolution : Nat)
    (b : BeliefType) (h : b ∈ (m.triangulateBelief belief resolution).1.beliefs) :
    b ∈ m.beliefs ∨ b ∈ (triangulationContents m.cc belief resolution).map Prod.snd := by
  by_cases hn : belief.length = 1
  · have h1 : m.triangulateBelief belief resolution =
        ((m.getOrAddBeliefId belief).1, ⟨[(m.getOrAddBeliefId belief).2], [1]⟩) := by
      unfold triangulateBelief
      simp only [hn, if_true]
    have h2 : triangulationContents m.cc belief resolution = [(1, belief)] := by
      unfold triangulationContents
      simp only [hn, if_true]
    rw [h1] at h
    rw [h2]
    rcases getOrAddBeliefId_mem m belief b h with h3 | h3
    · exact Or.inl h3
    · exact Or.inr (by simp [h3])
  · have h2 : triangulationContents m.cc belief resolution =
        match ((diffsFrom (resolution : ℚ) 0 (resolution : ℚ) belief).foldl
            sortedDiffsEmplace []).getLast? with
        | none => []
        | some previousSortedDiff =>
          triangulationPoints m.cc (resolution : ℚ) (belief.map Prod.fst) belief.length true
            previousSortedDiff
            ((diffsFrom (resolution : ℚ) 0 (resolution : ℚ) belief).foldl sortedDiffsEmplace [])
            ((xsFrom (resolution : ℚ) (resolution : ℚ) belief).map floorValue ++ [0]) := by
      unfold triangulationContents
      simp only [hn, if_false]
    rw [triangulateBelief_eq_loop m belief resolution hn] at h
    rw [h2]
    cases hl : ((diffsFrom (resolution : ℚ) 0 (resolution : ℚ) belief).foldl
        sortedDiffsEmplace []).getLast? with
    | none =>
      rw [hl] at h
      exact Or.inl h
    | some previous =>
      rw [hl] at h
      exact triangulateLoop_mem _ _ _ _ b true previous _ m h

theorem expandLoop_none_mem (belief : BeliefType) (actionIndex : Nat) (l : List (Nat × ℚ))
    (b : BeliefType) :
    ∀ m : BeliefManager, b ∈ (expandLoop belief actionIndex none l m).1.beliefs →
      b ∈ m.beliefs ∨ ∃ successor ∈ l, b = successorBelief m.pomdp belief actionIndex successor := by
  induction l with
  | nil => intro m h; exact Or.inl h
  | cons successor rest ih =>
    intro m h
    rw [expandLoop_none_cons] at h
    rcases ih _ h with h1 | ⟨s, hs, hb⟩
    · rcases getOrAddBeliefId_mem m _ b h1 with h2 | h2
      · exact Or.inl h2
      · exact Or.inr ⟨successor, List.mem_cons_self _ _, h2⟩
    · rw [getOrAddBeliefId_pomdp] at hb
      exact Or.inr ⟨s, List.mem_cons_of_mem _ hs, hb⟩

theorem expandLoop_some_mem (belief : BeliefType) (actionIndex : Nat) (resolutions : List Nat)
    (l : List (Nat × ℚ)) (b : BeliefType) :
    ∀ m : BeliefManager, m.WF →
      b ∈ (expandLoop belief actionIndex (some resolutions) l m).1.beliefs →
      b ∈ m.beliefs ∨ ∃ successor ∈ l,
        b ∈ (triangulationContents m.cc (successorBelief m.pomdp belief actionIndex successor)
          (resolutions.getD successor.1 0)).map Prod.snd := by
  induction l with
  | nil => intro m _ h; exact Or.inl h
  | cons successor rest ih =>
    intro m hwf h
    rw [expandLoop_some_cons] at h
    obtain ⟨g1, g2, g3, _, _, _⟩ := triangulateBelief_spec m hwf
      (successorBelief m.pomdp belief actionIndex successor) (resolutions.getD successor.1 0)
    rcases ih _ g1 h with h1 | ⟨s, hs, hb⟩
    · rcases triangulateBelief_mem m _ _ b h1 with h2 | h2
      · exact Or.inl h2
      · exact Or.inr ⟨successor, List.mem_cons_self _ _, h2⟩
    · rw [g2, g3] at hb
      exact Or.inr ⟨s, List.mem_cons_of_mem _ hs, hb⟩

end BeliefManager

namespace BeliefManager

theorem Valid.le_one {pomdp : Pomdp} {belief : BeliefType} (h : Valid pomdp belief) :
    ∀ e ∈ belief, e.2 ≤ 1 := by
  intro e he
  rw [← h.2.2.2.2]
  refine List.single_le_sum ?_ e.2 (List.mem_map_of_mem _ he)
  intro x hx
  obtain ⟨e2, he2, rfl⟩ := List.mem_map.1 hx
  exact le_of_lt (h.2.2.1 e2 he2).2

theorem assertBeliefEntries_of_valid (m : BeliefManager) (hp : 0 ≤ m.cc.precision) (o : Nat) :
    ∀ (rest : BeliefType) (sum : ℚ) (observation : Option Nat),
      (observation = none ∨ observation = some o) →
      (∀ e ∈ rest, e.1 < m.pomdp.getNumberOfStates ∧ 0 < e.2 ∧ e.2 ≤ 1 ∧
        m.pomdp.getObservation e.1 = o) →
      assertBeliefEntries m rest sum observation = some (sum + (rest.map Prod.snd).sum) := by
  intro rest
  induction rest with
  | nil => intro sum observation _ _; simp [assertBeliefEntries]
  | cons entry rest ih =>
    intro sum observation hobs hall
    obtain ⟨h1, h2, h3, h4⟩ := hall entry (List.mem_cons_self _ _)
    have hless : m.cc.isLess 1 entry.2 = false := by
      simp only [ConstantsComparator.isLess, decide_eq_false_iff_not, not_lt]
      linarith
    have hcond : (observation.isSome && observation != some (m.pomdp.getObservation entry.1)) =
        false := by
      rcases hobs with hobs | hobs
      · rw [hobs]; rfl
      · rw [hobs, h4]; simp
    have hge : ¬ entry.1 ≥ m.pomdp.getNumberOfStates := Nat.not_le.2 h1
    have hne : ¬ entry.2 = 0 := ne_of_gt h2
    have hnn : ¬ entry.2 < 0 := not_lt.2 (le_of_lt h2)
    unfold assertBeliefEntries
    rw [if_neg hge]
    simp only [hcond, hless, if_neg hne, if_neg hnn, Bool.false_eq_true, if_false]
    rw [ih (sum + entry.2) (some (m.pomdp.getObservation entry.1)) (Or.inr (by rw [h4]))
      (fun e he => hall e (List.mem_cons_of_mem _ he))]
    simp only [List.map_cons, List.sum_cons]
    rw [add_assoc]

theorem assertBelief_of_valid (m : BeliefManager) (hp : 0 ≤ m.cc.precision) (belief : BeliefType)
    (h : Valid m.pomdp belief) : m.assertBelief belief = true := by
  obtain ⟨hne, _, hpos, hobs, hsum⟩ := h
  cases hb : belief with
  | nil => exact absurd hb hne
  | cons hd tl =>
    have hle := Valid.le_one ⟨hne, ‹_›, hpos, hobs, hsum⟩
    have hmem : hd ∈ belief := by rw [hb]; exact List.mem_cons_self _ _
    have h1 := assertBeliefEntries_of_valid m hp (m.pomdp.getObservation hd.1) belief 0 none
      (Or.inl rfl)
      (fun e he => ⟨(hpos e he).1, (hpos e he).2, hle e he, hobs e he hd hmem⟩)
    rw [hsum] at h1
    rw [← hb]
    unfold assertBelief
    rw [h1]
    simp only [ConstantsComparator.isOne, decide_eq_true_eq]
    norm_num
    exact hp

end BeliefManager

namespace BeliefManager

theorem getRow_mem_rows (pomdp : Pomdp) (state : Nat) (actionIndex : Nat) (tr : StateType × ℚ)
    (h : tr ∈ pomdp.getRow state actionIndex) : ∃ row ∈ pomdp.rows, tr ∈ row := by
  unfold Pomdp.getRow at h
  rw [List.getD_eq_getElem?_getD] at h
  cases hr : pomdp.rows[pomdp.rowGroupIndices.getD state 0 + actionIndex]? with
  | none => rw [hr] at h; cases h
  | some row =>
    rw [hr] at h
    exact ⟨row, List.getElem?_mem hr, h⟩

theorem addToDistribution_pos (d : BeliefType) (k : StateType) (v : ℚ)
    (hd : ∀ e ∈ d, 0 < e.2) (hv : 0 < v) : ∀ e ∈ addToDistribution d k v, 0 < e.2 := by
  induction d with
  | nil =>
    intro e he
    simp only [addToDistribution, List.mem_singleton] at he
    rw [he]; exact hv
  | cons f t ih =>
    intro e he
    obtain ⟨fk, fv⟩ := f
    have hf : 0 < fv := hd (fk, fv) (List.mem_cons_self _ _)
    have ht : ∀ e ∈ t, 0 < e.2 := fun e he => hd e (List.mem_cons_of_mem _ he)
    unfold addToDistribution at he
    by_cases h1 : k < fk
    · rw [if_pos h1] at he
      rcases List.mem_cons.1 he with h | h
      · rw [h]; exact hv
      · exact hd e h
    · rw [if_neg h1] at he
      by_cases h2 : k = fk
      · rw [if_pos h2] at he
        rcases List.mem_cons.1 he with h | h
        · rw [h]; exact add_pos hf hv
        · exact ht e h
      · rw [if_neg h2] at he
        rcases List.mem_cons.1 he with h | h
        · rw [h]; exact hf
        · exact ih ht e h

theorem nestedFold_pos {α β : Type} (rowOf : α → List β) (c : α → β → Prop)
    [∀ a b, Decidable (c a b)] (k : α → β → StateType) (v : α → β → ℚ) (l : List α)
    (hv : ∀ e ∈ l, ∀ tr ∈ rowOf e, c e tr → 0 < v e tr) :
    ∀ acc : BeliefType, (∀ x ∈ acc, 0 < x.2) →
      ∀ x ∈ l.foldl (fun acc e => (rowOf e).foldl
          (fun acc tr => if c e tr then addToDistribution acc (k e tr) (v e tr) else acc)
          acc) acc, 0 < x.2 := by
  induction l with
  | nil => intro acc hacc; exact hacc
  | cons e rest ih =>
    intro acc hacc
    rw [List.foldl_cons]
    apply ih (fun e2 he2 => hv e2 (List.mem_cons_of_mem _ he2))
    have hinner : ∀ (row : List β), (∀ tr ∈ row, c e tr → 0 < v e tr) →
        ∀ acc : BeliefType, (∀ x ∈ acc, 0 < x.2) →
        ∀ x ∈ row.foldl
          (fun acc tr => if c e tr then addToDistribution acc (k e tr) (v e tr) else acc) acc,
          0 < x.2 := by
      intro row
      induction row with
      | nil => intro _ acc hacc; exact hacc
      | cons tr t iht =>
        intro hrow acc hacc
        rw [List.foldl_cons]
        apply iht (fun tr2 htr2 => hrow tr2 (List.mem_cons_of_mem _ htr2))
        by_cases hc : c e tr
        · rw [if_pos hc]
          exact addToDistribution_pos acc _ _ hacc (hrow tr (List.mem_cons_self _ _) hc)
        · rw [if_neg hc]
          exact hacc
    exact hinner (rowOf e) (hv e (List.mem_cons_self _ _)) acc hacc

theorem successorBelief_valid (pomdp : Pomdp) (hwf : pomdp.WellFormed) (belief : BeliefType)
    (hb : Valid pomdp belief) (actionIndex : Nat) (successor : Nat × ℚ)
    (hmem : successor ∈ successorObservations pomdp belief actionIndex) :
    Valid pomdp (successorBelief pomdp belief actionIndex successor) := by
  obtain ⟨_, _, hrowsum, hentries⟩ := hwf
  have hpos : ∀ e ∈ belief, 0 < e.2 := fun e he => (hb.2.2.1 e he).2
  have hprob : ∀ e ∈ belief, ∀ tr ∈ pomdp.getRow e.1 actionIndex, 0 < tr.2 := by
    intro e _ tr htr
    obtain ⟨row, hrow, hin⟩ := getRow_mem_rows pomdp e.1 actionIndex tr htr
    exact (hentries row hrow tr hin).2.1
  obtain ⟨hord, hweight, hkeys⟩ := successorObservations_spec pomdp belief actionIndex
  have hkey : successor.1 ∈ (successorObservations pomdp belief actionIndex).map Prod.fst :=
    List.mem_map_of_mem _ hmem
  have hval : successor.2 = observationMass pomdp belief actionIndex successor.1 := by
    rw [← hweight successor.1]
    exact (weight_of_mem_ordered _ hord successor.1 successor.2 hmem).symm
  have hmass : 0 < successor.2 := by
    rw [hval]
    obtain ⟨e, he, tr, htr, _, hobs⟩ := (hkeys successor.1).1 hkey
    exact observationMass_pos _ _ _ _ hpos hprob ⟨e, he, tr, htr, hobs⟩
  obtain ⟨h1, _, h3, h4⟩ := nestedFold_spec
    (fun e : StateType × ℚ => pomdp.getRow e.1 actionIndex)
    (fun _ tr => pomdp.getObservation tr.1 = successor.1) (fun _ tr => tr.1)
    (fun e tr => e.2 * tr.2 / successor.2) belief [] List.Pairwise.nil
  have h5 := nestedFold_pos
    (fun e : StateType × ℚ => pomdp.getRow e.1 actionIndex)
    (fun _ tr => pomdp.getObservation tr.1 = successor.1) (fun _ tr => tr.1)
    (fun e tr => e.2 * tr.2 / successor.2) belief
    (fun e he tr htr _ => div_pos (mul_pos (hpos e he) (hprob e he tr htr)) hmass)
    [] (fun x hx => by cases hx)
  have hkeys2 : ∀ target,
      target ∈ (successorBelief pomdp belief actionIndex successor).map Prod.fst →
      pomdp.getObservation target = successor.1 ∧ target < pomdp.getNumberOfStates := by
    intro target ht
    obtain ⟨hobs, e, _, tr, htr, heq⟩ :=
      ((successorBelief_spec pomdp belief actionIndex successor).2 target).1 ht
    obtain ⟨row, hrow, hin⟩ := getRow_mem_rows pomdp e.1 actionIndex tr htr
    exact ⟨hobs, heq ▸ (hentries row hrow tr hin).1⟩
  refine ⟨(successorBelief_observation pomdp belief actionIndex successor hkey).1, h1, ?_, ?_, ?_⟩
  · intro e he
    exact ⟨(hkeys2 e.1 (List.mem_map_of_mem _ he)).2, h5 e he⟩
  · intro e he e' he'
    rw [(hkeys2 e.1 (List.mem_map_of_mem _ he)).1, (hkeys2 e'.1 (List.mem_map_of_mem _ he')).1]
  · show ((successorBelief pomdp belief actionIndex successor).map Prod.snd).sum = 1
    unfold successorBelief
    rw [h4]
    simp only [List.map_nil, List.sum_nil, zero_add]
    have hm : (belief.map (fun e => ((pomdp.getRow e.1 actionIndex).map
        (fun tr => if pomdp.getObservation tr.1 = successor.1 then e.2 * tr.2 / successor.2
          else 0)).sum)).sum =
        observationMass pomdp belief actionIndex successor.1 / successor.2 := by
      unfold observationMass
      rw [← sum_map_div, List.map_map]
      congr 1
      apply List.map_congr_left
      intro e _
      show _ = (List.sum _) / successor.2
      rw [← sum_map_div, List.map_map]
      congr 1
      apply List.map_congr_left
      intro tr _
      show _ = (if _ then _ else _) / successor.2
      split_ifs
      · rfl
      · rw [zero_div]
    rw [hm, ← hval]
    exact div_self (ne_of_gt hmass)

end BeliefManager

/-! ## The rows of the emitted grid points -/

namespace BeliefManager

theorem floorValue_zero : floorValue 0 = 0 := by simp [floorValue]

theorem frac_bounds (x : ℚ) : 0 ≤ x - floorValue x ∧ x - floorValue x < 1 := by
  simp only [floorValue]
  exact ⟨sub_nonneg.2 (Int.floor_le x), by linarith [Int.lt_floor_add_one x]⟩

theorem not_isZero_pos (cc : ConstantsComparator) (w : ℚ) (hw : 0 ≤ w)
    (hz : ¬ cc.isZero w = true) : cc.precision < w := by
  simp only [ConstantsComparator.isZero, decide_eq_true_eq, not_le] at hz
  rwa [abs_of_nonneg hw] at hz

theorem triangulationPoints_rows (cc : ConstantsComparator) (hp : 0 ≤ cc.precision)
    (convResolution : ℚ) (toOrig : List StateType) (n : Nat) (X : Nat → ℚ) (hXn : X n = 0)
    (D : List FreudenthalDiff)
    (hD : ∀ d ∈ D, d.dimension < n ∧ d.diff = X d.dimension - floorValue (X d.dimension))
    (hnd : (D.map FreudenthalDiff.dimension).Nodup)
    (hall : ∀ j, j < n → j ∈ D.map FreudenthalDiff.dimension)
    (hs : DiffSorted D) (rest : List FreudenthalDiff) :
    ∀ (pre : List FreudenthalDiff) (previous : FreudenthalDiff) (q : List ℚ),
      D = pre ++ previous :: rest →
      q.length = n + 1 →
      (∀ j, q.getD j 0 =
        floorValue (X j) + (if j ∈ pre.map FreudenthalDiff.dimension then 1 else 0)) →
      ∀ pt ∈ triangulationPoints cc convResolution toOrig n false previous rest q,
        cc.precision < 1 ∧
          ∃ q1, ThresholdRow n X q1 ∧ pt.2 = computeGridPoint cc convResolution q1 toOrig n := by
  induction rest with
  | nil =>
    intro pre previous q _ _ _ pt hpt
    simp [triangulationPoints] at hpt
  | cons current rest ih =>
    intro pre previous q hsplit hlen hrow pt hpt
    rw [triangulationPoints_cons] at hpt
    have hprev_mem : previous ∈ D := by rw [hsplit]; simp
    have hcur_mem : current ∈ D := by rw [hsplit]; simp
    have hprev_lt : previous.dimension < q.length := by
      rw [hlen]; exact Nat.lt_succ_of_lt (hD previous hprev_mem).1
    have hsplit2 : D = (pre ++ [previous]) ++ current :: rest := by rw [hsplit]; simp
    have hnd2 := hnd
    rw [hsplit, List.map_append, List.nodup_append] at hnd2
    have hnotin : previous.dimension ∉ pre.map FreudenthalDiff.dimension := by
      intro hin
      exact hnd2.2.2 hin (by simp)
    have hrow1 : ∀ j, (loopRow false previous q).getD j 0 =
        floorValue (X j) +
          (if j ∈ (pre ++ [previous]).map FreudenthalDiff.dimension then 1 else 0) := by
      intro j
      show (incrementAt q previous.dimension).getD j 0 = _
      rw [getD_incrementAt q _ j hprev_lt, hrow j]
      unfold unitRow
      by_cases hj : j = previous.dimension
      · subst hj
        simp [hnotin]
      · by_cases hin : j ∈ pre.map FreudenthalDiff.dimension
        · have hin2 : j ∈ (pre ++ [previous]).map FreudenthalDiff.dimension := by
            rw [List.map_append]; exact List.mem_append_left _ hin
          rw [if_pos hin, if_neg hj, if_pos hin2, add_zero]
        · have hin2 : j ∉ (pre ++ [previous]).map FreudenthalDiff.dimension := by
            rw [List.map_append]
            intro h
            rcases List.mem_append.1 h with h | h
            · exact hin h
            · simp at h; exact hj h
          rw [if_neg hin, if_neg hj, if_neg hin2, add_zero]
    have hlen1 : (loopRow false previous q).length = n + 1 := by
      show (incrementAt q previous.dimension).length = _
      rw [length_incrementAt, hlen]
    have hrec := ih (pre ++ [previous]) current (loopRow false previous q) hsplit2 hlen1 hrow1
    by_cases hz : cc.isZero (loopWeight false previous current) = true
    · rw [if_pos hz] at hpt
      exact hrec pt hpt
    · rw [if_neg hz] at hpt
      rcases List.mem_cons.1 hpt with h | h
      · have hs2 := hs
        rw [hsplit] at hs2
        have hs3 := List.pairwise_append.1 hs2
        have hs4 := List.pairwise_cons.1 hs3.2.1
        have hs5 := List.pairwise_cons.1 hs4.2
        have hle : current.diff ≤ previous.diff := hs4.1 current (List.mem_cons_self _ _)
        have hpb := frac_bounds (X previous.dimension)
        rw [← (hD previous hprev_mem).2] at hpb
        have hcb := frac_bounds (X current.dimension)
        rw [← (hD current hcur_mem).2] at hcb
        have hw : loopWeight false previous current = previous.diff - current.diff := rfl
        have hlt := not_isZero_pos cc _ (by rw [hw]; linarith) hz
        rw [hw] at hlt
        refine ⟨by linarith, loopRow false previous q, ⟨previous.diff, by linarith,
          le_of_lt hpb.2, ?_, ?_⟩, by rw [h]⟩
        · intro j hj
          rw [hrow1 j]
          congr 1
          by_cases hin : j ∈ (pre ++ [previous]).map FreudenthalDiff.dimension
          · rw [if_pos hin]
            obtain ⟨d, hd, hdj⟩ := List.mem_map.1 hin
            have hdD : d ∈ D := by
              rw [hsplit2]; exact List.mem_append_left _ hd
            have hdiff : previous.diff ≤ d.diff := by
              rcases List.mem_append.1 hd with hd1 | hd1
              · exact hs3.2.2 d hd1 previous (List.mem_cons_self _ _)
              · rw [List.mem_singleton.1 hd1]
            rw [(hD d hdD).2, hdj] at hdiff
            rw [if_pos hdiff]
          · rw [if_neg hin]
            have hjD := hall j hj
            rw [hsplit2, List.map_append] at hjD
            rcases List.mem_append.1 hjD with hjD | hjD
            · exact absurd hjD hin
            · obtain ⟨d, hd, hdj⟩ := List.mem_map.1 hjD
              have hdD : d ∈ D := by
                rw [hsplit2]; exact List.mem_append_right _ hd
              have hdiff : d.diff ≤ current.diff := by
                rcases List.mem_cons.1 hd with hd1 | hd1
                · rw [hd1]
                · exact hs5.1 d hd1
              rw [(hD d hdD).2, hdj] at hdiff
              rw [if_neg (by linarith)]
        · rw [hrow1 n, hXn, floorValue_zero]
          have hnin : n ∉ (pre ++ [previous]).map FreudenthalDiff.dimension := by
            intro hin
            obtain ⟨d, hd, hdj⟩ := List.mem_map.1 hin
            have hdD : d ∈ D := by
              rw [hsplit2]; exact List.mem_append_left _ hd
            have hlt2 := (hD d hdD).1
            rw [hdj] at hlt2
            exact Nat.lt_irrefl _ hlt2
          rw [if_neg hnin, add_zero]
      · exact hrec pt h

end BeliefManager

/-! ## Validity of the grid points -/

namespace BeliefManager

theorem assign_of_lt (m : BeliefType) (k : StateType) (v : ℚ) (h : ∀ e ∈ m, e.1 < k) :
    FlatMap.assign m k v = m ++ [(k, v)] := by
  induction m with
  | nil => rfl
  | cons f t ih =>
    obtain ⟨fk, fv⟩ := f
    have hf : fk < k := h (fk, fv) (List.mem_cons_self _ _)
    have h1 : ¬ k < fk := Nat.not_lt.2 (Nat.le_of_lt hf)
    have h2 : ¬ k = fk := fun heq => Nat.lt_irrefl _ (heq ▸ hf)
    unfold FlatMap.assign
    rw [if_neg h1, if_neg h2, ih (fun e he => h e (List.mem_cons_of_mem _ he))]
    rfl

theorem floor_threshold (x t : ℚ) (ht0 : 0 < t) (ht1 : t ≤ 1) :
    floorValue x + (if t ≤ x - floorValue x then 1 else 0) = ((⌊x + 1 - t⌋ : ℤ) : ℚ) := by
  have h1 := Int.floor_le x
  have h2 := Int.lt_floor_add_one x
  unfold floorValue
  by_cases h : t ≤ x - ((⌊x⌋ : ℤ) : ℚ)
  · rw [if_pos h]
    have : ⌊x + 1 - t⌋ = ⌊x⌋ + 1 := by
      rw [Int.floor_eq_iff]
      push_cast
      constructor <;> linarith
    rw [this]
    push_cast
    rfl
  · rw [if_neg h, add_zero]
    have : ⌊x + 1 - t⌋ = ⌊x⌋ := by
      rw [Int.floor_eq_iff]
      constructor <;> linarith
    rw [this]

theorem computeGridPoint_succ (cc : ConstantsComparator) (convResolution : ℚ) (q : List ℚ)
    (toOrig : List StateType) (m : Nat) :
    computeGridPoint cc convResolution q toOrig (m + 1) =
      if cc.isZero (q.getD m 0 - q.getD (m + 1) 0) then
        computeGridPoint cc convResolution q toOrig m
      else
        FlatMap.assign (computeGridPoint cc convResolution q toOrig m) (toOrig.getD m 0)
          ((q.getD m 0 - q.getD (m + 1) 0) / convResolution) := by
  unfold computeGridPoint
  rw [List.range_succ, List.foldl_append]
  rfl

theorem isZero_intCast (cc : ConstantsComparator) (hp0 : 0 ≤ cc.precision)
    (hp1 : cc.precision < 1) (k : ℤ) (hk : 0 ≤ k) : cc.isZero (k : ℚ) = true ↔ k = 0 := by
  simp only [ConstantsComparator.isZero, decide_eq_true_eq]
  constructor
  · intro h
    by_contra hne
    have h1 : (1 : ℤ) ≤ k := by omega
    have h2 : (1 : ℚ) ≤ (k : ℚ) := by exact_mod_cast h1
    rw [abs_of_nonneg (by linarith)] at h
    linarith
  · intro h
    rw [h]
    simpa using hp0

theorem computeGridPoint_fold (cc : ConstantsComparator) (hp0 : 0 ≤ cc.precision)
    (hp1 : cc.precision < 1) (convResolution : ℚ) (hR : 0 < convResolution) (q : List ℚ)
    (toOrig : List StateType) (g : Nat → ℤ) (n : Nat)
    (hq : ∀ j, j ≤ n → q.getD j 0 = ((g j : ℤ) : ℚ))
    (hmono : ∀ j, j < n → g (j + 1) ≤ g j)
    (hkeys : ∀ i j : Nat, i < j → j < n → toOrig.getD i 0 < toOrig.getD j 0) :
    ∀ m : Nat, m ≤ n →
      FlatMap.Ordered (computeGridPoint cc convResolution q toOrig m) ∧
        (∀ e ∈ computeGridPoint cc convResolution q toOrig m,
          0 < e.2 ∧ ∃ j : Nat, j < m ∧ e.1 = toOrig.getD j 0) ∧
        ((computeGridPoint cc convResolution q toOrig m).map Prod.snd).sum =
          (((g 0 - g m : ℤ) : ℚ)) / convResolution := by
  intro m
  induction m with
  | zero =>
    intro _
    have h0 : computeGridPoint cc convResolution q toOrig 0 = [] := rfl
    rw [h0]
    refine ⟨List.Pairwise.nil, ?_, ?_⟩
    · intro e he
      cases he
    · simp
  | succ m ih =>
    intro hm
    have hmn : m < n := hm
    obtain ⟨h1, h2, h3⟩ := ih (Nat.le_of_lt hmn)
    have hentry : q.getD m 0 - q.getD (m + 1) 0 = (((g m - g (m + 1) : ℤ)) : ℚ) := by
      rw [hq m (Nat.le_of_lt hmn), hq (m + 1) hm]
      push_cast
      rfl
    have hk : 0 ≤ g m - g (m + 1) := sub_nonneg.2 (hmono m hmn)
    rw [computeGridPoint_succ, hentry]
    by_cases hz : cc.isZero (((g m - g (m + 1) : ℤ)) : ℚ) = true
    · rw [if_pos hz]
      have h0 := (isZero_intCast cc hp0 hp1 _ hk).1 hz
      refine ⟨h1, ?_, ?_⟩
      · intro e he
        obtain ⟨hpos, j, hj, hej⟩ := h2 e he
        exact ⟨hpos, j, Nat.lt_succ_of_lt hj, hej⟩
      · rw [h3]
        have : g 0 - g (m + 1) = g 0 - g m := by omega
        rw [this]
    · rw [if_neg hz]
      have hne : g m - g (m + 1) ≠ 0 := fun h => hz ((isZero_intCast cc hp0 hp1 _ hk).2 h)
      have hk1 : (1 : ℤ) ≤ g m - g (m + 1) := by omega
      have hkq : (0 : ℚ) < (((g m - g (m + 1) : ℤ)) : ℚ) := by
        have : (1 : ℚ) ≤ (((g m - g (m + 1) : ℤ)) : ℚ) := by exact_mod_cast hk1
        linarith
      have hlt : ∀ e ∈ computeGridPoint cc convResolution q toOrig m,
          e.1 < toOrig.getD m 0 := by
        intro e he
        obtain ⟨_, j, hj, hej⟩ := h2 e he
        rw [hej]
        exact hkeys j m hj hmn
      rw [assign_of_lt _ _ _ hlt]
      refine ⟨?_, ?_, ?_⟩
      · refine List.pairwise_append.2 ⟨h1, List.pairwise_singleton _ _, ?_⟩
        intro a ha b hb
        rw [List.mem_singleton.1 hb]
        exact hlt a ha
      · intro e he
        rcases List.mem_append.1 he with he | he
        · obtain ⟨hpos, j, hj, hej⟩ := h2 e he
          exact ⟨hpos, j, Nat.lt_succ_of_lt hj, hej⟩
        · rw [List.mem_singleton.1 he]
          exact ⟨div_pos hkq hR, m, Nat.lt_succ_self m, rfl⟩
      · rw [List.map_append, List.sum_append, h3]
        simp only [List.map_cons, List.map_nil, List.sum_cons, List.sum_nil, add_zero]
        rw [← add_div]
        congr 1
        push_cast
        ring

end BeliefManager

namespace BeliefManager

theorem mem_diffsFrom (convResolution : ℚ) (b : BeliefType) :
    ∀ (j0 : Nat) (x : ℚ) (d : FreudenthalDiff), d ∈ diffsFrom convResolution j0 x b →
      j0 ≤ d.dimension ∧ Nat.succ d.dimension ≤ j0 + b.length ∧
        d.diff = (xsFrom convResolution x b).getD (d.dimension - j0) 0 -
          floorValue ((xsFrom convResolution x b).getD (d.dimension - j0) 0) := by
  induction b with
  | nil => intro j0 x d hd; simp [diffsFrom] at hd
  | cons e t ih =>
    intro j0 x d hd
    simp only [diffsFrom, List.mem_cons] at hd
    rcases hd with hd | hd
    · subst hd
      refine ⟨Nat.le_refl _, by simp, ?_⟩
      simp [xsFrom]
    · obtain ⟨h1, h2, h3⟩ := ih (j0 + 1) _ d hd
      obtain ⟨k, hk⟩ : ∃ k : Nat, k = d.dimension := ⟨_, rfl⟩
      rw [← hk] at h1 h2 h3 ⊢
      refine ⟨by omega, by simp only [List.length_cons]; omega, ?_⟩
      have hsub : k - j0 = (k - (j0 + 1)) + 1 := by omega
      rw [hsub, h3]
      simp [xsFrom]

theorem computeGridPoint_valid (pomdp : Pomdp) (cc : ConstantsComparator)
    (hp0 : 0 ≤ cc.precision) (hp1 : cc.precision < 1) (resolution : Nat) (hres : 1 ≤ resolution)
    (b : BeliefType) (hb : Valid pomdp b) (q : List ℚ)
    (hq : ThresholdRow b.length
      (fun j => (xsFrom (resolution : ℚ) (resolution : ℚ) b).getD j 0) q) :
    Valid pomdp (computeGridPoint cc (resolution : ℚ) q (b.map Prod.fst) b.length) := by
  obtain ⟨t, ht0, ht1, hrow, hn⟩ := hq
  obtain ⟨hne, hord, hpos, hobs, hsum⟩ := hb
  have hR : (0 : ℚ) < (resolution : ℚ) := by exact_mod_cast hres
  have hX : ∀ j : Nat, (xsFrom (resolution : ℚ) (resolution : ℚ) b).getD j 0 =
      (resolution : ℚ) * ((b.drop j).map Prod.snd).sum :=
    getD_xsFrom (resolution : ℚ) b (resolution : ℚ) (by rw [hsum, mul_one])
  have hX0 : (xsFrom (resolution : ℚ) (resolution : ℚ) b).getD 0 0 = (resolution : ℚ) := by
    rw [hX 0, List.drop_zero, hsum, mul_one]
  have hXn : (xsFrom (resolution : ℚ) (resolution : ℚ) b).getD b.length 0 = 0 := by
    rw [hX b.length, List.drop_length]
    simp
  have hXmono : ∀ j : Nat, j < b.length →
      (xsFrom (resolution : ℚ) (resolution : ℚ) b).getD (j + 1) 0 ≤
        (xsFrom (resolution : ℚ) (resolution : ℚ) b).getD j 0 := by
    intro j hj
    rw [hX j, hX (j + 1), List.drop_eq_getElem_cons hj]
    simp only [List.map_cons, List.sum_cons]
    have := (hpos b[j] (List.getElem_mem hj)).2
    nlinarith
  have hq2 : ∀ j : Nat, j ≤ b.length → q.getD j 0 =
      (((⌊(xsFrom (resolution : ℚ) (resolution : ℚ) b).getD j 0 + 1 - t⌋ : ℤ)) : ℚ) := by
    intro j hj
    rcases Nat.lt_or_ge j b.length with hlt | hge
    · rw [hrow j hlt]
      exact floor_threshold _ t ht0 ht1
    · have hjn : j = b.length := Nat.le_antisymm hj hge
      rw [hjn, hn, hXn]
      have : ⌊(0 : ℚ) + 1 - t⌋ = 0 := by
        rw [Int.floor_eq_iff]
        constructor
        · simp only [Int.cast_zero]; linarith
        · simp only [Int.cast_zero]; linarith
      rw [this]
      rfl
  have hmono : ∀ j : Nat, j < b.length →
      ⌊(xsFrom (resolution : ℚ) (resolution : ℚ) b).getD (j + 1) 0 + 1 - t⌋ ≤
        ⌊(xsFrom (resolution : ℚ) (resolution : ℚ) b).getD j 0 + 1 - t⌋ := by
    intro j hj
    apply Int.floor_mono
    have := hXmono j hj
    linarith
  have hpw : (b.map Prod.fst).Pairwise (fun x y => x < y) := List.pairwise_map.2 hord
  have hkeys : ∀ i j : Nat, i < j → j < b.length →
      (b.map Prod.fst).getD i 0 < (b.map Prod.fst).getD j 0 := by
    intro i j hij hj
    have hj2 : j < (b.map Prod.fst).length := by simpa using hj
    have hi2 : i < (b.map Prod.fst).length := Nat.lt_trans hij hj2
    rw [List.getD_eq_getElem _ _ hi2, List.getD_eq_getElem _ _ hj2]
    exact List.pairwise_iff_getElem.1 hpw i j hi2 hj2 hij
  obtain ⟨g1, g2, g3⟩ := computeGridPoint_fold cc hp0 hp1 (resolution : ℚ) hR q
    (b.map Prod.fst)
    (fun j => ⌊(xsFrom (resolution : ℚ) (resolution : ℚ) b).getD j 0 + 1 - t⌋)
    b.length hq2 hmono hkeys b.length (Nat.le_refl _)
  have hg0 : ⌊(xsFrom (resolution : ℚ) (resolution : ℚ) b).getD 0 0 + 1 - t⌋ =
      (resolution : ℤ) := by
    rw [hX0, Int.floor_eq_iff]
    push_cast
    constructor <;> linarith
  have hgn : ⌊(xsFrom (resolution : ℚ) (resolution : ℚ) b).getD b.length 0 + 1 - t⌋ = 0 := by
    rw [hXn, Int.floor_eq_iff]
    constructor
    · simp only [Int.cast_zero]; linarith
    · simp only [Int.cast_zero]; linarith
  have hsum1 : ((computeGridPoint cc (resolution : ℚ) q (b.map Prod.fst) b.length).map
      Prod.snd).sum = 1 := by
    rw [g3]
    show (((⌊(xsFrom (resolution : ℚ) (resolution : ℚ) b).getD 0 0 + 1 - t⌋ -
      ⌊(xsFrom (resolution : ℚ) (resolution : ℚ) b).getD b.length 0 + 1 - t⌋ : ℤ)) : ℚ) /
      (resolution : ℚ) = 1
    rw [hg0, hgn]
    push_cast
    rw [sub_zero]
    exact div_self (ne_of_gt hR)
  have hkey : ∀ e ∈ computeGridPoint cc (resolution : ℚ) q (b.map Prod.fst) b.length,
      ∃ e' ∈ b, e'.1 = e.1 := by
    intro e he
    obtain ⟨_, j, hj, hej⟩ := g2 e he
    refine ⟨b[j], List.getElem_mem hj, ?_⟩
    rw [hej, List.getD_eq_getElem _ _ (by simpa using hj)]
    simp
  refine ⟨?_, g1, ?_, ?_, hsum1⟩
  · intro hnil
    rw [hnil] at hsum1
    simp at hsum1
  · intro e he
    obtain ⟨e', he', heq⟩ := hkey e he
    exact ⟨heq ▸ (hpos e' he').1, (g2 e he).1⟩
  · intro e he f hf
    obtain ⟨e', he', heq⟩ := hkey e he
    obtain ⟨f', hf', hfeq⟩ := hkey f hf
    rw [← heq, ← hfeq]
    exact hobs e' he' f' hf'

end BeliefManager

namespace BeliefManager

theorem triangulationContents_valid (pomdp : Pomdp) (cc : ConstantsComparator)
    (hp0 : 0 ≤ cc.precision) (resolution : Nat) (hres : 1 ≤ resolution) (b : BeliefType)
    (hb : Valid pomdp b) :
    ∀ pt ∈ triangulationContents cc b resolution, Valid pomdp pt.2 := by
  intro pt hpt
  by_cases hn : b.length = 1
  · have h2 : triangulationContents cc b resolution = [(1, b)] := by
      unfold triangulationContents
      simp only [hn, if_true]
    rw [h2, List.mem_singleton] at hpt
    rw [hpt]
    exact hb
  · have h2 : triangulationContents cc b resolution =
        match ((diffsFrom (resolution : ℚ) 0 (resolution : ℚ) b).foldl
            sortedDiffsEmplace []).getLast? with
        | none => []
        | some previousSortedDiff =>
          triangulationPoints cc (resolution : ℚ) (b.map Prod.fst) b.length true
            previousSortedDiff
            ((diffsFrom (resolution : ℚ) 0 (resolution : ℚ) b).foldl sortedDiffsEmplace [])
            ((xsFrom (resolution : ℚ) (resolution : ℚ) b).map floorValue ++ [0]) := by
      unfold triangulationContents
      simp only [hn, if_false]
    rw [h2] at hpt
    obtain ⟨hsorted, hperm⟩ := sortedDiffs_spec (resolution : ℚ) b (resolution : ℚ)
    have hXn : (xsFrom (resolution : ℚ) (resolution : ℚ) b).getD b.length 0 = 0 := by
      rw [List.getD_eq_getElem?_getD, List.getElem?_eq_none (by rw [xsFrom_length])]
      rfl
    have hD : ∀ d ∈ (diffsFrom (resolution : ℚ) 0 (resolution : ℚ) b).foldl
        sortedDiffsEmplace [],
        d.dimension < b.length ∧
          d.diff = (xsFrom (resolution : ℚ) (resolution : ℚ) b).getD d.dimension 0 -
            floorValue ((xsFrom (resolution : ℚ) (resolution : ℚ) b).getD d.dimension 0) := by
      intro d hd
      obtain ⟨_, h2, h3⟩ := mem_diffsFrom (resolution : ℚ) b 0 (resolution : ℚ) d
        (hperm.mem_iff.1 hd)
      rw [Nat.zero_add] at h2
      exact ⟨h2, by simpa using h3⟩
    have hdims : List.Perm (((diffsFrom (resolution : ℚ) 0 (resolution : ℚ) b).foldl
        sortedDiffsEmplace []).map FreudenthalDiff.dimension) (List.range' 0 b.length) := by
      rw [← diffsFrom_dimensions (resolution : ℚ) b 0 (resolution : ℚ)]
      exact hperm.map _
    have hnd := hdims.nodup_iff.2 (List.nodup_range' 0 b.length)
    have hall : ∀ j, j < b.length →
        j ∈ ((diffsFrom (resolution : ℚ) 0 (resolution : ℚ) b).foldl
          sortedDiffsEmplace []).map FreudenthalDiff.dimension := by
      intro j hj
      rw [hdims.mem_iff, List.mem_range'_1]
      exact ⟨Nat.zero_le _, by rw [Nat.zero_add]; exact hj⟩
    cases hds : (diffsFrom (resolution : ℚ) 0 (resolution : ℚ) b).foldl
        sortedDiffsEmplace [] with
    | nil =>
      rw [hds] at hpt
      cases hpt
    | cons s0 ds =>
      rw [hds] at hpt hsorted hD hnd hall
      rw [getLast?_cons_eq_lastOf] at hpt
      have hpt2 : pt ∈ triangulationPoints cc (resolution : ℚ) (b.map Prod.fst) b.length true
          (lastOf s0 ds) (s0 :: ds)
          ((xsFrom (resolution : ℚ) (resolution : ℚ) b).map floorValue ++ [0]) := hpt
      rw [triangulationPoints_cons] at hpt2
      have hrow0 : loopRow true (lastOf s0 ds)
          ((xsFrom (resolution : ℚ) (resolution : ℚ) b).map floorValue ++ [0]) =
          (xsFrom (resolution : ℚ) (resolution : ℚ) b).map floorValue ++ [0] := rfl
      rw [hrow0] at hpt2
      have hrest := triangulationPoints_rows cc hp0 (resolution : ℚ) (b.map Prod.fst) b.length
        (fun j => (xsFrom (resolution : ℚ) (resolution : ℚ) b).getD j 0) hXn (s0 :: ds)
        hD hnd hall hsorted ds [] s0
        ((xsFrom (resolution : ℚ) (resolution : ℚ) b).map floorValue ++ [0]) rfl
        (by simp [xsFrom_length])
        (fun j => by rw [getD_floor_row]; simp)
      have hfinish : ∀ p ∈ triangulationPoints cc (resolution : ℚ) (b.map Prod.fst) b.length
          false s0 ds ((xsFrom (resolution : ℚ) (resolution : ℚ) b).map floorValue ++ [0]),
          Valid pomdp p.2 := by
        intro p hp
        obtain ⟨hp1, q1, hq1, heq⟩ := hrest p hp
        rw [heq]
        exact computeGridPoint_valid pomdp cc hp0 hp1 resolution hres b hb q1 hq1
      by_cases hz : cc.isZero (loopWeight true (lastOf s0 ds) s0) = true
      · rw [if_pos hz] at hpt2
        exact hfinish pt hpt2
      · rw [if_neg hz] at hpt2
        rcases List.mem_cons.1 hpt2 with h | h
        · have hw : loopWeight true (lastOf s0 ds) s0 = (lastOf s0 ds).diff - s0.diff + 1 := rfl
          have hle := lastOf_diff_le s0 ds hsorted s0 (List.mem_cons_self _ _)
          have hs0 := frac_bounds ((xsFrom (resolution : ℚ) (resolution : ℚ) b).getD
            s0.dimension 0)
          rw [← (hD s0 (List.mem_cons_self _ _)).2] at hs0
          have hl := frac_bounds ((xsFrom (resolution : ℚ) (resolution : ℚ) b).getD
            (lastOf s0 ds).dimension 0)
          rw [← (hD _ (lastOf_mem s0 ds)).2] at hl
          have hlt := not_isZero_pos cc _ (by rw [hw]; linarith) hz
          rw [hw] at hlt
          rw [h]
          refine computeGridPoint_valid pomdp cc hp0 (by linarith) resolution hres b hb _
            ⟨1, zero_lt_one, le_refl _, ?_, ?_⟩
          · intro j _
            rw [getD_floor_row]
            have := (frac_bounds ((xsFrom (resolution : ℚ) (resolution : ℚ) b).getD j 0)).2
            rw [if_neg (not_le.2 this), add_zero]
          · rw [getD_floor_row, hXn, floorValue_zero]
        · exact hfinish pt h

end BeliefManager

namespace BeliefManager

theorem initialBelief_valid (pomdp : Pomdp) (hwf : pomdp.WellFormed) :
    Valid pomdp (FlatMap.assign [] (pomdp.initialStates.headD 0) 1) := by
  obtain ⟨_, ⟨s, hs, hlt⟩, _, _⟩ := hwf
  have h : FlatMap.assign [] (pomdp.initialStates.headD 0) 1 = [(s, 1)] := by
    rw [hs]; rfl
  rw [h]
  refine ⟨List.cons_ne_nil _ _, List.pairwise_singleton _ _, ?_, ?_, ?_⟩
  · intro e he
    rw [List.mem_singleton.1 he]
    exact ⟨hlt, zero_lt_one⟩
  · intro e he e' he'
    rw [List.mem_singleton.1 he, List.mem_singleton.1 he']
  · simp

theorem getBelief_mem (m : BeliefManager) (beliefId : Nat)
    (h : beliefId < m.getNumberOfBeliefIds) : m.getBelief beliefId ∈ m.beliefs := by
  unfold getBelief
  rw [List.getD_eq_getElem _ _ h]
  exact List.getElem_mem h

theorem ReachableByExpansion.inv {m : BeliefManager} (h : m.ReachableByExpansion) :
    m.WF ∧ m.pomdp.WellFormed ∧ 0 ≤ m.cc.precision ∧ ∀ b ∈ m.beliefs, Valid m.pomdp b := by
  induction h with
  | init pomdp precision hwf hp =>
    have hpomdp : (construct pomdp precision).pomdp = pomdp :=
      getOrAddBeliefId_pomdp (fresh pomdp precision) _
    have hcc : (construct pomdp precision).cc = ⟨precision⟩ :=
      getOrAddBeliefId_cc (fresh pomdp precision) _
    refine ⟨construct_WF pomdp precision, hpomdp ▸ hwf, by rw [hcc]; exact hp, ?_⟩
    intro b hb
    rw [hpomdp]
    rcases getOrAddBeliefId_mem (fresh pomdp precision) _ b hb with h1 | h1
    · cases h1
    · rw [h1]
      exact initialBelief_valid pomdp hwf
  | @triangulate m0 beliefId resolution hid hres _ ih =>
    obtain ⟨hwf, hpomdp, hp, hvalid⟩ := ih
    obtain ⟨g1, g2, g3, _, _, _⟩ :=
      triangulateBelief_spec m0 hwf (m0.getBelief beliefId) resolution
    refine ⟨g1, ?_, ?_, ?_⟩
    · exact (show (m0.triangulateBeliefId beliefId resolution).1.pomdp = _ from g3) ▸ hpomdp
    · rw [show (m0.triangulateBeliefId beliefId resolution).1.cc = _ from g2]
      exact hp
    · intro b hb
      rw [show (m0.triangulateBeliefId beliefId resolution).1.pomdp = _ from g3]
      rcases triangulateBelief_mem m0 _ _ b hb with h1 | h1
      · exact hvalid b h1
      · obtain ⟨pt, hpt, rfl⟩ := List.mem_map.1 h1
        exact triangulationContents_valid _ _ hp resolution hres _
          (hvalid _ (getBelief_mem m0 beliefId hid)) pt hpt
  | @expandNone m0 beliefId actionIndex hid _ _ ih =>
    obtain ⟨hwf, hpomdp, hp, hvalid⟩ := ih
    obtain ⟨g1, g3, _, _⟩ := expandLoop_none_spec (m0.getBelief beliefId) actionIndex
      (successorObservations m0.pomdp (m0.getBelief beliefId) actionIndex) m0 hwf
    have g2 := expandLoop_none_cc (m0.getBelief beliefId) actionIndex
      (successorObservations m0.pomdp (m0.getBelief beliefId) actionIndex) m0
    refine ⟨g1, ?_, ?_, ?_⟩
    · exact (show (m0.expand beliefId actionIndex).1.pomdp = _ from g3) ▸ hpomdp
    · rw [show (m0.expand beliefId actionIndex).1.cc = _ from g2]
      exact hp
    · intro b hb
      rw [show (m0.expand beliefId actionIndex).1.pomdp = _ from g3]
      rcases expandLoop_none_mem _ _ _ b m0 hb with h1 | ⟨successor, hs, h1⟩
      · exact hvalid b h1
      · rw [h1]
        exact successorBelief_valid _ hpomdp _ (hvalid _ (getBelief_mem m0 beliefId hid))
          actionIndex successor hs
  | @expandSome m0 beliefId actionIndex observationResolutions hid _ hcover _ ih =>
    obtain ⟨hwf, hpomdp, hp, hvalid⟩ := ih
    obtain ⟨g1, g2, g3, _, _⟩ := expandLoop_some_spec (m0.getBelief beliefId) actionIndex
      observationResolutions (successorObservations m0.pomdp (m0.getBelief beliefId) actionIndex)
      m0 hwf
    refine ⟨g1, ?_, ?_, ?_⟩
    · exact (show (m0.expandAndTriangulate beliefId actionIndex
        observationResolutions).1.pomdp = _ from g3) ▸ hpomdp
    · rw [show (m0.expandAndTriangulate beliefId actionIndex
        observationResolutions).1.cc = _ from g2]
      exact hp
    · intro b hb
      rw [show (m0.expandAndTriangulate beliefId actionIndex
        observationResolutions).1.pomdp = _ from g3]
      rcases expandLoop_some_mem _ _ _ _ b m0 hwf hb with h1 | ⟨successor, hs, h1⟩
      · exact hvalid b h1
      · obtain ⟨pt, hpt, rfl⟩ := List.mem_map.1 h1
        have hres : 1 ≤ observationResolutions.getD successor.1 0 := by
          obtain ⟨e, _, tr, htr, _, hobs⟩ :=
            ((successorObservations_spec m0.pomdp (m0.getBelief beliefId) actionIndex).2.2
              successor.1).1 (List.mem_map_of_mem _ hs)
          obtain ⟨row, hrow, hin⟩ := getRow_mem_rows _ e.1 actionIndex tr htr
          rw [← hobs]
          exact hcover tr.1 (hpomdp.2.2.2 row hrow tr hin).1
        exact triangulationContents_valid _ _ hp _ hres _
          (successorBelief_valid _ hpomdp _ (hvalid _ (getBelief_mem m0 beliefId hid))
            actionIndex successor hs) pt hpt

theorem twoObservations_wellFormed : twoObservations.WellFormed := by
  refine ⟨rfl, ⟨0, rfl, by decide⟩, ?_, ?_⟩
  · intro row hrow
    simp only [twoObservations, List.mem_cons, List.mem_singleton, List.not_mem_nil,
      or_false] at hrow
    rcases hrow with h | h <;> subst h <;> norm_num
  · intro row hrow e he
    have hn : twoObservations.getNumberOfStates = 2 := rfl
    rw [hn]
    simp only [twoObservations, List.mem_cons, List.mem_singleton, List.not_mem_nil,
      or_false] at hrow
    rcases hrow with h | h
    · subst h
      simp only [List.mem_cons, List.mem_singleton, List.not_mem_nil, or_false] at he
      rcases he with h | h <;> subst h <;> norm_num
    · subst h
      simp only [List.mem_cons, List.mem_singleton, List.not_mem_nil, or_false] at he
      subst he
      norm_num

/-- Claim C12: in every manager state reachable from construction over a well-formed
POMDP by `triangulateBelief`, `expand` and `expandAndTriangulate` calls on registered
beliefs, with enabled action indices and resolutions of at least one, every belief
stored in the table passes `assertBelief`: its support is non-empty and consists
of existing states with one common observation, every weight is strictly positive
and at most one, and the weights sum to one within the tolerance of the comparator. -/
theorem reachable_beliefs_valid (m : BeliefManager) (h : m.ReachableByExpansion) :
    ∀ belief ∈ m.beliefs,
      m.assertBelief belief = true ∧ belief ≠ [] ∧
        (∀ e ∈ belief, e.1 < m.pomdp.getNumberOfStates ∧ 0 < e.2 ∧ e.2 ≤ 1) ∧
        (∀ e ∈ belief, ∀ e' ∈ belief,
          m.pomdp.getObservation e.1 = m.pomdp.getObservation e'.1) ∧
        m.cc.isOne (belief.map Prod.snd).sum = true := by
  obtain ⟨_, _, hp, hvalid⟩ := h.inv
  intro belief hb
  have hv := hvalid belief hb
  refine ⟨assertBelief_of_valid m hp belief hv, hv.1, ?_, hv.2.2.2.1, ?_⟩
  · intro e he
    exact ⟨(hv.2.2.1 e he).1, (hv.2.2.1 e he).2, hv.le_one e he⟩
  · rw [hv.2.2.2.2]
    simp only [ConstantsComparator.isOne, decide_eq_true_eq, sub_self, abs_zero]
    exact hp

/-- Witness of claim C12: the manager over `twoObservations` after `expand(0, 0)` on the
initial belief. -/
theorem reachable_beliefs_valid_witness :
    ((construct twoObservations 0).expand 0 0).1.ReachableByExpansion ∧
      ∀ belief ∈ ((construct twoObservations 0).expand 0 0).1.beliefs,
        ((construct twoObservations 0).expand 0 0).1.assertBelief belief = true :=
  ⟨ReachableByExpansion.expandNone 0 0 (by decide)
      (by
        intro e he
        have he2 : e = (0, 1) := by
          simpa [construct, computeInitialBelief, fresh, getOrAddBeliefId, findBeliefId,
            getBelief, FlatMap.assign, twoObservations] using he
        subst he2
        decide)
      (ReachableByExpansion.init twoObservations 0 twoObservations_wellFormed (le_refl 0)),
    fun belief hb =>
      (reachable_beliefs_valid _
        (ReachableByExpansion.expandNone 0 0 (by decide)
          (by
            intro e he
            have he2 : e = (0, 1) := by
              simpa [construct, computeInitialBelief, fresh, getOrAddBeliefId, findBeliefId,
                getBelief, FlatMap.assign, twoObservations] using he
            subst he2
            decide)
          (ReachableByExpansion.init twoObservations 0 twoObservations_wellFormed
            (le_refl 0))) belief hb).1⟩

end BeliefManager

namespace SubPomdpBuilder

theorem computeFrontier_congr (b c : SubPomdpBuilder) (relevant_states : BitVector)
    (hsucc : b.reachable_successors = c.reachable_successors)
    (hlen : b.frontier_states.length = c.frontier_states.length) :
    computeFrontier b relevant_states = computeFrontier c relevant_states := by
  unfold computeFrontier BitVector.clear
  rw [hsucc, hlen]

/-- Claim C21: on a builder obtained from the constructor, `setRelevantStates(S1)` followed
by `setRelevantStates(S2)` leaves the same builder (relevant set, frontier set, index
map and all else) as `setRelevantStates(S2)` on the freshly constructed builder. -/
theorem setRelevantStates_twice (b : SubPomdpBuilder) (hb : b.Constructed)
    (S1 S2 : BitVector) :
    (b.setRelevantStates S1).setRelevantStates S2 =
      (construct b.pomdp b.targetStates b.stateActionRewards).setRelevantStates S2 := by
  have hc := construct_constructed b.pomdp b.targetStates b.stateActionRewards
  have h1 : computeFrontier (b.setRelevantStates S1) S2 =
      computeFrontier (construct b.pomdp b.targetStates b.stateActionRewards) S2 := by
    apply computeFrontier_congr
    · show b.reachable_successors = _
      rw [hb.1]
      rfl
    · show (computeFrontier b S1).length = _
      rw [(computeFrontier_spec b S1).1, hb.2, hc.2]
      rfl
  unfold setRelevantStates
  rw [SubPomdpBuilder.mk.injEq]
  refine ⟨rfl, rfl, rfl, ?_, rfl, ?_, ?_⟩
  · show b.reachable_successors = _
    rw [hb.1]
    rfl
  · exact h1
  · show (assignIndices (assignIndices (List.replicate b.pomdp.getNumberOfStates 0, 2) _)
      (BitVector.setBits (computeFrontier (b.setRelevantStates S1) S2))).1 = _
    rw [h1]
    rfl

/-- Witness of claim C21 on `fourStates`: relevant state `0`, then relevant state `1`. -/
theorem setRelevantStates_twice_witness :
    fourStatesExample.Constructed ∧
      (fourStatesExample.setRelevantStates [false, true, false, false]).frontier_states =
        [false, false, false, true] :=
  ⟨(construct_constructed _ _ _).setRelevantStates _,
    (congrArg SubPomdpBuilder.frontier_states
      (setRelevantStates_twice fourStatesExample
        ((construct_constructed _ _ _).setRelevantStates _)
        [true, false, false, false] [false, true, false, false])).symm ▸ by decide⟩

end SubPomdpBuilder

/-! ## The initial belief -/

namespace BeliefManager

theorem getOrAddBeliefId_initialBeliefId (m : BeliefManager) (belief : BeliefType) :
    (m.getOrAddBeliefId belief).1.initialBeliefId = m.initialBeliefId := by
  unfold getOrAddBeliefId; split <;> rfl

theorem triangulateLoop_initialBeliefId (convResolution : ℚ) (toOrig : List StateType)
    (numEntries : Nat) (ds : List FreudenthalDiff) :
    ∀ (first : Bool) (previous : FreudenthalDiff) (qsRow : List ℚ) (m : BeliefManager),
      (triangulateLoop convResolution toOrig numEntries first previous ds qsRow
        m).1.initialBeliefId = m.initialBeliefId := by
  induction ds with
  | nil => intro first previous qsRow m; rfl
  | cons current rest ih =>
    intro first previous qsRow m
    rw [triangulateLoop_cons]
    by_cases hz : m.cc.isZero (loopWeight first previous current) = true
    · rw [if_pos hz]
      exact ih false current _ m
    · rw [if_neg hz]
      exact (ih false current _ _).trans (getOrAddBeliefId_initialBeliefId m _)

theorem triangulateBelief_initialBeliefId (m : BeliefManager) (belief : BeliefType)
    (resolution : Nat) :
    (m.triangulateBelief belief resolution).1.initialBeliefId = m.initialBeliefId := by
  by_cases hn : belief.length = 1
  · have h1 : m.triangulateBelief belief resolution =
        ((m.getOrAddBeliefId belief).1, ⟨[(m.getOrAddBeliefId belief).2], [1]⟩) := by
      unfold triangulateBelief
      simp only [hn, if_true]
    rw [h1]
    exact getOrAddBeliefId_initialBeliefId m belief
  · rw [triangulateBelief_eq_loop m belief resolution hn]
    cases hl : ((diffsFrom (resolution : ℚ) 0 (resolution : ℚ) belief).foldl
        sortedDiffsEmplace []).getLast? with
    | none => rfl
    | some previous => exact triangulateLoop_initialBeliefId _ _ _ _ true previous _ m

theorem expandLoop_initialBeliefId (belief : BeliefType) (actionIndex : Nat)
    (resolutions : Option (List Nat)) (l : List (Nat × ℚ)) :
    ∀ m : BeliefManager,
      (expandLoop belief actionIndex resolutions l m).1.initialBeliefId = m.initialBeliefId := by
  induction l with
  | nil => intro m; rfl
  | cons successor rest ih =>
    intro m
    cases resolutions with
    | none =>
      rw [expandLoop_none_cons]
      exact (ih _).trans (getOrAddBeliefId_initialBeliefId m _)
    | some r =>
      rw [expandLoop_some_cons]
      exact (ih _).trans (triangulateBelief_initialBeliefId m _ _)

theorem Reachable.initialBelief_stored {m : BeliefManager} (h : m.Reachable) :
    m.beliefs[m.initialBeliefId]? =
      some (FlatMap.assign [] (m.pomdp.initialStates.headD 0) 1) := by
  induction h with
  | init pomdp precision =>
    exact getOrAddBeliefId_stored (fresh_WF pomdp precision) _
  | @add m0 belief h0 ih =>
    obtain ⟨t, ht⟩ := getOrAddBeliefId_beliefs m0 belief
    rw [getOrAddBeliefId_initialBeliefId, getOrAddBeliefId_pomdp, ht]
    exact stored_of_append ih
  | @triangulate m0 belief resolution h0 ih =>
    obtain ⟨_, _, hp, ⟨t, ht⟩, _, _⟩ := triangulateBelief_spec m0 h0.wf belief resolution
    rw [triangulateBelief_initialBeliefId, hp, ht]
    exact stored_of_append ih
  | @expandNone m0 beliefId actionIndex h0 ih =>
    obtain ⟨_, hp, ⟨t, ht⟩, _⟩ := expandLoop_none_spec (m0.getBelief beliefId) actionIndex
      (successorObservations m0.pomdp (m0.getBelief beliefId) actionIndex) m0 h0.wf
    have hi := expandLoop_initialBeliefId (m0.getBelief beliefId) actionIndex none
      (successorObservations m0.pomdp (m0.getBelief beliefId) actionIndex) m0
    show (m0.expand beliefId actionIndex).1.beliefs[
      (m0.expand beliefId actionIndex).1.initialBeliefId]? = _
    rw [show (m0.expand beliefId actionIndex).1.initialBeliefId = _ from hi,
      show (m0.expand beliefId actionIndex).1.pomdp = _ from hp,
      show (m0.expand beliefId actionIndex).1.beliefs = _ from ht]
    exact stored_of_append ih
  | @expandSome m0 beliefId actionIndex observationResolutions h0 ih =>
    obtain ⟨_, _, hp, ⟨t, ht⟩, _⟩ := expandLoop_some_spec (m0.getBelief beliefId) actionIndex
      observationResolutions
      (successorObservations m0.pomdp (m0.getBelief beliefId) actionIndex) m0 h0.wf
    have hi := expandLoop_initialBeliefId (m0.getBelief beliefId) actionIndex
      (some observationResolutions)
      (successorObservations m0.pomdp (m0.getBelief beliefId) actionIndex) m0
    show (m0.expandAndTriangulate beliefId actionIndex observationResolutions).1.beliefs[
      (m0.expandAndTriangulate beliefId actionIndex observationResolutions).1.initialBeliefId]? = _
    rw [show (m0.expandAndTriangulate beliefId actionIndex
        observationResolutions).1.initialBeliefId = _ from hi,
      show (m0.expandAndTriangulate beliefId actionIndex observationResolutions).1.pomdp = _
        from hp,
      show (m0.expandAndTriangulate beliefId actionIndex observationResolutions).1.beliefs = _
        from ht]
    exact stored_of_append ih

/-- Claim C22: when the POMDP has exactly one initial state `s0`, in every manager state
reachable from construction `getInitialBelief` returns a valid id, and the belief
stored under it is the Dirac belief on `s0`: the single entry `(s0, 1)`. -/
theorem getInitialBelief_dirac (m : BeliefManager) (h : m.Reachable) (s0 : StateType)
    (hinit : m.pomdp.initialStates = [s0]) :
    m.getInitialBelief < m.getNumberOfBeliefIds ∧
      m.getBelief m.getInitialBelief = [(s0, 1)] ∧
      (∀ s, s ∈ (m.getBelief m.getInitialBelief).map Prod.fst ↔ s = s0) ∧
      FlatMap.weight (m.getBelief m.getInitialBelief) s0 = 1 := by
  have hst := h.initialBelief_stored
  rw [hinit] at hst
  have hst2 : m.beliefs[m.getInitialBelief]? = some [(s0, 1)] := hst
  have hgb := getBelief_of_stored hst2
  refine ⟨lt_of_stored hst2, hgb, ?_, ?_⟩
  · intro s
    rw [hgb]
    simp
  · rw [hgb]
    simp [FlatMap.weight]

/-- Witness of claim C22: the manager constructed over `twoObservations`. -/
theorem getInitialBelief_dirac_witness :
    (construct twoObservations 0).Reachable ∧
      (construct twoObservations 0).pomdp.initialStates = [0] ∧
      (construct twoObservations 0).getBelief (construct twoObservations 0).getInitialBelief =
        [(0, 1)] :=
  ⟨Reachable.init _ _, rfl,
    (getInitialBelief_dirac _ (Reachable.init twoObservations 0) 0 rfl).2.1⟩

end BeliefManager

namespace BeliefManager

/-- Claim C23 (counterexample): with the assertions compiled out (`NDEBUG`), computing the
initial belief over a POMDP with two initial states does not fail: it registers the
Dirac belief on the first of them. -/
theorem computeInitialBeliefAsserting_unchecked :
    twoInitialStates.initialStates.length = 2 ∧
      computeInitialBeliefAsserting false (fresh twoInitialStates 0) =
        some (fresh twoInitialStates 0).computeInitialBelief ∧
      (fresh twoInitialStates 0).computeInitialBelief.1.beliefs = [[(0, 1)]] := by
  refine ⟨rfl, ?_, ?_⟩
  · simp [computeInitialBeliefAsserting]
  · simp [computeInitialBelief, fresh, getOrAddBeliefId, findBeliefId, twoInitialStates,
      FlatMap.assign]

/-- Claim C23 (amended): where assertions are checked (no `NDEBUG`), computing the initial
belief aborts whenever the number of initial states is not one, and succeeds when
there is exactly one initial state (an existing state, with a comparator precision
of at least zero); where they are compiled out, nothing is checked and the
computation goes on with the first initial state. -/
theorem computeInitialBeliefAsserting_spec (m : BeliefManager) :
    (m.pomdp.initialStates.length ≠ 1 → computeInitialBeliefAsserting true m = none) ∧
      (∀ s0, m.pomdp.initialStates = [s0] → s0 < m.pomdp.getNumberOfStates →
        0 ≤ m.cc.precision →
        computeInitialBeliefAsserting true m = some m.computeInitialBelief) ∧
      (m.pomdp.initialStates ≠ [] →
        computeInitialBeliefAsserting false m = some m.computeInitialBelief) := by
  refine ⟨?_, ?_, ?_⟩
  · intro hne
    unfold computeInitialBeliefAsserting
    by_cases h2 : m.pomdp.initialStates.length < 2
    · rw [if_neg (fun h => h.2 h2), if_pos ⟨rfl, hne⟩]
    · rw [if_pos ⟨rfl, h2⟩]
  · intro s0 hinit hlt hp
    have hlen : m.pomdp.initialStates.length = 1 := by rw [hinit]; rfl
    have hvalid : Valid m.pomdp (FlatMap.assign [] (m.pomdp.initialStates.headD 0) 1) := by
      have h : FlatMap.assign [] (m.pomdp.initialStates.headD 0) 1 = [(s0, 1)] := by
        rw [hinit]; rfl
      rw [h]
      refine ⟨List.cons_ne_nil _ _, List.pairwise_singleton _ _, ?_, ?_, ?_⟩
      · intro e he
        rw [List.mem_singleton.1 he]
        exact ⟨hlt, zero_lt_one⟩
      · intro e he e' he'
        rw [List.mem_singleton.1 he, List.mem_singleton.1 he']
      · simp
    have hassert := assertBelief_of_valid m hp _ hvalid
    unfold computeInitialBeliefAsserting
    rw [if_neg (fun h => h.2 (by rw [hlen]; decide)), if_neg (fun h => h.2 hlen),
      if_neg (fun h => h.2 hassert)]
  · intro _
    simp [computeInitialBeliefAsserting]

/-- Witness of claim C23 (amended): the POMDP `twoObservations` has the one initial
state `0`. -/
theorem computeInitialBeliefAsserting_spec_witness :
    (fresh twoObservations 0).pomdp.initialStates = [0] ∧
      computeInitialBeliefAsserting true (fresh twoObservations 0) =
        some (fresh twoObservations 0).computeInitialBelief :=
  ⟨rfl, (computeInitialBeliefAsserting_spec (fresh twoObservations 0)).2.1 0 rfl
    (by decide) (le_refl 0)⟩

theorem foldl_add_eq_sum {α : Type} (f : α → ℚ) (l : List α) :
    ∀ init : ℚ, l.foldl (fun result x => result + f x) init = init + (l.map f).sum := by
  induction l with
  | nil => intro init; simp
  | cons x t ih =>
    intro init
    rw [List.foldl_cons, ih]
    simp only [List.map_cons, List.sum_cons]
    ring

/-- Claim C24: for a belief and a local action index below the number of choices of every
support state, with the action-reward vector `r` installed by `setRewardModel` (one
entry per row of the transition matrix, whose row groups lie within its rows),
`getBeliefActionReward(b, a)` is the sum over the entries `(s, w)` of the belief of
`w * r[rowGroupIndices[s] + a]`, and every index `rowGroupIndices[s] + a` that is read
lies inside the row group of `s` and inside `r`. -/
theorem getBeliefActionReward_eq (m : BeliefManager) (totalRewardVector : List ℚ)
    (beliefId : Nat) (localActionIndex : Nat)
    (henabled : ∀ e ∈ m.getBelief beliefId, localActionIndex < m.pomdp.getRowGroupSize e.1)
    (hlen : totalRewardVector.length = m.pomdp.rows.length)
    (hgroups : ∀ e ∈ m.getBelief beliefId,
      m.pomdp.rowGroupIndices.getD (e.1 + 1) 0 ≤ m.pomdp.rows.length) :
    (m.setRewardModel totalRewardVector).getBeliefActionReward beliefId localActionIndex =
        ((m.getBelief beliefId).map (fun e =>
          e.2 * totalRewardVector.getD
            (m.pomdp.rowGroupIndices.getD e.1 0 + localActionIndex) 0)).sum ∧
      ∀ e ∈ m.getBelief beliefId,
        m.pomdp.rowGroupIndices.getD e.1 0 + localActionIndex <
            m.pomdp.rowGroupIndices.getD (e.1 + 1) 0 ∧
          m.pomdp.rowGroupIndices.getD e.1 0 + localActionIndex < totalRewardVector.length := by
  constructor
  · exact (foldl_add_eq_sum (fun e : StateType × ℚ => e.2 * totalRewardVector.getD
      (m.pomdp.rowGroupIndices.getD e.1 0 + localActionIndex) 0) (m.getBelief beliefId) 0).trans
      (zero_add _)
  · intro e he
    have h1 : localActionIndex <
        m.pomdp.rowGroupIndices.getD (e.1 + 1) 0 - m.pomdp.rowGroupIndices.getD e.1 0 :=
      henabled e he
    have h2 := hgroups e he
    rw [hlen]
    constructor
    · omega
    · omega

/-- Witness of claim C24: the Dirac belief on state `0` of `twoObservations`, its action
`0` and the reward vector `[3, 5]`. -/
theorem getBeliefActionReward_eq_witness :
    (∀ e ∈ expandExample.getBelief 0, 0 < expandExample.pomdp.getRowGroupSize e.1) ∧
      ([3, 5] : List ℚ).length = expandExample.pomdp.rows.length ∧
      (expandExample.setRewardModel [3, 5]).getBeliefActionReward 0 0 =
        ((expandExample.getBelief 0).map (fun e =>
          e.2 * ([3, 5] : List ℚ).getD
            (expandExample.pomdp.rowGroupIndices.getD e.1 0 + 0) 0)).sum :=
  ⟨by decide, rfl,
    (getBeliefActionReward_eq expandExample [3, 5] 0 0 (by decide) rfl (by decide)).1⟩

end BeliefManager

namespace BeliefManager

theorem explicitZeroExample_getBelief : explicitZeroExample.getBelief 0 = [(0, 1)] := by
  simp [explicitZeroExample, construct, computeInitialBelief, fresh, getOrAddBeliefId,
    findBeliefId, getBelief, FlatMap.assign, explicitZero]

theorem explicitZero_getRow : explicitZero.getRow 0 0 = [(1, 1), (2, 0)] := rfl

theorem explicitZero_successorObservations :
    successorObservations explicitZero [(0, 1)] 0 = [(1, 1)] := by
  have ho1 : explicitZero.getObservation 1 = 1 := rfl
  have ho2 : explicitZero.getObservation 2 = 1 := rfl
  simp only [successorObservations, List.foldl_cons, List.foldl_nil, explicitZero_getRow, ho1,
    ho2]
  norm_num [addToDistribution]

theorem explicitZero_successorBelief :
    successorBelief explicitZero [(0, 1)] 0 (1, 1) = [(1, 1), (2, 0)] := by
  have ho1 : explicitZero.getObservation 1 = 1 := rfl
  have ho2 : explicitZero.getObservation 2 = 1 := rfl
  simp only [successorBelief, List.foldl_cons, List.foldl_nil, explicitZero_getRow, ho1, ho2]
  norm_num [addToDistribution]

/-- Claim C26 (failing input): on `explicitZero`, whose row of state `0` stores the entry
`(2, 0)`, `expand(0, 0)` on the initial belief yields one successor whose stored
belief is `\x7b1 ↦ 1, 2 ↦ 0\x7d`: state `2` is in its support with weight zero although
no support state has a non-zero transition to it, and `assertBelief` rejects it. -/
theorem expand_materialises_zero_entry :
    explicitZeroExample.getBelief 0 = [(0, 1)] ∧
      (∀ e ∈ explicitZeroExample.getBelief 0,
        ∀ tr ∈ explicitZeroExample.pomdp.getRow e.1 0, tr.1 = 2 → tr.2 = 0) ∧
      (explicitZeroExample.expand 0 0).2 = [(1, 1)] ∧
      (explicitZeroExample.expand 0 0).1.getBelief 1 = [(1, 1), (2, 0)] ∧
      (explicitZeroExample.expand 0 0).1.assertBelief
        ((explicitZeroExample.expand 0 0).1.getBelief 1) = false := by
  have hpomdp : explicitZeroExample.pomdp = explicitZero := getOrAddBeliefId_pomdp _ _
  have hcc : explicitZeroExample.cc = ⟨0⟩ := getOrAddBeliefId_cc _ _
  have hbeliefs : explicitZeroExample.beliefs = [[(0, 1)]] := by
    simp [explicitZeroExample, construct, computeInitialBelief, fresh, getOrAddBeliefId,
      findBeliefId, FlatMap.assign, explicitZero]
  have hlookup : findBeliefId explicitZeroExample.beliefToIdMap [(1, 1), (2, 0)] = none := by
    simp [explicitZeroExample, construct, computeInitialBelief, fresh, getOrAddBeliefId,
      findBeliefId, FlatMap.assign, explicitZero]
  have hexp : explicitZeroExample.expand 0 0 =
      ((explicitZeroExample.getOrAddBeliefId [(1, 1), (2, 0)]).1,
        [((explicitZeroExample.getOrAddBeliefId [(1, 1), (2, 0)]).2, 1)]) := by
    show expandLoop (explicitZeroExample.getBelief 0) 0 none
      (successorObservations explicitZeroExample.pomdp (explicitZeroExample.getBelief 0) 0)
      explicitZeroExample = _
    rw [explicitZeroExample_getBelief, hpomdp, explicitZero_successorObservations,
      expandLoop_none_cons, hpomdp, explicitZero_successorBelief]
    rfl
  rw [getOrAddBeliefId_of_lookup_none _ _ hlookup, hbeliefs] at hexp
  refine ⟨explicitZeroExample_getBelief, ?_, ?_, ?_, ?_⟩
  · intro e he tr htr h2
    rw [explicitZeroExample_getBelief, List.mem_singleton] at he
    rw [he, hpomdp, explicitZero_getRow] at htr
    simp only [List.mem_cons, List.mem_singleton, List.not_mem_nil, or_false] at htr
    rcases htr with h | h
    · rw [h] at h2
      exact absurd h2 (by decide)
    · rw [h]
  · rw [hexp]
    rfl
  · rw [hexp]
    rfl
  · rw [hexp]
    have hg : ({ explicitZeroExample with
        beliefs := [[(0, 1)]] ++ [[(1, 1), (2, 0)]]
        beliefToIdMap := explicitZeroExample.beliefToIdMap ++
          [([(1, 1), (2, 0)], ([[((0 : StateType), (1 : ℚ))]] : List BeliefType).length)] } :
        BeliefManager).getBelief 1 = [(1, 1), (2, 0)] := rfl
    rw [hg]
    have ho1 : explicitZero.getObservation 1 = 1 := rfl
    have ho2 : explicitZero.getObservation 2 = 1 := rfl
    have hn : explicitZero.getNumberOfStates = 3 := rfl
    norm_num [assertBelief, assertBeliefEntries, hpomdp, hcc, ho1, ho2, hn,
      ConstantsComparator.isLess, ConstantsComparator.isOne]

end BeliefManager

/-! ## The sub-POMDP builder: the rows of the relevant states -/

namespace SubPomdpBuilder

theorem successor_mem (b : SubPomdpBuilder) (hb : b.Constructed) (relevant_states : BitVector)
    (hcols : ∀ row ∈ b.pomdp.rows, ∀ e ∈ row, e.1 < b.pomdp.getNumberOfStates)
    (s : Nat) (hs : s ∈ BitVector.setBits relevant_states) (row : Nat)
    (hrow : row ∈ b.pomdp.rowsOf s) (e : StateType × ℚ) (he : e ∈ b.pomdp.getMatrixRow row) :
    e.1 ∈ BitVector.setBits relevant_states ∨
      e.1 ∈ BitVector.setBits (computeFrontier b relevant_states) := by
  have hsget : BitVector.get relevant_states s = true := (BitVector.mem_setBits _ s).1 hs
  by_cases hrel : BitVector.get relevant_states e.1 = true
  · exact Or.inl ((BitVector.mem_setBits _ _).2 hrel)
  · right
    have hnot : BitVector.get relevant_states e.1 = false := by
      cases h : BitVector.get relevant_states e.1 with
      | true => exact absurd h hrel
      | false => rfl
    rw [BitVector.mem_setBits, (computeFrontier_spec b relevant_states).2 e.1, hb.2]
    have hts : e.1 ≠ s := by
      intro heq
      rw [heq, hsget] at hnot
      cases hnot
    have hrowmem : b.pomdp.getMatrixRow row ∈ b.pomdp.rows := by
      unfold Pomdp.getMatrixRow at he ⊢
      rw [List.getD_eq_getElem?_getD] at he ⊢
      cases hr : b.pomdp.rows[row]? with
      | none => rw [hr] at he; simp at he
      | some r => exact List.getElem?_mem hr
    refine ⟨hcols _ hrowmem e he, ⟨s, hsget, ?_⟩, hnot⟩
    rw [hb.getD_successors s e.1, mem_successorsOf]
    exact ⟨hts, row, hrow, e, he, rfl⟩

theorem index_of_mem (b : SubPomdpBuilder) (hb : b.Constructed) (relevant_states : BitVector)
    (hS : relevant_states.length = b.pomdp.getNumberOfStates) (t : Nat)
    (ht : t ∈ BitVector.setBits relevant_states ∨
      t ∈ BitVector.setBits (computeFrontier b relevant_states)) :
    (∃ i, i < (BitVector.setBits relevant_states).length ∧
        (b.setRelevantStates relevant_states).state_full_to_sub.getD t 0 = 2 + i ∧
        (BitVector.setBits relevant_states).getD i 0 = t) ∨
      (∃ j, j < (BitVector.setBits (computeFrontier b relevant_states)).length ∧
        (b.setRelevantStates relevant_states).state_full_to_sub.getD t 0 =
          2 + (BitVector.setBits relevant_states).length + j ∧
        (BitVector.setBits (computeFrontier b relevant_states)).getD j 0 = t) := by
  obtain ⟨a1, a2, _⟩ := state_full_to_sub_aux b hb relevant_states hS
  rcases ht with ht | ht
  · obtain ⟨i, hi, his⟩ := getD_of_mem_sorted _ t ht
    exact Or.inl ⟨i, hi, his ▸ a1 i hi, his⟩
  · obtain ⟨j, hj, hjs⟩ := getD_of_mem_sorted _ t ht
    exact Or.inr ⟨j, hj, hjs ▸ a2 j hj, hjs⟩

/-- Claim C30: in the matrix built by `restrictPomdp` after `setRelevantStates(S)`, the rows
of the choices of the relevant states are the original rows with every column
replaced by its index; every such row has all its entries in columns `≥ 2`, distinct
original successors get distinct columns, and the row carries the original values,
so that its entries sum to the same value as the original row. -/
theorem restrictPomdp_relevant_rows (b : SubPomdpBuilder) (hb : b.Constructed)
    (relevant_states : BitVector)
    (hS : relevant_states.length = b.pomdp.getNumberOfStates)
    (hcols : ∀ row ∈ b.pomdp.rows, ∀ e ∈ row, e.1 < b.pomdp.getNumberOfStates)
    (initial_belief frontier_values : List (Nat × ℚ)) (fresh_observation : Nat) :
    ((b.setRelevantStates relevant_states).restrictPomdp initial_belief frontier_values
        fresh_observation).transitionMatrix.rows =
        [initial_belief.map (fun entry =>
            ((b.setRelevantStates relevant_states).state_full_to_sub.getD entry.1 0, entry.2))] ++
          [[(1, 1)]] ++
          ((BitVector.setBits relevant_states).map (fun state => (b.pomdp.rowsOf state).map
            (fun row => (b.pomdp.getMatrixRow row).map (fun entry =>
              ((b.setRelevantStates relevant_states).state_full_to_sub.getD entry.1 0,
                entry.2))))).flatten ++
          (BitVector.setBits (b.setRelevantStates relevant_states).frontier_states).map
            (fun _ => [(1, 1)]) ∧
      ∀ state ∈ BitVector.setBits relevant_states, ∀ row ∈ b.pomdp.rowsOf state,
        (∀ e ∈ (b.pomdp.getMatrixRow row).map (fun entry =>
            ((b.setRelevantStates relevant_states).state_full_to_sub.getD entry.1 0, entry.2)),
          2 ≤ e.1) ∧
        (∀ e ∈ b.pomdp.getMatrixRow row, ∀ e' ∈ b.pomdp.getMatrixRow row,
          (b.setRelevantStates relevant_states).state_full_to_sub.getD e.1 0 =
            (b.setRelevantStates relevant_states).state_full_to_sub.getD e'.1 0 →
          e.1 = e'.1) ∧
        ((b.pomdp.getMatrixRow row).map (fun entry =>
            ((b.setRelevantStates relevant_states).state_full_to_sub.getD entry.1 0,
              entry.2))).map Prod.snd = (b.pomdp.getMatrixRow row).map Prod.snd ∧
        (((b.pomdp.getMatrixRow row).map (fun entry =>
            ((b.setRelevantStates relevant_states).state_full_to_sub.getD entry.1 0,
              entry.2))).map Prod.snd).sum = ((b.pomdp.getMatrixRow row).map Prod.snd).sum := by
  have hvalues : ∀ row : Nat, ((b.pomdp.getMatrixRow row).map (fun entry =>
      ((b.setRelevantStates relevant_states).state_full_to_sub.getD entry.1 0,
        entry.2))).map Prod.snd = (b.pomdp.getMatrixRow row).map Prod.snd := by
    intro row
    rw [List.map_map]
    rfl
  refine ⟨?_, ?_⟩
  · show (constructTransitionMatrix (b.setRelevantStates relevant_states) initial_belief).rows = _
    rw [constructTransitionMatrix_built]
    rfl
  · intro state hstate row hrow
    refine ⟨?_, ?_, hvalues row, by rw [hvalues row]⟩
    · intro e he
      obtain ⟨e0, he0, rfl⟩ := List.mem_map.1 he
      have hmem := successor_mem b hb relevant_states hcols state hstate row hrow e0 he0
      rcases index_of_mem b hb relevant_states hS e0.1 hmem with ⟨i, _, hi, _⟩ | ⟨j, _, hj, _⟩
      · show 2 ≤ (b.setRelevantStates relevant_states).state_full_to_sub.getD e0.1 0
        rw [hi]
        exact Nat.le_add_right 2 i
      · show 2 ≤ (b.setRelevantStates relevant_states).state_full_to_sub.getD e0.1 0
        rw [hj, Nat.add_assoc]
        exact Nat.le_add_right 2 _
    · intro e he e' he' heq
      have hmem := successor_mem b hb relevant_states hcols state hstate row hrow e he
      have hmem' := successor_mem b hb relevant_states hcols state hstate row hrow e' he'
      rcases index_of_mem b hb relevant_states hS e.1 hmem with
        ⟨i, hil, hi, his⟩ | ⟨i, hil, hi, his⟩ <;>
      rcases index_of_mem b hb relevant_states hS e'.1 hmem' with
        ⟨j, hjl, hj, hjs⟩ | ⟨j, hjl, hj, hjs⟩
      · rw [hi, hj] at heq
        have hij : i = j := by omega
        rw [← his, ← hjs, hij]
      · rw [hi, hj] at heq
        omega
      · rw [hi, hj] at heq
        omega
      · rw [hi, hj] at heq
        have hij : i = j := by omega
        rw [← his, ← hjs, hij]

/-- Witness of claim C30 on `fourStates` with relevant state `0`. -/
theorem restrictPomdp_relevant_rows_witness :
    (construct fourStates [false, false, false, true] [10, 20, 30, 40, 50]).Constructed ∧
      ([true, false, false, false] : BitVector).length = fourStates.getNumberOfStates ∧
      (∀ row ∈ fourStates.rows, ∀ e ∈ row, e.1 < fourStates.getNumberOfStates) ∧
      ∀ state ∈ BitVector.setBits [true, false, false, false],
        ∀ row ∈ fourStates.rowsOf state,
          ∀ e ∈ (fourStates.getMatrixRow row).map (fun entry =>
            (fourStatesExample.state_full_to_sub.getD entry.1 0, entry.2)), 2 ≤ e.1 :=
  ⟨construct_constructed _ _ _, by decide, by decide,
    fun state hstate row hrow =>
      ((restrictPomdp_relevant_rows
        (construct fourStates [false, false, false, true] [10, 20, 30, 40, 50])
        (construct_constructed _ _ _) [true, false, false, false] (by decide) (by decide)
        [(0, 1)] [(1, 7), (2, 9)] 3).2 state hstate row hrow).1⟩

end SubPomdpBuilder

/-! ## Grid points: entries on the grid, distinct vertices -/

namespace BeliefManager

theorem mem_assign {m : BeliefType} {k : StateType} {v : ℚ} {e : StateType × ℚ}
    (h : e ∈ FlatMap.assign m k v) : e = (k, v) ∨ e ∈ m := by
  induction m with
  | nil =>
    simp only [FlatMap.assign, List.mem_singleton] at h
    exact Or.inl h
  | cons f t ih =>
    obtain ⟨fk, fv⟩ := f
    unfold FlatMap.assign at h
    by_cases h1 : k < fk
    · rw [if_pos h1] at h
      rcases List.mem_cons.1 h with h | h
      · exact Or.inl h
      · exact Or.inr h
    · rw [if_neg h1] at h
      by_cases h2 : k = fk
      · rw [if_pos h2] at h
        rcases List.mem_cons.1 h with h | h
        · exact Or.inl (by rw [h, h2])
        · exact Or.inr (List.mem_cons_of_mem _ h)
      · rw [if_neg h2] at h
        rcases List.mem_cons.1 h with h | h
        · exact Or.inr (h ▸ List.mem_cons_self _ _)
        · rcases ih h with h3 | h3
          · exact Or.inl h3
          · exact Or.inr (List.mem_cons_of_mem _ h3)

theorem mem_computeGridPoint (cc : ConstantsComparator) (convResolution : ℚ) (q : List ℚ)
    (toOrig : List StateType) :
    ∀ (m : Nat) (e : StateType × ℚ), e ∈ computeGridPoint cc convResolution q toOrig m →
      ∃ j : Nat, j < m ∧ e.1 = toOrig.getD j 0 ∧
        e.2 = (q.getD j 0 - q.getD (j + 1) 0) / convResolution ∧
        ¬ cc.isZero (q.getD j 0 - q.getD (j + 1) 0) = true := by
  intro m
  induction m with
  | zero =>
    intro e he
    have h0 : computeGridPoint cc convResolution q toOrig 0 = [] := rfl
    rw [h0] at he
    cases he
  | succ m ih =>
    intro e he
    rw [computeGridPoint_succ] at he
    by_cases hz : cc.isZero (q.getD m 0 - q.getD (m + 1) 0) = true
    · rw [if_pos hz] at he
      obtain ⟨j, hj, h⟩ := ih e he
      exact ⟨j, Nat.lt_succ_of_lt hj, h⟩
    · rw [if_neg hz] at he
      rcases mem_assign he with h | h
      · exact ⟨m, Nat.lt_succ_self m, by rw [h], by rw [h], hz⟩
      · obtain ⟨j, hj, h2⟩ := ih e h
        exact ⟨j, Nat.lt_succ_of_lt hj, h2⟩

theorem weight_computeGridPoint_of_inj (cc : ConstantsComparator) (convResolution : ℚ)
    (q : List ℚ) (toOrig : List StateType) (n : Nat)
    (hinj : ∀ i j : Nat, i < n → j < n → toOrig.getD i 0 = toOrig.getD j 0 → i = j) :
    ∀ m : Nat, m ≤ n → ∀ i : Nat, i < n →
      FlatMap.weight (computeGridPoint cc convResolution q toOrig m) (toOrig.getD i 0) =
        if i < m then
          (if cc.isZero (q.getD i 0 - q.getD (i + 1) 0) = true then 0
            else (q.getD i 0 - q.getD (i + 1) 0) / convResolution)
        else 0 := by
  intro m
  induction m with
  | zero =>
    intro _ i _
    have h0 : computeGridPoint cc convResolution q toOrig 0 = [] := rfl
    rw [h0, if_neg (Nat.not_lt_zero i)]
    rfl
  | succ m ih =>
    intro hm i hi
    have hmn : m < n := hm
    have ih2 := ih (Nat.le_of_lt hmn) i hi
    rw [computeGridPoint_succ]
    by_cases hz : cc.isZero (q.getD m 0 - q.getD (m + 1) 0) = true
    · rw [if_pos hz, ih2]
      by_cases him : i < m
      · rw [if_pos him, if_pos (Nat.lt_succ_of_lt him)]
      · rw [if_neg him]
        by_cases hieq : i = m
        · rw [hieq, if_pos (Nat.lt_succ_self m), if_pos hz]
        · rw [if_neg (by omega)]
    · rw [if_neg hz, weight_assign]
      by_cases hieq : i = m
      · rw [hieq, if_pos rfl, if_pos (Nat.lt_succ_self m), if_neg hz]
      · have hne : toOrig.getD i 0 ≠ toOrig.getD m 0 := fun h => hieq (hinj i m hi hmn h)
        rw [if_neg hne, ih2]
        by_cases him : i < m
        · rw [if_pos him, if_pos (Nat.lt_succ_of_lt him)]
        · rw [if_neg him, if_neg (by omega)]

theorem thresholdRowAt_int (pomdp : Pomdp) (resolution : Nat) (hres : 1 ≤ resolution)
    (b : BeliefType) (hb : Valid pomdp b) (t : ℚ) (ht0 : 0 < t) (ht1 : t ≤ 1) (q : List ℚ)
    (hq : ThresholdRowAt b.length
      (fun j => (xsFrom (resolution : ℚ) (resolution : ℚ) b).getD j 0) t q) :
    (∀ j : Nat, j ≤ b.length → q.getD j 0 =
        (((⌊(xsFrom (resolution : ℚ) (resolution : ℚ) b).getD j 0 + 1 - t⌋ : ℤ)) : ℚ)) ∧
      (∀ j : Nat, j < b.length →
        ⌊(xsFrom (resolution : ℚ) (resolution : ℚ) b).getD (j + 1) 0 + 1 - t⌋ ≤
          ⌊(xsFrom (resolution : ℚ) (resolution : ℚ) b).getD j 0 + 1 - t⌋) ∧
      ⌊(xsFrom (resolution : ℚ) (resolution : ℚ) b).getD 0 0 + 1 - t⌋ = (resolution : ℤ) ∧
      ⌊(xsFrom (resolution : ℚ) (resolution : ℚ) b).getD b.length 0 + 1 - t⌋ = 0 := by
  obtain ⟨hrow, hn⟩ := hq
  obtain ⟨_, _, hpos, _, hsum⟩ := hb
  have hX : ∀ j : Nat, (xsFrom (resolution : ℚ) (resolution : ℚ) b).getD j 0 =
      (resolution : ℚ) * ((b.drop j).map Prod.snd).sum :=
    getD_xsFrom (resolution : ℚ) b (resolution : ℚ) (by rw [hsum, mul_one])
  have hR : (0 : ℚ) < (resolution : ℚ) := by exact_mod_cast hres
  have hX0 : (xsFrom (resolution : ℚ) (resolution : ℚ) b).getD 0 0 = (resolution : ℚ) := by
    rw [hX 0, List.drop_zero, hsum, mul_one]
  have hXn : (xsFrom (resolution : ℚ) (resolution : ℚ) b).getD b.length 0 = 0 := by
    rw [hX b.length, List.drop_length]
    simp
  have hgn : ⌊(xsFrom (resolution : ℚ) (resolution : ℚ) b).getD b.length 0 + 1 - t⌋ = 0 := by
    rw [hXn, Int.floor_eq_iff]
    constructor
    · simp only [Int.cast_zero]; linarith
    · simp only [Int.cast_zero]; linarith
  refine ⟨?_, ?_, ?_, hgn⟩
  · intro j hj
    rcases Nat.lt_or_ge j b.length with hlt | hge
    · rw [hrow j hlt]
      exact floor_threshold _ t ht0 ht1
    · have hjn : j = b.length := Nat.le_antisymm hj hge
      rw [hjn, hn, hgn]
      rfl
  · intro j hj
    apply Int.floor_mono
    have h1 : (xsFrom (resolution : ℚ) (resolution : ℚ) b).getD (j + 1) 0 ≤
        (xsFrom (resolution : ℚ) (resolution : ℚ) b).getD j 0 := by
      rw [hX j, hX (j + 1), List.drop_eq_getElem_cons hj]
      simp only [List.map_cons, List.sum_cons]
      have := (hpos b[j] (List.getElem_mem hj)).2
      nlinarith
    linarith
  · rw [hX0, Int.floor_eq_iff]
    push_cast
    constructor <;> linarith

end BeliefManager

namespace BeliefManager

theorem loopInv_step {n : Nat} {X : Nat → ℚ} {D pre : List FreudenthalDiff}
    {previous current : FreudenthalDiff} {rest : List FreudenthalDiff} {q : List ℚ}
    (hG : DiffsOf n X D) (h : LoopInv n X D pre previous (current :: rest) q) :
    LoopInv n X D (pre ++ [previous]) current rest (loopRow false previous q) ∧
      current.diff ≤ previous.diff ∧ 0 ≤ current.diff ∧ previous.diff < 1 ∧
      (previous.dimension < n ∧
        X previous.dimension - floorValue (X previous.dimension) = previous.diff) ∧
      (current.diff < previous.diff →
        ThresholdRowAt n X previous.diff (loopRow false previous q)) := by
  obtain ⟨hXn, hD, hnd, hall, hs⟩ := hG
  obtain ⟨hsplit, hlen, hrow⟩ := h
  have hprev_mem : previous ∈ D := by rw [hsplit]; simp
  have hcur_mem : current ∈ D := by rw [hsplit]; simp
  have hprev_lt : previous.dimension < q.length := by
    rw [hlen]; exact Nat.lt_succ_of_lt (hD previous hprev_mem).1
  have hsplit2 : D = (pre ++ [previous]) ++ current :: rest := by rw [hsplit]; simp
  have hnd2 := hnd
  rw [hsplit, List.map_append, List.nodup_append] at hnd2
  have hnotin : previous.dimension ∉ pre.map FreudenthalDiff.dimension := by
    intro hin
    exact hnd2.2.2 hin (by simp)
  have hrow1 : ∀ j, (loopRow false previous q).getD j 0 =
      floorValue (X j) +
        (if j ∈ (pre ++ [previous]).map FreudenthalDiff.dimension then 1 else 0) := by
    intro j
    show (incrementAt q previous.dimension).getD j 0 = _
    rw [getD_incrementAt q _ j hprev_lt, hrow j]
    unfold unitRow
    by_cases hj : j = previous.dimension
    · subst hj
      simp [hnotin]
    · by_cases hin : j ∈ pre.map FreudenthalDiff.dimension
      · have hin2 : j ∈ (pre ++ [previous]).map FreudenthalDiff.dimension := by
          rw [List.map_append]; exact List.mem_append_left _ hin
        rw [if_pos hin, if_neg hj, if_pos hin2, add_zero]
      · have hin2 : j ∉ (pre ++ [previous]).map FreudenthalDiff.dimension := by
          rw [List.map_append]
          intro h
          rcases List.mem_append.1 h with h | h
          · exact hin h
          · simp at h; exact hj h
        rw [if_neg hin, if_neg hj, if_neg hin2, add_zero]
  have hlen1 : (loopRow false previous q).length = n + 1 := by
    show (incrementAt q previous.dimension).length = _
    rw [length_incrementAt, hlen]
  have hs2 := hs
  rw [hsplit] at hs2
  have hs3 := List.pairwise_append.1 hs2
  have hs4 := List.pairwise_cons.1 hs3.2.1
  have hs5 := List.pairwise_cons.1 hs4.2
  have hle : current.diff ≤ previous.diff := hs4.1 current (List.mem_cons_self _ _)
  have hpb := frac_bounds (X previous.dimension)
  rw [← (hD previous hprev_mem).2] at hpb
  have hcb := frac_bounds (X current.dimension)
  rw [← (hD current hcur_mem).2] at hcb
  refine ⟨⟨hsplit2, hlen1, hrow1⟩, hle, hcb.1, hpb.2,
    ⟨(hD previous hprev_mem).1, ((hD previous hprev_mem).2).symm⟩, ?_⟩
  intro hlt
  refine ⟨?_, ?_⟩
  · intro j hj
    rw [hrow1 j]
    congr 1
    by_cases hin : j ∈ (pre ++ [previous]).map FreudenthalDiff.dimension
    · rw [if_pos hin]
      obtain ⟨d, hd, hdj⟩ := List.mem_map.1 hin
      have hdD : d ∈ D := by
        rw [hsplit2]; exact List.mem_append_left _ hd
      have hdiff : previous.diff ≤ d.diff := by
        rcases List.mem_append.1 hd with hd1 | hd1
        · exact hs3.2.2 d hd1 previous (List.mem_cons_self _ _)
        · rw [List.mem_singleton.1 hd1]
      rw [(hD d hdD).2, hdj] at hdiff
      rw [if_pos hdiff]
    · rw [if_neg hin]
      have hjD := hall j hj
      rw [hsplit2, List.map_append] at hjD
      rcases List.mem_append.1 hjD with hjD | hjD
      · exact absurd hjD hin
      · obtain ⟨d, hd, hdj⟩ := List.mem_map.1 hjD
        have hdD : d ∈ D := by
          rw [hsplit2]; exact List.mem_append_right _ hd
        have hdiff : d.diff ≤ current.diff := by
          rcases List.mem_cons.1 hd with hd1 | hd1
          · rw [hd1]
          · exact hs5.1 d hd1
        rw [(hD d hdD).2, hdj] at hdiff
        rw [if_neg (by linarith)]
  · rw [hrow1 n, hXn, floorValue_zero]
    have hnin : n ∉ (pre ++ [previous]).map FreudenthalDiff.dimension := by
      intro hin
      obtain ⟨d, hd, hdj⟩ := List.mem_map.1 hin
      have hdD : d ∈ D := by
        rw [hsplit2]; exact List.mem_append_left _ hd
      have hlt2 := (hD d hdD).1
      rw [hdj] at hlt2
      exact Nat.lt_irrefl _ hlt2
    rw [if_neg hnin, add_zero]

theorem triangulationPoints_thresholds (cc : ConstantsComparator) (hp : 0 ≤ cc.precision)
    (convResolution : ℚ) (toOrig : List StateType) {n : Nat} {X : Nat → ℚ}
    {D : List FreudenthalDiff} (hG : DiffsOf n X D) (rest : List FreudenthalDiff) :
    ∀ (pre : List FreudenthalDiff) (previous : FreudenthalDiff) (q : List ℚ),
      LoopInv n X D pre previous rest q →
      ∀ pt ∈ triangulationPoints cc convResolution toOrig n false previous rest q,
        cc.precision < 1 ∧
          ∃ t q1, 0 < t ∧ t ≤ previous.diff ∧ t < 1 ∧
            (∃ j, j < n ∧ X j - floorValue (X j) = t) ∧
            ThresholdRowAt n X t q1 ∧
            pt.2 = computeGridPoint cc convResolution q1 toOrig n := by
  induction rest with
  | nil =>
    intro pre previous q _ pt hpt
    simp [triangulationPoints] at hpt
  | cons current rest ih =>
    intro pre previous q hinv pt hpt
    rw [triangulationPoints_cons] at hpt
    obtain ⟨hinv1, hle, hc0, hp1, ⟨hdim, hfrac⟩, hthr⟩ := loopInv_step hG hinv
    have hrec : ∀ pt ∈ triangulationPoints cc convResolution toOrig n false current rest
        (loopRow false previous q),
        cc.precision < 1 ∧
          ∃ t q1, 0 < t ∧ t ≤ previous.diff ∧ t < 1 ∧
            (∃ j, j < n ∧ X j - floorValue (X j) = t) ∧
            ThresholdRowAt n X t q1 ∧
            pt.2 = computeGridPoint cc convResolution q1 toOrig n := by
      intro pt hpt
      obtain ⟨h1, t, q1, h2, h3, h4, h5⟩ := ih (pre ++ [previous]) current _ hinv1 pt hpt
      exact ⟨h1, t, q1, h2, le_trans h3 hle, h4, h5⟩
    by_cases hz : cc.isZero (loopWeight false previous current) = true
    · rw [if_pos hz] at hpt
      exact hrec pt hpt
    · rw [if_neg hz] at hpt
      rcases List.mem_cons.1 hpt with h | h
      · have hw : loopWeight false previous current = previous.diff - current.diff := rfl
        have hlt := not_isZero_pos cc _ (by rw [hw]; linarith) hz
        rw [hw] at hlt
        exact ⟨by linarith, previous.diff, loopRow false previous q, by linarith, le_refl _,
          hp1, ⟨previous.dimension, hdim, hfrac⟩, hthr (by linarith), by rw [h]⟩
      · exact hrec pt h

theorem triangulationPoints_pairwise (cc : ConstantsComparator) (hp : 0 ≤ cc.precision)
    (convResolution : ℚ) (toOrig : List StateType) {n : Nat} {X : Nat → ℚ}
    {D : List FreudenthalDiff} (hG : DiffsOf n X D) (rest : List FreudenthalDiff) :
    ∀ (pre : List FreudenthalDiff) (previous : FreudenthalDiff) (q : List ℚ),
      LoopInv n X D pre previous rest q →
      (triangulationPoints cc convResolution toOrig n false previous rest q).Pairwise
        (EmittedBefore cc convResolution toOrig n X) := by
  induction rest with
  | nil =>
    intro pre previous q _
    simp [triangulationPoints]
  | cons current rest ih =>
    intro pre previous q hinv
    rw [triangulationPoints_cons]
    obtain ⟨hinv1, hle, hc0, hp1, ⟨hdim, hfrac⟩, hthr⟩ := loopInv_step hG hinv
    have hrec := ih (pre ++ [previous]) current _ hinv1
    by_cases hz : cc.isZero (loopWeight false previous current) = true
    · rw [if_pos hz]
      exact hrec
    · rw [if_neg hz]
      have hw : loopWeight false previous current = previous.diff - current.diff := rfl
      have hlt := not_isZero_pos cc _ (by rw [hw]; linarith) hz
      rw [hw] at hlt
      refine List.pairwise_cons.2 ⟨?_, hrec⟩
      intro pt' hpt'
      obtain ⟨_, t', q2, h2, h3, _, h5, h6, h7⟩ :=
        triangulationPoints_thresholds cc hp convResolution toOrig hG rest
          (pre ++ [previous]) current _ hinv1 pt' hpt'
      exact ⟨previous.diff, loopRow false previous q, t', q2, h2, by linarith, le_of_lt hp1,
        h5, hthr (by linarith), rfl, h6, h7⟩

end BeliefManager

namespace BeliefManager

theorem diffsOf_sorted (resolution : Nat) (b : BeliefType) :
    DiffsOf b.length (fun j => (xsFrom (resolution : ℚ) (resolution : ℚ) b).getD j 0)
      ((diffsFrom (resolution : ℚ) 0 (resolution : ℚ) b).foldl sortedDiffsEmplace []) := by
  obtain ⟨hsorted, hperm⟩ := sortedDiffs_spec (resolution : ℚ) b (resolution : ℚ)
  have hXn : (xsFrom (resolution : ℚ) (resolution : ℚ) b).getD b.length 0 = 0 := by
    rw [List.getD_eq_getElem?_getD, List.getElem?_eq_none (by rw [xsFrom_length])]
    rfl
  have hdims : List.Perm (((diffsFrom (resolution : ℚ) 0 (resolution : ℚ) b).foldl
      sortedDiffsEmplace []).map FreudenthalDiff.dimension) (List.range' 0 b.length) := by
    rw [← diffsFrom_dimensions (resolution : ℚ) b 0 (resolution : ℚ)]
    exact hperm.map _
  refine ⟨hXn, ?_, hdims.nodup_iff.2 (List.nodup_range' 0 b.length), ?_, hsorted⟩
  · intro d hd
    obtain ⟨_, h2, h3⟩ := mem_diffsFrom (resolution : ℚ) b 0 (resolution : ℚ) d
      (hperm.mem_iff.1 hd)
    rw [Nat.zero_add] at h2
    exact ⟨h2, by simpa using h3⟩
  · intro j hj
    rw [hdims.mem_iff, List.mem_range'_1]
    exact ⟨Nat.zero_le _, by rw [Nat.zero_add]; exact hj⟩

theorem triangulationContents_thresholds (cc : ConstantsComparator) (hp0 : 0 ≤ cc.precision)
    (resolution : Nat) (b : BeliefType) (hn : b.length ≠ 1) :
    (∀ pt ∈ triangulationContents cc b resolution,
        cc.precision < 1 ∧
          ∃ t q1, 0 < t ∧ t ≤ 1 ∧
            ThresholdRowAt b.length
              (fun j => (xsFrom (resolution : ℚ) (resolution : ℚ) b).getD j 0) t q1 ∧
            pt.2 = computeGridPoint cc (resolution : ℚ) q1 (b.map Prod.fst) b.length) ∧
      (triangulationContents cc b resolution).Pairwise
        (EmittedBefore cc (resolution : ℚ) (b.map Prod.fst) b.length
          (fun j => (xsFrom (resolution : ℚ) (resolution : ℚ) b).getD j 0)) := by
  have h2 : triangulationContents cc b resolution =
      match ((diffsFrom (resolution : ℚ) 0 (resolution : ℚ) b).foldl
          sortedDiffsEmplace []).getLast? with
      | none => []
      | some previousSortedDiff =>
        triangulationPoints cc (resolution : ℚ) (b.map Prod.fst) b.length true
          previousSortedDiff
          ((diffsFrom (resolution : ℚ) 0 (resolution : ℚ) b).foldl sortedDiffsEmplace [])
          ((xsFrom (resolution : ℚ) (resolution : ℚ) b).map floorValue ++ [0]) := by
    unfold triangulationContents
    simp only [hn, if_false]
  rw [h2]
  have hG := diffsOf_sorted resolution b
  cases hds : (diffsFrom (resolution : ℚ) 0 (resolution : ℚ) b).foldl
      sortedDiffsEmplace [] with
  | nil =>
    show (∀ pt ∈ ([] : List (ℚ × BeliefType)), _) ∧ List.Pairwise _ []
    refine ⟨?_, List.Pairwise.nil⟩
    intro pt hpt
    cases hpt
  | cons s0 ds =>
    rw [hds] at hG
    rw [getLast?_cons_eq_lastOf]
    show (∀ pt ∈ triangulationPoints cc (resolution : ℚ) (b.map Prod.fst) b.length true
        (lastOf s0 ds) (s0 :: ds)
        ((xsFrom (resolution : ℚ) (resolution : ℚ) b).map floorValue ++ [0]), _) ∧
      (triangulationPoints cc (resolution : ℚ) (b.map Prod.fst) b.length true
        (lastOf s0 ds) (s0 :: ds)
        ((xsFrom (resolution : ℚ) (resolution : ℚ) b).map floorValue ++ [0])).Pairwise _
    rw [triangulationPoints_cons]
    have hrow0 : loopRow true (lastOf s0 ds)
        ((xsFrom (resolution : ℚ) (resolution : ℚ) b).map floorValue ++ [0]) =
        (xsFrom (resolution : ℚ) (resolution : ℚ) b).map floorValue ++ [0] := rfl
    rw [hrow0]
    have hinv : LoopInv b.length
        (fun j => (xsFrom (resolution : ℚ) (resolution : ℚ) b).getD j 0) (s0 :: ds) [] s0 ds
        ((xsFrom (resolution : ℚ) (resolution : ℚ) b).map floorValue ++ [0]) :=
      ⟨rfl, by simp [xsFrom_length], fun j => by rw [getD_floor_row]; simp⟩
    have hthr := triangulationPoints_thresholds cc hp0 (resolution : ℚ) (b.map Prod.fst) hG ds
      [] s0 _ hinv
    have hpw := triangulationPoints_pairwise cc hp0 (resolution : ℚ) (b.map Prod.fst) hG ds
      [] s0 _ hinv
    have hrest : ∀ pt ∈ triangulationPoints cc (resolution : ℚ) (b.map Prod.fst) b.length
        false s0 ds ((xsFrom (resolution : ℚ) (resolution : ℚ) b).map floorValue ++ [0]),
        cc.precision < 1 ∧
          ∃ t q1, 0 < t ∧ t ≤ 1 ∧
            ThresholdRowAt b.length
              (fun j => (xsFrom (resolution : ℚ) (resolution : ℚ) b).getD j 0) t q1 ∧
            pt.2 = computeGridPoint cc (resolution : ℚ) q1 (b.map Prod.fst) b.length := by
      intro pt hpt
      obtain ⟨h1, t, q1, h3, _, h5, _, h7, h8⟩ := hthr pt hpt
      exact ⟨h1, t, q1, h3, le_of_lt h5, h7, h8⟩
    have hhead : ThresholdRowAt b.length
        (fun j => (xsFrom (resolution : ℚ) (resolution : ℚ) b).getD j 0) 1
        ((xsFrom (resolution : ℚ) (resolution : ℚ) b).map floorValue ++ [0]) := by
      refine ⟨?_, ?_⟩
      · intro j _
        rw [getD_floor_row]
        have := (frac_bounds ((xsFrom (resolution : ℚ) (resolution : ℚ) b).getD j 0)).2
        rw [if_neg (not_le.2 this), add_zero]
      · have hXn : (xsFrom (resolution : ℚ) (resolution : ℚ) b).getD b.length 0 = 0 := hG.1
        rw [getD_floor_row, hXn, floorValue_zero]
    by_cases hz : cc.isZero (loopWeight true (lastOf s0 ds) s0) = true
    · rw [if_pos hz]
      exact ⟨hrest, hpw⟩
    · rw [if_neg hz]
      have hw : loopWeight true (lastOf s0 ds) s0 = (lastOf s0 ds).diff - s0.diff + 1 := rfl
      have hle := lastOf_diff_le s0 ds hG.2.2.2.2 s0 (List.mem_cons_self _ _)
      have hs0 := frac_bounds ((xsFrom (resolution : ℚ) (resolution : ℚ) b).getD
        s0.dimension 0)
      have hs0' := (hG.2.1 s0 (List.mem_cons_self _ _)).2
      have hl := frac_bounds ((xsFrom (resolution : ℚ) (resolution : ℚ) b).getD
        (lastOf s0 ds).dimension 0)
      have hl' := (hG.2.1 _ (lastOf_mem s0 ds)).2
      have hlt := not_isZero_pos cc _ (by rw [hw]; linarith) hz
      rw [hw] at hlt
      refine ⟨?_, ?_⟩
      · intro pt hpt
        rcases List.mem_cons.1 hpt with h | h
        · exact ⟨by linarith, 1, _, zero_lt_one, le_refl _, hhead, by rw [h]⟩
        · exact hrest pt h
      · refine List.pairwise_cons.2 ⟨?_, hpw⟩
        intro pt' hpt'
        obtain ⟨_, t', q2, h3, _, h5, h6, h7, h8⟩ := hthr pt' hpt'
        exact ⟨1, _, t', q2, h3, h5, le_refl _, h6, hhead, rfl, h7, h8⟩

end BeliefManager

namespace BeliefManager

theorem thresholdRow_of_at {n : Nat} {X : Nat → ℚ} {t : ℚ} {q : List ℚ} (ht0 : 0 < t)
    (ht1 : t ≤ 1) (h : ThresholdRowAt n X t q) : ThresholdRow n X q :=
  ⟨t, ht0, ht1, h.1, h.2⟩

theorem keys_strictMono_of_ordered (b : BeliefType) (hord : FlatMap.Ordered b) :
    ∀ i j : Nat, i < j → j < b.length →
      (b.map Prod.fst).getD i 0 < (b.map Prod.fst).getD j 0 := by
  have hpw : (b.map Prod.fst).Pairwise (fun x y => x < y) := List.pairwise_map.2 hord
  intro i j hij hj
  have hj2 : j < (b.map Prod.fst).length := by simpa using hj
  have hi2 : i < (b.map Prod.fst).length := Nat.lt_trans hij hj2
  rw [List.getD_eq_getElem _ _ hi2, List.getD_eq_getElem _ _ hj2]
  exact List.pairwise_iff_getElem.1 hpw i j hi2 hj2 hij

theorem computeGridPoint_grid (pomdp : Pomdp) (cc : ConstantsComparator)
    (hp0 : 0 ≤ cc.precision) (hp1 : cc.precision < 1) (resolution : Nat) (hres : 1 ≤ resolution)
    (b : BeliefType) (hb : Valid pomdp b) (t : ℚ) (ht0 : 0 < t) (ht1 : t ≤ 1) (q : List ℚ)
    (hq : ThresholdRowAt b.length
      (fun j => (xsFrom (resolution : ℚ) (resolution : ℚ) b).getD j 0) t q) :
    ∀ e ∈ computeGridPoint cc (resolution : ℚ) q (b.map Prod.fst) b.length,
      e.1 ∈ b.map Prod.fst ∧
        ∃ k : Nat, 1 ≤ k ∧ k ≤ resolution ∧ e.2 = (k : ℚ) / (resolution : ℚ) := by
  intro e he
  have hvalid := computeGridPoint_valid pomdp cc hp0 hp1 resolution hres b hb q
    (thresholdRow_of_at ht0 ht1 hq)
  have hR : (0 : ℚ) < (resolution : ℚ) := by exact_mod_cast hres
  obtain ⟨hq2, hmono, _, _⟩ := thresholdRowAt_int pomdp resolution hres b hb t ht0 ht1 q hq
  obtain ⟨j, hj, hkey, hval, hnz⟩ := mem_computeGridPoint cc _ q _ _ e he
  have hentry : q.getD j 0 - q.getD (j + 1) 0 =
      (((⌊(xsFrom (resolution : ℚ) (resolution : ℚ) b).getD j 0 + 1 - t⌋ -
        ⌊(xsFrom (resolution : ℚ) (resolution : ℚ) b).getD (j + 1) 0 + 1 - t⌋ : ℤ)) : ℚ) := by
    rw [hq2 j (Nat.le_of_lt hj), hq2 (j + 1) hj]
    push_cast
    rfl
  have hk0 : 0 ≤ ⌊(xsFrom (resolution : ℚ) (resolution : ℚ) b).getD j 0 + 1 - t⌋ -
      ⌊(xsFrom (resolution : ℚ) (resolution : ℚ) b).getD (j + 1) 0 + 1 - t⌋ :=
    sub_nonneg.2 (hmono j hj)
  rw [hentry] at hval hnz
  have hne : ⌊(xsFrom (resolution : ℚ) (resolution : ℚ) b).getD j 0 + 1 - t⌋ -
      ⌊(xsFrom (resolution : ℚ) (resolution : ℚ) b).getD (j + 1) 0 + 1 - t⌋ ≠ 0 :=
    fun h => hnz ((isZero_intCast cc hp0 hp1 _ hk0).2 h)
  obtain ⟨k, hk⟩ := Int.eq_ofNat_of_zero_le hk0
  rw [hk] at hval hne
  have hk1 : 1 ≤ k := by
    rcases Nat.eq_zero_or_pos k with h | h
    · rw [h] at hne
      exact absurd rfl hne
    · exact h
  refine ⟨?_, k, hk1, ?_, by rw [hval]; push_cast; rfl⟩
  · rw [hkey, List.getD_eq_getElem _ _ (by simpa using hj)]
    exact List.getElem_mem _
  · have hle := hvalid.le_one e he
    rw [hval] at hle
    push_cast at hle
    rw [div_le_one hR] at hle
    exact_mod_cast hle

theorem computeGridPoint_ne (pomdp : Pomdp) (cc : ConstantsComparator)
    (hp0 : 0 ≤ cc.precision) (hp1 : cc.precision < 1) (resolution : Nat) (hres : 1 ≤ resolution)
    (b : BeliefType) (hb : Valid pomdp b) (pt pt' : ℚ × BeliefType)
    (h : EmittedBefore cc (resolution : ℚ) (b.map Prod.fst) b.length
      (fun j => (xsFrom (resolution : ℚ) (resolution : ℚ) b).getD j 0) pt pt') :
    pt.2 ≠ pt'.2 := by
  obtain ⟨t, q1, t', q2, ht'0, htt, ht1, ⟨j, hj, hfrac⟩, hq1, hpt, hq2, hpt'⟩ := h
  intro heq
  rw [hpt, hpt'] at heq
  have hR : (0 : ℚ) < (resolution : ℚ) := by exact_mod_cast hres
  obtain ⟨a1, a2, _, a4⟩ := thresholdRowAt_int pomdp resolution hres b hb t (by linarith) ht1
    q1 hq1
  obtain ⟨b1, b2, _, b4⟩ := thresholdRowAt_int pomdp resolution hres b hb t' ht'0
    (by linarith) q2 hq2
  have hmono := keys_strictMono_of_ordered b hb.2.1
  have hinj : ∀ i k : Nat, i < b.length → k < b.length →
      (b.map Prod.fst).getD i 0 = (b.map Prod.fst).getD k 0 → i = k := by
    intro i k hi hk hik
    rcases Nat.lt_trichotomy i k with h | h | h
    · exact absurd hik (Nat.ne_of_lt (hmono i k h hk))
    · exact h
    · exact absurd hik.symm (Nat.ne_of_lt (hmono k i h hi))
  have hweight : ∀ (q : List ℚ) (g : Nat → ℤ), (∀ i, i ≤ b.length → q.getD i 0 = ((g i : ℤ) : ℚ)) →
      (∀ i, i < b.length → g (i + 1) ≤ g i) → ∀ i, i < b.length →
      FlatMap.weight (computeGridPoint cc (resolution : ℚ) q (b.map Prod.fst) b.length)
        ((b.map Prod.fst).getD i 0) = (((g i - g (i + 1) : ℤ)) : ℚ) / (resolution : ℚ) := by
    intro q g hq hg i hi
    rw [weight_computeGridPoint_of_inj cc _ q _ b.length hinj b.length (Nat.le_refl _) i hi,
      if_pos hi]
    have hentry : q.getD i 0 - q.getD (i + 1) 0 = (((g i - g (i + 1) : ℤ)) : ℚ) := by
      rw [hq i (Nat.le_of_lt hi), hq (i + 1) hi]
      push_cast
      rfl
    rw [hentry]
    by_cases hz : cc.isZero (((g i - g (i + 1) : ℤ)) : ℚ) = true
    · rw [if_pos hz, (isZero_intCast cc hp0 hp1 _ (sub_nonneg.2 (hg i hi))).1 hz]
      simp
    · rw [if_neg hz]
  have hdiff : ∀ i, i < b.length →
      ⌊(xsFrom (resolution : ℚ) (resolution : ℚ) b).getD i 0 + 1 - t⌋ -
        ⌊(xsFrom (resolution : ℚ) (resolution : ℚ) b).getD (i + 1) 0 + 1 - t⌋ =
      ⌊(xsFrom (resolution : ℚ) (resolution : ℚ) b).getD i 0 + 1 - t'⌋ -
        ⌊(xsFrom (resolution : ℚ) (resolution : ℚ) b).getD (i + 1) 0 + 1 - t'⌋ := by
    intro i hi
    have h1 := hweight q1 _ a1 a2 i hi
    have h2 := hweight q2 _ b1 b2 i hi
    rw [heq, h2] at h1
    have h3 := (div_left_inj' (ne_of_gt hR)).1 h1
    exact_mod_cast h3.symm
  have hall : ∀ k, k ≤ b.length →
      ⌊(xsFrom (resolution : ℚ) (resolution : ℚ) b).getD (b.length - k) 0 + 1 - t⌋ =
        ⌊(xsFrom (resolution : ℚ) (resolution : ℚ) b).getD (b.length - k) 0 + 1 - t'⌋ := by
    intro k
    induction k with
    | zero =>
      intro _
      rw [Nat.sub_zero, a4, b4]
    | succ k ih =>
      intro hk
      have h1 := ih (Nat.le_of_succ_le hk)
      have h2 := hdiff (b.length - (k + 1)) (by omega)
      have h3 : b.length - (k + 1) + 1 = b.length - k := by omega
      rw [h3] at h2
      omega
  have hj2 := hall (b.length - j) (Nat.sub_le _ _)
  have hj3 : b.length - (b.length - j) = j := by omega
  rw [hj3] at hj2
  have c1 := hq1.1 j hj
  have c2 := hq2.1 j hj
  rw [a1 j (Nat.le_of_lt hj)] at c1
  rw [b1 j (Nat.le_of_lt hj)] at c2
  rw [hj2, c2] at c1
  have hfrac2 : (xsFrom (resolution : ℚ) (resolution : ℚ) b).getD j 0 -
      floorValue ((xsFrom (resolution : ℚ) (resolution : ℚ) b).getD j 0) = t' := hfrac
  have c3 : (fun j => (xsFrom (resolution : ℚ) (resolution : ℚ) b).getD j 0) j =
      (xsFrom (resolution : ℚ) (resolution : ℚ) b).getD j 0 := rfl
  rw [c3, hfrac2, if_pos (le_refl _), if_neg (not_le.2 htt)] at c1
  linarith

end BeliefManager

namespace BeliefManager

theorem forall₂_exists_right {α β : Type} {r : α → β → Prop} {l₁ : List α} {l₂ : List β}
    (h : List.Forall₂ r l₁ l₂) : ∀ a ∈ l₁, ∃ b ∈ l₂, r a b := by
  induction h with
  | nil => intro a ha; cases ha
  | cons hab _ ih =>
    intro a ha
    rcases List.mem_cons.1 ha with rfl | ha
    · exact ⟨_, List.mem_cons_self _ _, hab⟩
    · obtain ⟨b, hb, hr⟩ := ih a ha
      exact ⟨b, List.mem_cons_of_mem _ hb, hr⟩

theorem triangulationContents_grid (pomdp : Pomdp) (cc : ConstantsComparator)
    (hp0 : 0 ≤ cc.precision) (resolution : Nat) (hres : 1 ≤ resolution) (b : BeliefType)
    (hb : Valid pomdp b) :
    ∀ pt ∈ triangulationContents cc b resolution,
      ∀ e ∈ pt.2, e.1 ∈ b.map Prod.fst ∧
        ∃ k : Nat, 1 ≤ k ∧ k ≤ resolution ∧ e.2 = (k : ℚ) / (resolution : ℚ) := by
  intro pt hpt e he
  have hR : (0 : ℚ) < (resolution : ℚ) := by exact_mod_cast hres
  by_cases hn : b.length = 1
  · have h2 : triangulationContents cc b resolution = [(1, b)] := by
      unfold triangulationContents
      simp only [hn, if_true]
    rw [h2, List.mem_singleton] at hpt
    rw [hpt] at he
    have he2 : e ∈ b := he
    refine ⟨List.mem_map_of_mem _ he2, resolution, hres, Nat.le_refl _, ?_⟩
    rw [div_self (ne_of_gt hR)]
    cases hbl : b with
    | nil => rw [hbl] at hn; cases hn
    | cons x t =>
      cases t with
      | nil =>
        rw [hbl] at he2
        have hsum := hb.2.2.2.2
        rw [hbl] at hsum
        rw [List.mem_singleton.1 he2]
        simpa using hsum
      | cons y t =>
        rw [hbl] at hn
        simp at hn
  · obtain ⟨hp1, t, q1, ht0, ht1, hq1, heq⟩ :=
      (triangulationContents_thresholds cc hp0 resolution b hn).1 pt hpt
    rw [heq] at he
    exact computeGridPoint_grid pomdp cc hp0 hp1 resolution hres b hb t ht0 ht1 q1 hq1 e he

theorem triangulationContents_distinct (pomdp : Pomdp) (cc : ConstantsComparator)
    (hp0 : 0 ≤ cc.precision) (resolution : Nat) (hres : 1 ≤ resolution) (b : BeliefType)
    (hb : Valid pomdp b) :
    (triangulationContents cc b resolution).Pairwise (fun pt pt' => pt.2 ≠ pt'.2) := by
  by_cases hn : b.length = 1
  · have h2 : triangulationContents cc b resolution = [(1, b)] := by
      unfold triangulationContents
      simp only [hn, if_true]
    rw [h2]
    exact List.pairwise_singleton _ _
  · obtain ⟨hall, hpw⟩ := triangulationContents_thresholds cc hp0 resolution b hn
    cases hc : triangulationContents cc b resolution with
    | nil => exact List.Pairwise.nil
    | cons pt0 rest =>
      have hp1 : cc.precision < 1 := (hall pt0 (by rw [hc]; exact List.mem_cons_self _ _)).1
      rw [← hc]
      exact hpw.imp (fun {pt pt'} h =>
        computeGridPoint_ne pomdp cc hp0 hp1 resolution hres b hb pt pt' h)

/-- Claim C28: for a valid belief `b`, a resolution `R ≥ 1` and a comparator precision of at
least zero, every grid point that `triangulateBelief(b, R)` returns is non-empty, has all
its support states in the support of `b`, has only weights of the form `k / R` with an
integer `1 ≤ k ≤ R`, and its weights sum to exactly one. -/
theorem triangulateBelief_gridPoints_on_grid (m : BeliefManager) (hwf : m.WF)
    (hp0 : 0 ≤ m.cc.precision) (belief : BeliefType) (hb : Valid m.pomdp belief)
    (resolution : Nat) (hres : 1 ≤ resolution) :
    ∀ g ∈ (m.triangulateBelief belief resolution).2.gridPoints,
      (m.triangulateBelief belief resolution).1.getBelief g ≠ [] ∧
        (∀ s ∈ ((m.triangulateBelief belief resolution).1.getBelief g).map Prod.fst,
          s ∈ belief.map Prod.fst) ∧
        (∀ e ∈ (m.triangulateBelief belief resolution).1.getBelief g,
          ∃ k : Nat, 1 ≤ k ∧ k ≤ resolution ∧ e.2 = (k : ℚ) / (resolution : ℚ)) ∧
        (((m.triangulateBelief belief resolution).1.getBelief g).map Prod.snd).sum = 1 := by
  intro g hg
  obtain ⟨_, _, _, _, _, hstored⟩ := triangulateBelief_spec m hwf belief resolution
  obtain ⟨pt, hpt, hst⟩ := forall₂_exists_right hstored g hg
  rw [getBelief_of_stored hst]
  have hvalid := triangulationContents_valid m.pomdp m.cc hp0 resolution hres belief hb pt hpt
  have hgrid := triangulationContents_grid m.pomdp m.cc hp0 resolution hres belief hb pt hpt
  refine ⟨hvalid.1, ?_, fun e he => (hgrid e he).2, hvalid.2.2.2.2⟩
  intro s hs
  obtain ⟨e, he, rfl⟩ := List.mem_map.1 hs
  exact (hgrid e he).1

/-- Witness of claim C28: the belief `\x7b0 ↦ 1/2, 1 ↦ 1/2\x7d` over `threeStates` at
resolution `2`. -/
theorem triangulateBelief_gridPoints_on_grid_witness :
    (fresh threeStates 0).WF ∧ Valid (fresh threeStates 0).pomdp [(0, 1 / 2), (1, 1 / 2)] ∧
      ∀ g ∈ ((fresh threeStates 0).triangulateBelief [(0, 1 / 2), (1, 1 / 2)] 2).2.gridPoints,
        ((fresh threeStates 0).triangulateBelief
          [(0, 1 / 2), (1, 1 / 2)] 2).1.getBelief g ≠ [] :=
  have hv : Valid (fresh threeStates 0).pomdp [(0, 1 / 2), (1, 1 / 2)] := by
    have hn : (fresh threeStates 0).pomdp.getNumberOfStates = 3 := rfl
    refine ⟨List.cons_ne_nil _ _, ?_, ?_, ?_, ?_⟩
    · simp [FlatMap.Ordered]
    · intro e he
      rw [hn]
      simp only [List.mem_cons, List.mem_singleton, List.not_mem_nil, or_false] at he
      rcases he with h | h <;> subst h <;> norm_num
    · intro e he e' he'
      simp only [List.mem_cons, List.mem_singleton, List.not_mem_nil, or_false] at he he'
      rcases he with h | h <;> rcases he' with h' | h' <;> subst h <;> subst h' <;> rfl
    · norm_num
  ⟨fresh_WF _ _, hv, fun g hg =>
    (triangulateBelief_gridPoints_on_grid (fresh threeStates 0) (fresh_WF _ _) (le_refl _)
      [(0, 1 / 2), (1, 1 / 2)] hv 2 (by decide) g hg).1⟩

end BeliefManager

/-! ## Distinct destinations -/

namespace BeliefManager

theorem pairwise_of_forall₂ {α β : Type} {r : α → β → Prop} {S : β → β → Prop}
    {T : α → α → Prop}
    (himp : ∀ a b a' b', r a b → r a' b' → S b b' → T a a')
    {l₁ : List α} {l₂ : List β} (h : List.Forall₂ r l₁ l₂) :
    l₂.Pairwise S → l₁.Pairwise T := by
  induction h with
  | nil => intro _; exact List.Pairwise.nil
  | cons hab htail ih =>
    intro hpw
    have hpw2 := List.pairwise_cons.1 hpw
    refine List.pairwise_cons.2 ⟨?_, ih hpw2.2⟩
    intro a' ha'
    obtain ⟨b', hb', hr⟩ := forall₂_exists_right htail a' ha'
    exact himp _ _ _ _ hab hr (hpw2.1 b' hb')

theorem ne_of_stored_ne {l : List BeliefType} {i j : Nat} {a b : BeliefType}
    (hi : l[i]? = some a) (hj : l[j]? = some b) (hab : a ≠ b) : i ≠ j := by
  intro hij
  rw [hij, hj] at hi
  exact hab (Option.some.inj hi).symm

theorem expand_destinations_distinct (m : BeliefManager) (hwf : m.WF) (beliefId : Nat)
    (actionIndex : Nat) :
    ((m.expand beliefId actionIndex).2.map Prod.fst).Nodup := by
  obtain ⟨_, _, _, hE⟩ := expandLoop_none_spec (m.getBelief beliefId) actionIndex
    (successorObservations m.pomdp (m.getBelief beliefId) actionIndex) m hwf
  have hord := (successorObservations_spec m.pomdp (m.getBelief beliefId) actionIndex).1
  show List.Pairwise (fun a b => a ≠ b) _
  rw [List.pairwise_map]
  refine pairwise_of_forall₂ ?_ hE hord
  intro d successor d' successor' hd hd' hlt
  refine ne_of_stored_ne hd.2.2 hd'.2.2 ?_
  intro heq
  have h1 := (successorBelief_observation m.pomdp (m.getBelief beliefId) actionIndex successor
    (List.mem_map_of_mem _ hd.1)).2
  have h2 := (successorBelief_observation m.pomdp (m.getBelief beliefId) actionIndex successor'
    (List.mem_map_of_mem _ hd'.1)).2
  rw [heq, h2] at h1
  exact Nat.ne_of_lt hlt h1.symm

theorem triangulateBelief_gridPoints_distinct (m : BeliefManager) (hwf : m.WF)
    (hp0 : 0 ≤ m.cc.precision) (belief : BeliefType) (hb : Valid m.pomdp belief)
    (resolution : Nat) (hres : 1 ≤ resolution) :
    (m.triangulateBelief belief resolution).2.gridPoints.Nodup := by
  obtain ⟨_, _, _, _, _, hstored⟩ := triangulateBelief_spec m hwf belief resolution
  show List.Pairwise (fun a b => a ≠ b) _
  refine pairwise_of_forall₂ ?_ hstored
    (triangulationContents_distinct m.pomdp m.cc hp0 resolution hres belief hb)
  intro g p g' p' hg hg' hne
  exact ne_of_stored_ne hg hg' hne

theorem expandAndTriangulate_destinations_distinct (m : BeliefManager) (hwf : m.WF)
    (hpomdp : m.pomdp.WellFormed) (hp0 : 0 ≤ m.cc.precision) (beliefId : Nat)
    (hvalid : Valid m.pomdp (m.getBelief beliefId)) (actionIndex : Nat)
    (observationResolutions : List Nat)
    (hres : ∀ s, s < m.pomdp.getNumberOfStates →
      1 ≤ observationResolutions.getD (m.pomdp.getObservation s) 0) :
    ((m.expandAndTriangulate beliefId actionIndex observationResolutions).2.map
      Prod.fst).Nodup := by
  obtain ⟨_, _, _, _, hX⟩ := expandLoop_some_spec (m.getBelief beliefId) actionIndex
    observationResolutions (successorObservations m.pomdp (m.getBelief beliefId) actionIndex)
    m hwf
  obtain ⟨hord, _, hkeys⟩ :=
    successorObservations_spec m.pomdp (m.getBelief beliefId) actionIndex
  have hsb : ∀ successor ∈ successorObservations m.pomdp (m.getBelief beliefId) actionIndex,
      Valid m.pomdp (successorBelief m.pomdp (m.getBelief beliefId) actionIndex successor) ∧
        1 ≤ observationResolutions.getD successor.1 0 := by
    intro successor hs
    refine ⟨successorBelief_valid _ hpomdp _ hvalid actionIndex successor hs, ?_⟩
    obtain ⟨e, _, tr, htr, _, hobs⟩ := (hkeys successor.1).1 (List.mem_map_of_mem _ hs)
    obtain ⟨row, hrow, hin⟩ := getRow_mem_rows _ e.1 actionIndex tr htr
    rw [← hobs]
    exact hres tr.1 (hpomdp.2.2.2 row hrow tr hin).1
  have hobsOf : ∀ successor ∈ successorObservations m.pomdp (m.getBelief beliefId) actionIndex,
      ∀ p ∈ triangulationContents m.cc
        (successorBelief m.pomdp (m.getBelief beliefId) actionIndex successor)
        (observationResolutions.getD successor.1 0),
      p.2 ≠ [] ∧ ∀ e ∈ p.2, m.pomdp.getObservation e.1 = successor.1 := by
    intro successor hs p hp
    obtain ⟨hv, hr⟩ := hsb successor hs
    refine ⟨(triangulationContents_valid m.pomdp m.cc hp0 _ hr _ hv p hp).1, ?_⟩
    intro e he
    have hk := (triangulationContents_grid m.pomdp m.cc hp0 _ hr _ hv p hp e he).1
    exact (((successorBelief_spec m.pomdp (m.getBelief beliefId) actionIndex successor).2
      e.1).1 hk).1
  show List.Pairwise (fun a b => a ≠ b) _
  rw [List.pairwise_map]
  refine pairwise_of_forall₂ (S := fun p p' => p.2 ≠ p'.2) ?_ hX ?_
  · intro d p d' p' hd hd' hne
    exact ne_of_stored_ne hd.2 hd'.2 hne
  · rw [List.pairwise_flatten]
    constructor
    · intro l hl
      obtain ⟨successor, hs, rfl⟩ := List.mem_map.1 hl
      rw [List.pairwise_map]
      obtain ⟨hv, hr⟩ := hsb successor hs
      exact triangulationContents_distinct m.pomdp m.cc hp0 _ hr _ hv
    · rw [List.pairwise_map]
      refine List.Pairwise.imp_of_mem ?_ hord
      intro successor successor' hs hs' hlt x hx y hy heq
      obtain ⟨p, hp, rfl⟩ := List.mem_map.1 hx
      obtain ⟨p', hp', rfl⟩ := List.mem_map.1 hy
      have heq2 : p.2 = p'.2 := heq
      obtain ⟨hne, hobs⟩ := hobsOf successor hs p hp
      obtain ⟨_, hobs'⟩ := hobsOf successor' hs' p' hp'
      cases hp2 : p.2 with
      | nil => exact hne hp2
      | cons e t =>
        have he : e ∈ p.2 := by rw [hp2]; exact List.mem_cons_self _ _
        have h1 := hobs e he
        have h2 := hobs' e (heq2 ▸ he)
        rw [h1] at h2
        exact Nat.ne_of_lt hlt h2

/-- Claim C27: for a valid belief of a manager over a well-formed POMDP (comparator
precision at least zero), an action and resolutions that are at least one for every
observation, the ids in the list returned by `expand(b, a)` are pairwise distinct, the
ids in the list returned by `expandAndTriangulate(b, a, resolutions)` are pairwise
distinct, and the grid points of one triangulation are pairwise distinct. -/
theorem destinations_distinct (m : BeliefManager) (hwf : m.WF)
    (hpomdp : m.pomdp.WellFormed) (hp0 : 0 ≤ m.cc.precision) (beliefId : Nat)
    (hvalid : Valid m.pomdp (m.getBelief beliefId)) (actionIndex : Nat)
    (observationResolutions : List Nat)
    (hres : ∀ s, s < m.pomdp.getNumberOfStates →
      1 ≤ observationResolutions.getD (m.pomdp.getObservation s) 0) :
    ((m.expand beliefId actionIndex).2.map Prod.fst).Nodup ∧
      ((m.expandAndTriangulate beliefId actionIndex observationResolutions).2.map
        Prod.fst).Nodup ∧
      ∀ (belief : BeliefType) (resolution : Nat), Valid m.pomdp belief → 1 ≤ resolution →
        (m.triangulateBelief belief resolution).2.gridPoints.Nodup :=
  ⟨expand_destinations_distinct m hwf beliefId actionIndex,
    expandAndTriangulate_destinations_distinct m hwf hpomdp hp0 beliefId hvalid actionIndex
      observationResolutions hres,
    fun belief resolution hb hr =>
      triangulateBelief_gridPoints_distinct m hwf hp0 belief hb resolution hr⟩

end BeliefManager

namespace BeliefManager

/-- Witness of claim C27: the initial belief of the manager over `twoObservations`,
action `0` and resolution `1` for both observations. -/
theorem destinations_distinct_witness :
    (construct twoObservations 0).WF ∧ twoObservations.WellFormed ∧
      (((construct twoObservations 0).expand 0 0).2.map Prod.fst).Nodup ∧
      (((construct twoObservations 0).expandAndTriangulate 0 0 [1, 1]).2.map Prod.fst).Nodup :=
  have h := destinations_distinct (construct twoObservations 0) (construct_WF _ _)
    twoObservations_wellFormed (le_refl 0) 0
    (initialBelief_valid twoObservations twoObservations_wellFormed) 0 [1, 1]
    (by
      intro s hs
      have hn : (construct twoObservations 0).pomdp.getNumberOfStates = 2 := rfl
      rw [hn] at hs
      have h01 : s = 0 ∨ s = 1 := by omega
      rcases h01 with h | h <;> subst h <;> decide)
  ⟨construct_WF _ _, twoObservations_wellFormed, h.1, h.2.1⟩

end BeliefManager

/-! ## Triangulation of grid points -/

namespace BeliefManager

theorem gridSum_natCast (R : ℚ) (hR : R ≠ 0) (l : BeliefType)
    (hgrid : ∀ e ∈ l, ∃ k : Nat, e.2 = (k : ℚ) / R) :
    ∃ K : Nat, R * (l.map Prod.snd).sum = (K : ℚ) := by
  induction l with
  | nil => exact ⟨0, by simp⟩
  | cons e t ih =>
    obtain ⟨K, hK⟩ := ih (fun x hx => hgrid x (List.mem_cons_of_mem _ hx))
    obtain ⟨k, hk⟩ := hgrid e (List.mem_cons_self _ _)
    refine ⟨k + K, ?_⟩
    have h1 : R * ((k : ℚ) / R) = (k : ℚ) := by field_simp
    rw [List.map_cons, List.sum_cons, mul_add, hK, hk, h1]
    push_cast
    rfl

theorem triangulationPoints_zero_diffs (cc : ConstantsComparator) (hp0 : 0 ≤ cc.precision)
    (convResolution : ℚ) (toOrig : List StateType) (n : Nat) (rest : List FreudenthalDiff) :
    ∀ (previous : FreudenthalDiff) (q : List ℚ), previous.diff = 0 →
      (∀ d ∈ rest, d.diff = 0) →
      triangulationPoints cc convResolution toOrig n false previous rest q = [] := by
  induction rest with
  | nil => intro previous q _ _; rfl
  | cons current rest ih =>
    intro previous q hprev hrest
    have hcur := hrest current (List.mem_cons_self _ _)
    have hw : loopWeight false previous current = 0 := by
      simp [loopWeight, hprev, hcur]
    have hz : cc.isZero (loopWeight false previous current) = true := by
      rw [hw]
      simp [ConstantsComparator.isZero, hp0]
    rw [triangulationPoints_cons, if_pos hz]
    exact ih current _ hcur (fun d hd => hrest d (List.mem_cons_of_mem _ hd))

theorem computeGridPoint_take (cc : ConstantsComparator) (hp1 : cc.precision < 1)
    (convResolution : ℚ) (hR : 0 < convResolution) (b : BeliefType) (hord : FlatMap.Ordered b)
    (hgrid : ∀ e ∈ b, ∃ k : Nat, 1 ≤ k ∧ e.2 * convResolution = (k : ℚ))
    (q : List ℚ)
    (hq : ∀ (j : Nat) (hj : j < b.length),
      q.getD j 0 - q.getD (j + 1) 0 = (b[j]).2 * convResolution) :
    ∀ m : Nat, m ≤ b.length →
      computeGridPoint cc convResolution q (b.map Prod.fst) m = b.take m := by
  intro m
  induction m with
  | zero => intro _; rfl
  | succ m ih =>
    intro hm
    have hlt : m < b.length := hm
    obtain ⟨k, hk1, hk⟩ := hgrid b[m] (List.getElem_mem hlt)
    have hnz : ¬ cc.isZero (q.getD m 0 - q.getD (m + 1) 0) = true := by
      rw [hq m hlt, hk]
      simp only [ConstantsComparator.isZero, decide_eq_true_eq, not_le]
      have h1 : (1 : ℚ) ≤ (k : ℚ) := by exact_mod_cast hk1
      rw [abs_of_nonneg (by linarith)]
      linarith
    rw [computeGridPoint_succ, if_neg hnz, ih (Nat.le_of_lt hlt), hq m hlt]
    have hkey : (b.map Prod.fst).getD m 0 = (b[m]).1 := by
      rw [List.getD_eq_getElem _ _ (by rw [List.length_map]; exact hlt), List.getElem_map]
    have hval : (b[m]).2 * convResolution / convResolution = (b[m]).2 := by
      field_simp
    rw [hkey, hval]
    have hpw : List.Pairwise (fun x y : StateType × ℚ => x.1 < y.1)
        (b.take m ++ b[m] :: b.drop (m + 1)) := by
      rw [← List.drop_eq_getElem_cons hlt, List.take_append_drop]
      exact hord
    rw [assign_of_lt _ _ _
      (fun e he => (List.pairwise_append.1 hpw).2.2 e he _ (List.mem_cons_self _ _))]
    rw [List.take_succ, List.getElem?_eq_getElem hlt]
    rfl

theorem halfHalf_valid : Valid threeStates [(0, 1 / 2), (1, 1 / 2)] := by
  have hn : threeStates.getNumberOfStates = 3 := rfl
  refine ⟨List.cons_ne_nil _ _, ?_, ?_, ?_, ?_⟩
  · simp [FlatMap.Ordered]
  · intro e he
    rw [hn]
    simp only [List.mem_cons, List.mem_singleton, List.not_mem_nil, or_false] at he
    rcases he with h | h <;> subst h <;> norm_num
  · intro e he e' he'
    simp only [List.mem_cons, List.mem_singleton, List.not_mem_nil, or_false] at he he'
    rcases he with h | h <;> rcases he' with h' | h' <;> subst h <;> subst h' <;> rfl
  · norm_num

theorem triangulationContents_of_grid (pomdp : Pomdp) (cc : ConstantsComparator)
    (hp0 : 0 ≤ cc.precision) (hp1 : cc.precision < 1) (resolution : Nat)
    (hres : 1 ≤ resolution) (b : BeliefType) (hb : Valid pomdp b) (hlen : 2 ≤ b.length)
    (hgrid : ∀ e ∈ b, ∃ k : Nat, e.2 = (k : ℚ) / (resolution : ℚ)) :
    triangulationContents cc b resolution = [(1, b)] := by
  obtain ⟨_, hord, hpos, _, hsum⟩ := hb
  have hR : (0 : ℚ) < (resolution : ℚ) := by exact_mod_cast hres
  have hX : ∀ j : Nat, (xsFrom (resolution : ℚ) (resolution : ℚ) b).getD j 0 =
      (resolution : ℚ) * ((b.drop j).map Prod.snd).sum :=
    getD_xsFrom (resolution : ℚ) b (resolution : ℚ) (by rw [hsum, mul_one])
  have hint : ∀ j : Nat,
      floorValue ((xsFrom (resolution : ℚ) (resolution : ℚ) b).getD j 0) =
        (xsFrom (resolution : ℚ) (resolution : ℚ) b).getD j 0 := by
    intro j
    obtain ⟨K, hK⟩ := gridSum_natCast (resolution : ℚ) (ne_of_gt hR) (b.drop j)
      (fun e he => hgrid e (List.mem_of_mem_drop he))
    rw [hX j, hK]
    exact floorValue_natCast K
  have hgrid2 : ∀ e ∈ b, ∃ k : Nat, 1 ≤ k ∧ e.2 * (resolution : ℚ) = (k : ℚ) := by
    intro e he
    obtain ⟨k, hk⟩ := hgrid e he
    have hk2 : e.2 * (resolution : ℚ) = (k : ℚ) := by
      rw [hk]
      field_simp
    refine ⟨k, ?_, hk2⟩
    have hpos2 : (0 : ℚ) < (k : ℚ) := by
      rw [← hk2]
      exact mul_pos (hpos e he).2 hR
    exact_mod_cast hpos2
  have hq : ∀ (j : Nat) (hj : j < b.length),
      ((xsFrom (resolution : ℚ) (resolution : ℚ) b).map floorValue ++ [0]).getD j 0 -
        ((xsFrom (resolution : ℚ) (resolution : ℚ) b).map floorValue ++ [0]).getD (j + 1) 0 =
        (b[j]).2 * (resolution : ℚ) := by
    intro j hj
    rw [getD_floor_row, getD_floor_row, hint, hint, hX j, hX (j + 1),
      List.drop_eq_getElem_cons hj, List.map_cons, List.sum_cons]
    ring
  have hn : b.length ≠ 1 := by omega
  have h2 : triangulationContents cc b resolution =
      match ((diffsFrom (resolution : ℚ) 0 (resolution : ℚ) b).foldl
          sortedDiffsEmplace []).getLast? with
      | none => []
      | some previousSortedDiff =>
        triangulationPoints cc (resolution : ℚ) (b.map Prod.fst) b.length true
          previousSortedDiff
          ((diffsFrom (resolution : ℚ) 0 (resolution : ℚ) b).foldl sortedDiffsEmplace [])
          ((xsFrom (resolution : ℚ) (resolution : ℚ) b).map floorValue ++ [0]) := by
    unfold triangulationContents
    simp only [hn, if_false]
  obtain ⟨_, hD, _, hall, _⟩ := diffsOf_sorted resolution b
  have hzero : ∀ d ∈ (diffsFrom (resolution : ℚ) 0 (resolution : ℚ) b).foldl
      sortedDiffsEmplace [], d.diff = 0 := by
    intro d hd
    have h : d.diff = (xsFrom (resolution : ℚ) (resolution : ℚ) b).getD d.dimension 0 -
        floorValue ((xsFrom (resolution : ℚ) (resolution : ℚ) b).getD d.dimension 0) :=
      (hD d hd).2
    rw [h, hint, sub_self]
  rw [h2]
  cases hds : (diffsFrom (resolution : ℚ) 0 (resolution : ℚ) b).foldl
      sortedDiffsEmplace [] with
  | nil =>
    have h0 := hall 0 (by omega)
    rw [hds] at h0
    cases h0
  | cons s0 ds =>
    rw [hds] at hzero
    rw [getLast?_cons_eq_lastOf]
    show triangulationPoints cc (resolution : ℚ) (b.map Prod.fst) b.length true
      (lastOf s0 ds) (s0 :: ds)
      ((xsFrom (resolution : ℚ) (resolution : ℚ) b).map floorValue ++ [0]) = [(1, b)]
    have hw : loopWeight true (lastOf s0 ds) s0 = 1 := by
      simp [loopWeight, hzero _ (lastOf_mem s0 ds), hzero s0 (List.mem_cons_self _ _)]
    have hz1 : ¬ cc.isZero (1 : ℚ) = true := by
      simp [ConstantsComparator.isZero, hp1]
    have hrow : loopRow true (lastOf s0 ds)
        ((xsFrom (resolution : ℚ) (resolution : ℚ) b).map floorValue ++ [0]) =
        (xsFrom (resolution : ℚ) (resolution : ℚ) b).map floorValue ++ [0] := rfl
    rw [triangulationPoints_cons, hw, if_neg hz1, hrow,
      triangulationPoints_zero_diffs cc hp0 _ _ _ ds s0 _
        (hzero s0 (List.mem_cons_self _ _)) (fun d hd => hzero d (List.mem_cons_of_mem _ hd)),
      computeGridPoint_take cc hp1 (resolution : ℚ) hR b hord hgrid2 _ hq b.length (le_refl _),
      List.take_length]

theorem triangulateBelief_half_half_dropped :
    (fresh threeStates 2).triangulateBelief [(0, 1 / 2), (1, 1 / 2)] 2 =
      (fresh threeStates 2, ⟨[], []⟩) := by
  have hz1 : (fresh threeStates 2).cc.isZero 1 = true := by
    norm_num [ConstantsComparator.isZero, fresh]
  have hz0 : (fresh threeStates 2).cc.isZero 0 = true := by
    norm_num [ConstantsComparator.isZero, fresh]
  have hfl2 : floorValue 2 = 2 := by simpa using floorValue_natCast 2
  have hfl1 : floorValue 1 = 1 := by simpa using floorValue_natCast 1
  have hx : (2 : ℚ) - 1 / 2 * 2 = 1 := by norm_num
  simp only [triangulateBelief, List.length_cons, List.length_nil, List.foldl_cons,
    List.foldl_nil, triangulationInitStep, Nat.cast_ofNat, hx, hfl2, hfl1, sub_self,
    List.nil_append, List.cons_append, sortedDiffsEmplace, FreudenthalDiff.gt]
  norm_num [triangulateLoop, hz1, hz0]

/-- Claim C29 (failing input): in a manager whose comparator has precision `2`, the belief
`\x7b0 ↦ 1/2, 1 ↦ 1/2\x7d`, whose two weights are multiples of `1/2`, passes
`assertBelief`; `triangulateBelief` at resolution `2` takes the vertex of weight one
for zero, skips it and returns no (grid point, weight) pair at all, and
`assertTriangulation` rejects that result. -/
theorem triangulateBelief_grid_point_assertion_fails :
    (fresh threeStates 2).assertBelief [(0, 1 / 2), (1, 1 / 2)] = true ∧
      (∀ e ∈ [((0 : StateType), (1 / 2 : ℚ)), (1, 1 / 2)],
        ∃ k : Nat, e.2 = (k : ℚ) / ((2 : Nat) : ℚ)) ∧
      ((fresh threeStates 2).triangulateBelief [(0, 1 / 2), (1, 1 / 2)] 2).2.gridPoints = [] ∧
      ((fresh threeStates 2).triangulateBelief [(0, 1 / 2), (1, 1 / 2)] 2).2.weights = [] ∧
      ((fresh threeStates 2).triangulateBelief [(0, 1 / 2), (1, 1 / 2)] 2).1.assertTriangulation
        [(0, 1 / 2), (1, 1 / 2)]
        ((fresh threeStates 2).triangulateBelief [(0, 1 / 2), (1, 1 / 2)] 2).2 = false := by
  have hp : (0 : ℚ) ≤ (fresh threeStates 2).cc.precision := by
    show (0 : ℚ) ≤ 2
    norm_num
  refine ⟨assertBelief_of_valid (fresh threeStates 2) hp _ halfHalf_valid, ?_, ?_, ?_, ?_⟩
  · intro e he
    simp only [List.mem_cons, List.mem_singleton, List.not_mem_nil, or_false] at he
    rcases he with h | h <;> subst h <;> exact ⟨1, by norm_num⟩
  · rw [triangulateBelief_half_half_dropped]
  · rw [triangulateBelief_half_half_dropped]
  · rw [triangulateBelief_half_half_dropped]
    simp [assertTriangulation, Triangulation.size]

/-- Triangulation of a grid point at a comparator precision `0 ≤ p < 1`: for every
resolution `R ≥ 1` and every valid belief with at least two support states all of whose
weights are integer multiples of `1/R`, `triangulateBelief(b, R)` returns exactly one
(grid point, weight) pair: the weight is one and the grid point is the belief itself. -/
theorem triangulateBelief_grid_point (m : BeliefManager) (hwf : m.WF)
    (hp0 : 0 ≤ m.cc.precision) (hp1 : m.cc.precision < 1) (belief : BeliefType)
    (hb : Valid m.pomdp belief) (hlen : 2 ≤ belief.length) (resolution : Nat)
    (hres : 1 ≤ resolution)
    (hgrid : ∀ e ∈ belief, ∃ k : Nat, e.2 = (k : ℚ) / (resolution : ℚ)) :
    (m.triangulateBelief belief resolution).2.weights = [1] ∧
      (m.triangulateBelief belief resolution).2.gridPoints.map
          (m.triangulateBelief belief resolution).1.getBelief = [belief] := by
  obtain ⟨_, _, _, _, hw, hstored⟩ := triangulateBelief_spec m hwf belief resolution
  rw [triangulationContents_of_grid m.pomdp m.cc hp0 hp1 resolution hres belief hb hlen
    hgrid] at hw hstored
  refine ⟨hw, ?_⟩
  obtain ⟨g, gs, hg, hgs, heq⟩ := List.forall₂_cons_right_iff.1 hstored
  rw [List.forall₂_nil_right_iff.1 hgs] at heq
  rw [heq, List.map_cons, List.map_nil, getBelief_of_stored hg]

/-- Example for `triangulateBelief_grid_point`: the belief `\x7b0 ↦ 1/2, 1 ↦ 1/2\x7d` over
`threeStates` at resolution `2` in an empty manager of precision zero. -/
theorem triangulateBelief_grid_point_example :
    (fresh threeStates 0).WF ∧ Valid (fresh threeStates 0).pomdp [(0, 1 / 2), (1, 1 / 2)] ∧
      ((fresh threeStates 0).triangulateBelief [(0, 1 / 2), (1, 1 / 2)] 2).2.weights = [1] ∧
      ((fresh threeStates 0).triangulateBelief [(0, 1 / 2), (1, 1 / 2)] 2).2.gridPoints.map
          ((fresh threeStates 0).triangulateBelief [(0, 1 / 2), (1, 1 / 2)] 2).1.getBelief =
        [[(0, 1 / 2), (1, 1 / 2)]] :=
  have h := triangulateBelief_grid_point (fresh threeStates 0) (fresh_WF _ _) (le_refl _)
    zero_lt_one [(0, 1 / 2), (1, 1 / 2)] halfHalf_valid (by decide) 2 (by decide)
    (by
      intro e he
      simp only [List.mem_cons, List.mem_singleton, List.not_mem_nil, or_false] at he
      rcases he with h | h <;> subst h <;> exact ⟨1, by norm_num⟩)
  ⟨fresh_WF _ _, halfHalf_valid, h.1, h.2⟩

end BeliefManager

end Storm
